import Mathlib

/-!
# Akumuli storage core: Sequencer (`include/cache.h`), input log
(`libakumuli/storage_engine/input_log.cpp`) and compression codecs

A shallow embedding of the C++ code in Lean 4, followed by theorems about it.

Conventions of the embedding:

* `TimeStamp`, `ParamId`, `EntryOffset`, `uint64_t` are natural numbers; a `double` is
  represented by its bit pattern (a natural number), since the code only copies it.
* `std::vector` / `std::deque` are lists, an iterator into a vector is an index or the
  remaining suffix.
* Library algorithms are embedded by the algorithm the standard library runs
  (`std::lower_bound`: the halving search) or, for the heap primitives and `std::sort`,
  by their contract.
* A loop is a function with a fuel argument; running out of fuel is `none`.
* The stream codecs and the data block are declared in `storage_engine/compression.h`,
  which is not among the sources: they are modelled from the specification, and driven by
  the loops of `unittests/test_compression.cpp`.
-/

namespace Akumuli

/-! ## `cache.h`: TimeSeriesValue and Sequencer -/

/-- The struct `TimeSeriesValue`: `key_` is the tuple `(TimeStamp, ParamId)`. -/
structure TimeSeriesValue where
  key_ : Nat × Nat
  value_ : Nat
deriving DecidableEq, Repr, Inhabited

/-- Comparison `operator <` of `std::tuple<TimeStamp, ParamId>` (lexicographic). -/
def tuple_lt (a b : Nat × Nat) : Bool :=
  decide (a.1 < b.1) || (!decide (b.1 < a.1) && decide (a.2 < b.2))

/-- The friend `operator <` of `TimeSeriesValue`: compares the keys only. -/
def TimeSeriesValue.lt (lhs rhs : TimeSeriesValue) : Bool :=
  tuple_lt lhs.key_ rhs.key_

abbrev SortedRun := List TimeSeriesValue

/-- The call `run.back()`. -/
def SortedRun.back (r : SortedRun) : TimeSeriesValue := r.getLastD default

/-- The template `top_element_less`. -/
def top_element_less (x y : SortedRun) : Bool :=
  TimeSeriesValue.lt (SortedRun.back x) (SortedRun.back y)

/-- The template `top_element_more`. -/
def top_element_more (x y : SortedRun) : Bool :=
  top_element_less y x

/-- The loop of `std::lower_bound(first, first + len, value, comp)` over the vector `xs`,
iterators being indices:
`while (len > 0) { half = len >> 1; middle = first + half;
   if (comp(*middle, value)) { first = middle + 1; len = len - half - 1; } else len = half; }`.
The loop runs at most `len` times, which is the fuel `lower_bound` passes. -/
def lower_bound_loop {α β : Type} (comp : α → β → Bool) (xs : List α) (value : β) :
    Nat → Nat → Nat → Nat
  | 0, first, _ => first
  | fuel + 1, first, len =>
    if len > 0 then
      let half := len / 2
      let middle := first + half
      match xs[middle]? with
      | none => first
      | some m =>
        if comp m value then
          lower_bound_loop comp xs value fuel (middle + 1) (len - half - 1)
        else
          lower_bound_loop comp xs value fuel first half
    else first

/-- The call `std::lower_bound(begin, end, value, comp)` on index range `[first, last)`. -/
def lower_bound {α β : Type} (comp : α → β → Bool) (xs : List α) (value : β)
    (first last : Nat) : Nat :=
  lower_bound_loop comp xs value (last - first) first (last - first)

/-- The struct `Sequencer` (the `page_` pointer, never read by `add` or `merge`, is left
out). -/
structure Sequencer where
  runs_ : List SortedRun
  key_ : SortedRun
  window_size_ : Nat
deriving DecidableEq, Repr

/-- The constructor `Sequencer(page, window_size)`. -/
def Sequencer.mk0 (window_size : Nat) : Sequencer :=
  { runs_ := [], key_ := [default], window_size_ := window_size }

/-- The statement `insert_it->push_back(value)` for the run at index `i`. -/
def push_back_at (runs : List SortedRun) (i : Nat) (value : TimeSeriesValue) :
    List SortedRun :=
  match runs, i with
  | [], _ => []
  | r :: rs, 0 => (r ++ [value]) :: rs
  | r :: rs, i + 1 => r :: push_back_at rs i value

/-- The method `Sequencer::add`. -/
def Sequencer.add (s : Sequencer) (value : TimeSeriesValue) : Sequencer :=
  let key_ := s.key_.dropLast ++ [value]
  let size := s.runs_.length
  let begin := if size > s.window_size_ then size - s.window_size_ else 0
  let insert_it := lower_bound top_element_more s.runs_ key_ begin size
  if insert_it = size then
    { s with key_ := key_, runs_ := s.runs_ ++ [[value]] }
  else
    { s with key_ := key_, runs_ := push_back_at s.runs_ insert_it value }

/-- A sequence of `add` calls on a fresh Sequencer with window size `W`. -/
def Sequencer.addAll (W : Nat) (values : List TimeSeriesValue) : Sequencer :=
  values.foldl Sequencer.add (Sequencer.mk0 W)

/-- The type `HeapItem = std::tuple<TimeSeriesValue, int>`. -/
abbrev HeapItem := TimeSeriesValue × Nat

/-- Comparison `operator <` of `HeapItem` (lexicographic, by `operator <` of the parts). -/
def HeapItem.lt (a b : HeapItem) : Bool :=
  TimeSeriesValue.lt a.1 b.1 || (!TimeSeriesValue.lt b.1 a.1 && decide (a.2 < b.2))

/-- The comparator `std::greater<HeapItem>()`. -/
def HeapItem.greater (a b : HeapItem) : Bool := HeapItem.lt b a

/-- The item of a non-empty heap that `std::greater` orders last (the least item); of
equal candidates the first one met. -/
def heap_top (h : HeapItem) (t : List HeapItem) : HeapItem :=
  t.foldl (fun m x => if HeapItem.greater m x then x else m) h

/-- The heap vector without the first item equal to `m`. -/
def erase_item : List HeapItem → HeapItem → List HeapItem
  | [], _ => []
  | x :: t, m => if x = m then t else x :: erase_item t m

/-- The call `std::pop_heap(begin, end, std::greater<HeapItem>())`, by its contract: the
item the comparator orders first to be popped is moved to the back. The arrangement of the
other items inside the vector is not observable by `merge`. -/
def pop_heap (heap : List HeapItem) : List HeapItem :=
  match heap with
  | [] => []
  | h :: t => erase_item (h :: t) (heap_top h t) ++ [heap_top h t]

/-- The calls `std::make_heap` and `std::push_heap` with `std::greater<HeapItem>()`: they
rearrange the vector only, and `pop_heap` above does not depend on the arrangement. -/
def make_heap (heap : List HeapItem) : List HeapItem := heap

/-- See `make_heap`. -/
def push_heap (heap : List HeapItem) : List HeapItem := heap

/-- The range `[iter[index], ends[index])` of `merge`: the unread part of run `index`. -/
def run_at : List SortedRun → Nat → SortedRun
  | [], _ => []
  | r :: _, 0 => r
  | _ :: rs, i + 1 => run_at rs i

/-- The statement `iter[index]++`: the unread part of run `index` becomes `tl`. -/
def set_run : List SortedRun → Nat → SortedRun → List SortedRun
  | [], _, _ => []
  | _ :: rs, 0, tl => tl :: rs
  | r :: rs, i + 1, tl => r :: set_run rs i tl

/-- The first loop of `merge`: for every run, in index order, its first value (if any) is
pushed to the heap with the run index and the run iterator advances. Returns the iterators
(the unread suffix of every run) and the heap vector. -/
def merge_init : Nat → List SortedRun → List SortedRun × List HeapItem
  | _, [] => ([], [])
  | index, run :: rest =>
    let r := merge_init (index + 1) rest
    match run with
    | [] => ([] :: r.1, r.2)
    | value :: tl => (tl :: r.1, (value, index) :: r.2)

/-- The `while (!heap.empty())` loop of `merge`; the result lists the popped heap items in
output order (`*out_iter++ = value` writes the first component). -/
def merge_loop : Nat → List SortedRun → List HeapItem → Option (List HeapItem)
  | 0, _, heap => if heap.isEmpty then some [] else none
  | fuel + 1, iter, heap =>
    if heap.isEmpty then some []
    else
      let heap1 := pop_heap heap
      match heap1.getLast? with
      | none => none
      | some item =>
        let index := item.2
        let heap2 := heap1.dropLast
        match run_at iter index with
        | [] => (merge_loop fuel iter heap2).map (fun out => item :: out)
        | value :: tl =>
          (merge_loop fuel (set_run iter index tl) (push_heap (heap2 ++ [(value, index)]))).map
            (fun out => item :: out)

/-- The total number of values held by the runs. -/
def total_size (runs : List SortedRun) : Nat := (runs.map List.length).sum

/-- The method `Sequencer::merge`, with the run index of every written value kept. -/
def Sequencer.merge_tagged (s : Sequencer) : Option (List HeapItem) :=
  let r := merge_init 0 s.runs_
  merge_loop (total_size s.runs_) r.1 (make_heap r.2)

/-- The method `Sequencer::merge`: the sequence written to `out_iter`. -/
def Sequencer.merge (s : Sequencer) : Option (List TimeSeriesValue) :=
  (Sequencer.merge_tagged s).map (fun out => out.map Prod.fst)

/-! ## `input_log.cpp`

The compile-time constant `NUM_TUPLES` (declared in `input_log.h`) is an argument of the
functions that use it. A function that can throw returns `Except String`; the string is the
message of the exception. -/

/-- The status codes of `aku_Status` that `input_log.cpp` and the block test of
`test_compression.cpp` use. -/
inductive aku_Status where
  | AKU_SUCCESS
  | AKU_EOVERFLOW
  | AKU_EIO
  | AKU_ENO_DATA
deriving DecidableEq, Repr

/-- Modelled from the spec: the numeric values of the `aku_Status` constants are declared in
`akumuli_def.h`, which is not part of the sources at hand. `AKU_SUCCESS` is `0` (the spec notes
that `InputLog::read_next` conflates "0 elements returned" with the test against
`AKU_SUCCESS`); the error codes are non-zero, and nothing below depends on their values beyond
that. -/
def aku_Status.code : aku_Status → Nat
  | aku_Status.AKU_SUCCESS => 0
  | aku_Status.AKU_EOVERFLOW => 6
  | aku_Status.AKU_EIO => 23
  | aku_Status.AKU_ENO_DATA => 1

/-- A path inside `root_dir_`, given by its file name (`path.filename().string()`). -/
abbrev Path := List Char

/-- One record of the log: `(id, timestamp, value)`. -/
abbrev Sample := Nat × Nat × Nat

/-- The class `Roaring64Map`, by its contract: a set of 64-bit integers, kept as the
list of its members in ascending order, which is the order iteration visits them in. -/
abbrev Roaring64Map := List Nat

/-- The method `Roaring64Map::add`. -/
def Roaring64Map.add : Roaring64Map → Nat → Roaring64Map
  | [], x => [x]
  | y :: ys, x =>
    if x < y then x :: y :: ys
    else if x = y then y :: ys
    else y :: Roaring64Map.add ys x

/-- The static method `Roaring64Map::fastunion(n, inputs)`. -/
def Roaring64Map.fastunion (inputs : List Roaring64Map) : Roaring64Map :=
  inputs.foldl (fun sum m => m.foldl Roaring64Map.add sum) []

/-- The binary `operator -` of `Roaring64Map` (set difference). -/
def Roaring64Map.minus (a b : Roaring64Map) : Roaring64Map :=
  a.filter (fun x => !b.contains x)

/-- The member `part` of the union `Frame`: the `size` field and the three arrays, each
of `NUM_TUPLES` entries. -/
structure Frame where
  size : Nat
  ids : List Nat
  timestamps : List Nat
  values : List Nat
deriving DecidableEq, Repr

/-- A frame as `memset(&frames_[i], 0, BLOCK_SIZE)` leaves it. -/
def Frame.zero (NUM_TUPLES : Nat) : Frame :=
  { size := 0, ids := List.replicate NUM_TUPLES 0,
    timestamps := List.replicate NUM_TUPLES 0, values := List.replicate NUM_TUPLES 0 }

/-- The record in slot `ix` of a frame. -/
def Frame.record (f : Frame) (ix : Nat) : Sample :=
  (f.ids.getD ix 0, f.timestamps.getD ix 0, f.values.getD ix 0)

/-- One frame of a volume file, `[u32 size][size bytes]`. LZ4 is not embedded: `payload` is
what `LZ4_decompress_safe_continue` makes of the bytes (`none`: it reports an error), and
`readable` tells whether `apr_file_read_full` succeeds on this frame. -/
structure StoredFrame where
  size : Nat
  payload : Option Frame
  readable : Bool
deriving DecidableEq, Repr

/-- What an `append` call meets outside the program: the value `LZ4_compress_fast_continue`
returns if the call compresses a frame (an `int`), and whether `apr_file_writev_full` then
returns `APR_SUCCESS`. -/
structure WriteEnv where
  out_bytes : Int
  apr_success : Bool
deriving DecidableEq, Repr

/-- The class `LZ4Volume`. `file_` is the content of the file the volume has open and
`file_pos_` the read position in it, counted in frames; `buffer_`, the APR pool and the LZ4
stream states are not embedded. -/
structure LZ4Volume where
  path_ : Path
  frames_0 : Frame
  frames_1 : Frame
  pos_ : Nat
  file_ : List StoredFrame
  file_pos_ : Nat
  file_size_ : Nat
  max_file_size_ : Nat
  bitmap_ : Roaring64Map
  is_read_only_ : Bool
  bytes_to_read_ : Int
  elements_to_read_ : Nat
deriving DecidableEq, Repr

/-- The expression `frames_[i]`. -/
def LZ4Volume.frames_ (v : LZ4Volume) (i : Nat) : Frame :=
  if i = 0 then v.frames_0 else v.frames_1

/-- The assignment `frames_[i] = f`. -/
def LZ4Volume.set_frame (v : LZ4Volume) (i : Nat) (f : Frame) : LZ4Volume :=
  if i = 0 then { v with frames_0 := f } else { v with frames_1 := f }

/-- The function `log_apr_error`: like `panic_on_error` it throws when the status is not
`APR_SUCCESS`. -/
def log_apr_error (apr_success : Bool) (msg : String) : Except String Unit :=
  if apr_success then .ok () else .error msg

/-- The function `_write_frame`: the frame goes to the end of the file and the number of
bytes written, `sizeof(uint32_t) + size`, is returned. The `return` after `log_apr_error`
is kept, though `log_apr_error` throws whenever it is reached. -/
def _write_frame (file : List StoredFrame) (size : Nat) (array : Frame)
    (apr_success : Bool) : Except String ((aku_Status × Nat) × List StoredFrame) :=
  if !apr_success then
    match log_apr_error apr_success "Can't write frame" with
    | .error e => .error e
    | .ok _ => .ok ((aku_Status.AKU_EIO, 0), file)
  else
    .ok ((aku_Status.AKU_SUCCESS, 4 + size),
      file ++ [{ size := size, payload := some array, readable := true }])

/-- The function `_read_frame`, reading the frame at position `pos` of the file: returns the
number of body bytes read and the frame. The embedding covers files whose frames fit
`buffer_` (those `LZ4Volume::write` writes do, the compressor being given `sizeof(buffer_)`
as its limit), so that `std::min(array_size, size)` is `size`. A read past the end of the
file or of an unreadable frame is an APR error. -/
def _read_frame (file : List StoredFrame) (pos : Nat) :
    Except String ((aku_Status × Nat) × Option StoredFrame) :=
  match file[pos]? with
  | none =>
    match log_apr_error false "Can't read frame header" with
    | .error e => .error e
    | .ok _ => .ok ((aku_Status.AKU_EIO, 0), none)
  | some fr =>
    if !fr.readable then
      match log_apr_error false "Can't read frame body" with
      | .error e => .error e
      | .ok _ => .ok ((aku_Status.AKU_EIO, 0), none)
    else .ok ((aku_Status.AKU_SUCCESS, fr.size), some fr)

/-- The method `LZ4Volume::clear`. -/
def LZ4Volume.clear (NUM_TUPLES : Nat) (v : LZ4Volume) (i : Nat) : LZ4Volume :=
  v.set_frame i (Frame.zero NUM_TUPLES)

/-- The method `LZ4Volume::write`. A failed `assert` is an exception. `out_bytes` is a
positive `int` where it is cast to `uint32_t`, so the cast keeps its value. -/
def LZ4Volume.write (v : LZ4Volume) (i : Nat) (env : WriteEnv) :
    Except String (aku_Status × LZ4Volume) :=
  if v.is_read_only_ then .error "assert(!is_read_only_)"
  else
    let frame := v.frames_ i
    let out_bytes := env.out_bytes
    if out_bytes ≤ 0 then .error "LZ4 error"
    else
      match _write_frame v.file_ out_bytes.toNat frame env.apr_success with
      | .error e => .error e
      | .ok ((status, size), file) =>
        let v1 := { v with file_ := file }
        if status = aku_Status.AKU_SUCCESS then
          .ok (status, { v1 with file_size_ := v1.file_size_ + size })
        else .ok (status, v1)

/-- The method `LZ4Volume::read`: returns `(status, bytes read)`. The file position moves
past the frame also when the frame cannot be decompressed. -/
def LZ4Volume.read (v : LZ4Volume) (i : Nat) : Except String ((aku_Status × Nat) × LZ4Volume) :=
  if !v.is_read_only_ then .error "assert(is_read_only_)"
  else
    match _read_frame v.file_ v.file_pos_ with
    | .error e => .error e
    | .ok ((status, frame_size), fr) =>
      if status ≠ aku_Status.AKU_SUCCESS then .ok ((status, 0), v)
      else
        let v1 := { v with file_pos_ := v.file_pos_ + 1 }
        match fr.bind StoredFrame.payload with
        | none => .ok ((aku_Status.AKU_EIO, 0), v1)
        | some block => .ok ((aku_Status.AKU_SUCCESS, frame_size + 4), v1.set_frame i block)

/-- The constructor `LZ4Volume(file_name, volume_size)`: a new writable volume with an
empty file. -/
def LZ4Volume.create (NUM_TUPLES : Nat) (file_name : Path) (volume_size : Nat) : LZ4Volume :=
  { path_ := file_name, frames_0 := Frame.zero NUM_TUPLES, frames_1 := Frame.zero NUM_TUPLES,
    pos_ := 0, file_ := [], file_pos_ := 0, file_size_ := 0, max_file_size_ := volume_size,
    bitmap_ := [], is_read_only_ := false, bytes_to_read_ := 0, elements_to_read_ := 0 }

/-- The function `_get_file_size`: every frame takes its header and its body. -/
def _get_file_size (file : List StoredFrame) : Nat :=
  (file.map (fun fr => 4 + fr.size)).sum

/-- The constructor `LZ4Volume(file_name)`: a read-only volume over an existing file. -/
def LZ4Volume.open_ro (NUM_TUPLES : Nat) (file_name : Path) (file : List StoredFrame) :
    LZ4Volume :=
  { path_ := file_name, frames_0 := Frame.zero NUM_TUPLES, frames_1 := Frame.zero NUM_TUPLES,
    pos_ := 1, file_ := file, file_pos_ := 0, file_size_ := _get_file_size file,
    max_file_size_ := 0, bitmap_ := [], is_read_only_ := true,
    bytes_to_read_ := (_get_file_size file : Int), elements_to_read_ := 0 }

/-- The method `LZ4Volume::append`. A store into slot `frame.part.size` lands in the array
only if the slot exists (`size < NUM_TUPLES`). -/
def LZ4Volume.append (NUM_TUPLES : Nat) (v : LZ4Volume) (id timestamp value : Nat)
    (env : WriteEnv) : Except String (aku_Status × LZ4Volume) :=
  let v1 := { v with bitmap_ := Roaring64Map.add v.bitmap_ id }
  let frame := v1.frames_ v1.pos_
  let frame1 : Frame :=
    { size := frame.size + 1,
      ids := frame.ids.set frame.size id,
      timestamps := frame.timestamps.set frame.size timestamp,
      values := frame.values.set frame.size value }
  let v2 := v1.set_frame v1.pos_ frame1
  if frame1.size = NUM_TUPLES then
    match v2.write v2.pos_ env with
    | .error e => .error e
    | .ok (status, v3) =>
      if status ≠ aku_Status.AKU_SUCCESS then .ok (status, v3)
      else
        let v4 := { v3 with pos_ := (v3.pos_ + 1) % 2 }
        let v5 := LZ4Volume.clear NUM_TUPLES v4 v4.pos_
        if v5.file_size_ ≥ v5.max_file_size_ then .ok (aku_Status.AKU_EOVERFLOW, v5)
        else .ok (aku_Status.AKU_SUCCESS, v5)
  else
    if v2.file_size_ ≥ v2.max_file_size_ then .ok (aku_Status.AKU_EOVERFLOW, v2)
    else .ok (aku_Status.AKU_SUCCESS, v2)

/-- The copy loop of `LZ4Volume::read_next`: `n` records are copied out, record
`frmsize - elements_to_read_` first; returns the records and the new `elements_to_read_`. -/
def copy_records (frame : Frame) (frmsize : Nat) : Nat → Nat → List Sample × Nat
  | 0, elements_to_read => ([], elements_to_read)
  | n + 1, elements_to_read =>
    let ix := frmsize - elements_to_read
    let r := copy_records frame frmsize n (elements_to_read - 1)
    (frame.record ix :: r.1, r.2)

/-- The method `LZ4Volume::read_next`: returns `(status, count)`, the volume, and the
`count` records written to the front of the arrays `id`, `ts`, `xs`. -/
def LZ4Volume.read_next (NUM_TUPLES : Nat) (v : LZ4Volume) (buffer_size : Nat) :
    Except String ((aku_Status × Nat) × LZ4Volume × List Sample) :=
  let copy (v : LZ4Volume) : Except String ((aku_Status × Nat) × LZ4Volume × List Sample) :=
    let frame := v.frames_ v.pos_
    let nvalues := min buffer_size v.elements_to_read_
    let frmsize := frame.size
    let r := copy_records frame frmsize nvalues v.elements_to_read_
    .ok ((aku_Status.AKU_SUCCESS, nvalues), { v with elements_to_read_ := r.2 }, r.1)
  if v.elements_to_read_ = 0 then
    if v.bytes_to_read_ ≤ 0 then .ok ((aku_Status.AKU_SUCCESS, 0), v, [])
    else
      let v1 := { v with pos_ := (v.pos_ + 1) % 2 }
      let v2 := LZ4Volume.clear NUM_TUPLES v1 v1.pos_
      match v2.read v2.pos_ with
      | .error e => .error e
      | .ok ((status, bytes_read), v3) =>
        if status ≠ aku_Status.AKU_SUCCESS then .ok ((status, 0), v3, [])
        else
          copy { v3 with bytes_to_read_ := v3.bytes_to_read_ - (bytes_read : Int),
                         elements_to_read_ := (v3.frames_ v3.pos_).size }
  else copy v

/-- The class `InputLog`. `files_` lists the names of the files present in `root_dir_`
(what `boost::filesystem::exists` consults); a path is given by its file name. -/
structure InputLog where
  root_dir_ : Path
  volumes_ : List LZ4Volume
  available_volumes_ : List Path
  volume_counter_ : Nat
  max_volumes_ : Nat
  volume_size_ : Nat
  files_ : List Path
deriving DecidableEq, Repr

/-- The function `boost::starts_with`. -/
def starts_with (input test : List Char) : Bool := test.isPrefixOf input

/-- The suffix of a file name that starts at its last dot, if it has a dot. -/
def from_last_dot : List Char → Option (List Char)
  | [] => none
  | c :: cs =>
    match from_last_dot cs with
    | some e => some e
    | none => if c = '.' then some (c :: cs) else none

/-- The method `path::extension` of Boost.Filesystem, applied to a file name: empty for
`.` and `..` and for a name without a dot, otherwise the part from the last dot on. -/
def extension (filename : Path) : List Char :=
  if filename = ['.'] ∨ filename = ['.', '.'] then []
  else (from_last_dot filename).getD []

/-- The digits loop of `strtol` in base 10: the value of the leading decimal digits. -/
def atol_digits : List Char → Nat → Nat
  | [], acc => acc
  | c :: cs, acc =>
    if c.isDigit then atol_digits cs (10 * acc + (c.toNat - 48)) else acc

/-- The function `isspace` in the C locale. -/
def isspace (c : Char) : Bool :=
  c.toNat = 32 || (9 ≤ c.toNat && c.toNat ≤ 13)

/-- The function `std::atol`, as glibc implements it (`strtol(s, NULL, 10)`): white space
is skipped, a sign is read, then the leading digits; a value outside `long` is clamped to
`LONG_MIN` or `LONG_MAX` (64-bit `long`). -/
def atol (s : List Char) : Int :=
  match s.dropWhile isspace with
  | '-' :: cs => max (-(atol_digits cs 0 : Int)) (-(2 ^ 63 : Int))
  | '+' :: cs => min (atol_digits cs 0 : Int) (2 ^ 63 - 1)
  | cs => min (atol_digits cs 0 : Int) (2 ^ 63 - 1)

/-- The call `str.substr(pos, count)` for `pos ≤ str.size()`. -/
def substr (str : List Char) (pos count : Nat) : List Char :=
  (str.drop pos).take count

/-- The lambda `extract` of `find_volumes`. `str.size() - 4` is computed in `size_t`; the
names `find_volumes` keeps have at least 12 characters. -/
def extract (path : Path) : Int :=
  let str := path
  let num := substr str 8 (str.length - 4)
  atol num

/-- The lambda `sort_fn` of `find_volumes`. -/
def sort_fn (lhs rhs : Path) : Bool :=
  let lnum := extract lhs
  let rnum := extract rhs
  decide (lnum < rnum)

/-- Insertion of `x` into a sorted list, behind the elements that are ordered before it and
in front of all others. -/
def sort_insert {α : Type} (comp : α → α → Bool) (x : α) : List α → List α
  | [] => [x]
  | y :: ys => if comp y x then y :: sort_insert comp x ys else x :: y :: ys

/-- The call `std::sort(begin, end, comp)`, by its contract: the elements are rearranged
into an order in which no element is ordered before an earlier one. The contract leaves the
order of elements that `comp` does not separate open; here they keep the order they had in
the range, which is what the insertion sort that `std::sort` runs on a short range does. -/
def std_sort {α : Type} (comp : α → α → Bool) : List α → List α
  | [] => []
  | x :: xs => sort_insert comp x (std_sort comp xs)

/-- The method `InputLog::find_volumes`, given the file names the directory iterator
yields: returns `available_volumes_`. The root is taken to exist and to be a directory. -/
def InputLog.find_volumes (listing : List Path) : List Path :=
  let available_volumes_ := listing.filter (fun path =>
    if !starts_with path "inputlog".toList then false
    else if extension path ≠ ".ils".toList then false
    else true)
  std_sort sort_fn available_volumes_

/-- The content of the file named `path` in a directory, if the file is there. -/
def lookup_file (dir : List (Path × List StoredFrame)) (path : Path) :
    Option (List StoredFrame) :=
  match dir with
  | [] => none
  | (p, file) :: rest => if p = path then some file else lookup_file rest path

/-- The loop of `InputLog::open_volumes` over `available_volumes_`, `dir` being the
directory with the content of its files; `_open_file_ro` throws when a file is missing. -/
def open_volumes_loop (NUM_TUPLES : Nat) (dir : List (Path × List StoredFrame)) :
    List Path → InputLog → Except String InputLog
  | [], log => .ok log
  | path :: rest, log =>
    match lookup_file dir path with
    | none => .error "Can't open file"
    | some file =>
      let volume := LZ4Volume.open_ro NUM_TUPLES path file
      open_volumes_loop NUM_TUPLES dir rest
        { log with volumes_ := log.volumes_ ++ [volume],
                   volume_counter_ := log.volume_counter_ + 1 }

/-- The method `InputLog::open_volumes` (the printing left out). -/
def InputLog.open_volumes (NUM_TUPLES : Nat) (dir : List (Path × List StoredFrame))
    (log : InputLog) : Except String InputLog :=
  open_volumes_loop NUM_TUPLES dir log.available_volumes_ log

/-- The digits of `n` in base 10 put in front of `ds`, as `operator <<` writes an
unsigned integer; `fuel` bounds the number of digits. -/
def put_decimal : Nat → Nat → List Char → List Char
  | 0, _, ds => ds
  | fuel + 1, n, ds =>
    let d := Char.ofNat (48 + n % 10)
    if n / 10 = 0 then d :: ds else put_decimal fuel (n / 10) (d :: ds)

/-- The method `InputLog::get_volume_name`: the file name `inputlog<counter>.ils`. -/
def InputLog.get_volume_name (log : InputLog) : Path :=
  "inputlog".toList ++ put_decimal (log.volume_counter_ + 1) log.volume_counter_ []
    ++ ".ils".toList

/-- The method `InputLog::add_volume`. -/
def InputLog.add_volume (NUM_TUPLES : Nat) (log : InputLog) (path : Path) :
    Except String InputLog :=
  if log.files_.contains path then .error "File already exists"
  else
    let volume := LZ4Volume.create NUM_TUPLES path log.volume_size_
    .ok { log with volumes_ := volume :: log.volumes_,
                   volume_counter_ := log.volume_counter_ + 1,
                   files_ := path :: log.files_ }

/-- The method `InputLog::remove_last_volume`; `volumes_.back()` of an empty deque is an
exception here. -/
def InputLog.remove_last_volume (log : InputLog) : Except String InputLog :=
  match log.volumes_.getLast? with
  | none => .error "volumes_.back() of an empty deque"
  | some volume =>
    .ok { log with volumes_ := log.volumes_.dropLast,
                   files_ := log.files_.filter (fun p => p ≠ volume.path_) }

/-- The constructor `InputLog(rootdir, nvol, svol)` (write mode); `files` are the names of
the files in the root directory. -/
def InputLog.create (NUM_TUPLES : Nat) (rootdir : Path) (nvol svol : Nat)
    (files : List Path) : Except String InputLog :=
  let log : InputLog :=
    { root_dir_ := rootdir, volumes_ := [], available_volumes_ := [], volume_counter_ := 0,
      max_volumes_ := nvol, volume_size_ := svol, files_ := files }
  let path := log.get_volume_name
  InputLog.add_volume NUM_TUPLES log path

/-- The constructor `InputLog(rootdir)` (read mode); `dir` is the root directory, names
and contents, in the order the directory iterator yields the entries. -/
def InputLog.open (NUM_TUPLES : Nat) (rootdir : Path) (dir : List (Path × List StoredFrame)) :
    Except String InputLog :=
  let log : InputLog :=
    { root_dir_ := rootdir, volumes_ := [], available_volumes_ := [], volume_counter_ := 0,
      max_volumes_ := 0, volume_size_ := 0, files_ := dir.map Prod.fst }
  let log1 := { log with available_volumes_ := InputLog.find_volumes (dir.map Prod.fst) }
  InputLog.open_volumes NUM_TUPLES dir log1

/-- The method `InputLog::append`: returns the status, the log, and `stale_ids` with the
ids the call has pushed at its end. `volumes_.front()` of an empty deque is an exception
here. -/
def InputLog.append (NUM_TUPLES : Nat) (log : InputLog) (id timestamp value : Nat)
    (stale_ids : List Nat) (env : WriteEnv) :
    Except String (aku_Status × InputLog × List Nat) :=
  match log.volumes_ with
  | [] => .error "volumes_.front() of an empty deque"
  | front :: rest =>
    match front.append NUM_TUPLES id timestamp value env with
    | .error e => .error e
    | .ok (result, front1) =>
      let volumes := front1 :: rest
      let log1 := { log with volumes_ := volumes }
      if result = aku_Status.AKU_EOVERFLOW ∧ volumes.length = log.max_volumes_ then
        let remaining := (volumes.take (volumes.length - 1)).map LZ4Volume.bitmap_
        let sum := Roaring64Map.fastunion remaining
        let stale := Roaring64Map.minus (volumes.getLastD front1).bitmap_ sum
        .ok (result, log1, stale_ids ++ stale)
      else .ok (result, log1, stale_ids)

/-- The method `InputLog::rotate`. -/
def InputLog.rotate (NUM_TUPLES : Nat) (log : InputLog) : Except String InputLog :=
  let step (log : InputLog) : Except String InputLog :=
    let path := log.get_volume_name
    InputLog.add_volume NUM_TUPLES log path
  if log.volumes_.length ≥ log.max_volumes_ then
    match log.remove_last_volume with
    | .error e => .error e
    | .ok log1 => step log1
  else step log

/-- The loop of `InputLog::read_next`; `fuel` bounds the number of turns. Returns
`(status, result)`, the log and the `result` records written to the arrays. -/
def InputLog.read_next_loop (NUM_TUPLES : Nat) (buffer_size : Nat) :
    Nat → InputLog → Option (Except String ((aku_Status × Nat) × InputLog × List Sample))
  | 0, _ => none
  | fuel + 1, log =>
    match log.volumes_ with
    | [] => some (.ok ((aku_Status.AKU_SUCCESS, 0), log, []))
    | front :: rest =>
      match front.read_next NUM_TUPLES buffer_size with
      | .error e => some (.error e)
      | .ok ((status, result), front1, out) =>
        if result ≠ aku_Status.AKU_SUCCESS.code then
          some (.ok ((status, result), { log with volumes_ := front1 :: rest }, out))
        else
          InputLog.read_next_loop NUM_TUPLES buffer_size fuel { log with volumes_ := rest }

/-- The method `InputLog::read_next`. Every turn of its loop that does not return removes a
volume, so `volumes_.size() + 1` turns are enough. -/
def InputLog.read_next (NUM_TUPLES : Nat) (log : InputLog) (buffer_size : Nat) :
    Option (Except String ((aku_Status × Nat) × InputLog × List Sample)) :=
  InputLog.read_next_loop NUM_TUPLES buffer_size (log.volumes_.length + 1) log

/-! ## `compression.h`: the stream codecs

The header `storage_engine/compression.h` and its implementation are not among the sources;
`unittests/test_compression.cpp` drives the classes declared there. The classes are
modelled from the specification; the drivers are those of the test. A byte is a `Nat`
below 256, an unsigned 64-bit integer a `Nat` below `2 ^ 64`, a `double` its 64-bit
pattern. -/

/-- Modelled from the spec: `compression.h` is missing; this is the VByte code of an
unsigned integer (spec 4.1), shared by Base128. The 7 low bits go to a byte, the lowest
group first, and the high bit of the byte is set when groups follow. `fuel` bounds the
number of bytes. -/
def encode_base128 : Nat → Nat → List Nat
  | 0, _ => []
  | fuel + 1, value =>
    if value < 128 then [value]
    else (128 + value % 128) :: encode_base128 fuel (value / 128)

/-- Modelled from the spec: `compression.h` is missing; this is the decoder of the
VByte/Base128 code (spec 4.1): groups of 7 bits are collected, the lowest first, and the
reader stops at the first byte with the high bit clear. Returns the integer and the bytes
behind it, or `none` when the bytes end before the code does. -/
def decode_base128 : List Nat → Nat → Nat → Option (Nat × List Nat)
  | [], _, _ => none
  | b :: rest, shift, acc =>
    if b < 128 then some (acc + b % 128 * 2 ^ shift, rest)
    else decode_base128 rest (shift + 7) (acc + b % 128 * 2 ^ shift)

/-- Modelled from the spec: `compression.h` is missing; this is the class
`Base128StreamWriter` over a byte window of `capacity` bytes (spec 4.1): `bytes` are the
bytes written so far, from the start of the window. -/
structure Base128StreamWriter where
  capacity : Nat
  bytes : List Nat
  committed : Bool
deriving DecidableEq, Repr

/-- Modelled from the spec: `compression.h` is missing; the constructor
`Base128StreamWriter(begin, end)` over a window of `capacity` bytes. -/
def Base128StreamWriter.new (capacity : Nat) : Base128StreamWriter :=
  { capacity := capacity, bytes := [], committed := false }

/-- Modelled from the spec: `compression.h` is missing; the method `put` (spec 4.1): the
writer fails when the remaining window cannot hold 10 bytes, and after `commit`;
otherwise the code of the value is written. -/
def Base128StreamWriter.put (w : Base128StreamWriter) (value : Nat) :
    Bool × Base128StreamWriter :=
  if w.committed then (false, w)
  else if w.capacity - w.bytes.length < 10 then (false, w)
  else (true, { w with bytes := w.bytes ++ encode_base128 10 (value % 2 ^ 64) })

/-- Modelled from the spec: `compression.h` is missing; the method `commit` (spec 4.1)
finalizes the writer. The VByte code has no partial group to flush. -/
def Base128StreamWriter.commit (w : Base128StreamWriter) : Base128StreamWriter :=
  { w with committed := true }

/-- Modelled from the spec: `compression.h` is missing; the method `size` (spec 4.1)
reports the bytes used. -/
def Base128StreamWriter.size (w : Base128StreamWriter) : Nat := w.bytes.length

/-- Modelled from the spec: `compression.h` is missing; this is the class
`Base128StreamReader` over a byte window (spec 4.1): `data` are the bytes from the read
position to the end of the window. -/
structure Base128StreamReader where
  data : List Nat
deriving DecidableEq, Repr

/-- Modelled from the spec: `compression.h` is missing; the method `next<T>` for an
unsigned type of `width` bits (spec 4.1): the decoded value at the requested width.
`none` stands for a read past the end of the window. -/
def Base128StreamReader.next (r : Base128StreamReader) (width : Nat) :
    Option (Nat × Base128StreamReader) :=
  match decode_base128 r.data 0 0 with
  | none => none
  | some (value, rest) => some (value % 2 ^ width, { data := rest })

/-- Modelled from the spec: `compression.h` is missing; the class `VByteStreamWriter`. The
spec gives VByte and Base128 the same encoding shape. -/
abbrev VByteStreamWriter := Base128StreamWriter

/-- Modelled from the spec: `compression.h` is missing; the class `VByteStreamReader`. The
spec gives VByte and Base128 the same encoding shape. -/
abbrev VByteStreamReader := Base128StreamReader

/-- The array `EXPECTED` of the test. -/
def EXPECTED : List Nat :=
  [0, 1, 10, 67, 127, 128, 1024, 10000, 100000, 420000000, 420000001]

/-- The encoding part of `test_stream_write` for the input `xs`: every value is put, a
`put` that returns false fails the test (`none`), and the writer is committed. -/
def test_stream_write (writer : Base128StreamWriter) : List Nat →
    Option Base128StreamWriter
  | [] => some writer.commit
  | x :: xs =>
    match writer.put x with
    | (false, _) => none
    | (true, writer1) => test_stream_write writer1 xs

/-- The loop of `test_stream_read`: `n` values are read with `next<u64>`. -/
def test_stream_read (reader : Base128StreamReader) : Nat → Option (List Nat)
  | 0 => some []
  | n + 1 =>
    match reader.next 64 with
    | none => none
    | some (value, reader1) =>
      match test_stream_read reader1 n with
      | none => none
      | some actual => some (value :: actual)

/-- Modelled from the spec: `compression.h` is missing; the first-level deltas of a group
(spec 4.2) in `u64` arithmetic, `prev` being the value in front of the group. -/
def first_level_deltas (prev : Nat) : List Nat → List Nat
  | [] => []
  | x :: xs => ((x + 2 ^ 64 - prev) % 2 ^ 64) :: first_level_deltas x xs

/-- Modelled from the spec: `compression.h` is missing; the minimum delta `m` of a group
(spec 4.2). -/
def min_delta (deltas : List Nat) : Nat :=
  deltas.foldl min (deltas.headD 0)

/-- Modelled from the spec: `compression.h` is missing; the decoder's inverse of
`first_level_deltas` (spec 4.2), in `u64` arithmetic. -/
def undo_deltas (prev : Nat) : List Nat → List Nat
  | [] => []
  | d :: ds => ((prev + d) % 2 ^ 64) :: undo_deltas ((prev + d) % 2 ^ 64) ds

/-- Modelled from the spec: `compression.h` is missing; a run of `put` calls on a VByte
stream that stops at the first call that fails. -/
def put_all (stream : VByteStreamWriter) : List Nat → Bool × VByteStreamWriter
  | [] => (true, stream)
  | x :: xs =>
    match stream.put x with
    | (false, stream1) => (false, stream1)
    | (true, stream1) => put_all stream1 xs

/-- Modelled from the spec: `compression.h` is missing; `n` calls of `next<u64>` on a VByte
stream. -/
def read_values (stream : VByteStreamReader) : Nat → Option (List Nat × VByteStreamReader)
  | 0 => some ([], stream)
  | n + 1 =>
    match stream.next 64 with
    | none => none
    | some (value, stream1) =>
      match read_values stream1 n with
      | none => none
      | some (values, stream2) => some (value :: values, stream2)

/-- Modelled from the spec: `compression.h` is missing; this is the class
`DeltaDeltaStreamWriter<G, u64>` over a VByte stream (spec 4.2). `prev` is the last value
written, 0 at the start. -/
structure DeltaDeltaStreamWriter where
  stream : VByteStreamWriter
  prev : Nat
deriving DecidableEq, Repr

/-- Modelled from the spec: `compression.h` is missing; the constructor
`DeltaDeltaStreamWriter<G, u64>(stream)`. -/
def DeltaDeltaStreamWriter.new (stream : VByteStreamWriter) : DeltaDeltaStreamWriter :=
  { stream := stream, prev := 0 }

/-- Modelled from the spec: `compression.h` is missing; the method `tput(values, n)` for the
group size `G` (spec 4.2): the first-level deltas of the group are computed, then the
minimum delta `m`, and `m` and every `delta_i - m` are written as VBytes. A final partial
group is padded to `G` values; the spec does not say with what, and the model repeats the
last value. The call fails for `n = 0`, for `n > G` and when the stream fails. -/
def DeltaDeltaStreamWriter.tput (G : Nat) (w : DeltaDeltaStreamWriter) (values : List Nat) :
    Bool × DeltaDeltaStreamWriter :=
  if values = [] ∨ G < values.length then (false, w)
  else
    let padded := values ++ List.replicate (G - values.length) (values.getLastD w.prev)
    let deltas := first_level_deltas w.prev padded
    let m := min_delta deltas
    match put_all w.stream (m :: deltas.map (fun d => d - m)) with
    | (false, _) => (false, w)
    | (true, stream1) => (true, { stream := stream1, prev := padded.getLastD w.prev })

/-- Modelled from the spec: `compression.h` is missing; this is the class
`DeltaDeltaStreamReader<G, u64>` over a VByte stream (spec 4.2). `prev` is the last value
decoded, `group` the decoded values of the current group that `next` has not yet
returned. -/
structure DeltaDeltaStreamReader where
  stream : VByteStreamReader
  prev : Nat
  group : List Nat
deriving DecidableEq, Repr

/-- Modelled from the spec: `compression.h` is missing; the constructor
`DeltaDeltaStreamReader<G, u64>(stream)`. -/
def DeltaDeltaStreamReader.new (stream : VByteStreamReader) : DeltaDeltaStreamReader :=
  { stream := stream, prev := 0, group := [] }

/-- Modelled from the spec: `compression.h` is missing; the method `next` for the group
size `G` (spec 4.2): the decoder inverts the encoder in the same group granularity. When
the current group is used up, `m` and `G` values are read, `m` is added to each, and the
deltas are summed up from the last value. `none` stands for a read past the end of the
window. -/
def DeltaDeltaStreamReader.next (G : Nat) (r : DeltaDeltaStreamReader) :
    Option (Nat × DeltaDeltaStreamReader) :=
  match r.group with
  | value :: rest => some (value, { r with group := rest })
  | [] =>
    match r.stream.next 64 with
    | none => none
    | some (m, stream1) =>
      match read_values stream1 G with
      | none => none
      | some (es, stream2) =>
        match undo_deltas r.prev (es.map (fun e => (m + e) % 2 ^ 64)) with
        | [] => none
        | value :: rest =>
          some (value, { stream := stream2, prev := (value :: rest).getLastD r.prev,
                         group := rest })

/-- The encoding loop of `test_stream_chunked_op` with `step_size = G`: `nsteps` calls of
`tput`, each on the next `G` values of the input; a call that fails fails the test
(`none`). -/
def test_stream_chunked_write (G : Nat) (writer : DeltaDeltaStreamWriter)
    (input : List Nat) : Nat → Option DeltaDeltaStreamWriter
  | 0 => some writer
  | nsteps + 1 =>
    match writer.tput G (input.take G) with
    | (false, _) => none
    | (true, writer1) => test_stream_chunked_write G writer1 (input.drop G) nsteps

/-- The decoding loop of `test_stream_chunked_op`: `n` calls of `reader.next()`. -/
def test_stream_chunked_read (G : Nat) (reader : DeltaDeltaStreamReader) :
    Nat → Option (List Nat)
  | 0 => some []
  | n + 1 =>
    match reader.next G with
    | none => none
    | some (value, reader1) =>
      match test_stream_chunked_read G reader1 n with
      | none => none
      | some results => some (value :: results)

/-- Modelled from the spec: `compression.h` is missing; a predictor of the FCM codec
(spec 4.3) over a state `σ`: the prediction of the next value and the update by the value
seen. The spec gives neither the hash nor the table size of its two predictors, so the
codec is modelled over any two predictors. -/
structure Predictor (σ : Type) where
  predict_next : σ → Nat
  update : σ → Nat → σ

/-- Modelled from the spec: `compression.h` is missing; the FCM (last value) predictor of
spec 4.3 with a table of one entry: it predicts the value seen last. -/
def FcmPredictor : Predictor Nat :=
  { predict_next := fun last => last, update := fun _ value => value }

/-- Modelled from the spec: `compression.h` is missing; the DFCM (last delta) predictor of
spec 4.3 with a table of one entry: the state is the last value and the last delta, and it
predicts their sum, in `u64` arithmetic. -/
def DfcmPredictor : Predictor (Nat × Nat) :=
  { predict_next := fun s => (s.1 + s.2) % 2 ^ 64,
    update := fun s value => (value, (value + 2 ^ 64 - s.1) % 2 ^ 64) }

/-- Modelled from the spec: `compression.h` is missing; what the control byte of spec 4.3
encodes for one sample: the predictor chosen (`false` FCM, `true` DFCM), the number of
leading zero bytes of `predicted XOR actual` and the number of its significant bytes. -/
structure FcmFlag where
  predictor_choice : Bool
  leading_zero_bytes : Nat
  significant_bytes : Nat
deriving DecidableEq, Repr

/-- Modelled from the spec: `compression.h` is missing; an item of the FCM stream
(spec 4.3): the control byte of a pair of samples or a payload byte. The spec does not
give the bit layout of the control byte; the model keeps what it encodes. -/
inductive FcmItem where
  | control (first second : FcmFlag)
  | byte (b : Nat)
deriving DecidableEq, Repr

/-- Modelled from the spec: `compression.h` is missing; the number of significant bytes of
a residual (spec 4.3): those left when the leading zero bytes are trimmed; none for a
zero residual. `fuel` bounds the number of bytes. -/
def significant_bytes : Nat → Nat → Nat
  | 0, _ => 0
  | fuel + 1, diff => if diff = 0 then 0 else significant_bytes fuel (diff / 256) + 1

/-- Modelled from the spec: `compression.h` is missing; the `n` low bytes of a residual,
big-endian (spec 4.3). -/
def big_endian_bytes : Nat → Nat → List Nat
  | 0, _ => []
  | n + 1, diff => (diff / 256 ^ n % 256) :: big_endian_bytes n diff

/-- Modelled from the spec: `compression.h` is missing; the residual that big-endian bytes
denote (spec 4.3). -/
def from_big_endian (bytes : List Nat) : Nat :=
  bytes.foldl (fun acc b => acc * 256 + b) 0

/-- Modelled from the spec: `compression.h` is missing; the code of one sample (spec 4.3):
the predictor that predicts best, the one whose residual `predicted XOR actual` has the
fewer significant bytes, is chosen, and the significant bytes of its residual are the
payload. -/
def encode_sample (fcm_prediction dfcm_prediction value : Nat) : FcmFlag × List Nat :=
  let diff1 := fcm_prediction ^^^ value
  let diff2 := dfcm_prediction ^^^ value
  let n1 := significant_bytes 8 diff1
  let n2 := significant_bytes 8 diff2
  if n1 ≤ n2 then
    ({ predictor_choice := false, leading_zero_bytes := 8 - n1, significant_bytes := n1 },
      big_endian_bytes n1 diff1)
  else
    ({ predictor_choice := true, leading_zero_bytes := 8 - n2, significant_bytes := n2 },
      big_endian_bytes n2 diff2)

/-- Modelled from the spec: `compression.h` is missing; this is the class
`FcmStreamWriter` (spec 4.3) with the states of its two predictors. `out` is the stream
written so far, over a window taken to be large enough; `pending` holds the code of the
first sample of a pair until the second one comes. -/
structure FcmStreamWriter (σ1 σ2 : Type) where
  out : List FcmItem
  fcm : σ1
  dfcm : σ2
  pending : Option (FcmFlag × List Nat)

/-- Modelled from the spec: `compression.h` is missing; the constructor
`FcmStreamWriter(stream)`, the predictors being in their start states. -/
def FcmStreamWriter.new {σ1 σ2 : Type} (fcm : σ1) (dfcm : σ2) : FcmStreamWriter σ1 σ2 :=
  { out := [], fcm := fcm, dfcm := dfcm, pending := none }

/-- Modelled from the spec: `compression.h` is missing; the method `put` (spec 4.3): the
sample is coded against the two predictions, both predictors are updated, and for each
pair of samples one control byte is emitted, followed by the significant bytes of the
two residuals. -/
def FcmStreamWriter.put {σ1 σ2 : Type} (P1 : Predictor σ1) (P2 : Predictor σ2)
    (w : FcmStreamWriter σ1 σ2) (value : Nat) : FcmStreamWriter σ1 σ2 :=
  let code := encode_sample (P1.predict_next w.fcm % 2 ^ 64) (P2.predict_next w.dfcm % 2 ^ 64)
    value
  let fcm := P1.update w.fcm value
  let dfcm := P2.update w.dfcm value
  match w.pending with
  | none => { w with fcm := fcm, dfcm := dfcm, pending := some code }
  | some first =>
    { out := w.out ++ FcmItem.control first.1 code.1 ::
        (first.2.map FcmItem.byte ++ code.2.map FcmItem.byte),
      fcm := fcm, dfcm := dfcm, pending := none }

/-- Modelled from the spec: `compression.h` is missing; the method `commit` (spec 4.1,
4.3): a sample without a partner is flushed, paired with an empty residual. -/
def FcmStreamWriter.commit {σ1 σ2 : Type} (w : FcmStreamWriter σ1 σ2) :
    FcmStreamWriter σ1 σ2 :=
  match w.pending with
  | none => w
  | some first =>
    { w with
      out := w.out ++ FcmItem.control first.1
        { predictor_choice := false, leading_zero_bytes := 8, significant_bytes := 0 } ::
        first.2.map FcmItem.byte,
      pending := none }

/-- Modelled from the spec: `compression.h` is missing; this is the class
`FcmStreamReader` (spec 4.3): `data` is the stream from the read position on, `second` what
the last control byte says of the second sample of its pair, until that sample is read. -/
structure FcmStreamReader (σ1 σ2 : Type) where
  data : List FcmItem
  fcm : σ1
  dfcm : σ2
  second : Option FcmFlag

/-- Modelled from the spec: `compression.h` is missing; the constructor
`FcmStreamReader(stream)`, the predictors being in their start states. -/
def FcmStreamReader.new {σ1 σ2 : Type} (data : List FcmItem) (fcm : σ1) (dfcm : σ2) :
    FcmStreamReader σ1 σ2 :=
  { data := data, fcm := fcm, dfcm := dfcm, second := none }

/-- Modelled from the spec: `compression.h` is missing; `n` payload bytes read from the
stream; `none` when the stream has no `n` payload bytes in front. -/
def read_bytes : List FcmItem → Nat → Option (List Nat × List FcmItem)
  | data, 0 => some ([], data)
  | data, n + 1 =>
    match data with
    | FcmItem.byte b :: data1 =>
      match read_bytes data1 n with
      | none => none
      | some (bytes, data2) => some (b :: bytes, data2)
    | _ => none

/-- Modelled from the spec: `compression.h` is missing; the decoding of one sample
(spec 4.3): the significant bytes are read, the residual is XORed to the prediction of
the predictor the control byte names, and both predictors are updated. -/
def FcmStreamReader.decode {σ1 σ2 : Type} (P1 : Predictor σ1) (P2 : Predictor σ2)
    (r : FcmStreamReader σ1 σ2) (flag : FcmFlag) (data : List FcmItem)
    (second : Option FcmFlag) : Option (Nat × FcmStreamReader σ1 σ2) :=
  match read_bytes data flag.significant_bytes with
  | none => none
  | some (bytes, data1) =>
    let prediction :=
      if flag.predictor_choice then P2.predict_next r.dfcm % 2 ^ 64
      else P1.predict_next r.fcm % 2 ^ 64
    let value := prediction ^^^ from_big_endian bytes
    some (value, { data := data1, fcm := P1.update r.fcm value,
                   dfcm := P2.update r.dfcm value, second := second })

/-- Modelled from the spec: `compression.h` is missing; the method `next` (spec 4.3): the
first sample of a pair is decoded behind its control byte, the second one behind the
payload of the first. `none` stands for a malformed stream. -/
def FcmStreamReader.next {σ1 σ2 : Type} (P1 : Predictor σ1) (P2 : Predictor σ2)
    (r : FcmStreamReader σ1 σ2) : Option (Nat × FcmStreamReader σ1 σ2) :=
  match r.second with
  | some flag => r.decode P1 P2 flag r.data none
  | none =>
    match r.data with
    | FcmItem.control first second :: data => r.decode P1 P2 first data (some second)
    | _ => none

/-- The compression part of `test_float_compression`: every sample is put and the writer
is committed; the predictors start in the states `fcm`, `dfcm`. -/
def test_float_write {σ1 σ2 : Type} (P1 : Predictor σ1) (P2 : Predictor σ2) (fcm : σ1)
    (dfcm : σ2) (samples : List Nat) : FcmStreamWriter σ1 σ2 :=
  (samples.foldl (FcmStreamWriter.put P1 P2) (FcmStreamWriter.new fcm dfcm)).commit

/-- The decompression loop of `test_float_compression`: `n` calls of `reader.next()`. -/
def test_float_read {σ1 σ2 : Type} (P1 : Predictor σ1) (P2 : Predictor σ2)
    (reader : FcmStreamReader σ1 σ2) : Nat → Option (List Nat)
  | 0 => some []
  | n + 1 =>
    match reader.next P1 P2 with
    | none => none
    | some (value, reader1) =>
      match test_float_read P1 P2 reader1 n with
      | none => none
      | some values => some (value :: values)

/-- Modelled from the spec: `compression.h` is missing; the fixed header of a data block
(spec 4.4, data formats): `u64 series_id; u32 n_elements; u32 tail_offset; u32 checksum`.
The fields are kept as they are computed, not reduced to their widths. -/
structure DataBlockHeader where
  series_id : Nat
  n_elements : Nat
  tail_offset : Nat
  checksum : Nat
deriving DecidableEq, Repr

/-- Modelled from the spec: `compression.h` is missing; the content of the buffer of a
committed data block, by its parts (spec 4.4, data formats): the header, the first
timestamp stored verbatim as the anchor, the timestamp substream (delta-delta and VByte)
and the value substream (FCM). -/
structure DataBlock where
  header : DataBlockHeader
  anchor : Option Nat
  timestamps : List Nat
  values : List FcmItem
deriving DecidableEq, Repr

/-- Modelled from the spec: `compression.h` is missing; the bytes a block with these parts
takes (spec 4.4): 20 bytes of header, 8 bytes of anchor if there is one, and the two
substreams, an item of the value substream being a byte. -/
def block_size (anchor : Option Nat) (timestamps : List Nat) (values : List FcmItem) : Nat :=
  20 + (if anchor.isSome then 8 else 0) + timestamps.length + values.length

/-- Modelled from the spec: `compression.h` is missing; this is the class
`DataBlockWriter` (spec 4.4) over a buffer of `capacity` bytes: the number of samples
taken, the anchor, the timestamps of the delta-delta group that is not yet full, and the
writers of the two substreams. -/
structure DataBlockWriter (σ1 σ2 : Type) where
  series_id : Nat
  capacity : Nat
  n_elements : Nat
  anchor : Option Nat
  group : List Nat
  ts_stream : DeltaDeltaStreamWriter
  val_stream : FcmStreamWriter σ1 σ2

/-- Modelled from the spec: `compression.h` is missing; the constructor
`DataBlockWriter(series_id, buffer, capacity)` (spec 4.4), the predictors of the value
substream being in the start states `fcm`, `dfcm`. -/
def DataBlockWriter.new {σ1 σ2 : Type} (series_id capacity : Nat) (fcm : σ1) (dfcm : σ2) :
    DataBlockWriter σ1 σ2 :=
  { series_id := series_id, capacity := capacity, n_elements := 0, anchor := none,
    group := [], ts_stream := DeltaDeltaStreamWriter.new (Base128StreamWriter.new capacity),
    val_stream := FcmStreamWriter.new fcm dfcm }

/-- Modelled from the spec: `compression.h` is missing; what `put` does with a sample it
takes (spec 4.4): the first timestamp is stored verbatim as the anchor, the following
ones go to the delta-delta codec, in groups of 16, and the value goes to the FCM codec.
`none` when the delta-delta writer fails. -/
def DataBlockWriter.store {σ1 σ2 : Type} (P1 : Predictor σ1) (P2 : Predictor σ2)
    (w : DataBlockWriter σ1 σ2) (ts value : Nat) : Option (DataBlockWriter σ1 σ2) :=
  match w.anchor with
  | none =>
    some { w with n_elements := w.n_elements + 1, anchor := some ts,
                  ts_stream := { w.ts_stream with prev := ts },
                  val_stream := w.val_stream.put P1 P2 value }
  | some _ =>
    if w.group.length + 1 = 16 then
      match w.ts_stream.tput 16 (w.group ++ [ts]) with
      | (false, _) => none
      | (true, ts_stream) =>
        some { w with n_elements := w.n_elements + 1, group := [], ts_stream := ts_stream,
                      val_stream := w.val_stream.put P1 P2 value }
    else
      some { w with n_elements := w.n_elements + 1, group := w.group ++ [ts],
                    val_stream := w.val_stream.put P1 P2 value }

/-- Modelled from the spec: `compression.h` is missing; the two substreams as `commit`
finalizes them (spec 4.4): the partial delta-delta group is written, padded, and the FCM
writer is committed. `none` when the delta-delta writer fails. -/
def DataBlockWriter.flush {σ1 σ2 : Type} (w : DataBlockWriter σ1 σ2) :
    Option (List Nat × List FcmItem) :=
  if w.group = [] then some (w.ts_stream.stream.bytes, w.val_stream.commit.out)
  else
    match w.ts_stream.tput 16 w.group with
    | (false, _) => none
    | (true, ts_stream) => some (ts_stream.stream.bytes, w.val_stream.commit.out)

/-- Modelled from the spec: `compression.h` is missing; the method `put` (spec 4.4):
`AKU_EOVERFLOW` if writing the sample would exceed the capacity, that is, if the block
committed with the sample in it would not fit the buffer; else `AKU_SUCCESS`, and the
sample is taken. -/
def DataBlockWriter.put {σ1 σ2 : Type} (P1 : Predictor σ1) (P2 : Predictor σ2)
    (w : DataBlockWriter σ1 σ2) (ts value : Nat) : aku_Status × DataBlockWriter σ1 σ2 :=
  match w.store P1 P2 ts value with
  | none => (aku_Status.AKU_EOVERFLOW, w)
  | some w1 =>
    match w1.flush with
    | none => (aku_Status.AKU_EOVERFLOW, w)
    | some (timestamps, values) =>
      if block_size w1.anchor timestamps values ≤ w.capacity then (aku_Status.AKU_SUCCESS, w1)
      else (aku_Status.AKU_EOVERFLOW, w)

/-- Modelled from the spec: `compression.h` is missing; the method `commit` (spec 4.4): it
finalizes both substreams and writes the header, and returns the bytes used, here with
the content of the buffer. `tail_offset` points past the last written byte. The spec
leaves the checksum algorithm open; it is the parameter `crc`. `none` when the delta-delta
writer fails. -/
def DataBlockWriter.commit {σ1 σ2 : Type}
    (crc : Option Nat → List Nat → List FcmItem → Nat) (w : DataBlockWriter σ1 σ2) :
    Option (Nat × DataBlock) :=
  match w.flush with
  | none => none
  | some (timestamps, values) =>
    some (block_size w.anchor timestamps values,
      { header := { series_id := w.series_id, n_elements := w.n_elements,
                    tail_offset := block_size w.anchor timestamps values,
                    checksum := crc w.anchor timestamps values },
        anchor := w.anchor, timestamps := timestamps, values := values })

/-- Modelled from the spec: `compression.h` is missing; this is the class
`DataBlockReader` (spec 4.4): the header, the anchor, the number of samples returned so
far and the readers of the two substreams. -/
structure DataBlockReader (σ1 σ2 : Type) where
  header : DataBlockHeader
  anchor : Option Nat
  read_index : Nat
  ts_stream : DeltaDeltaStreamReader
  val_stream : FcmStreamReader σ1 σ2

/-- Modelled from the spec: `compression.h` is missing; the constructor
`DataBlockReader(buffer, size)` (spec 4.4) over the content of the buffer, the predictors of
the value substream being in the start states `fcm`, `dfcm`. -/
def DataBlockReader.new {σ1 σ2 : Type} (block : DataBlock) (fcm : σ1) (dfcm : σ2) :
    DataBlockReader σ1 σ2 :=
  { header := block.header, anchor := block.anchor, read_index := 0,
    ts_stream := { stream := { data := block.timestamps }, prev := block.anchor.getD 0,
                   group := [] },
    val_stream := FcmStreamReader.new block.values fcm dfcm }

/-- Modelled from the spec: `compression.h` is missing; the method `get_id` (spec 4.4). -/
def DataBlockReader.get_id {σ1 σ2 : Type} (r : DataBlockReader σ1 σ2) : Nat :=
  r.header.series_id

/-- Modelled from the spec: `compression.h` is missing; the method `nelements`
(spec 4.4). -/
def DataBlockReader.nelements {σ1 σ2 : Type} (r : DataBlockReader σ1 σ2) : Nat :=
  r.header.n_elements

/-- Modelled from the spec: `compression.h` is missing; the method `next` (spec 4.4),
returning `(status, ts, value)`: after `nelements()` successful calls it yields
`AKU_ENO_DATA`; before, the timestamp is the anchor for the first sample and comes from
the delta-delta reader for the others, and the value comes from the FCM reader. A
malformed stream is reported as `AKU_EIO`. -/
def DataBlockReader.next {σ1 σ2 : Type} (P1 : Predictor σ1) (P2 : Predictor σ2)
    (r : DataBlockReader σ1 σ2) : (aku_Status × Nat × Nat) × DataBlockReader σ1 σ2 :=
  if r.read_index ≥ r.header.n_elements then ((aku_Status.AKU_ENO_DATA, 0, 0), r)
  else
    let timestamp : Option (Nat × DeltaDeltaStreamReader) :=
      if r.read_index = 0 then r.anchor.map (fun ts => (ts, r.ts_stream))
      else r.ts_stream.next 16
    match timestamp, r.val_stream.next P1 P2 with
    | some (ts, ts_stream), some (value, val_stream) =>
      ((aku_Status.AKU_SUCCESS, ts, value),
        { r with read_index := r.read_index + 1, ts_stream := ts_stream,
                 val_stream := val_stream })
    | _, _ => ((aku_Status.AKU_EIO, 0, 0), r)

/-- The compression loop of `test_block_compression` from index `ix` on: the samples are
put until `put` returns `AKU_EOVERFLOW` or the input ends; returns the writer and
`actual_nelements`. A status that is neither `AKU_SUCCESS` nor `AKU_EOVERFLOW` fails the
test (`none`). -/
def test_block_write {σ1 σ2 : Type} (P1 : Predictor σ1) (P2 : Predictor σ2) :
    DataBlockWriter σ1 σ2 → List (Nat × Nat) → Nat → Option (DataBlockWriter σ1 σ2 × Nat)
  | writer, [], ix => some (writer, ix)
  | writer, sample :: rest, ix =>
    match writer.put P1 P2 sample.1 sample.2 with
    | (aku_Status.AKU_EOVERFLOW, writer1) => some (writer1, ix)
    | (aku_Status.AKU_SUCCESS, writer1) => test_block_write P1 P2 writer1 rest (ix + 1)
    | _ => none

/-- The decompression loop of `test_block_compression`: `n` calls of `reader.next()`, each
required to return `AKU_SUCCESS`; returns the samples read and the reader. -/
def test_block_read {σ1 σ2 : Type} (P1 : Predictor σ1) (P2 : Predictor σ2) :
    DataBlockReader σ1 σ2 → Nat → Option (List (Nat × Nat) × DataBlockReader σ1 σ2)
  | reader, 0 => some ([], reader)
  | reader, n + 1 =>
    match reader.next P1 P2 with
    | ((aku_Status.AKU_SUCCESS, ts, value), reader1) =>
      match test_block_read P1 P2 reader1 n with
      | none => none
      | some (samples, reader2) => some ((ts, value) :: samples, reader2)
    | _ => none

/-! ## Drivers, specification-side definitions and invariants -/

/-- Non-strict order of values: `b < a` does not hold. -/
def TimeSeriesValue.le (a b : TimeSeriesValue) : Prop := TimeSeriesValue.lt b a = false

/-- Non-strict order of heap items: `b < a` does not hold. -/
def HeapItem.le (a b : HeapItem) : Prop := HeapItem.lt b a = false

/-- The run iterators after the loop body of `merge` has popped item `m`. -/
def next_iter (iter : List SortedRun) (m : HeapItem) : List SortedRun :=
  match run_at iter m.2 with
  | [] => iter
  | _ :: tl => set_run iter m.2 tl

/-- The heap after the loop body of `merge` has popped item `m`. -/
def next_heap (iter : List SortedRun) (heap : List HeapItem) (m : HeapItem) : List HeapItem :=
  match run_at iter m.2 with
  | [] => erase_item heap m
  | v :: _ => erase_item heap m ++ [(v, m.2)]

/-- The loop invariant of `merge`: the unread parts are sorted, every heap item is below
the unread part of its run, every run with an unread part has an item in the heap, and no
run has two items in the heap. -/
def MergeInv (iter : List SortedRun) (heap : List HeapItem) : Prop :=
  (∀ r ∈ iter, r.Pairwise TimeSeriesValue.le) ∧
  (∀ it ∈ heap, ∀ x ∈ run_at iter it.2, TimeSeriesValue.le it.1 x) ∧
  (∀ i, run_at iter i ≠ [] → ∃ v, (v, i) ∈ heap) ∧
  (heap.map Prod.snd).Nodup

/-- The invariant of the Sequencer: every run is non-empty and sorted. -/
def SeqInv (s : Sequencer) : Prop :=
  ∀ r ∈ s.runs_, r ≠ [] ∧ r.Pairwise TimeSeriesValue.le

/-- The iterator `begin` of `add`, as an index: where the window of the last
`window_size_` runs starts. -/
def Sequencer.window_begin (s : Sequencer) : Nat :=
  if s.runs_.length > s.window_size_ then s.runs_.length - s.window_size_ else 0

/-- The iterator `insert_it` of `add`, as an index. -/
def Sequencer.insert_pos (s : Sequencer) (value : TimeSeriesValue) : Nat :=
  lower_bound top_element_more s.runs_ (s.key_.dropLast ++ [value]) s.window_begin
    s.runs_.length

/-- The current frame of a volume after `append` has stored a record in it. -/
def LZ4Volume.stored_frame (v : LZ4Volume) (id timestamp value : Nat) : Frame :=
  { size := (v.frames_ v.pos_).size + 1,
    ids := (v.frames_ v.pos_).ids.set (v.frames_ v.pos_).size id,
    timestamps := (v.frames_ v.pos_).timestamps.set (v.frames_ v.pos_).size timestamp,
    values := (v.frames_ v.pos_).values.set (v.frames_ v.pos_).size value }

/-- The volume after `append` has registered the id and stored the record, before the
frame is looked at. -/
def LZ4Volume.stored (v : LZ4Volume) (id timestamp value : Nat) : LZ4Volume :=
  ({ v with bitmap_ := Roaring64Map.add v.bitmap_ id }).set_frame v.pos_
    (v.stored_frame id timestamp value)

/-- The volume after a successful `write(pos_)`, the switch of `pos_` and `clear(pos_)`. -/
def LZ4Volume.flushed (NUM_TUPLES : Nat) (v : LZ4Volume) (out_bytes : Int) : LZ4Volume :=
  LZ4Volume.clear NUM_TUPLES
    { v with file_ := v.file_ ++ [{ size := out_bytes.toNat,
                                    payload := some (v.frames_ v.pos_), readable := true }],
             file_size_ := v.file_size_ + (4 + out_bytes.toNat),
             pos_ := (v.pos_ + 1) % 2 }
    ((v.pos_ + 1) % 2)

/-- The status `append` ends with: the test `file_size_ >= max_file_size_`. -/
def LZ4Volume.overflow_status (v : LZ4Volume) : aku_Status :=
  if v.file_size_ ≥ v.max_file_size_ then aku_Status.AKU_EOVERFLOW else aku_Status.AKU_SUCCESS

/-- The volume an `append` call that returns leaves behind. -/
def LZ4Volume.appended (NUM_TUPLES : Nat) (v : LZ4Volume) (id timestamp value : Nat)
    (env : WriteEnv) : LZ4Volume :=
  if (v.frames_ v.pos_).size + 1 = NUM_TUPLES then
    (v.stored id timestamp value).flushed NUM_TUPLES env.out_bytes
  else v.stored id timestamp value

/-- A run of `append` calls on a volume, each of which returns. -/
def LZ4Volume.appends (NUM_TUPLES : Nat) :
    LZ4Volume → List (Sample × WriteEnv) → Except String LZ4Volume
  | v, [] => .ok v
  | v, (s, env) :: rest =>
    match v.append NUM_TUPLES s.1 s.2.1 s.2.2 env with
    | .error e => .error e
    | .ok (_, v1) => LZ4Volume.appends NUM_TUPLES v1 rest

/-- The newest record a volume stores: the last entry of the current frame or, when that
frame is empty, the last entry of the last frame written to the file. -/
def LZ4Volume.newest_record (v : LZ4Volume) : Option Sample :=
  if (v.frames_ v.pos_).size > 0 then
    some ((v.frames_ v.pos_).record ((v.frames_ v.pos_).size - 1))
  else
    match v.file_.getLast? with
    | none => none
    | some fr => fr.payload.map (fun f => f.record (f.size - 1))

/-- The current frame of a volume has a free slot and arrays of `NUM_TUPLES` entries. -/
def LZ4Volume.FrameInv (NUM_TUPLES : Nat) (v : LZ4Volume) : Prop :=
  (v.frames_ v.pos_).size < NUM_TUPLES ∧
  (v.frames_ v.pos_).ids.length = NUM_TUPLES ∧
  (v.frames_ v.pos_).timestamps.length = NUM_TUPLES ∧
  (v.frames_ v.pos_).values.length = NUM_TUPLES

/-- A log with two volumes at its limit of two, the newer one a record short of a full
frame. -/
def stale_demo_log : InputLog :=
  { root_dir_ := [], available_volumes_ := [], volume_counter_ := 2, max_volumes_ := 2,
    volume_size_ := 10,
    files_ := ["inputlog1.ils".toList, "inputlog0.ils".toList],
    volumes_ :=
      [{ LZ4Volume.create 2 "inputlog1.ils".toList 10 with
          bitmap_ := [3], frames_0 := ⟨1, [3, 0], [7, 0], [7, 0]⟩ },
       { LZ4Volume.create 2 "inputlog0.ils".toList 10 with
          bitmap_ := [1, 2, 3], file_size_ := 14,
          file_ := [⟨10, some ⟨2, [1, 2], [1, 2], [1, 2]⟩, true⟩],
          frames_1 := ⟨1, [3, 0], [3, 0], [3, 0]⟩, pos_ := 1 }] }

/-- The log `stale_demo_log` after `append(2, 8, 8)` has written a frame of 10 bytes. -/
def stale_demo_log1 : InputLog :=
  { stale_demo_log with
    volumes_ :=
      [{ LZ4Volume.create 2 "inputlog1.ils".toList 10 with
          bitmap_ := [2, 3], frames_0 := ⟨2, [3, 2], [7, 8], [7, 8]⟩, pos_ := 1,
          file_size_ := 14, file_ := [⟨10, some ⟨2, [3, 2], [7, 8], [7, 8]⟩, true⟩] },
       { LZ4Volume.create 2 "inputlog0.ils".toList 10 with
          bitmap_ := [1, 2, 3], file_size_ := 14,
          file_ := [⟨10, some ⟨2, [1, 2], [1, 2], [1, 2]⟩, true⟩],
          frames_1 := ⟨1, [3, 0], [3, 0], [3, 0]⟩, pos_ := 1 }] }

/-- A new volume of two tuples per frame and a limit of 100 bytes after the appends of the
ids 7, 3 and 7; no append has returned `AKU_EOVERFLOW`. -/
def index_demo_volume : LZ4Volume :=
  (((LZ4Volume.create 2 "inputlog0.ils".toList 100).appended 2 7 1 10 ⟨10, true⟩).appended
    2 3 2 20 ⟨10, true⟩).appended 2 7 3 30 ⟨10, true⟩

/-- A call to a write-mode log: `append(id, timestamp, value, &stale_ids)` with what it
meets outside the program, or `rotate()`. -/
inductive LogCall where
  | append (id timestamp value : Nat) (env : WriteEnv)
  | rotate
deriving DecidableEq, Repr

/-- The log after one call. -/
def InputLog.call (NUM_TUPLES : Nat) (log : InputLog) : LogCall → Except String InputLog
  | .append id timestamp value env =>
    match InputLog.append NUM_TUPLES log id timestamp value [] env with
    | .error e => .error e
    | .ok (_, log1, _) => .ok log1
  | .rotate => InputLog.rotate NUM_TUPLES log

/-- The log after a sequence of calls, none of which throws. -/
def InputLog.calls (NUM_TUPLES : Nat) : InputLog → List LogCall → Except String InputLog
  | log, [] => .ok log
  | log, c :: rest =>
    match InputLog.call NUM_TUPLES log c with
    | .error e => .error e
    | .ok log1 => InputLog.calls NUM_TUPLES log1 rest

/-- The file-name pattern of the spec, `^inputlog(\d+)\.ils$`: the prefix `inputlog`, one or
more decimal digits, the suffix `.ils`. -/
def matches_volume_pattern (name : Path) : Bool :=
  starts_with name "inputlog".toList &&
  (".ils".toList).isSuffixOf name &&
  decide (12 < name.length) &&
  ((name.drop 8).take (name.length - 12)).all Char.isDigit

/-- The file name `inputlog<digits>.ils`. -/
def volume_file_name (digits : List Char) : Path :=
  "inputlog".toList ++ digits ++ ".ils".toList

/-- The number a string of decimal digits denotes. -/
def digits_value (digits : List Char) : Nat :=
  digits.foldl (fun acc c => 10 * acc + (c.toNat - 48)) 0

/-- The decimal digits `get_volume_name` writes for the counter `n`. -/
def decimal (n : Nat) : List Char := put_decimal (n + 1) n []

/-- The name `get_volume_name` gives the volume with counter `k`. -/
def volume_name (k : Nat) : Path := volume_file_name (decimal k)

/-- The records a frame holds, in slot order. -/
def frame_records (f : Frame) : List Sample :=
  (List.range' 0 f.size).map f.record

/-- The records of the frames of a volume file, in file order. -/
def file_records (file : List StoredFrame) : List Sample :=
  file.flatMap (fun fr =>
    match fr.payload with
    | some f => frame_records f
    | none => [])

/-- The records of the frame a writable volume has not yet written to its file. -/
def LZ4Volume.pending (v : LZ4Volume) : List Sample :=
  frame_records (v.frames_ v.pos_)

/-- The records a read-only volume has not yet returned: the unread records of its current
frame, then the records of the frames it has not yet read from the file. -/
def LZ4Volume.unread (v : LZ4Volume) : List Sample :=
  (List.range' ((v.frames_ v.pos_).size - v.elements_to_read_) v.elements_to_read_).map
      (v.frames_ v.pos_).record ++
    file_records (v.file_.drop v.file_pos_)

/-- A frame of a file that can be read and decompressed and holds at least one record. -/
def StoredFrame.good (fr : StoredFrame) : Prop :=
  fr.readable = true ∧ ∃ f, fr.payload = some f ∧ 0 < f.size

/-- The state of a read-only volume while its file, made of good frames, is read. -/
def LZ4Volume.ReadInv (v : LZ4Volume) : Prop :=
  v.is_read_only_ = true ∧
  v.elements_to_read_ ≤ (v.frames_ v.pos_).size ∧
  v.bytes_to_read_ = (_get_file_size (v.file_.drop v.file_pos_) : Int) ∧
  ∀ fr ∈ v.file_.drop v.file_pos_, fr.good

/-- The tail of `read_next`: the copy of `min(buffer_size, elements_to_read_)` records. -/
def LZ4Volume.copy_out (v : LZ4Volume) (buffer_size : Nat) :
    Except String ((aku_Status × Nat) × LZ4Volume × List Sample) :=
  .ok ((aku_Status.AKU_SUCCESS, min buffer_size v.elements_to_read_),
    { v with elements_to_read_ :=
        (copy_records (v.frames_ v.pos_) (v.frames_ v.pos_).size
          (min buffer_size v.elements_to_read_) v.elements_to_read_).2 },
    (copy_records (v.frames_ v.pos_) (v.frames_ v.pos_).size
      (min buffer_size v.elements_to_read_) v.elements_to_read_).1)

/-- The records a read-mode log has not yet returned, front volume first. -/
def InputLog.unread (log : InputLog) : List Sample :=
  log.volumes_.flatMap LZ4Volume.unread

/-- The reader of the round trip: `read_next` is called, with the same buffer size, until it
returns `(AKU_SUCCESS, 0)`; the result is the records returned, in order. `fuel` bounds the
number of calls. -/
def InputLog.read_all (NUM_TUPLES : Nat) (buffer_size : Nat) :
    Nat → InputLog → Option (Except String (List Sample))
  | 0, _ => none
  | fuel + 1, log =>
    match InputLog.read_next NUM_TUPLES log buffer_size with
    | none => none
    | some (.error e) => some (.error e)
    | some (.ok ((status, result), log1, out)) =>
      if status = aku_Status.AKU_SUCCESS ∧ result = 0 then some (.ok [])
      else
        match InputLog.read_all NUM_TUPLES buffer_size fuel log1 with
        | some (.ok rest) => some (.ok (out ++ rest))
        | other => other

/-- The writer of the round trip: every sample is appended, and `rotate` is called whenever
`append` returns `AKU_EOVERFLOW`. -/
def InputLog.write_all (NUM_TUPLES : Nat) :
    InputLog → List (Sample × WriteEnv) → Except String InputLog
  | log, [] => .ok log
  | log, (s, env) :: rest =>
    match InputLog.append NUM_TUPLES log s.1 s.2.1 s.2.2 [] env with
    | .error e => .error e
    | .ok (status, log1, _) =>
      if status = aku_Status.AKU_EOVERFLOW then
        match InputLog.rotate NUM_TUPLES log1 with
        | .error e => .error e
        | .ok log2 => InputLog.write_all NUM_TUPLES log2 rest
      else InputLog.write_all NUM_TUPLES log1 rest

/-- What a writable volume is like between `append` calls: its frame has a free slot, and
the frames in its file are readable, decompress, and hold at least one record. -/
def LZ4Volume.WriteInv (NUM_TUPLES : Nat) (v : LZ4Volume) : Prop :=
  v.is_read_only_ = false ∧ v.FrameInv NUM_TUPLES ∧ ∀ fr ∈ v.file_, fr.good

/-- What a write-mode log that has lost no volume is like after the samples `S` have been
appended with `rotate` after every overflow: its volumes, oldest first, are named by the
counters `0, 1, ...`, and hold the samples in order, in their files and frames. -/
def InputLog.WriteInv (NUM_TUPLES nvol svol : Nat) (log : InputLog) (S : List Sample) : Prop :=
  log.max_volumes_ = nvol ∧ log.volume_size_ = svol ∧
  log.volumes_.length = log.volume_counter_ ∧
  log.volumes_.reverse.map LZ4Volume.path_ = (List.range log.volume_counter_).map volume_name ∧
  (∀ p ∈ log.files_, ∃ j, j < log.volume_counter_ ∧ p = volume_name j) ∧
  (∀ v ∈ log.volumes_, v.WriteInv NUM_TUPLES ∧ v.max_file_size_ = svol) ∧
  S = log.volumes_.reverse.flatMap (fun v => file_records v.file_ ++ v.pending) ∧
  log.volumes_.length ≤ S.length + 1 ∧
  ∃ front rest, log.volumes_ = front :: rest ∧
    (0 < svol → front.file_size_ < front.max_file_size_ ∧ ∀ v ∈ rest, v.pending = [])

/-- What the writer needs of a log to go on: a front volume, volumes that can be written,
and files named by counters the log has used. -/
def InputLog.Writable (log : InputLog) : Prop :=
  log.volumes_ ≠ [] ∧ (∀ v ∈ log.volumes_, v.is_read_only_ = false) ∧
  ∀ p ∈ log.files_, ∃ j, j < log.volume_counter_ ∧ p = volume_name j

/-- A directory with two volume files: `inputlog10.ils` with a frame of one record, and
`inputlog2.ils` with a frame of two records. -/
def read_demo_dir : List (Path × List StoredFrame) :=
  [("inputlog10.ils".toList, [⟨10, some ⟨1, [3, 0], [30, 0], [300, 0]⟩, true⟩]),
   ("inputlog2.ils".toList, [⟨10, some ⟨2, [1, 2], [10, 20], [100, 200]⟩, true⟩])]

/-- A directory with one volume file of two frames: the first frame can be read and
decompressed and holds no record, the second holds one record. -/
def empty_frame_demo_dir : List (Path × List StoredFrame) :=
  [("inputlog0.ils".toList,
    [⟨10, some ⟨0, [0, 0], [0, 0], [0, 0]⟩, true⟩,
     ⟨10, some ⟨1, [3, 0], [30, 0], [300, 0]⟩, true⟩])]

/-- A directory with two volume files: the only frame of `inputlog0.ils` can be read but
LZ4 cannot decompress it; `inputlog1.ils` has a frame of one record. -/
def swallow_demo_dir : List (Path × List StoredFrame) :=
  [("inputlog0.ils".toList, [⟨10, none, true⟩]),
   ("inputlog1.ils".toList, [⟨10, some ⟨1, [5, 0], [50, 0], [500, 0]⟩, true⟩])]

/-- The number of `rotate` calls in a sequence of calls. -/
def rotations (ops : List LogCall) : Nat :=
  (ops.filter (fun c => decide (c = LogCall.rotate))).length

/-- What a write-mode log with limit `n` is like after `k` calls of `rotate`: the counter
is `k + 1`, the volumes are named by the counters `k, k - 1, ...` from front to back, and
every file of the directory was there at the start or is named by a counter up to `k`. -/
def InputLog.NameInv (n svol : Nat) (files : List Path) (k : Nat) (log : InputLog) : Prop :=
  log.max_volumes_ = n ∧ log.volume_size_ = svol ∧ log.volume_counter_ = k + 1 ∧
  log.volumes_.map LZ4Volume.path_ =
    (List.range (min (k + 1) n)).map (fun i => volume_name (k - i)) ∧
  ∀ p ∈ log.files_, p ∈ files ∨ ∃ j, j ≤ k ∧ p = volume_name j

/-- The invariant of the window: among the runs `add` searches, a later run ends with a
smaller key than an earlier one. -/
def WindowInv (s : Sequencer) : Prop :=
  ∀ i j r1 r2, s.window_begin ≤ i → i < j → s.runs_[i]? = some r1 → s.runs_[j]? = some r2 →
    TimeSeriesValue.lt (SortedRun.back r2) (SortedRun.back r1) = true

/-- What `tput` writes for a full group: the minimum delta, then every delta less the
minimum. -/
def group_code (prev : Nat) (values : List Nat) : List Nat :=
  min_delta (first_level_deltas prev values) ::
    (first_level_deltas prev values).map
      (fun d => d - min_delta (first_level_deltas prev values))

/-- What `nsteps` calls of `tput` write for an input of `nsteps` groups of `G` values. -/
def groups_code (G : Nat) : Nat → Nat → List Nat → List Nat
  | 0, _, _ => []
  | nsteps + 1, prev, input =>
    group_code prev (input.take G) ++
      groups_code G nsteps ((input.take G).getLastD prev) (input.drop G)

/-- Two groups of 16 values, each with a fixed step, as the fixed-step test builds them. -/
def delta_demo_input : List Nat :=
  (List.range 16).map (fun i => 100000 + 7 * (i + 1)) ++
    (List.range 16).map (fun i => 100112 + 300 * (i + 1))

/-- What the FCM writer emits for a sequence of samples, pair by pair, from the predictor
states `s1`, `s2`; a last sample without a partner is paired with an empty residual. -/
def pairs_code {σ1 σ2 : Type} (P1 : Predictor σ1) (P2 : Predictor σ2) :
    σ1 → σ2 → List Nat → List FcmItem
  | _, _, [] => []
  | s1, s2, [v] =>
    FcmItem.control
        (encode_sample (P1.predict_next s1 % 2 ^ 64) (P2.predict_next s2 % 2 ^ 64) v).1
        { predictor_choice := false, leading_zero_bytes := 8, significant_bytes := 0 } ::
      (encode_sample (P1.predict_next s1 % 2 ^ 64) (P2.predict_next s2 % 2 ^ 64) v).2.map
        FcmItem.byte
  | s1, s2, v1 :: v2 :: rest =>
    FcmItem.control
        (encode_sample (P1.predict_next s1 % 2 ^ 64) (P2.predict_next s2 % 2 ^ 64) v1).1
        (encode_sample (P1.predict_next (P1.update s1 v1) % 2 ^ 64)
          (P2.predict_next (P2.update s2 v1) % 2 ^ 64) v2).1 ::
      ((encode_sample (P1.predict_next s1 % 2 ^ 64) (P2.predict_next s2 % 2 ^ 64) v1).2.map
          FcmItem.byte ++
        (encode_sample (P1.predict_next (P1.update s1 v1) % 2 ^ 64)
          (P2.predict_next (P2.update s2 v1) % 2 ^ 64) v2).2.map FcmItem.byte) ++
      pairs_code P1 P2 (P1.update (P1.update s1 v1) v2) (P2.update (P2.update s2 v1) v2) rest

/-- The samples of `Test_float_compression_5` with a shorter run: seven times the pattern
of 3.14159, then those of 111.222 and 222.333. -/
def float_demo_samples : List Nat :=
  List.replicate 7 0x400921f9f01b866e ++ [0x405bce353f7ced91, 0x406bcaa7ef9db22d]

/-- What `tput` writes for a list of full groups, `prev` being the value in front. -/
def code_of_groups : Nat → List (List Nat) → List Nat
  | _, [] => []
  | prev, g :: gs => group_code prev g ++ code_of_groups (g.getLastD prev) gs

/-- The last value of a list of groups, `prev` being the value in front. -/
def last_of_groups (prev : Nat) (gs : List (List Nat)) : Nat :=
  gs.foldl (fun p g => g.getLastD p) prev

/-- A group padded to `G` values the way `tput` pads it. -/
def pad_group (G prev : Nat) (values : List Nat) : List Nat :=
  values ++ List.replicate (G - values.length) (values.getLastD prev)

/-- What a block writer is like after it has taken the samples `S`: the first timestamp is
the anchor, the other timestamps are in full groups written to the delta-delta stream or in
the group that is not yet full, and the values have been put to the FCM writer. -/
def BlockInv {σ1 σ2 : Type} (P1 : Predictor σ1) (P2 : Predictor σ2) (series_id capacity : Nat)
    (fcm : σ1) (dfcm : σ2) (w : DataBlockWriter σ1 σ2) (S : List (Nat × Nat)) : Prop :=
  w.series_id = series_id ∧ w.capacity = capacity ∧ w.n_elements = S.length ∧
  w.val_stream =
    (S.map Prod.snd).foldl (FcmStreamWriter.put P1 P2) (FcmStreamWriter.new fcm dfcm) ∧
  w.group.length < 16 ∧
  ((S = [] ∧ w.anchor = none ∧ w.group = [] ∧ w.ts_stream.stream.bytes = []) ∨
   (∃ s R gs, S = s :: R ∧ w.anchor = some s.1 ∧ (∀ g ∈ gs, g.length = 16) ∧
      R.map Prod.fst = gs.flatten ++ w.group ∧
      w.ts_stream.stream.bytes =
        (code_of_groups s.1 gs).flatMap (fun x => encode_base128 10 (x % 2 ^ 64)) ∧
      w.ts_stream.prev = last_of_groups s.1 gs))

/-- Three samples with growing timestamps; the values are the patterns of 3.14159 (twice)
and 111.222. -/
def block_demo_samples : List (Nat × Nat) :=
  [(1000, 0x400921f9f01b866e), (1010, 0x400921f9f01b866e), (1025, 0x405bce353f7ced91)]

/-- A sequence of `read_next` calls on the current frame of a volume, one for every buffer
size of the list, made as long as the frame has unread records; returns the records the
calls have written, in order, and the volume. -/
def LZ4Volume.read_frame (NUM_TUPLES : Nat) :
    List Nat → LZ4Volume → Except String (List Sample × LZ4Volume)
  | [], v => .ok ([], v)
  | buffer_size :: rest, v =>
    if v.elements_to_read_ = 0 then .ok ([], v)
    else
      match v.read_next NUM_TUPLES buffer_size with
      | .error e => .error e
      | .ok (_, v1, out) =>
        match LZ4Volume.read_frame NUM_TUPLES rest v1 with
        | .error e => .error e
        | .ok (outs, v2) => .ok (out ++ outs, v2)

/-- A read-only volume whose current frame holds the three records 1, 2, 3, none of them
read yet. -/
def frame_demo_volume : LZ4Volume :=
  { LZ4Volume.open_ro 3 "inputlog0.ils".toList [] with
    frames_1 := ⟨3, [1, 2, 3], [10, 20, 30], [100, 200, 300]⟩, elements_to_read_ := 3 }

/-- A linear scan of the range `[first, first + n)` of `xs`, the way `std::find_if_not`
runs: the first position whose element does not satisfy `comp(element, value)`, or the
end of the range. -/
def linear_search {α β : Type} (comp : α → β → Bool) (xs : List α) (value : β) :
    Nat → Nat → Nat
  | 0, first => first
  | n + 1, first =>
    match xs[first]? with
    | none => first
    | some m => if comp m value then linear_search comp xs value n (first + 1) else first

/-- The invariant behind the stability of `add`: every element of a run is below the last
element of every earlier run that is still in the window. -/
def LaterInv (s : Sequencer) : Prop :=
  ∀ i j r1 r2 u, s.window_begin ≤ i → i < j → s.runs_[i]? = some r1 →
    s.runs_[j]? = some r2 → u ∈ r2 → TimeSeriesValue.lt u (SortedRun.back r1) = true

/-- The state of a writable volume once the samples `S` were appended to a new volume: every
frame of the file is full and holds its `NUM_TUPLES` samples in append order, and the current
frame holds the samples after them. -/
def LZ4Volume.CountInv (NUM_TUPLES : Nat) (v : LZ4Volume) (S : List Sample) : Prop :=
  v.FrameInv NUM_TUPLES ∧
  v.file_.length * NUM_TUPLES + (v.frames_ v.pos_).size = S.length ∧
  frame_records (v.frames_ v.pos_) = S.drop (v.file_.length * NUM_TUPLES) ∧
  ∀ j fr, v.file_[j]? = some fr →
    ∃ f, fr.payload = some f ∧ f.size = NUM_TUPLES ∧
      frame_records f = (S.drop (j * NUM_TUPLES)).take NUM_TUPLES

/-- A new volume of two tuples per frame after three appends. -/
def count_demo_volume : LZ4Volume :=
  (((LZ4Volume.create 2 "inputlog0.ils".toList 100).appended 2 1 5 6 ⟨7, true⟩).appended
    2 2 6 7 ⟨7, true⟩).appended 2 3 7 8 ⟨7, true⟩

/-- A read-mode log of two volumes: the file of the first is empty, the file of the second
has a frame of one record. -/
def eof_demo_log : InputLog :=
  { root_dir_ := "log".toList,
    volumes_ :=
      [LZ4Volume.open_ro 2 "inputlog2.ils".toList [],
       LZ4Volume.open_ro 2 "inputlog10.ils".toList
        [⟨10, some ⟨1, [3, 0], [30, 0], [300, 0]⟩, true⟩]],
    available_volumes_ := [], volume_counter_ := 0, max_volumes_ := 0, volume_size_ := 0,
    files_ := ["inputlog2.ils".toList, "inputlog10.ils".toList] }

/-! # Theorems -/

/-! ## Order facts -/

theorem tuple_lt_iff (a b : Nat × Nat) :
    tuple_lt a b = true ↔ (a.1 < b.1 ∨ (a.1 = b.1 ∧ a.2 < b.2)) := by
  unfold tuple_lt
  simp only [Bool.or_eq_true, Bool.and_eq_true, Bool.not_eq_true', decide_eq_true_eq,
    decide_eq_false_iff_not]
  omega

theorem tuple_lt_false_iff (a b : Nat × Nat) :
    tuple_lt b a = false ↔ (a.1 < b.1 ∨ (a.1 = b.1 ∧ a.2 ≤ b.2)) := by
  rw [← Bool.not_eq_true, tuple_lt_iff]
  omega

theorem item_lt_iff (a b : HeapItem) :
    HeapItem.lt a b = true ↔
      (a.1.key_.1 < b.1.key_.1 ∨ (a.1.key_.1 = b.1.key_.1 ∧
        (a.1.key_.2 < b.1.key_.2 ∨ (a.1.key_.2 = b.1.key_.2 ∧ a.2 < b.2)))) := by
  unfold HeapItem.lt TimeSeriesValue.lt
  simp only [Bool.or_eq_true, Bool.and_eq_true, Bool.not_eq_true', decide_eq_true_eq]
  rw [tuple_lt_iff, ← Bool.not_eq_true, tuple_lt_iff]
  omega

theorem item_lt_false_iff (a b : HeapItem) :
    HeapItem.lt b a = false ↔
      (a.1.key_.1 < b.1.key_.1 ∨ (a.1.key_.1 = b.1.key_.1 ∧
        (a.1.key_.2 < b.1.key_.2 ∨ (a.1.key_.2 = b.1.key_.2 ∧ a.2 ≤ b.2)))) := by
  rw [← Bool.not_eq_true, item_lt_iff]
  omega

theorem value_lt_false_iff (a b : TimeSeriesValue) :
    TimeSeriesValue.lt b a = false ↔
      (a.key_.1 < b.key_.1 ∨ (a.key_.1 = b.key_.1 ∧ a.key_.2 ≤ b.key_.2)) := by
  unfold TimeSeriesValue.lt
  exact tuple_lt_false_iff _ _

theorem value_le_refl (a : TimeSeriesValue) : TimeSeriesValue.le a a := by
  unfold TimeSeriesValue.le; rw [value_lt_false_iff]; omega

theorem value_le_trans {a b c : TimeSeriesValue} (h1 : TimeSeriesValue.le a b)
    (h2 : TimeSeriesValue.le b c) : TimeSeriesValue.le a c := by
  unfold TimeSeriesValue.le at *
  rw [value_lt_false_iff] at *
  omega

theorem item_le_refl (a : HeapItem) : HeapItem.le a a := by
  unfold HeapItem.le; rw [item_lt_false_iff]; omega

theorem item_le_trans {a b c : HeapItem} (h1 : HeapItem.le a b)
    (h2 : HeapItem.le b c) : HeapItem.le a c := by
  unfold HeapItem.le at *
  rw [item_lt_false_iff] at *
  omega

theorem item_le_total (a b : HeapItem) : HeapItem.le a b ∨ HeapItem.le b a := by
  unfold HeapItem.le
  rw [item_lt_false_iff, item_lt_false_iff]
  omega

theorem item_le_of_value_le {v w : TimeSeriesValue} (i : Nat)
    (h : TimeSeriesValue.le v w) : HeapItem.le (v, i) (w, i) := by
  unfold HeapItem.le TimeSeriesValue.le at *
  rw [item_lt_false_iff]
  rw [value_lt_false_iff] at h
  simp only
  omega

/-! ## The heap primitives -/

theorem heap_top_spec (t : List HeapItem) : ∀ h : HeapItem,
    heap_top h t ∈ h :: t ∧ HeapItem.le (heap_top h t) h ∧
      ∀ x ∈ t, HeapItem.le (heap_top h t) x := by
  induction t with
  | nil => intro h; simp [heap_top, item_le_refl]
  | cons a t ih =>
    intro h
    have e : heap_top h (a :: t) =
        heap_top (if HeapItem.greater h a then a else h) t := rfl
    rw [e]
    by_cases c : HeapItem.greater h a = true
    · rw [if_pos c]
      obtain ⟨h1, h2, h3⟩ := ih a
      refine ⟨?_, ?_, ?_⟩
      · rcases List.mem_cons.1 h1 with h1 | h1
        · rw [h1]; simp
        · exact List.mem_cons_of_mem _ (List.mem_cons_of_mem _ h1)
      · have : HeapItem.le a h := by
          rcases item_le_total a h with q | q
          · exact q
          · unfold HeapItem.le at q; unfold HeapItem.greater at c; rw [c] at q; cases q
        exact item_le_trans h2 this
      · intro x hx
        rcases List.mem_cons.1 hx with hx | hx
        · rw [hx]; exact h2
        · exact h3 x hx
    · rw [if_neg c]
      obtain ⟨h1, h2, h3⟩ := ih h
      refine ⟨?_, h2, ?_⟩
      · rcases List.mem_cons.1 h1 with h1 | h1
        · rw [h1]; simp
        · exact List.mem_cons_of_mem _ (List.mem_cons_of_mem _ h1)
      · intro x hx
        rcases List.mem_cons.1 hx with hx | hx
        · rw [hx]
          have : HeapItem.le h a := by
            unfold HeapItem.le; unfold HeapItem.greater at c
            simpa using c
          exact item_le_trans h2 this
        · exact h3 x hx

/-- What `pop_heap; back(); pop_back()` does to a non-empty heap: the item taken is a least
item `m` of the heap, and the heap that remains is the old one with `m` erased. -/
theorem pop_heap_spec (heap : List HeapItem) (hne : heap ≠ []) :
    ∃ m, m ∈ heap ∧ (∀ x ∈ heap, HeapItem.le m x) ∧
      (pop_heap heap).getLast? = some m ∧ (pop_heap heap).dropLast = erase_item heap m := by
  cases heap with
  | nil => exact absurd rfl hne
  | cons h t =>
    obtain ⟨h1, h2, h3⟩ := heap_top_spec t h
    refine ⟨heap_top h t, h1, ?_, ?_, ?_⟩
    · intro x hx
      rcases List.mem_cons.1 hx with hx | hx
      · rw [hx]; exact h2
      · exact h3 x hx
    · simp [pop_heap]
    · simp [pop_heap]

/-! ## Run iterators -/

theorem run_at_set_run_same (tl' : SortedRun) : ∀ (iter : List SortedRun) (i : Nat),
    run_at iter i ≠ [] → run_at (set_run iter i tl') i = tl' := by
  intro iter
  induction iter with
  | nil => intro i h; simp [run_at] at h
  | cons r rs ih =>
    intro i h
    cases i with
    | zero => simp [set_run, run_at]
    | succ i => simp only [set_run, run_at] at *; exact ih i h

theorem run_at_set_run_ne (tl' : SortedRun) : ∀ (iter : List SortedRun) (i j : Nat),
    i ≠ j → run_at (set_run iter i tl') j = run_at iter j := by
  intro iter
  induction iter with
  | nil => intro i j _; simp [set_run]
  | cons r rs ih =>
    intro i j h
    cases i with
    | zero =>
      cases j with
      | zero => exact absurd rfl h
      | succ j => simp [set_run, run_at]
    | succ i =>
      cases j with
      | zero => simp [set_run, run_at]
      | succ j =>
        simp only [set_run, run_at]
        exact ih i j (fun e => h (by rw [e]))

theorem run_at_mem : ∀ (iter : List SortedRun) (i : Nat),
    run_at iter i ≠ [] → run_at iter i ∈ iter := by
  intro iter
  induction iter with
  | nil => intro i h; simp [run_at] at h
  | cons r rs ih =>
    intro i h
    cases i with
    | zero => simp [run_at]
    | succ i => simp only [run_at] at *; exact List.mem_cons_of_mem _ (ih i h)

theorem mem_set_run (tl' : SortedRun) : ∀ (iter : List SortedRun) (i : Nat) (r : SortedRun),
    r ∈ set_run iter i tl' → r ∈ iter ∨ r = tl' := by
  intro iter
  induction iter with
  | nil => intro i r h; simp [set_run] at h
  | cons a rs ih =>
    intro i r h
    cases i with
    | zero =>
      simp only [set_run, List.mem_cons] at h
      rcases h with h | h
      · exact Or.inr h
      · exact Or.inl (List.mem_cons_of_mem _ h)
    | succ i =>
      simp only [set_run, List.mem_cons] at h
      rcases h with h | h
      · exact Or.inl (by rw [h]; simp)
      · rcases ih i r h with q | q
        · exact Or.inl (List.mem_cons_of_mem _ q)
        · exact Or.inr q

theorem total_size_set_run (v : TimeSeriesValue) (tl : SortedRun) :
    ∀ (iter : List SortedRun) (i : Nat), run_at iter i = v :: tl →
      total_size (set_run iter i tl) + 1 = total_size iter := by
  intro iter
  induction iter with
  | nil => intro i h; simp [run_at] at h
  | cons r rs ih =>
    intro i h
    cases i with
    | zero =>
      simp only [run_at] at h
      subst h
      simp only [set_run, total_size, List.map_cons, List.sum_cons, List.length_cons]
      omega
    | succ i =>
      simp only [run_at] at h
      have := ih i h
      simp only [set_run, total_size, List.map_cons, List.sum_cons] at *
      omega

theorem flatten_set_run_perm (v : TimeSeriesValue) (tl : SortedRun) :
    ∀ (iter : List SortedRun) (i : Nat), run_at iter i = v :: tl →
      List.Perm iter.flatten (v :: (set_run iter i tl).flatten) := by
  intro iter
  induction iter with
  | nil => intro i h; simp [run_at] at h
  | cons r rs ih =>
    intro i h
    cases i with
    | zero =>
      simp only [run_at] at h
      subst h
      simp [set_run]
    | succ i =>
      simp only [run_at] at h
      have := ih i h
      simp only [set_run, List.flatten_cons]
      exact (List.Perm.append_left r this).trans List.perm_middle

theorem flatten_nil_of_run_at : ∀ (iter : List SortedRun),
    (∀ i, run_at iter i = []) → iter.flatten = [] := by
  intro iter
  induction iter with
  | nil => intro _; rfl
  | cons r rs ih =>
    intro h
    have h0 := h 0
    simp only [run_at] at h0
    subst h0
    simp only [List.flatten_cons, List.nil_append]
    exact ih (fun i => by have := h (i + 1); simpa [run_at] using this)

/-! ## The loop of `merge` -/

theorem merge_loop_nil (fuel : Nat) (iter : List SortedRun) :
    merge_loop fuel iter [] = some [] := by
  cases fuel <;> simp [merge_loop]

/-- One turn of the loop: it pops a least item `m` and goes on from `next_iter`,
`next_heap`. -/
theorem merge_loop_succ (fuel : Nat) (iter : List SortedRun) (heap : List HeapItem)
    (hne : heap ≠ []) :
    ∃ m, m ∈ heap ∧ (∀ x ∈ heap, HeapItem.le m x) ∧
      merge_loop (fuel + 1) iter heap =
        (merge_loop fuel (next_iter iter m) (next_heap iter heap m)).map
          (fun out => m :: out) := by
  obtain ⟨m, hm, hmin, hlast, hdrop⟩ := pop_heap_spec heap hne
  refine ⟨m, hm, hmin, ?_⟩
  have he : heap.isEmpty = false := by
    cases heap with
    | nil => exact absurd rfl hne
    | cons _ _ => rfl
  simp only [merge_loop, he, hlast, hdrop, push_heap, next_iter, next_heap]
  cases run_at iter m.2 <;> simp

theorem erase_item_perm : ∀ (heap : List HeapItem) (m : HeapItem), m ∈ heap →
    List.Perm heap (m :: erase_item heap m) := by
  intro heap
  induction heap with
  | nil => intro m h; simp at h
  | cons x t ih =>
    intro m h
    by_cases e : x = m
    · subst e; simp [erase_item]
    · have hm : m ∈ t := by
        rcases List.mem_cons.1 h with q | q
        · exact absurd q.symm e
        · exact q
      simp only [erase_item, if_neg e]
      exact ((ih m hm).cons x).trans (List.Perm.swap m x _)

theorem mem_of_mem_erase_item {heap : List HeapItem} {m x : HeapItem}
    (h : x ∈ erase_item heap m) : x ∈ heap := by
  induction heap with
  | nil => simp [erase_item] at h
  | cons a t ih =>
    by_cases e : a = m
    · simp only [erase_item, if_pos e] at h; exact List.mem_cons_of_mem _ h
    · simp only [erase_item, if_neg e, List.mem_cons] at h
      rcases h with h | h
      · rw [h]; simp
      · exact List.mem_cons_of_mem _ (ih h)

theorem mem_erase_item_of_ne {heap : List HeapItem} {m x : HeapItem} (hx : x ∈ heap)
    (hne : x ≠ m) : x ∈ erase_item heap m := by
  induction heap with
  | nil => simp at hx
  | cons a t ih =>
    by_cases e : a = m
    · simp only [erase_item, if_pos e]
      rcases List.mem_cons.1 hx with q | q
      · exact absurd (q.trans e) hne
      · exact q
    · simp only [erase_item, if_neg e, List.mem_cons]
      rcases List.mem_cons.1 hx with q | q
      · exact Or.inl q
      · exact Or.inr (ih q)

theorem nodup_snd_erase {heap : List HeapItem} {m : HeapItem} (hm : m ∈ heap)
    (hd : (heap.map Prod.snd).Nodup) :
    ((erase_item heap m).map Prod.snd).Nodup ∧ ∀ x ∈ erase_item heap m, x.2 ≠ m.2 := by
  have hp : List.Perm (heap.map Prod.snd) (m.2 :: (erase_item heap m).map Prod.snd) := by
    have := (erase_item_perm heap m hm).map Prod.snd
    simpa using this
  have hd2 := (hp.nodup_iff).1 hd
  rw [List.nodup_cons] at hd2
  refine ⟨hd2.2, ?_⟩
  intro x hx e
  exact hd2.1 (by rw [← e]; exact List.mem_map_of_mem _ hx)

theorem mem_erase_of_snd_ne {heap : List HeapItem} {m x : HeapItem} (hx : x ∈ heap)
    (h : x.2 ≠ m.2) : x ∈ erase_item heap m := by
  have hne : x ≠ m := fun e => h (by rw [e])
  exact mem_erase_item_of_ne hx hne

theorem merge_inv_step {iter : List SortedRun} {heap : List HeapItem} {m : HeapItem}
    (inv : MergeInv iter heap) (hm : m ∈ heap) :
    MergeInv (next_iter iter m) (next_heap iter heap m) := by
  obtain ⟨hs, hb, hc, hd⟩ := inv
  obtain ⟨hd', hne'⟩ := nodup_snd_erase hm hd
  unfold next_iter next_heap
  cases hr : run_at iter m.2 with
  | nil =>
    simp only
    refine ⟨hs, ?_, ?_, hd'⟩
    · intro it hit x hx
      exact hb it (mem_of_mem_erase_item hit) x hx
    · intro i hi
      obtain ⟨v, hv⟩ := hc i hi
      have : i ≠ m.2 := by
        intro e; rw [e] at hi; exact hi hr
      exact ⟨v, mem_erase_of_snd_ne hv this⟩
  | cons v tl =>
    simp only
    have hrne : run_at iter m.2 ≠ [] := by rw [hr]; simp
    have hsorted : (v :: tl).Pairwise TimeSeriesValue.le := by
      rw [← hr]; exact hs _ (run_at_mem iter m.2 hrne)
    rw [List.pairwise_cons] at hsorted
    refine ⟨?_, ?_, ?_, ?_⟩
    · intro r hr'
      rcases mem_set_run tl iter m.2 r hr' with q | q
      · exact hs r q
      · rw [q]; exact hsorted.2
    · intro it hit x hx
      rcases List.mem_append.1 hit with q | q
      · have hne := hne' it q
        rw [run_at_set_run_ne tl iter m.2 it.2 (fun e => hne e.symm)] at hx
        exact hb it (mem_of_mem_erase_item q) x hx
      · simp only [List.mem_singleton] at q
        subst q
        simp only at hx
        rw [run_at_set_run_same tl iter m.2 hrne] at hx
        exact hsorted.1 x hx
    · intro i hi
      by_cases e : i = m.2
      · exact ⟨v, by rw [e]; simp⟩
      · rw [run_at_set_run_ne tl iter m.2 i (fun q => e q.symm)] at hi
        obtain ⟨w, hw⟩ := hc i hi
        exact ⟨w, List.mem_append_left _ (mem_erase_of_snd_ne hw e)⟩
    · rw [List.map_append, List.nodup_append]
      refine ⟨hd', by simp, ?_⟩
      intro a ha hb'
      simp only [List.map_cons, List.map_nil, List.mem_singleton] at hb'
      obtain ⟨x, hx, rfl⟩ := List.mem_map.1 ha
      exact hne' x hx hb'

theorem merge_measure_step (iter : List SortedRun) {heap : List HeapItem} {m : HeapItem}
    (hm : m ∈ heap) :
    (next_heap iter heap m).length + total_size (next_iter iter m) + 1 =
      heap.length + total_size iter := by
  have hl : (erase_item heap m).length + 1 = heap.length := by
    have := (erase_item_perm heap m hm).length_eq
    simp only [List.length_cons] at this
    omega
  unfold next_iter next_heap
  cases hr : run_at iter m.2 with
  | nil => simp only; omega
  | cons v tl =>
    simp only [List.length_append, List.length_singleton]
    have := total_size_set_run v tl iter m.2 hr
    omega

/-- The loop of `merge` empties the heap within `heap.size() + (unread values)` turns. -/
theorem merge_loop_terminates : ∀ (fuel : Nat) (iter : List SortedRun) (heap : List HeapItem),
    heap.length + total_size iter ≤ fuel → ∃ out, merge_loop fuel iter heap = some out := by
  intro fuel
  induction fuel with
  | zero =>
    intro iter heap h
    have : heap = [] := List.length_eq_zero.1 (by omega)
    subst this
    exact ⟨[], merge_loop_nil _ _⟩
  | succ fuel ih =>
    intro iter heap h
    by_cases hne : heap = []
    · subst hne; exact ⟨[], merge_loop_nil _ _⟩
    · obtain ⟨m, hm, _, heq⟩ := merge_loop_succ fuel iter heap hne
      have := merge_measure_step iter hm
      obtain ⟨out, ho⟩ := ih (next_iter iter m) (next_heap iter heap m) (by omega)
      exact ⟨m :: out, by rw [heq, ho]; rfl⟩

/-- Every item the loop writes was in the heap or is an unread value of its run. -/
theorem merge_loop_mem : ∀ (fuel : Nat) (iter : List SortedRun) (heap out : List HeapItem),
    merge_loop fuel iter heap = some out →
      ∀ o ∈ out, o ∈ heap ∨ o.1 ∈ run_at iter o.2 := by
  intro fuel
  induction fuel with
  | zero =>
    intro iter heap out h o ho
    cases heap with
    | nil => simp [merge_loop] at h; subst h; simp at ho
    | cons a t => simp [merge_loop] at h
  | succ fuel ih =>
    intro iter heap out h o ho
    by_cases hne : heap = []
    · subst hne; rw [merge_loop_nil] at h; cases h; simp at ho
    · obtain ⟨m, hm, _, heq⟩ := merge_loop_succ fuel iter heap hne
      rw [heq] at h
      cases hrec : merge_loop fuel (next_iter iter m) (next_heap iter heap m) with
      | none => rw [hrec] at h; cases h
      | some out' =>
        rw [hrec] at h
        simp only [Option.map_some', Option.some.injEq] at h
        subst h
        rcases List.mem_cons.1 ho with q | q
        · exact Or.inl (by rw [q]; exact hm)
        · have := ih _ _ _ hrec o q
          unfold next_iter next_heap at this
          cases hr : run_at iter m.2 with
          | nil =>
            rw [hr] at this
            simp only at this
            rcases this with w | w
            · exact Or.inl (mem_of_mem_erase_item w)
            · exact Or.inr w
          | cons v tl =>
            rw [hr] at this
            simp only at this
            have hrne : run_at iter m.2 ≠ [] := by rw [hr]; simp
            rcases this with w | w
            · rcases List.mem_append.1 w with w | w
              · exact Or.inl (mem_of_mem_erase_item w)
              · simp only [List.mem_singleton] at w
                subst w
                exact Or.inr (by simp [hr])
            · by_cases e : o.2 = m.2
              · rw [e, run_at_set_run_same tl iter m.2 hrne] at w
                exact Or.inr (by rw [e, hr]; exact List.mem_cons_of_mem _ w)
              · rw [run_at_set_run_ne tl iter m.2 o.2 (fun q => e q.symm)] at w
                exact Or.inr w

/-- Under the invariant, everything the loop writes is above some item of the heap. -/
theorem merge_loop_lower {fuel : Nat} {iter : List SortedRun} {heap out : List HeapItem}
    (inv : MergeInv iter heap) (h : merge_loop fuel iter heap = some out) :
    ∀ o ∈ out, ∃ x ∈ heap, HeapItem.le x o := by
  intro o ho
  rcases merge_loop_mem fuel iter heap out h o ho with q | q
  · exact ⟨o, q, item_le_refl o⟩
  · obtain ⟨_, hb, hc, _⟩ := inv
    have hne : run_at iter o.2 ≠ [] := List.ne_nil_of_mem q
    obtain ⟨v, hv⟩ := hc o.2 hne
    exact ⟨(v, o.2), hv, item_le_of_value_le o.2 (hb (v, o.2) hv o.1 q)⟩

/-- Under the invariant the loop writes its items in non-decreasing order of
`(key, run index)`. -/
theorem merge_loop_sorted : ∀ (fuel : Nat) (iter : List SortedRun) (heap out : List HeapItem),
    MergeInv iter heap → merge_loop fuel iter heap = some out → out.Pairwise HeapItem.le := by
  intro fuel
  induction fuel with
  | zero =>
    intro iter heap out _ h
    cases heap with
    | nil => simp [merge_loop] at h; subst h; exact List.Pairwise.nil
    | cons a t => simp [merge_loop] at h
  | succ fuel ih =>
    intro iter heap out inv h
    by_cases hne : heap = []
    · subst hne; rw [merge_loop_nil] at h; cases h; exact List.Pairwise.nil
    · obtain ⟨m, hm, hmin, heq⟩ := merge_loop_succ fuel iter heap hne
      rw [heq] at h
      cases hrec : merge_loop fuel (next_iter iter m) (next_heap iter heap m) with
      | none => rw [hrec] at h; cases h
      | some out' =>
        rw [hrec] at h
        simp only [Option.map_some', Option.some.injEq] at h
        subst h
        have inv' := merge_inv_step inv hm
        rw [List.pairwise_cons]
        refine ⟨?_, ih _ _ _ inv' hrec⟩
        intro o ho
        obtain ⟨x, hx, hxo⟩ := merge_loop_lower inv' hrec o ho
        refine item_le_trans ?_ hxo
        unfold next_heap at hx
        cases hr : run_at iter m.2 with
        | nil =>
          rw [hr] at hx
          exact hmin x (mem_of_mem_erase_item hx)
        | cons v tl =>
          rw [hr] at hx
          simp only at hx
          rcases List.mem_append.1 hx with w | w
          · exact hmin x (mem_of_mem_erase_item w)
          · simp only [List.mem_singleton] at w
            subst w
            have := inv.2.1 m hm v (by rw [hr]; simp)
            exact item_le_of_value_le m.2 this

/-- Under the invariant the loop writes exactly the heap values and the unread values. -/
theorem merge_loop_perm : ∀ (fuel : Nat) (iter : List SortedRun) (heap out : List HeapItem),
    MergeInv iter heap → merge_loop fuel iter heap = some out →
      List.Perm (out.map Prod.fst) (heap.map Prod.fst ++ iter.flatten) := by
  intro fuel
  induction fuel with
  | zero =>
    intro iter heap out inv h
    cases heap with
    | nil =>
      simp [merge_loop] at h; subst h
      have : iter.flatten = [] := flatten_nil_of_run_at iter (fun i => by
        by_contra c
        obtain ⟨v, hv⟩ := inv.2.2.1 i c
        simp at hv)
      simp [this]
    | cons a t => simp [merge_loop] at h
  | succ fuel ih =>
    intro iter heap out inv h
    by_cases hne : heap = []
    · subst hne; rw [merge_loop_nil] at h; cases h
      have : iter.flatten = [] := flatten_nil_of_run_at iter (fun i => by
        by_contra c
        obtain ⟨v, hv⟩ := inv.2.2.1 i c
        simp at hv)
      simp [this]
    · obtain ⟨m, hm, _, heq⟩ := merge_loop_succ fuel iter heap hne
      rw [heq] at h
      cases hrec : merge_loop fuel (next_iter iter m) (next_heap iter heap m) with
      | none => rw [hrec] at h; cases h
      | some out' =>
        rw [hrec] at h
        simp only [Option.map_some', Option.some.injEq] at h
        subst h
        have hp := ih _ _ _ (merge_inv_step inv hm) hrec
        have he := (erase_item_perm heap m hm).map Prod.fst
        simp only [List.map_cons] at he ⊢
        refine List.Perm.trans ?_ (he.append_right iter.flatten).symm
        simp only [List.cons_append]
        refine List.Perm.cons _ (hp.trans ?_)
        unfold next_iter next_heap
        cases hr : run_at iter m.2 with
        | nil => exact List.Perm.refl _
        | cons v tl =>
          simp only [List.map_append, List.map_cons, List.map_nil, List.append_assoc,
            List.singleton_append]
          exact List.Perm.append_left _ (flatten_set_run_perm v tl iter m.2 hr).symm

theorem filter_snd_eq_nil {heap : List HeapItem} {i : Nat} (h : ∀ x ∈ heap, x.2 ≠ i) :
    heap.filter (fun o => decide (o.2 = i)) = [] := by
  rw [List.filter_eq_nil_iff]
  intro x hx
  simpa using h x hx

theorem filter_erase_item_ne : ∀ (heap : List HeapItem) (m : HeapItem) (i : Nat), m.2 ≠ i →
    (erase_item heap m).filter (fun o => decide (o.2 = i)) =
      heap.filter (fun o => decide (o.2 = i)) := by
  intro heap
  induction heap with
  | nil => intro m i _; rfl
  | cons a t ih =>
    intro m i h
    by_cases e : a = m
    · subst e
      simp [erase_item, List.filter_cons, h]
    · simp only [erase_item, if_neg e, List.filter_cons]
      rw [ih m i h]

theorem filter_snd_eq_singleton : ∀ (heap : List HeapItem) (m : HeapItem), m ∈ heap →
    (heap.map Prod.snd).Nodup → heap.filter (fun o => decide (o.2 = m.2)) = [m] := by
  intro heap
  induction heap with
  | nil => intro m h; simp at h
  | cons a t ih =>
    intro m hm hd
    simp only [List.map_cons, List.nodup_cons] at hd
    rcases List.mem_cons.1 hm with q | q
    · subst q
      have : t.filter (fun o => decide (o.2 = m.2)) = [] :=
        filter_snd_eq_nil (fun x hx e => hd.1 (by rw [← e]; exact List.mem_map_of_mem _ hx))
      simp [List.filter_cons, this]
    · have hne : a.2 ≠ m.2 := fun e => hd.1 (by rw [e]; exact List.mem_map_of_mem _ q)
      simp only [List.filter_cons, hne, decide_False, Bool.false_eq_true, if_false]
      exact ih m q hd.2

/-- Under the invariant the items written for one run are the run's heap item followed
by its unread values, in the order of the run. -/
theorem merge_loop_run : ∀ (fuel : Nat) (iter : List SortedRun) (heap out : List HeapItem),
    MergeInv iter heap → merge_loop fuel iter heap = some out →
      ∀ i, (out.filter (fun o => decide (o.2 = i))).map Prod.fst =
        (heap.filter (fun o => decide (o.2 = i))).map Prod.fst ++ run_at iter i := by
  intro fuel
  induction fuel with
  | zero =>
    intro iter heap out inv h i
    cases heap with
    | nil =>
      simp [merge_loop] at h; subst h
      have : run_at iter i = [] := by
        by_contra c
        obtain ⟨v, hv⟩ := inv.2.2.1 i c
        simp at hv
      simp [this]
    | cons a t => simp [merge_loop] at h
  | succ fuel ih =>
    intro iter heap out inv h i
    by_cases hne : heap = []
    · subst hne; rw [merge_loop_nil] at h; cases h
      have : run_at iter i = [] := by
        by_contra c
        obtain ⟨v, hv⟩ := inv.2.2.1 i c
        simp at hv
      simp [this]
    · obtain ⟨m, hm, _, heq⟩ := merge_loop_succ fuel iter heap hne
      rw [heq] at h
      cases hrec : merge_loop fuel (next_iter iter m) (next_heap iter heap m) with
      | none => rw [hrec] at h; cases h
      | some out' =>
        rw [hrec] at h
        simp only [Option.map_some', Option.some.injEq] at h
        subst h
        have hrun := ih _ _ _ (merge_inv_step inv hm) hrec i
        obtain ⟨_, hne'⟩ := nodup_snd_erase hm inv.2.2.2
        by_cases e : m.2 = i
        · subst e
          have hf : (erase_item heap m).filter (fun o => decide (o.2 = m.2)) = [] :=
            filter_snd_eq_nil hne'
          rw [filter_snd_eq_singleton heap m hm inv.2.2.2]
          simp only [List.filter_cons, decide_True, if_true, List.map_cons, hrun,
            List.map_nil, List.singleton_append, List.cons.injEq, true_and]
          unfold next_iter next_heap
          cases hr : run_at iter m.2 with
          | nil => simp [hf, hr]
          | cons v tl =>
            have hrne : run_at iter m.2 ≠ [] := by rw [hr]; simp
            simp [List.filter_append, hf, List.filter_cons,
              run_at_set_run_same tl iter m.2 hrne]
        · simp only [List.filter_cons, e, decide_False, Bool.false_eq_true, if_false, hrun]
          unfold next_iter next_heap
          cases hr : run_at iter m.2 with
          | nil => simp only; rw [filter_erase_item_ne heap m i e]
          | cons v tl =>
            simp only [List.filter_append, List.filter_cons, e, decide_False,
              Bool.false_eq_true, if_false, List.filter_nil, List.append_nil]
            rw [filter_erase_item_ne heap m i e, run_at_set_run_ne tl iter m.2 i e]

/-! ## The first loop of `merge` -/

theorem merge_init_cons (k : Nat) (run : SortedRun) (rest : List SortedRun) :
    merge_init k (run :: rest) =
      (run.tail :: (merge_init (k + 1) rest).1,
        (match run with
          | [] => (merge_init (k + 1) rest).2
          | v :: _ => (v, k) :: (merge_init (k + 1) rest).2)) := by
  cases run <;> simp [merge_init]

theorem merge_init_run_at : ∀ (runs : List SortedRun) (k j : Nat),
    run_at (merge_init k runs).1 j = (run_at runs j).tail := by
  intro runs
  induction runs with
  | nil => intro k j; simp [merge_init, run_at]
  | cons r rs ih =>
    intro k j
    rw [merge_init_cons]
    cases j with
    | zero => simp [run_at]
    | succ j => simp only [run_at]; exact ih (k + 1) j

theorem merge_init_mem_iter : ∀ (runs : List SortedRun) (k : Nat) (r : SortedRun),
    r ∈ (merge_init k runs).1 → ∃ r' ∈ runs, r = r'.tail := by
  intro runs
  induction runs with
  | nil => intro k r h; simp [merge_init] at h
  | cons a rs ih =>
    intro k r h
    rw [merge_init_cons] at h
    rcases List.mem_cons.1 h with q | q
    · exact ⟨a, by simp, q⟩
    · obtain ⟨r', hr', e⟩ := ih (k + 1) r q
      exact ⟨r', List.mem_cons_of_mem _ hr', e⟩

theorem merge_init_mem_heap : ∀ (runs : List SortedRun) (k : Nat) (it : HeapItem),
    it ∈ (merge_init k runs).2 ↔
      k ≤ it.2 ∧ ∃ tl, run_at runs (it.2 - k) = it.1 :: tl := by
  intro runs
  induction runs with
  | nil => intro k it; simp [merge_init, run_at]
  | cons a rs ih =>
    intro k it
    rw [merge_init_cons]
    have hrec := ih (k + 1) it
    by_cases e : it.2 = k
    · have h0 : it.2 - k = 0 := by omega
      have hnot : ¬ it ∈ (merge_init (k + 1) rs).2 := by
        rw [hrec]; intro h; omega
      cases a with
      | nil => simp [hnot, h0, run_at]
      | cons v tl =>
        simp only [List.mem_cons, hnot, or_false, h0, run_at, List.cons.injEq]
        constructor
        · intro h; subst h; exact ⟨Nat.le_refl _, tl, rfl, rfl⟩
        · rintro ⟨_, tl', h1, _⟩
          exact Prod.ext h1.symm e
    · have hne : it ≠ (it.1, k) := fun h => e (by rw [h])
      have key : it ∈ (merge_init (k + 1) rs).2 ↔
          k ≤ it.2 ∧ ∃ tl, run_at (a :: rs) (it.2 - k) = it.1 :: tl := by
        rw [hrec]
        constructor
        · rintro ⟨h1, tl, h2⟩
          refine ⟨by omega, tl, ?_⟩
          have : it.2 - k = (it.2 - (k + 1)) + 1 := by omega
          rw [this]; simpa [run_at] using h2
        · rintro ⟨h1, tl, h2⟩
          have hlt : k + 1 ≤ it.2 := by omega
          refine ⟨hlt, tl, ?_⟩
          have : it.2 - k = (it.2 - (k + 1)) + 1 := by omega
          rw [this] at h2; simpa [run_at] using h2
      cases a with
      | nil => simpa using key
      | cons v tl =>
        simp only [List.mem_cons]
        rw [← key]
        constructor
        · rintro (h | h)
          · exact absurd (by rw [h]) e
          · exact h
        · intro h; exact Or.inr h

theorem merge_init_snd_sorted : ∀ (runs : List SortedRun) (k : Nat),
    ((merge_init k runs).2.map Prod.snd).Pairwise (fun a b => a < b) := by
  intro runs
  induction runs with
  | nil => intro k; simp [merge_init]
  | cons a rs ih =>
    intro k
    rw [merge_init_cons]
    cases a with
    | nil => exact ih (k + 1)
    | cons v tl =>
      simp only [List.map_cons, List.pairwise_cons]
      refine ⟨?_, ih (k + 1)⟩
      intro b hb
      obtain ⟨x, hx, rfl⟩ := List.mem_map.1 hb
      have := ((merge_init_mem_heap rs (k + 1) x).1 hx).1
      omega

theorem merge_init_measure : ∀ (runs : List SortedRun) (k : Nat),
    (merge_init k runs).2.length + total_size (merge_init k runs).1 = total_size runs := by
  intro runs
  induction runs with
  | nil => intro k; simp [merge_init, total_size]
  | cons a rs ih =>
    intro k
    rw [merge_init_cons]
    have := ih (k + 1)
    cases a with
    | nil => simp only [total_size, List.map_cons, List.sum_cons, List.tail_nil,
        List.length_nil] at *; omega
    | cons v tl => simp only [total_size, List.map_cons, List.sum_cons, List.tail_cons,
        List.length_cons] at *; omega

theorem merge_init_perm : ∀ (runs : List SortedRun) (k : Nat),
    List.Perm ((merge_init k runs).2.map Prod.fst ++ (merge_init k runs).1.flatten)
      runs.flatten := by
  intro runs
  induction runs with
  | nil => intro k; simp [merge_init]
  | cons a rs ih =>
    intro k
    rw [merge_init_cons]
    have := ih (k + 1)
    cases a with
    | nil => simpa using this
    | cons v tl =>
      simp only [List.map_cons, List.tail_cons, List.flatten_cons, List.cons_append]
      refine List.Perm.cons _ ?_
      refine List.Perm.trans ?_ (List.Perm.append_left tl this)
      rw [← List.append_assoc, ← List.append_assoc]
      exact List.Perm.append_right _ List.perm_append_comm

theorem merge_init_run : ∀ (runs : List SortedRun) (k j : Nat),
    ((merge_init k runs).2.filter (fun o => decide (o.2 = k + j))).map Prod.fst ++
      run_at (merge_init k runs).1 j = run_at runs j := by
  intro runs
  induction runs with
  | nil => intro k j; simp [merge_init, run_at]
  | cons a rs ih =>
    intro k j
    rw [merge_init_cons]
    cases j with
    | zero =>
      rw [Nat.add_zero]
      have hnil : (merge_init (k + 1) rs).2.filter (fun o => decide (o.2 = k)) = [] := by
        apply filter_snd_eq_nil
        intro x hx
        have := ((merge_init_mem_heap rs (k + 1) x).1 hx).1
        omega
      cases a with
      | nil => simp [run_at, hnil]
      | cons v tl => simp [run_at, List.filter_cons, hnil]
    | succ j =>
      have hrec := ih (k + 1) j
      have e : k + 1 + j = k + (j + 1) := by omega
      rw [e] at hrec
      cases a with
      | nil => simpa [run_at] using hrec
      | cons v tl =>
        have hk : ¬ k = k + (j + 1) := by omega
        simpa [run_at, List.filter_cons, hk] using hrec

/-- The invariant of the main loop holds when it starts, if the runs are sorted. -/
theorem merge_init_inv (runs : List SortedRun)
    (hs : ∀ r ∈ runs, r.Pairwise TimeSeriesValue.le) :
    MergeInv (merge_init 0 runs).1 (merge_init 0 runs).2 := by
  refine ⟨?_, ?_, ?_, ?_⟩
  · intro r hr
    obtain ⟨r', hr', e⟩ := merge_init_mem_iter runs 0 r hr
    rw [e]; exact (hs r' hr').tail
  · intro it hit x hx
    obtain ⟨_, tl, h⟩ := (merge_init_mem_heap runs 0 it).1 hit
    rw [merge_init_run_at] at hx
    simp only [Nat.sub_zero] at h
    rw [h] at hx
    simp only [List.tail_cons] at hx
    have hne : run_at runs it.2 ≠ [] := by rw [h]; simp
    have := hs _ (run_at_mem runs it.2 hne)
    rw [h, List.pairwise_cons] at this
    exact this.1 x hx
  · intro i hi
    rw [merge_init_run_at] at hi
    cases hr : run_at runs i with
    | nil => rw [hr] at hi; simp at hi
    | cons v tl =>
      exact ⟨v, (merge_init_mem_heap runs 0 (v, i)).2 ⟨Nat.zero_le _, tl, by simpa using hr⟩⟩
  · exact (merge_init_snd_sorted runs 0).imp (fun h => Nat.ne_of_lt h)

/-! ## `Sequencer::add` -/

/-- What the halving search returns on any range, partitioned or not: a position of the
range, which is the end of the range or holds an element for which `comp` is false. -/
theorem lower_bound_loop_spec {α β : Type} (comp : α → β → Bool) (xs : List α) (value : β)
    (L : Nat) (hL : L ≤ xs.length) : ∀ (fuel first len : Nat), len ≤ fuel → first + len ≤ L →
      (first + len = L ∨ ∃ m, xs[first + len]? = some m ∧ comp m value = false) →
      (lower_bound_loop comp xs value fuel first len = L ∨
        ∃ m, xs[lower_bound_loop comp xs value fuel first len]? = some m ∧
          comp m value = false) ∧
      first ≤ lower_bound_loop comp xs value fuel first len ∧
      lower_bound_loop comp xs value fuel first len ≤ first + len := by
  intro fuel
  induction fuel with
  | zero =>
    intro first len h1 _ h3
    have : len = 0 := by omega
    subst this
    simpa [lower_bound_loop] using h3
  | succ fuel ih =>
    intro first len h1 h2 h3
    by_cases hl : len > 0
    · have hmid : first + len / 2 < xs.length := by
        have : len / 2 < len := Nat.div_lt_self hl (by decide)
        omega
      have hget : xs[first + len / 2]? = some (xs[first + len / 2]) :=
        List.getElem?_eq_getElem hmid
      simp only [lower_bound_loop, hl, if_true, hget]
      have hd : len / 2 < len := Nat.div_lt_self hl (by decide)
      by_cases c : comp xs[first + len / 2] value = true
      · simp only [c, if_true]
        have e : first + len / 2 + 1 + (len - len / 2 - 1) = first + len := by omega
        have := ih (first + len / 2 + 1) (len - len / 2 - 1) (by omega) (by omega)
          (by rw [e]; exact h3)
        refine ⟨this.1, by omega, by omega⟩
      · simp only [c, Bool.false_eq_true, if_false]
        have := ih first (len / 2) (by omega) (by omega)
          (Or.inr ⟨_, hget, by simpa using c⟩)
        refine ⟨this.1, this.2.1, by omega⟩
    · have : len = 0 := by omega
      subst this
      simpa [lower_bound_loop] using h3

theorem mem_push_back_at (v : TimeSeriesValue) : ∀ (runs : List SortedRun) (i : Nat)
    (r' : SortedRun), r' ∈ push_back_at runs i v →
      r' ∈ runs ∨ ∃ r, runs[i]? = some r ∧ r' = r ++ [v] := by
  intro runs
  induction runs with
  | nil => intro i r' h; simp [push_back_at] at h
  | cons a rs ih =>
    intro i r' h
    cases i with
    | zero =>
      simp only [push_back_at, List.mem_cons] at h
      rcases h with h | h
      · exact Or.inr ⟨a, by simp, h⟩
      · exact Or.inl (List.mem_cons_of_mem _ h)
    | succ i =>
      simp only [push_back_at, List.mem_cons] at h
      rcases h with h | h
      · exact Or.inl (by rw [h]; simp)
      · rcases ih i r' h with q | ⟨r, q1, q2⟩
        · exact Or.inl (List.mem_cons_of_mem _ q)
        · exact Or.inr ⟨r, by simpa using q1, q2⟩

theorem push_back_at_perm (v : TimeSeriesValue) : ∀ (runs : List SortedRun) (i : Nat),
    i < runs.length → List.Perm (push_back_at runs i v).flatten (v :: runs.flatten) := by
  intro runs
  induction runs with
  | nil => intro i h; simp at h
  | cons a rs ih =>
    intro i h
    cases i with
    | zero =>
      simp only [push_back_at, List.flatten_cons, List.append_assoc, List.singleton_append]
      exact List.perm_middle
    | succ i =>
      simp only [push_back_at, List.flatten_cons]
      have := ih i (by simpa using h)
      exact (List.Perm.append_left a this).trans List.perm_middle

theorem le_back_of_sorted : ∀ (r : SortedRun), r.Pairwise TimeSeriesValue.le →
    ∀ a ∈ r, TimeSeriesValue.le a (SortedRun.back r) := by
  intro r hs a ha
  have hne : r ≠ [] := List.ne_nil_of_mem ha
  have hb : SortedRun.back r = r.getLast hne := by
    unfold SortedRun.back
    cases r with
    | nil => exact absurd rfl hne
    | cons x t => rfl
  rw [hb]
  have hsplit := List.dropLast_concat_getLast hne
  rw [← hsplit] at hs ha
  rw [List.pairwise_append] at hs
  rcases List.mem_append.1 ha with q | q
  · exact hs.2.2 a q _ (by simp)
  · simp only [List.mem_singleton] at q
    rw [q]; exact value_le_refl _

theorem sequencer_add_eq (s : Sequencer) (value : TimeSeriesValue) :
    s.add value =
      if s.insert_pos value = s.runs_.length then
        { s with key_ := s.key_.dropLast ++ [value], runs_ := s.runs_ ++ [[value]] }
      else
        { s with key_ := s.key_.dropLast ++ [value],
                 runs_ := push_back_at s.runs_ (s.insert_pos value) value } := rfl

/-- The position `add` appends at: the end of the run list, or a run of the window whose
last element is not above the value. -/
theorem add_position (s : Sequencer) (value : TimeSeriesValue) :
    (s.insert_pos value = s.runs_.length ∨ ∃ r, s.runs_[s.insert_pos value]? = some r ∧
      TimeSeriesValue.le (SortedRun.back r) value) ∧
    s.window_begin ≤ s.insert_pos value ∧ s.insert_pos value ≤ s.runs_.length := by
  unfold Sequencer.insert_pos lower_bound
  generalize hsz : s.runs_.length = size
  generalize hbg : s.window_begin = begin
  have hb : begin ≤ size := by
    rw [← hbg, ← hsz]; unfold Sequencer.window_begin
    split <;> omega
  subst hsz
  have key := lower_bound_loop_spec top_element_more s.runs_ (s.key_.dropLast ++ [value])
    s.runs_.length (Nat.le_refl _) (s.runs_.length - begin) begin (s.runs_.length - begin)
    (Nat.le_refl _) (by omega) (Or.inl (by omega))
  have e : begin + (s.runs_.length - begin) = s.runs_.length := by omega
  rw [e] at key
  refine ⟨?_, key.2.1, key.2.2⟩
  rcases key.1 with q | ⟨m, q1, q2⟩
  · exact Or.inl q
  · refine Or.inr ⟨m, q1, ?_⟩
    unfold top_element_more top_element_less at q2
    have hk : SortedRun.back (s.key_.dropLast ++ [value]) = value := by
      unfold SortedRun.back
      rw [List.getLastD_eq_getLast?, List.getLast?_concat]; rfl
    rw [hk] at q2
    exact q2

theorem seq_inv_add {s : Sequencer} (inv : SeqInv s) (value : TimeSeriesValue) :
    SeqInv (s.add value) := by
  obtain ⟨h1, _, h3⟩ := add_position s value
  rw [sequencer_add_eq]
  split
  · intro r hr
    simp only [List.mem_append, List.mem_singleton] at hr
    rcases hr with q | q
    · exact inv r q
    · subst q; simp
  · rename_i hne
    intro r hr
    rcases mem_push_back_at value _ _ r hr with q | ⟨r0, q1, q2⟩
    · exact inv r q
    · rcases h1 with e | ⟨r1, e1, e2⟩
      · exact absurd e hne
      · rw [q1] at e1
        cases e1
        have hr0 : r0 ∈ s.runs_ := List.getElem?_mem q1
        subst q2
        refine ⟨by simp, ?_⟩
        rw [List.pairwise_append]
        refine ⟨(inv r0 hr0).2, by simp, ?_⟩
        intro a ha b hb
        simp only [List.mem_singleton] at hb
        subst hb
        exact value_le_trans (le_back_of_sorted r0 (inv r0 hr0).2 a ha) e2

theorem add_perm (s : Sequencer) (value : TimeSeriesValue) :
    List.Perm (s.add value).runs_.flatten (value :: s.runs_.flatten) := by
  obtain ⟨_, _, h3⟩ := add_position s value
  rw [sequencer_add_eq]
  split
  · simp only [List.flatten_append, List.flatten_cons, List.flatten_nil, List.append_nil]
    exact (List.perm_append_comm).trans (by simp)
  · rename_i hne
    exact push_back_at_perm value _ _ (by omega)

theorem foldl_add_inv (values : List TimeSeriesValue) : ∀ (s : Sequencer), SeqInv s →
    SeqInv (values.foldl Sequencer.add s) := by
  induction values with
  | nil => intro s h; exact h
  | cons v vs ih => intro s h; exact ih _ (seq_inv_add h v)

theorem foldl_add_perm (values : List TimeSeriesValue) : ∀ (s : Sequencer),
    List.Perm (values.foldl Sequencer.add s).runs_.flatten (s.runs_.flatten ++ values) := by
  induction values with
  | nil => intro s; simp
  | cons v vs ih =>
    intro s
    refine (ih (s.add v)).trans ?_
    refine ((add_perm s v).append_right vs).trans ?_
    simp only [List.cons_append]
    exact List.perm_middle.symm

theorem addAll_inv (W : Nat) (values : List TimeSeriesValue) :
    SeqInv (Sequencer.addAll W values) :=
  foldl_add_inv values _ (by intro r hr; simp [Sequencer.mk0] at hr)

theorem addAll_perm (W : Nat) (values : List TimeSeriesValue) :
    List.Perm (Sequencer.addAll W values).runs_.flatten values := by
  have := foldl_add_perm values (Sequencer.mk0 W)
  simpa [Sequencer.mk0] using this

/-- On a Sequencer whose runs are sorted, `merge` returns. -/
theorem merge_tagged_returns (s : Sequencer) :
    ∃ out, s.merge_tagged = some out := by
  unfold Sequencer.merge_tagged
  exact merge_loop_terminates _ _ _ (by
    simp only [make_heap]; rw [merge_init_measure])

/-! ## Claims about the Sequencer -/

/-- C1: for every window size and every sequence of values given to `Sequencer::add`,
`Sequencer::merge` returns and the sequence it writes is in non-decreasing order of the key
`(timestamp, series_id)`. -/
theorem merge_sorted (W : Nat) (values : List TimeSeriesValue) :
    ∃ out, (Sequencer.addAll W values).merge = some out ∧
      out.Pairwise (fun a b =>
        a.key_.1 < b.key_.1 ∨ (a.key_.1 = b.key_.1 ∧ a.key_.2 ≤ b.key_.2)) := by
  obtain ⟨out, ho⟩ := merge_tagged_returns (Sequencer.addAll W values)
  refine ⟨out.map Prod.fst, by simp [Sequencer.merge, ho], ?_⟩
  have inv := merge_init_inv (Sequencer.addAll W values).runs_
    (fun r hr => (addAll_inv W values r hr).2)
  have hs := merge_loop_sorted _ _ _ out inv ho
  rw [List.pairwise_map]
  refine hs.imp ?_
  intro a b hab
  unfold HeapItem.le at hab
  rw [item_lt_false_iff] at hab
  omega

/-- C2: for every window size and every sequence of values given to `Sequencer::add`, the
sequence `Sequencer::merge` writes is a permutation of the added values: every
`(timestamp, series_id, payload_offset)` triple occurs as often as it was added. -/
theorem merge_perm (W : Nat) (values : List TimeSeriesValue) :
    ∃ out, (Sequencer.addAll W values).merge = some out ∧ List.Perm out values := by
  obtain ⟨out, ho⟩ := merge_tagged_returns (Sequencer.addAll W values)
  refine ⟨out.map Prod.fst, by simp [Sequencer.merge, ho], ?_⟩
  have inv := merge_init_inv (Sequencer.addAll W values).runs_
    (fun r hr => (addAll_inv W values r hr).2)
  exact ((merge_loop_perm _ _ _ out inv ho).trans (merge_init_perm _ 0)).trans
    (addAll_perm W values)

/-- C8: in the output of `Sequencer::merge` ties are broken by run index. With `out` the
written values tagged by the run they come from: of two written values with equal key the
earlier one comes from a run of smaller or equal index, and the values of one run are written
in the order they have in the run. -/
theorem merge_ties_by_run (W : Nat) (values : List TimeSeriesValue) :
    ∃ out, (Sequencer.addAll W values).merge_tagged = some out ∧
      (Sequencer.addAll W values).merge = some (out.map Prod.fst) ∧
      out.Pairwise (fun a b => a.1.key_ = b.1.key_ → a.2 ≤ b.2) ∧
      ∀ i, (out.filter (fun o => decide (o.2 = i))).map Prod.fst =
        run_at (Sequencer.addAll W values).runs_ i := by
  obtain ⟨out, ho⟩ := merge_tagged_returns (Sequencer.addAll W values)
  refine ⟨out, ho, by simp [Sequencer.merge, ho], ?_, ?_⟩
  · have inv := merge_init_inv (Sequencer.addAll W values).runs_
      (fun r hr => (addAll_inv W values r hr).2)
    have hs := merge_loop_sorted _ _ _ out inv ho
    refine hs.imp ?_
    intro a b hab e
    unfold HeapItem.le at hab
    rw [item_lt_false_iff] at hab
    rw [e] at hab
    omega
  · intro i
    have inv := merge_init_inv (Sequencer.addAll W values).runs_
      (fun r hr => (addAll_inv W values r hr).2)
    have h1 := merge_loop_run _ _ _ out inv ho i
    have h2 := merge_init_run (Sequencer.addAll W values).runs_ 0 i
    simp only [Nat.zero_add] at h2
    rw [h1]
    exact h2

/-! ## `Roaring64Map` -/

theorem mem_bitmap_add : ∀ (b : Roaring64Map) (x y : Nat),
    y ∈ Roaring64Map.add b x ↔ y = x ∨ y ∈ b := by
  intro b
  induction b with
  | nil => intro x y; simp [Roaring64Map.add]
  | cons a t ih =>
    intro x y
    simp only [Roaring64Map.add]
    split
    · simp
    · split
      · rename_i h; subst h; simp
      · simp only [List.mem_cons, ih]
        constructor
        · rintro (h | h | h)
          · exact Or.inr (Or.inl h)
          · exact Or.inl h
          · exact Or.inr (Or.inr h)
        · rintro (h | h | h)
          · exact Or.inr (Or.inl h)
          · exact Or.inl h
          · exact Or.inr (Or.inr h)

theorem bitmap_add_sorted : ∀ (b : Roaring64Map) (x : Nat),
    b.Pairwise (fun a c => a < c) → (Roaring64Map.add b x).Pairwise (fun a c => a < c) := by
  intro b
  induction b with
  | nil => intro x _; simp [Roaring64Map.add]
  | cons a t ih =>
    intro x h
    simp only [Roaring64Map.add]
    rw [List.pairwise_cons] at h
    split
    · rename_i hlt
      rw [List.pairwise_cons]
      refine ⟨?_, List.pairwise_cons.2 h⟩
      intro c hc
      rcases List.mem_cons.1 hc with q | q
      · rw [q]; exact hlt
      · exact Nat.lt_trans hlt (h.1 c q)
    · split
      · exact List.pairwise_cons.2 h
      · rw [List.pairwise_cons]
        refine ⟨?_, ih x h.2⟩
        intro c hc
        rcases (mem_bitmap_add t x c).1 hc with q | q
        · omega
        · exact h.1 c q

theorem mem_foldl_bitmap_add : ∀ (m sum : Roaring64Map) (y : Nat),
    y ∈ m.foldl Roaring64Map.add sum ↔ y ∈ sum ∨ y ∈ m := by
  intro m
  induction m with
  | nil => intro sum y; simp
  | cons a t ih =>
    intro sum y
    simp only [List.foldl_cons, ih, mem_bitmap_add, List.mem_cons]
    constructor
    · rintro ((h | h) | h)
      · exact Or.inr (Or.inl h)
      · exact Or.inl h
      · exact Or.inr (Or.inr h)
    · rintro (h | h | h)
      · exact Or.inl (Or.inr h)
      · exact Or.inl (Or.inl h)
      · exact Or.inr h

theorem mem_foldl_union : ∀ (inputs : List Roaring64Map) (sum : Roaring64Map) (y : Nat),
    y ∈ inputs.foldl (fun sum m => m.foldl Roaring64Map.add sum) sum ↔
      y ∈ sum ∨ ∃ m ∈ inputs, y ∈ m := by
  intro inputs
  induction inputs with
  | nil => intro sum y; simp
  | cons a t ih =>
    intro sum y
    simp only [List.foldl_cons, ih, mem_foldl_bitmap_add, List.mem_cons]
    constructor
    · rintro ((h | h) | ⟨m, hm, h⟩)
      · exact Or.inl h
      · exact Or.inr ⟨a, Or.inl rfl, h⟩
      · exact Or.inr ⟨m, Or.inr hm, h⟩
    · rintro (h | ⟨m, hm | hm, h⟩)
      · exact Or.inl (Or.inl h)
      · subst hm; exact Or.inl (Or.inr h)
      · exact Or.inr ⟨m, hm, h⟩

theorem mem_fastunion (inputs : List Roaring64Map) (y : Nat) :
    y ∈ Roaring64Map.fastunion inputs ↔ ∃ m ∈ inputs, y ∈ m := by
  unfold Roaring64Map.fastunion
  rw [mem_foldl_union]
  simp

theorem mem_minus (a b : Roaring64Map) (y : Nat) :
    y ∈ Roaring64Map.minus a b ↔ y ∈ a ∧ y ∉ b := by
  unfold Roaring64Map.minus
  simp [List.mem_filter]

theorem minus_nodup (a b : Roaring64Map) (h : a.Pairwise (fun x y => x < y)) :
    (Roaring64Map.minus a b).Nodup := by
  unfold Roaring64Map.minus
  exact ((h.imp (fun h => Nat.ne_of_lt h)).filter _)

/-! ## `LZ4Volume::write` and `LZ4Volume::append` -/

theorem write_ok {v v3 : LZ4Volume} {i : Nat} {env : WriteEnv} {status : aku_Status}
    (h : v.write i env = .ok (status, v3)) :
    v.is_read_only_ = false ∧ 0 < env.out_bytes ∧ env.apr_success = true ∧
      status = aku_Status.AKU_SUCCESS ∧
      v3 = { v with file_ := v.file_ ++ [{ size := env.out_bytes.toNat,
                                           payload := some (v.frames_ i), readable := true }],
                    file_size_ := v.file_size_ + (4 + env.out_bytes.toNat) } := by
  unfold LZ4Volume.write at h
  by_cases hro : v.is_read_only_ = true
  · simp [hro] at h
  · by_cases hob : env.out_bytes ≤ 0
    · simp [hro, hob] at h
    · by_cases hapr : env.apr_success = true
      · have hro2 : v.is_read_only_ = false := by simpa using hro
        simp only [hro2, hob, hapr, _write_frame, Bool.false_eq_true, if_false, Bool.not_true,
          if_true, Except.ok.injEq, Prod.mk.injEq] at h
        refine ⟨hro2, by omega, hapr, h.1.symm, ?_⟩
        rw [← h.2]
        simp [hro2]
      · simp [hro, hob, hapr, _write_frame, log_apr_error] at h

theorem write_returns (v : LZ4Volume) (i : Nat) (env : WriteEnv)
    (hro : v.is_read_only_ = false) (hob : 0 < env.out_bytes) (hapr : env.apr_success = true) :
    v.write i env = .ok (aku_Status.AKU_SUCCESS,
      { v with file_ := v.file_ ++ [{ size := env.out_bytes.toNat,
                                      payload := some (v.frames_ i), readable := true }],
               file_size_ := v.file_size_ + (4 + env.out_bytes.toNat) }) := by
  unfold LZ4Volume.write
  have : ¬ env.out_bytes ≤ 0 := by omega
  simp [hro, this, hapr, _write_frame]

theorem append_unfold (NUM_TUPLES : Nat) (v : LZ4Volume) (id timestamp value : Nat)
    (env : WriteEnv) :
    v.append NUM_TUPLES id timestamp value env =
      if (v.frames_ v.pos_).size + 1 = NUM_TUPLES then
        match (v.stored id timestamp value).write v.pos_ env with
        | .error e => .error e
        | .ok (status, v3) =>
          if status ≠ aku_Status.AKU_SUCCESS then .ok (status, v3)
          else
            .ok ((LZ4Volume.clear NUM_TUPLES { v3 with pos_ := (v3.pos_ + 1) % 2 }
                  ((v3.pos_ + 1) % 2)).overflow_status,
                 LZ4Volume.clear NUM_TUPLES { v3 with pos_ := (v3.pos_ + 1) % 2 }
                  ((v3.pos_ + 1) % 2))
      else .ok ((v.stored id timestamp value).overflow_status, v.stored id timestamp value) := by
  unfold LZ4Volume.append LZ4Volume.stored LZ4Volume.stored_frame LZ4Volume.overflow_status
  have hp : ∀ (w : LZ4Volume) (f : Frame), (w.set_frame v.pos_ f).pos_ = w.pos_ := by
    intro w f; unfold LZ4Volume.set_frame; split <;> rfl
  have hf : ∀ (b : Roaring64Map) (i : Nat),
      LZ4Volume.frames_ { v with bitmap_ := b } i = v.frames_ i := fun _ _ => rfl
  simp only [hp, hf]
  by_cases hfull : (v.frames_ v.pos_).size + 1 = NUM_TUPLES
  · subst hfull
    simp only [if_true]
    generalize LZ4Volume.write _ v.pos_ env = r
    cases r with
    | error e => rfl
    | ok p =>
      obtain ⟨status, v3⟩ := p
      simp only
      by_cases hs : status = aku_Status.AKU_SUCCESS
      · simp only [hs, ne_eq, not_true_eq_false, if_false]
        split <;> rfl
      · simp only [ne_eq, hs, not_false_eq_true, if_true]
  · simp only [hfull, if_false]
    split <;> rfl

theorem set_frame_pos (v : LZ4Volume) (i : Nat) (f : Frame) : (v.set_frame i f).pos_ = v.pos_ := by
  unfold LZ4Volume.set_frame; split <;> rfl

theorem set_frame_bitmap (v : LZ4Volume) (i : Nat) (f : Frame) :
    (v.set_frame i f).bitmap_ = v.bitmap_ := by
  unfold LZ4Volume.set_frame; split <;> rfl

theorem set_frame_file (v : LZ4Volume) (i : Nat) (f : Frame) :
    (v.set_frame i f).file_ = v.file_ := by
  unfold LZ4Volume.set_frame; split <;> rfl

theorem set_frame_file_size (v : LZ4Volume) (i : Nat) (f : Frame) :
    (v.set_frame i f).file_size_ = v.file_size_ := by
  unfold LZ4Volume.set_frame; split <;> rfl

theorem set_frame_max_file_size (v : LZ4Volume) (i : Nat) (f : Frame) :
    (v.set_frame i f).max_file_size_ = v.max_file_size_ := by
  unfold LZ4Volume.set_frame; split <;> rfl

theorem set_frame_read_only (v : LZ4Volume) (i : Nat) (f : Frame) :
    (v.set_frame i f).is_read_only_ = v.is_read_only_ := by
  unfold LZ4Volume.set_frame; split <;> rfl

theorem set_frame_path (v : LZ4Volume) (i : Nat) (f : Frame) :
    (v.set_frame i f).path_ = v.path_ := by
  unfold LZ4Volume.set_frame; split <;> rfl

theorem frames_set_frame_same (v : LZ4Volume) (i : Nat) (f : Frame) :
    (v.set_frame i f).frames_ i = f := by
  unfold LZ4Volume.set_frame LZ4Volume.frames_
  split <;> simp [*]

theorem stored_pos (v : LZ4Volume) (id timestamp value : Nat) :
    (v.stored id timestamp value).pos_ = v.pos_ := by
  unfold LZ4Volume.stored; rw [set_frame_pos]

theorem stored_read_only (v : LZ4Volume) (id timestamp value : Nat) :
    (v.stored id timestamp value).is_read_only_ = v.is_read_only_ := by
  unfold LZ4Volume.stored; rw [set_frame_read_only]

theorem stored_bitmap (v : LZ4Volume) (id timestamp value : Nat) :
    (v.stored id timestamp value).bitmap_ = Roaring64Map.add v.bitmap_ id := by
  unfold LZ4Volume.stored; rw [set_frame_bitmap]

theorem stored_frames (v : LZ4Volume) (id timestamp value : Nat) :
    (v.stored id timestamp value).frames_ v.pos_ = v.stored_frame id timestamp value := by
  unfold LZ4Volume.stored; rw [frames_set_frame_same]

/-- An `append` call that returns leaves the volume `appended` and returns the status the
test `file_size_ >= max_file_size_` gives on it; if the call had a frame to write, the volume
is writable, the compressor returned a positive size and the file write succeeded. -/
theorem append_ok {NUM_TUPLES : Nat} {v v1 : LZ4Volume} {id timestamp value : Nat}
    {env : WriteEnv} {status : aku_Status}
    (h : v.append NUM_TUPLES id timestamp value env = .ok (status, v1)) :
    v1 = v.appended NUM_TUPLES id timestamp value env ∧ status = v1.overflow_status ∧
      ((v.frames_ v.pos_).size + 1 = NUM_TUPLES →
        v.is_read_only_ = false ∧ 0 < env.out_bytes ∧ env.apr_success = true) := by
  rw [append_unfold] at h
  unfold LZ4Volume.appended
  by_cases hfull : (v.frames_ v.pos_).size + 1 = NUM_TUPLES
  · simp only [hfull, if_true] at h ⊢
    cases hw : (v.stored id timestamp value).write v.pos_ env with
    | error e => rw [hw] at h; cases h
    | ok p =>
      obtain ⟨st, v3⟩ := p
      rw [hw] at h
      obtain ⟨h1, h2, h3, h4, h5⟩ := write_ok hw
      subst h4
      simp only [ne_eq, not_true_eq_false, if_false, Except.ok.injEq, Prod.mk.injEq] at h
      rw [stored_read_only] at h1
      have hv1 : v1 = (v.stored id timestamp value).flushed NUM_TUPLES env.out_bytes := by
        rw [← h.2, h5]
        unfold LZ4Volume.flushed
        simp only [stored_pos]
      refine ⟨hv1, ?_, fun _ => ⟨h1, h2, h3⟩⟩
      rw [← h.1, h.2]
  · simp only [hfull, if_false, Except.ok.injEq, Prod.mk.injEq] at h ⊢
    refine ⟨h.2.symm, ?_, fun hc => absurd hc (by simp)⟩
    rw [← h.1, h.2]

/-- An `append` call returns if it has no frame to write, or if the volume is writable, the
compressor returns a positive size and the file write succeeds. -/
theorem append_returns (NUM_TUPLES : Nat) (v : LZ4Volume) (id timestamp value : Nat)
    (env : WriteEnv)
    (hw : (v.frames_ v.pos_).size + 1 = NUM_TUPLES →
      v.is_read_only_ = false ∧ 0 < env.out_bytes ∧ env.apr_success = true) :
    v.append NUM_TUPLES id timestamp value env =
      .ok ((v.appended NUM_TUPLES id timestamp value env).overflow_status,
        v.appended NUM_TUPLES id timestamp value env) := by
  rw [append_unfold]
  unfold LZ4Volume.appended
  by_cases hfull : (v.frames_ v.pos_).size + 1 = NUM_TUPLES
  · obtain ⟨h1, h2, h3⟩ := hw hfull
    simp only [hfull, if_true]
    rw [write_returns _ _ _ (by rw [stored_read_only]; exact h1) h2 h3]
    simp only [ne_eq, not_true_eq_false, if_false]
    unfold LZ4Volume.flushed
    simp only [stored_pos]
  · simp only [hfull, if_false]

theorem clear_bitmap (NUM_TUPLES : Nat) (v : LZ4Volume) (i : Nat) :
    (LZ4Volume.clear NUM_TUPLES v i).bitmap_ = v.bitmap_ := by
  unfold LZ4Volume.clear; rw [set_frame_bitmap]

theorem appended_bitmap (NUM_TUPLES : Nat) (v : LZ4Volume) (id timestamp value : Nat)
    (env : WriteEnv) :
    (v.appended NUM_TUPLES id timestamp value env).bitmap_ = Roaring64Map.add v.bitmap_ id := by
  unfold LZ4Volume.appended
  split
  · unfold LZ4Volume.flushed
    rw [clear_bitmap]
    exact stored_bitmap v id timestamp value
  · exact stored_bitmap v id timestamp value

/-! ## Claims about `append` -/

/-- C3: when `InputLog::append` returns `AKU_EOVERFLOW` while the number of live volumes
equals `max_volumes_`, the ids the call pushes into `stale_ids` are, each once, exactly the
members of the index of the back volume that are in the index of no other volume (the
indices as they are when the call returns). -/
theorem append_stale_ids (NUM_TUPLES : Nat) (log log1 : InputLog) (id timestamp value : Nat)
    (stale_ids stale1 : List Nat) (env : WriteEnv)
    (hwf : ∀ v ∈ log.volumes_, v.bitmap_.Pairwise (fun a b => a < b))
    (hn : log.volumes_.length = log.max_volumes_)
    (h : InputLog.append NUM_TUPLES log id timestamp value stale_ids env =
      .ok (aku_Status.AKU_EOVERFLOW, log1, stale1)) :
    ∃ pushed back, stale1 = stale_ids ++ pushed ∧ log1.volumes_.getLast? = some back ∧
      pushed.Nodup ∧
      ∀ x, x ∈ pushed ↔ (x ∈ back.bitmap_ ∧ ∀ v ∈ log1.volumes_.dropLast, x ∉ v.bitmap_) := by
  unfold InputLog.append at h
  cases hv : log.volumes_ with
  | nil => rw [hv] at h; cases h
  | cons front rest =>
    rw [hv] at h hn
    simp only at h
    cases ha : front.append NUM_TUPLES id timestamp value env with
    | error e => rw [ha] at h; cases h
    | ok p =>
      obtain ⟨result, front1⟩ := p
      rw [ha] at h
      simp only at h
      have hlen : (front1 :: rest).length = log.max_volumes_ := by
        simpa using hn
      have hr : result = aku_Status.AKU_EOVERFLOW := by
        split at h
        · simp only [Except.ok.injEq, Prod.mk.injEq] at h; exact h.1
        · simp only [Except.ok.injEq, Prod.mk.injEq] at h; exact h.1
      · rw [if_pos ⟨hr, hlen⟩] at h
        simp only [Except.ok.injEq, Prod.mk.injEq] at h
        obtain ⟨_, h1, h2⟩ := h
        subst h1
        have hback : (front1 :: rest).getLast? = some ((front1 :: rest).getLastD front1) := by
          rw [List.getLastD_eq_getLast?]
          cases hl : (front1 :: rest).getLast? with
          | none => simp at hl
          | some b => rfl
        have hmem : (front1 :: rest).getLastD front1 ∈ front1 :: rest :=
          List.mem_of_getLast?_eq_some hback
        have hf1 : front1.bitmap_ = Roaring64Map.add front.bitmap_ id := by
          rw [(append_ok ha).1, appended_bitmap]
        have hsorted : ((front1 :: rest).getLastD front1).bitmap_.Pairwise (fun a b => a < b) := by
          rcases List.mem_cons.1 hmem with q | q
          · rw [q, hf1]
            exact bitmap_add_sorted _ _ (hwf front (by rw [hv]; simp))
          · exact hwf _ (by rw [hv]; exact List.mem_cons_of_mem _ q)
        refine ⟨_, (front1 :: rest).getLastD front1, h2.symm, hback, minus_nodup _ _ hsorted, ?_⟩
        intro x
        rw [mem_minus, mem_fastunion]
        have htake : (front1 :: rest).take ((front1 :: rest).length - 1) =
            (front1 :: rest).dropLast := (List.dropLast_eq_take _).symm
        rw [htake]
        constructor
        · rintro ⟨hx1, hx2⟩
          refine ⟨hx1, fun v hv' hxv => hx2 ⟨v.bitmap_, List.mem_map_of_mem _ hv', hxv⟩⟩
        · rintro ⟨hx1, hx2⟩
          refine ⟨hx1, ?_⟩
          rintro ⟨m, hm, hxm⟩
          obtain ⟨v, hv', rfl⟩ := List.mem_map.1 hm
          exact hx2 v hv' hxm

/-- Witness of `append_stale_ids`: at the limit of two volumes the call pushes id 1, which
only the older volume has seen. -/
theorem append_stale_ids_witness :
    (∀ v ∈ stale_demo_log.volumes_, v.bitmap_.Pairwise (fun a b => a < b)) ∧
    stale_demo_log.volumes_.length = stale_demo_log.max_volumes_ ∧
    InputLog.append 2 stale_demo_log 2 8 8 [] ⟨10, true⟩ =
      .ok (aku_Status.AKU_EOVERFLOW, stale_demo_log1, [1]) ∧
    ∃ pushed back, [1] = [] ++ pushed ∧ stale_demo_log1.volumes_.getLast? = some back ∧
      pushed.Nodup ∧
      ∀ x, x ∈ pushed ↔
        (x ∈ back.bitmap_ ∧ ∀ v ∈ stale_demo_log1.volumes_.dropLast, x ∉ v.bitmap_) :=
  ⟨by decide, by decide, rfl,
    append_stale_ids 2 stale_demo_log stale_demo_log1 2 8 8 [] [1] ⟨10, true⟩
      (by decide) (by decide) rfl⟩

/-- C6: on a writable volume, an `append` call whose frame write (if it has one) succeeds
returns; it returns `AKU_EOVERFLOW` if and only if the file size after the call is at least
`max_file_size_`, and `AKU_SUCCESS` otherwise. -/
theorem append_overflow_iff (NUM_TUPLES : Nat) (v : LZ4Volume) (id timestamp value : Nat)
    (env : WriteEnv) (hro : v.is_read_only_ = false)
    (hw : (v.frames_ v.pos_).size + 1 = NUM_TUPLES →
      0 < env.out_bytes ∧ env.apr_success = true) :
    ∃ status v1, v.append NUM_TUPLES id timestamp value env = .ok (status, v1) ∧
      (status = aku_Status.AKU_EOVERFLOW ↔ v1.file_size_ ≥ v1.max_file_size_) ∧
      (status = aku_Status.AKU_SUCCESS ↔ v1.file_size_ < v1.max_file_size_) := by
  refine ⟨_, _, append_returns NUM_TUPLES v id timestamp value env
    (fun hf => ⟨hro, hw hf⟩), ?_, ?_⟩
  · unfold LZ4Volume.overflow_status
    split
    · rename_i hge
      exact ⟨fun _ => hge, fun _ => rfl⟩
    · rename_i hlt
      exact ⟨fun hc => (by cases hc), fun hc => absurd hc hlt⟩
  · unfold LZ4Volume.overflow_status
    split
    · rename_i hge
      constructor
      · intro hc; cases hc
      · intro hlt; omega
    · rename_i hlt
      exact ⟨fun _ => (by omega), fun _ => rfl⟩

/-- Witness of `append_overflow_iff`: with one tuple per frame, the first `append` to a new
volume of limit 10 writes a frame of 4 + 10 bytes and returns `AKU_EOVERFLOW`. -/
theorem append_overflow_iff_witness :
    (LZ4Volume.create 1 "inputlog0.ils".toList 10).is_read_only_ = false ∧
    ∃ status v1, (LZ4Volume.create 1 "inputlog0.ils".toList 10).append 1 5 6 7 ⟨10, true⟩ =
        .ok (status, v1) ∧
      (status = aku_Status.AKU_EOVERFLOW ↔ v1.file_size_ ≥ v1.max_file_size_) ∧
      (status = aku_Status.AKU_SUCCESS ↔ v1.file_size_ < v1.max_file_size_) :=
  ⟨rfl, append_overflow_iff 1 (LZ4Volume.create 1 "inputlog0.ils".toList 10) 5 6 7 ⟨10, true⟩
    rfl (fun _ => ⟨by decide, rfl⟩)⟩

theorem clear_pos (NUM_TUPLES : Nat) (v : LZ4Volume) (i : Nat) :
    (LZ4Volume.clear NUM_TUPLES v i).pos_ = v.pos_ := by
  unfold LZ4Volume.clear; rw [set_frame_pos]

theorem clear_file (NUM_TUPLES : Nat) (v : LZ4Volume) (i : Nat) :
    (LZ4Volume.clear NUM_TUPLES v i).file_ = v.file_ := by
  unfold LZ4Volume.clear; rw [set_frame_file]

theorem clear_frames_same (NUM_TUPLES : Nat) (v : LZ4Volume) (i : Nat) :
    (LZ4Volume.clear NUM_TUPLES v i).frames_ i = Frame.zero NUM_TUPLES := by
  unfold LZ4Volume.clear; rw [frames_set_frame_same]

theorem flushed_pos (NUM_TUPLES : Nat) (v : LZ4Volume) (out_bytes : Int) :
    (v.flushed NUM_TUPLES out_bytes).pos_ = (v.pos_ + 1) % 2 := by
  unfold LZ4Volume.flushed; rw [clear_pos]

theorem flushed_frame (NUM_TUPLES : Nat) (v : LZ4Volume) (out_bytes : Int) :
    (v.flushed NUM_TUPLES out_bytes).frames_ (v.flushed NUM_TUPLES out_bytes).pos_ =
      Frame.zero NUM_TUPLES := by
  rw [flushed_pos]
  unfold LZ4Volume.flushed
  rw [clear_frames_same]

theorem flushed_file (NUM_TUPLES : Nat) (v : LZ4Volume) (out_bytes : Int) :
    (v.flushed NUM_TUPLES out_bytes).file_ =
      v.file_ ++ [{ size := out_bytes.toNat, payload := some (v.frames_ v.pos_),
                    readable := true }] := by
  unfold LZ4Volume.flushed; rw [clear_file]

theorem frame_inv_create (NUM_TUPLES : Nat) (h : 0 < NUM_TUPLES) (name : Path) (svol : Nat) :
    (LZ4Volume.create NUM_TUPLES name svol).FrameInv NUM_TUPLES := by
  simp [LZ4Volume.FrameInv, LZ4Volume.create, LZ4Volume.frames_, Frame.zero, h]

theorem frame_inv_appended {NUM_TUPLES : Nat} (hNT : 0 < NUM_TUPLES) {v : LZ4Volume}
    (inv : v.FrameInv NUM_TUPLES) (id timestamp value : Nat) (env : WriteEnv) :
    (v.appended NUM_TUPLES id timestamp value env).FrameInv NUM_TUPLES := by
  unfold LZ4Volume.appended
  split
  · unfold LZ4Volume.FrameInv
    rw [flushed_frame]
    simp [Frame.zero, hNT]
  · rename_i hfull
    unfold LZ4Volume.FrameInv at *
    rw [stored_pos, stored_frames]
    simp only [LZ4Volume.stored_frame, List.length_set]
    exact ⟨by omega, inv.2.1, inv.2.2.1, inv.2.2.2⟩

theorem stored_frame_record {NUM_TUPLES : Nat} {v : LZ4Volume}
    (inv : v.FrameInv NUM_TUPLES) (id timestamp value : Nat) :
    (v.stored_frame id timestamp value).record ((v.stored_frame id timestamp value).size - 1) =
      (id, timestamp, value) := by
  obtain ⟨h0, h1, h2, h3⟩ := inv
  simp only [LZ4Volume.stored_frame, Frame.record, Nat.add_sub_cancel]
  simp [List.getElem?_set, h0, h1, h2, h3]

/-- After an `append` call that returns, the record it was given is the newest record the
volume stores. -/
theorem newest_record_appended {NUM_TUPLES : Nat} {v : LZ4Volume}
    (inv : v.FrameInv NUM_TUPLES) (id timestamp value : Nat) (env : WriteEnv) :
    (v.appended NUM_TUPLES id timestamp value env).newest_record =
      some (id, timestamp, value) := by
  have hrec := stored_frame_record inv id timestamp value
  unfold LZ4Volume.appended
  split
  · unfold LZ4Volume.newest_record
    rw [flushed_frame, flushed_file]
    simp only [Frame.zero, gt_iff_lt, Nat.lt_irrefl, if_false, List.getLast?_concat]
    rw [stored_pos, stored_frames]
    simp only [Option.map_some', hrec]
  · unfold LZ4Volume.newest_record
    rw [stored_pos, stored_frames]
    have : (v.stored_frame id timestamp value).size > 0 := by
      simp [LZ4Volume.stored_frame]
    rw [if_pos this, hrec]

theorem appends_ok {NUM_TUPLES : Nat} (hNT : 0 < NUM_TUPLES) :
    ∀ (xs : List (Sample × WriteEnv)) (v w : LZ4Volume), v.FrameInv NUM_TUPLES →
      v.bitmap_.Pairwise (fun a b => a < b) →
      LZ4Volume.appends NUM_TUPLES v xs = .ok w →
      w.FrameInv NUM_TUPLES ∧ w.bitmap_.Pairwise (fun a b => a < b) ∧
        ∀ x, x ∈ w.bitmap_ ↔ x ∈ v.bitmap_ ∨ x ∈ xs.map (fun s => s.1.1) := by
  intro xs
  induction xs with
  | nil =>
    intro v w inv hs h
    simp only [LZ4Volume.appends, Except.ok.injEq] at h
    subst h
    exact ⟨inv, hs, by simp⟩
  | cons a rest ih =>
    intro v w inv hs h
    obtain ⟨s, env⟩ := a
    simp only [LZ4Volume.appends] at h
    cases ha : v.append NUM_TUPLES s.1 s.2.1 s.2.2 env with
    | error e => rw [ha] at h; cases h
    | ok p =>
      obtain ⟨st, v1⟩ := p
      rw [ha] at h
      simp only at h
      have hv1 := (append_ok ha).1
      have inv1 : v1.FrameInv NUM_TUPLES := by
        rw [hv1]; exact frame_inv_appended hNT inv _ _ _ _
      have hs1 : v1.bitmap_.Pairwise (fun a b => a < b) := by
        rw [hv1, appended_bitmap]; exact bitmap_add_sorted _ _ hs
      obtain ⟨r1, r3, r2⟩ := ih v1 w inv1 hs1 h
      refine ⟨r1, r3, ?_⟩
      intro x
      rw [r2 x, hv1, appended_bitmap, mem_bitmap_add]
      simp only [List.map_cons, List.mem_cons]
      constructor
      · rintro ((q | q) | q)
        · exact Or.inr (Or.inl q)
        · exact Or.inl q
        · exact Or.inr (Or.inr q)
      · rintro (q | q | q)
        · exact Or.inl (Or.inr q)
        · exact Or.inl (Or.inl q)
        · exact Or.inr q

/-- C7: after any run of `append` calls on a new volume, each of which returns, the index of
the volume holds exactly the ids appended so far, each once. When a further
`append(id, ts, value)` returns `AKU_EOVERFLOW` the write is recorded all the same: the
index contains `id` (it holds the ids appended before and `id`), and `(id, ts, value)` is
the newest stored record (the last entry of the current frame, or of the frame just written
to the file). -/
theorem append_overflow_recorded (NUM_TUPLES : Nat) (hNT : 0 < NUM_TUPLES) (name : Path)
    (svol : Nat) (prev : List (Sample × WriteEnv)) (v : LZ4Volume)
    (h1 : LZ4Volume.appends NUM_TUPLES (LZ4Volume.create NUM_TUPLES name svol) prev = .ok v) :
    ((∀ x, x ∈ v.bitmap_ ↔ x ∈ prev.map (fun s => s.1.1)) ∧ v.bitmap_.Nodup) ∧
    ∀ (id timestamp value : Nat) (env : WriteEnv) (v1 : LZ4Volume),
      v.append NUM_TUPLES id timestamp value env = .ok (aku_Status.AKU_EOVERFLOW, v1) →
      id ∈ v1.bitmap_ ∧ v1.newest_record = some (id, timestamp, value) ∧
        (∀ x, x ∈ v1.bitmap_ ↔ x ∈ prev.map (fun s => s.1.1) ++ [id]) ∧
        v1.bitmap_.Nodup := by
  obtain ⟨inv, hsort, hmem⟩ := appends_ok hNT prev _ v
    (frame_inv_create NUM_TUPLES hNT name svol) (by simp [LZ4Volume.create]) h1
  have hmem2 : ∀ x, x ∈ v.bitmap_ ↔ x ∈ prev.map (fun s => s.1.1) := by
    intro x; rw [hmem x]; simp [LZ4Volume.create]
  refine ⟨⟨hmem2, hsort.imp (fun h => Nat.ne_of_lt h)⟩, ?_⟩
  intro id timestamp value env v1 h2
  have hv1 := (append_ok h2).1
  have hb : v1.bitmap_ = Roaring64Map.add v.bitmap_ id := by rw [hv1, appended_bitmap]
  refine ⟨?_, ?_, ?_, ?_⟩
  · rw [hb, mem_bitmap_add]; exact Or.inl rfl
  · rw [hv1]; exact newest_record_appended inv _ _ _ _
  · intro x
    rw [hb, mem_bitmap_add, hmem2 x, List.mem_append, List.mem_singleton]
    exact Or.comm
  · rw [hb]
    exact (bitmap_add_sorted _ _ hsort).imp (fun h => Nat.ne_of_lt h)

/-- Witness of `append_overflow_recorded`. With two tuples per frame and a limit of 100
bytes, three appends return `AKU_SUCCESS` and leave the index with the ids 3 and 7. With a
limit of 10 bytes the second `append` writes a frame of 4 + 10 bytes and returns
`AKU_EOVERFLOW`; its id is in the index and its record is the newest. -/
theorem append_overflow_recorded_witness :
    ((0 < 2 ∧
      LZ4Volume.appends 2 (LZ4Volume.create 2 "inputlog0.ils".toList 100)
        [((7, 1, 10), ⟨10, true⟩), ((3, 2, 20), ⟨10, true⟩), ((7, 3, 30), ⟨10, true⟩)] =
        .ok index_demo_volume) ∧
      (∀ x, x ∈ index_demo_volume.bitmap_ ↔ x ∈ [7, 3, 7]) ∧
      index_demo_volume.bitmap_ = [3, 7]) ∧
    ((0 < 2 ∧
      LZ4Volume.appends 2 (LZ4Volume.create 2 "inputlog0.ils".toList 10)
        [((1, 5, 6), ⟨0, false⟩)] =
        .ok ((LZ4Volume.create 2 "inputlog0.ils".toList 10).appended 2 1 5 6 ⟨0, false⟩) ∧
      ((LZ4Volume.create 2 "inputlog0.ils".toList 10).appended 2 1 5 6 ⟨0, false⟩).append
          2 3 7 8 ⟨10, true⟩ =
        .ok (aku_Status.AKU_EOVERFLOW,
          ((LZ4Volume.create 2 "inputlog0.ils".toList 10).appended 2 1 5 6 ⟨0, false⟩).appended
            2 3 7 8 ⟨10, true⟩)) ∧
    (3 ∈ (((LZ4Volume.create 2 "inputlog0.ils".toList 10).appended 2 1 5 6 ⟨0, false⟩).appended
            2 3 7 8 ⟨10, true⟩).bitmap_ ∧
      (((LZ4Volume.create 2 "inputlog0.ils".toList 10).appended 2 1 5 6 ⟨0, false⟩).appended
            2 3 7 8 ⟨10, true⟩).newest_record = some (3, 7, 8))) :=
  ⟨⟨⟨by decide, rfl⟩,
      (append_overflow_recorded 2 (by decide) "inputlog0.ils".toList 100
        [((7, 1, 10), ⟨10, true⟩), ((3, 2, 20), ⟨10, true⟩), ((7, 3, 30), ⟨10, true⟩)]
        index_demo_volume rfl).1.1,
      by decide⟩,
    ⟨by decide, rfl, rfl⟩,
    let r := (append_overflow_recorded 2 (by decide) "inputlog0.ils".toList 10
      [((1, 5, 6), ⟨0, false⟩)] _ rfl).2 3 7 8 ⟨10, true⟩ _ rfl
    ⟨r.1, r.2.1⟩⟩

/-! ## The number of live volumes -/

theorem add_volume_ok {NUM_TUPLES : Nat} {log log1 : InputLog} {path : Path}
    (h : InputLog.add_volume NUM_TUPLES log path = .ok log1) :
    log1 = { log with
      volumes_ := LZ4Volume.create NUM_TUPLES path log.volume_size_ :: log.volumes_,
      volume_counter_ := log.volume_counter_ + 1,
      files_ := path :: log.files_ } ∧ log.files_.contains path = false := by
  unfold InputLog.add_volume at h
  by_cases hc : log.files_.contains path = true
  · rw [if_pos hc] at h; cases h
  · rw [if_neg hc] at h
    simp only [Except.ok.injEq] at h
    exact ⟨h.symm, by simpa using hc⟩

theorem remove_last_volume_ok {log log1 : InputLog}
    (h : log.remove_last_volume = .ok log1) :
    ∃ volume, log.volumes_.getLast? = some volume ∧
      log1 = { log with volumes_ := log.volumes_.dropLast,
                        files_ := log.files_.filter (fun p => p ≠ volume.path_) } := by
  unfold InputLog.remove_last_volume at h
  cases hl : log.volumes_.getLast? with
  | none => rw [hl] at h; cases h
  | some volume =>
    rw [hl] at h
    simp only [Except.ok.injEq] at h
    exact ⟨volume, rfl, h.symm⟩

theorem rotate_ok {NUM_TUPLES : Nat} {log log1 : InputLog}
    (h : InputLog.rotate NUM_TUPLES log = .ok log1) :
    log1.max_volumes_ = log.max_volumes_ ∧
    ((log.volumes_.length ≥ log.max_volumes_ ∧ 1 ≤ log.volumes_.length ∧
        log1.volumes_.length = log.volumes_.length) ∨
      (log.volumes_.length < log.max_volumes_ ∧
        log1.volumes_.length = log.volumes_.length + 1)) := by
  unfold InputLog.rotate at h
  by_cases hc : log.volumes_.length ≥ log.max_volumes_
  · rw [if_pos hc] at h
    cases hr : log.remove_last_volume with
    | error e => rw [hr] at h; cases h
    | ok log2 =>
      rw [hr] at h
      simp only at h
      obtain ⟨volume, hv, h2⟩ := remove_last_volume_ok hr
      obtain ⟨h3, _⟩ := add_volume_ok h
      have hne : log.volumes_ ≠ [] := by
        intro e; rw [e] at hv; simp at hv
      have hpos : 1 ≤ log.volumes_.length := by
        cases hl : log.volumes_ with
        | nil => exact absurd hl hne
        | cons a t => simp
      subst h3
      subst h2
      refine ⟨rfl, Or.inl ⟨hc, hpos, ?_⟩⟩
      simp only [List.length_cons, List.length_dropLast]
      omega
  · rw [if_neg hc] at h
    simp only at h
    obtain ⟨h3, _⟩ := add_volume_ok h
    subst h3
    exact ⟨rfl, Or.inr ⟨by omega, by simp⟩⟩

theorem log_append_ok {NUM_TUPLES : Nat} {log log1 : InputLog} {id timestamp value : Nat}
    {stale_ids stale1 : List Nat} {env : WriteEnv} {status : aku_Status}
    (h : InputLog.append NUM_TUPLES log id timestamp value stale_ids env =
      .ok (status, log1, stale1)) :
    ∃ front rest front1, log.volumes_ = front :: rest ∧
      front.append NUM_TUPLES id timestamp value env = .ok (status, front1) ∧
      log1 = { log with volumes_ := front1 :: rest } := by
  unfold InputLog.append at h
  cases hv : log.volumes_ with
  | nil => rw [hv] at h; cases h
  | cons front rest =>
    rw [hv] at h
    simp only at h
    cases ha : front.append NUM_TUPLES id timestamp value env with
    | error e => rw [ha] at h; cases h
    | ok p =>
      obtain ⟨result, front1⟩ := p
      rw [ha] at h
      simp only at h
      refine ⟨front, rest, front1, rfl, ?_, ?_⟩
      · split at h
        · simp only [Except.ok.injEq, Prod.mk.injEq] at h; rw [ha, h.1]
        · simp only [Except.ok.injEq, Prod.mk.injEq] at h; rw [ha, h.1]
      · split at h
        · simp only [Except.ok.injEq, Prod.mk.injEq] at h; exact h.2.1.symm
        · simp only [Except.ok.injEq, Prod.mk.injEq] at h; exact h.2.1.symm

theorem call_count {NUM_TUPLES : Nat} {log log1 : InputLog} {c : LogCall}
    (h : InputLog.call NUM_TUPLES log c = .ok log1)
    (inv : 1 ≤ log.volumes_.length ∧ log.volumes_.length ≤ max log.max_volumes_ 1) :
    log1.max_volumes_ = log.max_volumes_ ∧
      1 ≤ log1.volumes_.length ∧ log1.volumes_.length ≤ max log1.max_volumes_ 1 := by
  cases c with
  | append id timestamp value env =>
    simp only [InputLog.call] at h
    cases ha : InputLog.append NUM_TUPLES log id timestamp value [] env with
    | error e => rw [ha] at h; cases h
    | ok p =>
      obtain ⟨st, log2, stale⟩ := p
      rw [ha] at h
      simp only [Except.ok.injEq] at h
      subst h
      obtain ⟨front, rest, front1, h1, _, h3⟩ := log_append_ok ha
      subst h3
      rw [h1] at inv
      exact ⟨rfl, by simp, by simpa using inv.2⟩
  | rotate =>
    simp only [InputLog.call] at h
    obtain ⟨h1, h2⟩ := rotate_ok h
    rw [h1]
    refine ⟨rfl, ?_⟩
    rcases h2 with ⟨_, q2, q3⟩ | ⟨q1, q2⟩
    · rw [q3]; exact ⟨q2, inv.2⟩
    · rw [q2]; exact ⟨by omega, by omega⟩

theorem calls_count {NUM_TUPLES : Nat} : ∀ (ops : List LogCall) (log log1 : InputLog),
    InputLog.calls NUM_TUPLES log ops = .ok log1 →
    (1 ≤ log.volumes_.length ∧ log.volumes_.length ≤ max log.max_volumes_ 1) →
    log1.max_volumes_ = log.max_volumes_ ∧
      1 ≤ log1.volumes_.length ∧ log1.volumes_.length ≤ max log1.max_volumes_ 1 := by
  intro ops
  induction ops with
  | nil =>
    intro log log1 h inv
    simp only [InputLog.calls, Except.ok.injEq] at h
    subst h
    exact ⟨rfl, inv⟩
  | cons c rest ih =>
    intro log log1 h inv
    simp only [InputLog.calls] at h
    cases hc : InputLog.call NUM_TUPLES log c with
    | error e => rw [hc] at h; cases h
    | ok log2 =>
      rw [hc] at h
      simp only at h
      obtain ⟨e1, inv2⟩ := call_count hc inv
      obtain ⟨e2, inv3⟩ := ih log2 log1 h inv2
      exact ⟨e2.trans e1, inv3⟩

theorem create_ok {NUM_TUPLES : Nat} {rootdir : Path} {nvol svol : Nat} {files : List Path}
    {log : InputLog} (h : InputLog.create NUM_TUPLES rootdir nvol svol files = .ok log) :
    log = { root_dir_ := rootdir,
            volumes_ := [LZ4Volume.create NUM_TUPLES
              ("inputlog".toList ++ put_decimal 1 0 [] ++ ".ils".toList) svol],
            available_volumes_ := [], volume_counter_ := 1, max_volumes_ := nvol,
            volume_size_ := svol,
            files_ := ("inputlog".toList ++ put_decimal 1 0 [] ++ ".ils".toList) :: files } := by
  unfold InputLog.create at h
  simp only at h
  exact (add_volume_ok h).1

/-! ## Claim C4 -/

/-- C4, as stated, fails when the limit is 0: the write-mode constructor always opens one
volume, so the log holds 1 volume against a `max_volumes_` of 0. -/
theorem volumes_exceed_zero_limit :
    ∃ log, InputLog.create 1 "log".toList 0 4096 [] = .ok log ∧
      ¬ (log.volumes_.length ≤ log.max_volumes_) :=
  ⟨_, rfl, by decide⟩

/-- C4, amended: for a log constructed in write mode with limit `nvol`, after any sequence of
`append` and `rotate` calls the number of live volumes is at least 1 and at most
`max nvol 1`; so it never exceeds the limit when the limit is at least 1. -/
theorem volumes_le_max (NUM_TUPLES : Nat) (rootdir : Path) (nvol svol : Nat)
    (files : List Path) (ops : List LogCall) (log0 log : InputLog)
    (hc : InputLog.create NUM_TUPLES rootdir nvol svol files = .ok log0)
    (hr : InputLog.calls NUM_TUPLES log0 ops = .ok log) :
    log.max_volumes_ = nvol ∧ 1 ≤ log.volumes_.length ∧
      log.volumes_.length ≤ max nvol 1 ∧ (1 ≤ nvol → log.volumes_.length ≤ nvol) := by
  have h0 := create_ok hc
  have inv0 : 1 ≤ log0.volumes_.length ∧ log0.volumes_.length ≤ max log0.max_volumes_ 1 := by
    rw [h0]; simp
  obtain ⟨e, i1, i2⟩ := calls_count ops log0 log hr inv0
  have e0 : log0.max_volumes_ = nvol := by rw [h0]
  rw [e, e0] at i2
  refine ⟨e.trans e0, i1, i2, ?_⟩
  intro h1
  have : max nvol 1 = nvol := Nat.max_eq_left h1
  omega

/-- Witness of `volumes_le_max`: limit 1, one tuple per frame; an `append` and two `rotate`
calls leave one live volume. -/
theorem volumes_le_max_witness :
    ∃ log0 log, InputLog.create 1 "log".toList 1 0 [] = .ok log0 ∧
      InputLog.calls 1 log0 [.append 1 2 3 ⟨10, true⟩, .rotate, .rotate] = .ok log ∧
      log.max_volumes_ = 1 ∧ 1 ≤ log.volumes_.length ∧
      log.volumes_.length ≤ max 1 1 ∧ (1 ≤ 1 → log.volumes_.length ≤ 1) :=
  ⟨_, _, rfl, rfl,
    volumes_le_max 1 "log".toList 1 0 [] [.append 1 2 3 ⟨10, true⟩, .rotate, .rotate] _ _
      rfl rfl⟩

/-! ## `std::sort` -/

theorem sort_insert_perm {α : Type} (comp : α → α → Bool) (x : α) :
    ∀ l : List α, List.Perm (sort_insert comp x l) (x :: l) := by
  intro l
  induction l with
  | nil => exact List.Perm.refl _
  | cons y ys ih =>
    simp only [sort_insert]
    split
    · exact (ih.cons y).trans (List.Perm.swap x y ys)
    · exact List.Perm.refl _

theorem std_sort_perm {α : Type} (comp : α → α → Bool) :
    ∀ l : List α, List.Perm (std_sort comp l) l := by
  intro l
  induction l with
  | nil => exact List.Perm.refl _
  | cons x xs ih =>
    simp only [std_sort]
    exact (sort_insert_perm comp x _).trans (ih.cons x)

/-- Sorting by a comparator that tests `key a < key b` leaves the keys in non-decreasing
order. -/
theorem std_sort_sorted {α : Type} (comp : α → α → Bool) (key : α → Int)
    (hcomp : ∀ a b, comp a b = decide (key a < key b)) :
    ∀ l : List α, (std_sort comp l).Pairwise (fun a b => key a ≤ key b) := by
  have hins : ∀ (x : α) (l : List α), l.Pairwise (fun a b => key a ≤ key b) →
      (sort_insert comp x l).Pairwise (fun a b => key a ≤ key b) := by
    intro x l
    induction l with
    | nil => intro _; simp [sort_insert]
    | cons y ys ih =>
      intro h
      rw [List.pairwise_cons] at h
      simp only [sort_insert]
      split
      · rename_i hc
        rw [hcomp] at hc
        have hlt : key y < key x := by simpa using hc
        rw [List.pairwise_cons]
        refine ⟨?_, ih h.2⟩
        intro b hb
        rcases List.mem_cons.1 ((sort_insert_perm comp x ys).subset hb) with q | q
        · rw [q]; omega
        · exact h.1 b q
      · rename_i hc
        rw [hcomp] at hc
        have hge : key x ≤ key y := by simpa using hc
        rw [List.pairwise_cons]
        refine ⟨?_, List.pairwise_cons.2 h⟩
        intro b hb
        rcases List.mem_cons.1 hb with q | q
        · rw [q]; exact hge
        · have := h.1 b q; omega
  intro l
  induction l with
  | nil => simp [std_sort]
  | cons x xs ih => simp only [std_sort]; exact hins x _ ih

/-! ## File names -/

theorem from_last_dot_none : ∀ t : List Char, '.' ∉ t → from_last_dot t = none := by
  intro t
  induction t with
  | nil => intro _; rfl
  | cons c cs ih =>
    intro h
    simp only [List.mem_cons, not_or] at h
    simp only [from_last_dot, ih h.2]
    rw [if_neg (fun e => h.1 e.symm)]

theorem from_last_dot_some : ∀ (s e : List Char), from_last_dot s = some e →
    ∃ pre t, s = pre ++ e ∧ e = '.' :: t ∧ '.' ∉ t := by
  intro s
  induction s with
  | nil => intro e h; simp [from_last_dot] at h
  | cons c cs ih =>
    intro e h
    simp only [from_last_dot] at h
    cases hr : from_last_dot cs with
    | some e1 =>
      rw [hr] at h
      simp only [Option.some.injEq] at h
      subst h
      obtain ⟨pre, t, h1, h2, h3⟩ := ih e1 hr
      exact ⟨c :: pre, t, by rw [h1]; rfl, h2, h3⟩
    | none =>
      rw [hr] at h
      simp only at h
      by_cases hc : c = '.'
      · rw [if_pos hc] at h
        simp only [Option.some.injEq] at h
        subst h
        refine ⟨[], cs, rfl, by rw [hc], ?_⟩
        intro hmem
        clear ih
        induction cs with
        | nil => simp at hmem
        | cons d ds ihd =>
          simp only [from_last_dot] at hr
          cases hq : from_last_dot ds with
          | some e2 => rw [hq] at hr; cases hr
          | none =>
            rw [hq] at hr
            simp only at hr
            by_cases hd : d = '.'
            · rw [if_pos hd] at hr; cases hr
            · rcases List.mem_cons.1 hmem with q | q
              · exact hd q.symm
              · exact ihd hq q
      · rw [if_neg hc] at h; cases h

theorem from_last_dot_append : ∀ (pre t : List Char), '.' ∉ t →
    from_last_dot (pre ++ '.' :: t) = some ('.' :: t) := by
  intro pre
  induction pre with
  | nil =>
    intro t h
    simp [from_last_dot, from_last_dot_none t h]
  | cons c cs ih =>
    intro t h
    show from_last_dot (c :: (cs ++ '.' :: t)) = some ('.' :: t)
    rw [from_last_dot, ih t h]

/-- The test of `find_volumes`: a name is kept when it starts with `inputlog` and its
extension is `.ils`, that is when it is `inputlog`, any characters, `.ils`. -/
theorem kept_iff (name : Path) :
    (starts_with name "inputlog".toList = true ∧ extension name = ".ils".toList) ↔
      ∃ mid, name = "inputlog".toList ++ mid ++ ".ils".toList := by
  have h8 : "inputlog".toList = ['i', 'n', 'p', 'u', 't', 'l', 'o', 'g'] := rfl
  have h4 : ".ils".toList = ['.', 'i', 'l', 's'] := rfl
  constructor
  · rintro ⟨hp, he⟩
    unfold starts_with at hp
    rw [List.isPrefixOf_iff_prefix] at hp
    obtain ⟨rest, hrest⟩ := hp
    unfold extension at he
    split at he
    · rw [h4] at he; cases he
    · cases hf : from_last_dot name with
      | none => rw [hf, h4] at he; cases he
      | some e =>
        rw [hf] at he
        simp only [Option.getD_some] at he
        subst he
        obtain ⟨pre, t, h1, _, _⟩ := from_last_dot_some name _ hf
        rw [← hrest] at h1
        rcases List.append_eq_append_iff.1 h1 with ⟨a, ha1, ha2⟩ | ⟨c, hc1, hc2⟩
        · exact ⟨a, by rw [← hrest, ha2, List.append_assoc]⟩
        · cases c with
          | nil =>
            refine ⟨[], ?_⟩
            simp only [List.nil_append] at hc2
            rw [← hrest, ← hc2]; simp
          | cons d ds =>
            rw [h4] at hc2
            simp only [List.cons_append, List.cons.injEq] at hc2
            have : '.' ∈ "inputlog".toList := by
              rw [hc1, ← hc2.1]; simp
            exact absurd this (by decide)
  · rintro ⟨mid, rfl⟩
    constructor
    · unfold starts_with
      rw [List.isPrefixOf_iff_prefix, List.append_assoc]
      exact List.prefix_append _ _
    · unfold extension
      have hne : ¬ ("inputlog".toList ++ mid ++ ".ils".toList = ['.'] ∨
          "inputlog".toList ++ mid ++ ".ils".toList = ['.', '.']) := by
        rw [h8]; simp
      rw [if_neg hne, h4, from_last_dot_append _ _ (by decide)]
      rfl

/-! ## Claim C9 -/

/-- C9, as stated, fails: `find_volumes` keeps `inputlogx.ils` (and `inputlog.ils`), which
do not match `^inputlog(\d+)\.ils$`. -/
theorem find_volumes_keeps_non_digits :
    "inputlogx.ils".toList ∈ InputLog.find_volumes
        ["inputlogx.ils".toList, "inputlog7.ils".toList, "inputlog.ils".toList] ∧
      matches_volume_pattern "inputlogx.ils".toList = false ∧
      "inputlog.ils".toList ∈ InputLog.find_volumes
        ["inputlogx.ils".toList, "inputlog7.ils".toList, "inputlog.ils".toList] ∧
      matches_volume_pattern "inputlog.ils".toList = false ∧
      matches_volume_pattern "inputlog7.ils".toList = true := by
  decide

/-- C9, amended: for every directory listing, `find_volumes` keeps a file if and only if its
name is `inputlog`, followed by any characters (possibly none), followed by `.ils`; every
other file is ignored. -/
theorem find_volumes_keeps_iff (listing : List Path) (name : Path) :
    name ∈ InputLog.find_volumes listing ↔
      name ∈ listing ∧ ∃ mid, name = "inputlog".toList ++ mid ++ ".ils".toList := by
  unfold InputLog.find_volumes
  simp only
  rw [(std_sort_perm sort_fn _).mem_iff, List.mem_filter, ← kept_iff]
  constructor
  · rintro ⟨h1, h2⟩
    refine ⟨h1, ?_⟩
    by_cases hs : starts_with name "inputlog".toList = true
    · by_cases he : extension name = ".ils".toList
      · exact ⟨hs, he⟩
      · rw [hs] at h2
        simp only [Bool.not_true, Bool.false_eq_true, if_false] at h2
        rw [if_pos he] at h2
        cases h2
    · rw [Bool.eq_false_iff.2 hs] at h2
      simp only [Bool.not_false, if_true] at h2
      cases h2
  · rintro ⟨h1, hs, he⟩
    refine ⟨h1, ?_⟩
    rw [hs]
    simp only [Bool.not_true, Bool.false_eq_true, if_false]
    rw [if_neg (not_not.2 he)]

/-! ## `atol` and `extract` -/

theorem digit_range {c : Char} (h : c.isDigit = true) : 48 ≤ c.toNat ∧ c.toNat ≤ 57 := by
  unfold Char.isDigit at h
  simp only [Bool.and_eq_true, decide_eq_true_eq] at h
  exact ⟨h.1, h.2⟩

theorem atol_digits_append : ∀ (ds rest : List Char) (acc : Nat),
    (∀ c ∈ ds, c.isDigit = true) →
    atol_digits (ds ++ '.' :: rest) acc =
      ds.foldl (fun acc c => 10 * acc + (c.toNat - 48)) acc := by
  intro ds
  induction ds with
  | nil => intro rest acc _; simp [atol_digits]
  | cons d ds ih =>
    intro rest acc h
    have hd : d.isDigit = true := h d (by simp)
    simp only [List.cons_append, atol_digits, hd, if_true, List.foldl_cons]
    exact ih rest _ (fun c hc => h c (List.mem_cons_of_mem _ hc))

theorem atol_of_digits (d : Char) (ds rest : List Char)
    (h : ∀ c ∈ d :: ds, c.isDigit = true) (hv : digits_value (d :: ds) < 2 ^ 63) :
    atol (d :: ds ++ '.' :: rest) = (digits_value (d :: ds) : Int) := by
  have hd := digit_range (h d (by simp))
  have hsp : isspace d = false := by
    unfold isspace
    simp only [Bool.or_eq_false_iff, Bool.and_eq_false_iff, decide_eq_false_iff_not]
    omega
  have hdw : (d :: ds ++ '.' :: rest).dropWhile isspace = d :: (ds ++ '.' :: rest) := by
    simp [List.dropWhile, hsp]
  have hval : atol_digits (d :: (ds ++ '.' :: rest)) 0 = digits_value (d :: ds) := by
    have := atol_digits_append (d :: ds) rest 0 h
    simpa [digits_value] using this
  unfold atol
  rw [hdw]
  split
  · rename_i cs heq
    simp only [List.cons.injEq] at heq
    have : d.toNat = 45 := by rw [heq.1]; rfl
    omega
  · rename_i cs heq
    simp only [List.cons.injEq] at heq
    have : d.toNat = 43 := by rw [heq.1]; rfl
    omega
  · rw [hval]
    have : (digits_value (d :: ds) : Int) < 2 ^ 63 := by exact_mod_cast hv
    omega

/-- On a name `inputlog<digits>.ils` whose digits denote a value that fits a `long`,
`extract` returns that value. -/
theorem extract_volume_file_name (ds : List Char) (hne : ds ≠ [])
    (h : ∀ c ∈ ds, c.isDigit = true) (hv : digits_value ds < 2 ^ 63) :
    extract (volume_file_name ds) = (digits_value ds : Int) := by
  cases ds with
  | nil => exact absurd rfl hne
  | cons d ds =>
    unfold extract volume_file_name substr
    simp only
    have h8 : "inputlog".toList.length = 8 := rfl
    have hdrop : ("inputlog".toList ++ (d :: ds) ++ ".ils".toList).drop 8 =
        d :: ds ++ '.' :: ['i', 'l', 's'] := by
      rw [List.append_assoc, List.drop_left' h8]
      rfl
    rw [hdrop]
    have hlen : ("inputlog".toList ++ (d :: ds) ++ ".ils".toList).length - 4 =
        8 + (ds.length + 1) := by
      simp only [List.length_append, List.length_cons, h8]
      have : ".ils".toList.length = 4 := rfl
      omega
    rw [hlen, List.take_of_length_le (by simp; omega)]
    exact atol_of_digits d ds _ h hv

theorem sort_insert_map {α β : Type} (comp : β → β → Bool) (f : α → β) (x : α) :
    ∀ l : List α, sort_insert comp (f x) (l.map f) =
      (sort_insert (fun a b => comp (f a) (f b)) x l).map f := by
  intro l
  induction l with
  | nil => rfl
  | cons y ys ih =>
    simp only [List.map_cons, sort_insert]
    split
    · rw [ih]; rfl
    · rfl

theorem std_sort_map {α β : Type} (comp : β → β → Bool) (f : α → β) :
    ∀ l : List α, std_sort comp (l.map f) =
      (std_sort (fun a b => comp (f a) (f b)) l).map f := by
  intro l
  induction l with
  | nil => rfl
  | cons x xs ih =>
    simp only [List.map_cons, std_sort]
    rw [ih, sort_insert_map]

/-! ## `open_volumes` -/

theorem lookup_file_some : ∀ (dir : List (Path × List StoredFrame)) (path : Path),
    path ∈ dir.map Prod.fst → ∃ file, lookup_file dir path = some file := by
  intro dir
  induction dir with
  | nil => intro path h; simp at h
  | cons e rest ih =>
    intro path h
    obtain ⟨p, file⟩ := e
    simp only [lookup_file]
    by_cases hp : p = path
    · exact ⟨file, by rw [if_pos hp]⟩
    · rw [if_neg hp]
      simp only [List.map_cons, List.mem_cons] at h
      rcases h with q | q
      · exact absurd q.symm hp
      · exact ih path q

/-- If every path is in the directory, the loop of `open_volumes` opens one read-only volume
a path, in the order of the paths, behind the volumes already open. -/
theorem open_volumes_loop_ok (NUM_TUPLES : Nat) (dir : List (Path × List StoredFrame)) :
    ∀ (paths : List Path) (log : InputLog), (∀ p ∈ paths, p ∈ dir.map Prod.fst) →
      open_volumes_loop NUM_TUPLES dir paths log = .ok
        { log with
          volumes_ := log.volumes_ ++ paths.map (fun p =>
            LZ4Volume.open_ro NUM_TUPLES p ((lookup_file dir p).getD [])),
          volume_counter_ := log.volume_counter_ + paths.length } := by
  intro paths
  induction paths with
  | nil => intro log _; simp [open_volumes_loop]
  | cons p rest ih =>
    intro log h
    obtain ⟨file, hf⟩ := lookup_file_some dir p (h p (by simp))
    simp only [open_volumes_loop, hf]
    rw [ih _ (fun q hq => h q (List.mem_cons_of_mem _ hq))]
    simp only [List.append_assoc, List.singleton_append, List.map_cons, Option.getD_some,
      List.length_cons, Except.ok.injEq, InputLog.mk.injEq, true_and, and_true]
    exact ⟨by rw [hf]; rfl, by omega⟩

theorem mem_find_volumes (listing : List Path) (name : Path)
    (h : name ∈ InputLog.find_volumes listing) : name ∈ listing := by
  unfold InputLog.find_volumes at h
  exact (List.mem_filter.1 ((std_sort_perm sort_fn _).subset h)).1

/-! ## Claim C10 -/

/-- C10: for file names `inputlog<digits>.ils` whose digits denote values that fit a `long`,
`find_volumes` lists the names in ascending order of the numeric value of the digits (not
in lexicographic order), and `open_volumes` opens the volumes in that order. The directory
is given by the digits and the content of every file. -/
theorem find_volumes_numeric_order (NUM_TUPLES : Nat) (rootdir : Path)
    (entries : List (List Char × List StoredFrame))
    (h : ∀ e ∈ entries, e.1 ≠ [] ∧ (∀ c ∈ e.1, c.isDigit = true) ∧ digits_value e.1 < 2 ^ 63) :
    ∃ sorted : List (List Char),
      List.Perm sorted (entries.map Prod.fst) ∧
      sorted.Pairwise (fun a b => digits_value a ≤ digits_value b) ∧
      InputLog.find_volumes (entries.map (fun e => volume_file_name e.1)) =
        sorted.map volume_file_name ∧
      ∃ log, InputLog.open NUM_TUPLES rootdir
          (entries.map (fun e => (volume_file_name e.1, e.2))) = .ok log ∧
        log.volumes_.map LZ4Volume.path_ = sorted.map volume_file_name := by
  have hnames : entries.map (fun e => volume_file_name e.1) =
      (entries.map Prod.fst).map volume_file_name := by simp
  have hvalid : ∀ ds ∈ entries.map Prod.fst,
      ds ≠ [] ∧ (∀ c ∈ ds, c.isDigit = true) ∧ digits_value ds < 2 ^ 63 := by
    intro ds hds
    obtain ⟨e, he, rfl⟩ := List.mem_map.1 hds
    exact h e he
  have hfilter : ∀ l : List (List Char),
      (l.map volume_file_name).filter (fun path =>
        if !starts_with path "inputlog".toList then false
        else if extension path ≠ ".ils".toList then false
        else true) = l.map volume_file_name := by
    intro l
    rw [List.filter_eq_self]
    intro name hname
    obtain ⟨ds, _, rfl⟩ := List.mem_map.1 hname
    obtain ⟨hs, he⟩ := (kept_iff (volume_file_name ds)).2 ⟨ds, rfl⟩
    rw [hs]
    simp only [Bool.not_true, Bool.false_eq_true, if_false]
    rw [if_neg (not_not.2 he)]
  have hfind : InputLog.find_volumes (entries.map (fun e => volume_file_name e.1)) =
      (std_sort (fun a b => sort_fn (volume_file_name a) (volume_file_name b))
        (entries.map Prod.fst)).map volume_file_name := by
    unfold InputLog.find_volumes
    simp only
    rw [hnames, hfilter, std_sort_map]
  have hperm := std_sort_perm (fun a b => sort_fn (volume_file_name a) (volume_file_name b))
    (entries.map Prod.fst)
  refine ⟨_, hperm, ?_, hfind, ?_⟩
  · have hs := std_sort_sorted
      (fun a b => sort_fn (volume_file_name a) (volume_file_name b))
      (fun a => extract (volume_file_name a)) (fun a b => rfl) (entries.map Prod.fst)
    rw [List.pairwise_iff_forall_sublist] at hs ⊢
    intro a b hab
    have ha : a ∈ entries.map Prod.fst := hperm.subset (hab.subset (by simp))
    have hb : b ∈ entries.map Prod.fst := hperm.subset (hab.subset (by simp))
    have := hs hab
    rw [extract_volume_file_name a (hvalid a ha).1 (hvalid a ha).2.1 (hvalid a ha).2.2,
      extract_volume_file_name b (hvalid b hb).1 (hvalid b hb).2.1 (hvalid b hb).2.2] at this
    exact_mod_cast this
  · have hdir : (entries.map (fun e => (volume_file_name e.1, e.2))).map Prod.fst =
        entries.map (fun e => volume_file_name e.1) := by simp
    unfold InputLog.open InputLog.open_volumes
    simp only [hdir]
    rw [open_volumes_loop_ok]
    · refine ⟨_, rfl, ?_⟩
      simp only [List.nil_append, List.map_map]
      rw [hfind]
      simp only [List.map_map]
      apply List.map_congr_left
      intro a _
      rfl
    · intro p hp
      rw [hdir]
      exact mem_find_volumes _ _ hp

/-- Witness of `find_volumes_numeric_order`: `inputlog2.ils` comes before `inputlog10.ils`,
against the lexicographic order of the names. -/
theorem find_volumes_numeric_order_witness :
    (∀ e ∈ [("10".toList, ([] : List StoredFrame)), ("2".toList, [])],
      e.1 ≠ [] ∧ (∀ c ∈ e.1, c.isDigit = true) ∧ digits_value e.1 < 2 ^ 63) ∧
    (∃ sorted : List (List Char),
      List.Perm sorted ([("10".toList, ([] : List StoredFrame)), ("2".toList, [])].map Prod.fst) ∧
      sorted.Pairwise (fun a b => digits_value a ≤ digits_value b) ∧
      InputLog.find_volumes
          ([("10".toList, ([] : List StoredFrame)), ("2".toList, [])].map
            (fun e => volume_file_name e.1)) =
        sorted.map volume_file_name ∧
      ∃ log, InputLog.open 1 "log".toList
          ([("10".toList, ([] : List StoredFrame)), ("2".toList, [])].map
            (fun e => (volume_file_name e.1, e.2))) = .ok log ∧
        log.volumes_.map LZ4Volume.path_ = sorted.map volume_file_name) ∧
    InputLog.find_volumes ["inputlog10.ils".toList, "inputlog2.ils".toList] =
      ["inputlog2.ils".toList, "inputlog10.ils".toList] :=
  ⟨by decide,
    find_volumes_numeric_order 1 "log".toList
      [("10".toList, ([] : List StoredFrame)), ("2".toList, [])] (by decide),
    by decide⟩

/-! ## Volume names -/

theorem digit_char (k : Nat) (h : k < 10) :
    (Char.ofNat (48 + k)).toNat = 48 + k ∧ (Char.ofNat (48 + k)).isDigit = true := by
  have : ∀ k : Fin 10, (Char.ofNat (48 + k.val)).toNat = 48 + k.val ∧
      (Char.ofNat (48 + k.val)).isDigit = true := by decide
  exact this ⟨k, h⟩

theorem foldl_digits_append (pre : List Char) (d : Char) (acc : Nat) :
    (pre ++ [d]).foldl (fun acc c => 10 * acc + (c.toNat - 48)) acc =
      10 * pre.foldl (fun acc c => 10 * acc + (c.toNat - 48)) acc + (d.toNat - 48) := by
  simp [List.foldl_append]

theorem put_decimal_spec : ∀ (fuel n : Nat) (ds : List Char), n < fuel →
    ∃ pre, put_decimal fuel n ds = pre ++ ds ∧ pre ≠ [] ∧
      (∀ c ∈ pre, c.isDigit = true) ∧ digits_value pre = n := by
  intro fuel
  induction fuel with
  | zero => intro n ds h; omega
  | succ fuel ih =>
    intro n ds h
    obtain ⟨hd1, hd2⟩ := digit_char (n % 10) (Nat.mod_lt _ (by decide))
    simp only [put_decimal]
    by_cases hz : n / 10 = 0
    · rw [if_pos hz]
      refine ⟨[Char.ofNat (48 + n % 10)], rfl, by simp, by simpa using hd2, ?_⟩
      simp only [digits_value, List.foldl_cons, List.foldl_nil, hd1]
      omega
    · rw [if_neg hz]
      obtain ⟨pre, h1, _, h3, h4⟩ := ih (n / 10) (Char.ofNat (48 + n % 10) :: ds) (by omega)
      refine ⟨pre ++ [Char.ofNat (48 + n % 10)], by rw [h1]; simp, by simp, ?_, ?_⟩
      · intro c hc
        rcases List.mem_append.1 hc with q | q
        · exact h3 c q
        · simp only [List.mem_singleton] at q; rw [q]; exact hd2
      · unfold digits_value at h4 ⊢
        rw [foldl_digits_append, h4, hd1]
        omega

theorem decimal_spec (n : Nat) :
    decimal n ≠ [] ∧ (∀ c ∈ decimal n, c.isDigit = true) ∧ digits_value (decimal n) = n := by
  obtain ⟨pre, h1, h2, h3, h4⟩ := put_decimal_spec (n + 1) n [] (by omega)
  have : decimal n = pre := by unfold decimal; rw [h1]; simp
  rw [this]
  exact ⟨h2, h3, h4⟩

theorem get_volume_name_eq (log : InputLog) :
    log.get_volume_name = volume_name log.volume_counter_ := rfl

theorem extract_volume_name (k : Nat) (h : k < 2 ^ 63) :
    extract (volume_name k) = (k : Int) := by
  obtain ⟨h1, h2, h3⟩ := decimal_spec k
  unfold volume_name
  rw [extract_volume_file_name _ h1 h2 (by rw [h3]; exact h), h3]

theorem volume_name_injective {j k : Nat} (h : volume_name j = volume_name k) : j = k := by
  unfold volume_name volume_file_name at h
  have h1 : decimal j = decimal k := by
    have := List.append_cancel_right h
    exact List.append_cancel_left this
  rw [← (decimal_spec j).2.2, ← (decimal_spec k).2.2, h1]

/-! ## `LZ4Volume::read_next` -/

theorem copy_records_spec (frame : Frame) (frmsize : Nat) : ∀ (n e : Nat), n ≤ e → e ≤ frmsize →
    copy_records frame frmsize n e =
      ((List.range' (frmsize - e) n).map frame.record, e - n) := by
  intro n
  induction n with
  | zero => intro e _ _; simp [copy_records]
  | succ n ih =>
    intro e h1 h2
    simp only [copy_records]
    rw [ih (e - 1) (by omega) (by omega)]
    have e1 : frmsize - (e - 1) = frmsize - e + 1 := by omega
    have e2 : e - 1 - n = e - (n + 1) := by omega
    rw [e1, e2, List.range'_succ]
    rfl

theorem file_records_cons_good {fr : StoredFrame} {f : Frame} (h : fr.payload = some f)
    (rest : List StoredFrame) :
    file_records (fr :: rest) = frame_records f ++ file_records rest := by
  simp [file_records, h]

theorem file_records_eq_nil {file : List StoredFrame} (hg : ∀ fr ∈ file, fr.good)
    (h : file_records file = []) : file = [] := by
  cases file with
  | nil => rfl
  | cons fr rest =>
    obtain ⟨_, f, hf, hpos⟩ := hg fr (by simp)
    rw [file_records_cons_good hf] at h
    have : frame_records f = [] := (List.append_eq_nil.1 h).1
    have hl : (frame_records f).length = f.size := by simp [frame_records]
    rw [this] at hl
    simp at hl
    omega

theorem set_frame_fields (v : LZ4Volume) (i : Nat) (f : Frame) :
    (v.set_frame i f).file_pos_ = v.file_pos_ ∧
    (v.set_frame i f).bytes_to_read_ = v.bytes_to_read_ ∧
    (v.set_frame i f).elements_to_read_ = v.elements_to_read_ := by
  unfold LZ4Volume.set_frame; split <;> exact ⟨rfl, rfl, rfl⟩

theorem read_next_unfold (NUM_TUPLES : Nat) (v : LZ4Volume) (buffer_size : Nat) :
    v.read_next NUM_TUPLES buffer_size =
      if v.elements_to_read_ = 0 then
        if v.bytes_to_read_ ≤ 0 then .ok ((aku_Status.AKU_SUCCESS, 0), v, [])
        else
          match (LZ4Volume.clear NUM_TUPLES { v with pos_ := (v.pos_ + 1) % 2 }
              ((v.pos_ + 1) % 2)).read ((v.pos_ + 1) % 2) with
          | .error e => .error e
          | .ok ((status, bytes_read), v3) =>
            if status ≠ aku_Status.AKU_SUCCESS then .ok ((status, 0), v3, [])
            else
              LZ4Volume.copy_out
                { v3 with bytes_to_read_ := v3.bytes_to_read_ - (bytes_read : Int),
                          elements_to_read_ := (v3.frames_ v3.pos_).size } buffer_size
      else v.copy_out buffer_size := by
  unfold LZ4Volume.read_next LZ4Volume.copy_out
  simp only [clear_pos]

theorem range_split (s e n : Nat) (h1 : n ≤ e) (h2 : e ≤ s) :
    List.range' (s - e) n ++ List.range' (s - (e - n)) (e - n) = List.range' (s - e) e := by
  have e1 : s - (e - n) = (s - e) + n := by omega
  rw [e1, List.range'_append_1]
  congr 1
  omega

/-- The copy step on a volume with unread records in its current frame: it returns
`n = min(buffer_size, elements_to_read_)` records, the first `n` unread ones. -/
theorem copy_out_spec (v : LZ4Volume) (buffer_size : Nat) (hbs : 0 < buffer_size)
    (inv : v.ReadInv) (he : 0 < v.elements_to_read_) :
    ∃ n v1 out, v.copy_out buffer_size = .ok ((aku_Status.AKU_SUCCESS, n), v1, out) ∧
      0 < n ∧ out ≠ [] ∧ out ++ v1.unread = v.unread ∧ v1.ReadInv ∧ v1.path_ = v.path_ := by
  obtain ⟨h1, h2, h3, h4⟩ := inv
  have hn : min buffer_size v.elements_to_read_ ≤ v.elements_to_read_ := Nat.min_le_right _ _
  have hpos : 0 < min buffer_size v.elements_to_read_ := by
    rw [Nat.lt_min]; exact ⟨hbs, he⟩
  refine ⟨min buffer_size v.elements_to_read_, _, _, rfl, hpos, ?_, ?_, ?_, rfl⟩
  · rw [copy_records_spec _ _ _ _ hn h2]
    intro hc
    have := congrArg List.length hc
    simp at this
    omega
  · rw [copy_records_spec _ _ _ _ hn h2]
    unfold LZ4Volume.unread
    simp only [LZ4Volume.frames_]
    rw [← List.append_assoc, ← List.map_append]
    have h2b : v.elements_to_read_ ≤ (if v.pos_ = 0 then v.frames_0 else v.frames_1).size := h2
    rw [range_split _ _ _ hn h2b]
  · rw [copy_records_spec _ _ _ _ hn h2]
    refine ⟨h1, ?_, h3, h4⟩
    show v.elements_to_read_ - min buffer_size v.elements_to_read_ ≤ (v.frames_ v.pos_).size
    omega

theorem get_file_size_cons (fr : StoredFrame) (rest : List StoredFrame) :
    _get_file_size (fr :: rest) = 4 + fr.size + _get_file_size rest := by
  simp [_get_file_size]

/-- `read_next` on a read-only volume over good frames, with a buffer of at least one
record: at the end of the file it returns `(AKU_SUCCESS, 0)`; otherwise it returns
`(AKU_SUCCESS, n)` with `n > 0` and the next `n` unread records. -/
theorem volume_read_next_spec (NUM_TUPLES : Nat) (v : LZ4Volume) (buffer_size : Nat)
    (hbs : 0 < buffer_size) (inv : v.ReadInv) :
    (v.unread = [] ∧
      v.read_next NUM_TUPLES buffer_size = .ok ((aku_Status.AKU_SUCCESS, 0), v, [])) ∨
    (v.unread ≠ [] ∧ ∃ n v1 out,
      v.read_next NUM_TUPLES buffer_size = .ok ((aku_Status.AKU_SUCCESS, n), v1, out) ∧
      0 < n ∧ out ≠ [] ∧ out ++ v1.unread = v.unread ∧ v1.ReadInv ∧ v1.path_ = v.path_) := by
  rw [read_next_unfold]
  by_cases he : v.elements_to_read_ = 0
  · rw [if_pos he]
    obtain ⟨h1, h2, h3, h4⟩ := inv
    cases hd : v.file_.drop v.file_pos_ with
    | nil =>
      left
      refine ⟨by simp [LZ4Volume.unread, he, hd, file_records], ?_⟩
      rw [if_pos (by rw [h3, hd]; simp [_get_file_size])]
    | cons fr rest =>
      right
      obtain ⟨hr, f, hf, hfs⟩ := h4 fr (by rw [hd]; simp)
      have hunread : v.unread = frame_records f ++ file_records rest := by
        simp only [LZ4Volume.unread, he, List.range'_zero, List.map_nil, List.nil_append, hd]
        exact file_records_cons_good hf rest
      have hlt : v.file_pos_ < v.file_.length := by
        by_contra hc
        rw [List.drop_eq_nil_of_le (by omega)] at hd
        cases hd
      have hget : v.file_[v.file_pos_]? = some fr := by
        rw [List.getElem?_eq_getElem hlt]
        have := List.drop_eq_getElem_cons hlt
        rw [hd] at this
        simp only [List.cons.injEq] at this
        rw [this.1]
      have hrest : v.file_.drop (v.file_pos_ + 1) = rest := by
        have := List.drop_eq_getElem_cons hlt
        rw [hd] at this
        simp only [List.cons.injEq] at this
        exact this.2.symm
      have hbytes : ¬ v.bytes_to_read_ ≤ 0 := by
        rw [h3, hd, get_file_size_cons]
        omega
      rw [if_neg hbytes]
      have hread : (LZ4Volume.clear NUM_TUPLES { v with pos_ := (v.pos_ + 1) % 2 }
          ((v.pos_ + 1) % 2)).read ((v.pos_ + 1) % 2) =
          .ok ((aku_Status.AKU_SUCCESS, fr.size + 4),
            ({ LZ4Volume.clear NUM_TUPLES { v with pos_ := (v.pos_ + 1) % 2 }
                ((v.pos_ + 1) % 2) with file_pos_ := v.file_pos_ + 1 }).set_frame
              ((v.pos_ + 1) % 2) f) := by
        unfold LZ4Volume.read
        have hro : (LZ4Volume.clear NUM_TUPLES { v with pos_ := (v.pos_ + 1) % 2 }
            ((v.pos_ + 1) % 2)).is_read_only_ = true := by
          unfold LZ4Volume.clear; rw [set_frame_read_only]; exact h1
        have hfile : (LZ4Volume.clear NUM_TUPLES { v with pos_ := (v.pos_ + 1) % 2 }
            ((v.pos_ + 1) % 2)).file_ = v.file_ := by
          rw [clear_file]
        have hfp : (LZ4Volume.clear NUM_TUPLES { v with pos_ := (v.pos_ + 1) % 2 }
            ((v.pos_ + 1) % 2)).file_pos_ = v.file_pos_ := by
          unfold LZ4Volume.clear; rw [(set_frame_fields _ _ _).1]
        simp only [hro, hfile, hfp, _read_frame, hget, hr, Bool.not_true, Bool.false_eq_true,
          if_false, ne_eq, not_true_eq_false, Option.some_bind, hf]
      rw [hread]
      simp only [ne_eq, not_true_eq_false, if_false]
      generalize hV3 : LZ4Volume.set_frame
        { LZ4Volume.clear NUM_TUPLES { v with pos_ := (v.pos_ + 1) % 2 }
            ((v.pos_ + 1) % 2) with file_pos_ := v.file_pos_ + 1 }
        ((v.pos_ + 1) % 2) f = V3
      have p1 : V3.pos_ = (v.pos_ + 1) % 2 := by
        rw [← hV3, set_frame_pos]
        show (LZ4Volume.clear NUM_TUPLES _ _).pos_ = _
        rw [clear_pos]
      have p2 : V3.frames_ V3.pos_ = f := by
        rw [p1, ← hV3, frames_set_frame_same]
      have p3 : V3.file_ = v.file_ := by
        rw [← hV3, set_frame_file]
        show (LZ4Volume.clear NUM_TUPLES _ _).file_ = _
        rw [clear_file]
      have p4 : V3.file_pos_ = v.file_pos_ + 1 := by
        rw [← hV3, (set_frame_fields _ _ _).1]
      have p5 : V3.bytes_to_read_ = v.bytes_to_read_ := by
        rw [← hV3, (set_frame_fields _ _ _).2.1]
        show (LZ4Volume.clear NUM_TUPLES _ _).bytes_to_read_ = _
        unfold LZ4Volume.clear
        rw [(set_frame_fields _ _ _).2.1]
      have p6 : V3.is_read_only_ = true := by
        rw [← hV3, set_frame_read_only]
        show (LZ4Volume.clear NUM_TUPLES _ _).is_read_only_ = _
        unfold LZ4Volume.clear
        rw [set_frame_read_only]
        exact h1
      have p7 : V3.path_ = v.path_ := by
        rw [← hV3, set_frame_path]
        show (LZ4Volume.clear NUM_TUPLES _ _).path_ = _
        unfold LZ4Volume.clear
        rw [set_frame_path]
      have inv1 : LZ4Volume.ReadInv
          { V3 with bytes_to_read_ := V3.bytes_to_read_ - ((fr.size + 4 : Nat) : Int),
                    elements_to_read_ := (V3.frames_ V3.pos_).size } := by
        refine ⟨p6, ?_, ?_, ?_⟩
        · show (V3.frames_ V3.pos_).size ≤ (V3.frames_ V3.pos_).size
          exact Nat.le_refl _
        · show V3.bytes_to_read_ - ((fr.size + 4 : Nat) : Int) =
            (_get_file_size (V3.file_.drop V3.file_pos_) : Int)
          rw [p5, p3, p4, hrest, h3, hd, get_file_size_cons]
          push_cast
          omega
        · show ∀ x ∈ V3.file_.drop V3.file_pos_, x.good
          rw [p3, p4, hrest]
          intro x hx
          exact h4 x (by rw [hd]; exact List.mem_cons_of_mem _ hx)
      have hunread1 : LZ4Volume.unread
          { V3 with bytes_to_read_ := V3.bytes_to_read_ - ((fr.size + 4 : Nat) : Int),
                    elements_to_read_ := (V3.frames_ V3.pos_).size } = v.unread := by
        rw [hunread]
        show (List.range' ((V3.frames_ V3.pos_).size - (V3.frames_ V3.pos_).size)
            (V3.frames_ V3.pos_).size).map (V3.frames_ V3.pos_).record ++
            file_records (V3.file_.drop V3.file_pos_) = _
        rw [p2, p3, p4, hrest, Nat.sub_self]
        rfl
      obtain ⟨n, v1, out, q1, q2, q3, q4, q5, q6⟩ := copy_out_spec _ buffer_size hbs inv1
        (show 0 < (V3.frames_ V3.pos_).size by rw [p2]; exact hfs)
      refine ⟨?_, n, v1, out, q1, q2, q3, ?_, q5, ?_⟩
      · rw [hunread]
        intro hc
        have := congrArg List.length hc
        simp [frame_records] at this
        omega
      · rw [q4, hunread1]
      · rw [q6]; exact p7
  · rw [if_neg he]
    right
    have hpos : 0 < v.elements_to_read_ := by omega
    obtain ⟨n, v1, out, q1, q2, q3, q4, q5, q6⟩ := copy_out_spec v buffer_size hbs inv hpos
    refine ⟨?_, n, v1, out, q1, q2, q3, q4, q5, q6⟩
    rw [← q4]
    simp [q3]

/-! ## `InputLog::read_next` -/

/-- `InputLog::read_next` on a log of read-only volumes over good frames, with a buffer of at
least one record: when nothing is left unread it returns `(AKU_SUCCESS, 0)`; otherwise it
returns a positive count and the next unread records. -/
theorem log_read_next_loop_spec (NUM_TUPLES : Nat) (buffer_size : Nat) (hbs : 0 < buffer_size) :
    ∀ (vs : List LZ4Volume) (log : InputLog) (fuel : Nat), log.volumes_ = vs →
      (∀ v ∈ vs, v.ReadInv) → vs.length < fuel →
      (log.unread = [] ∧ ∃ log1,
        InputLog.read_next_loop NUM_TUPLES buffer_size fuel log =
          some (.ok ((aku_Status.AKU_SUCCESS, 0), log1, []))) ∨
      (log.unread ≠ [] ∧ ∃ n log1 out,
        InputLog.read_next_loop NUM_TUPLES buffer_size fuel log =
          some (.ok ((aku_Status.AKU_SUCCESS, n), log1, out)) ∧
        0 < n ∧ out ≠ [] ∧ out ++ log1.unread = log.unread ∧
        (∀ v ∈ log1.volumes_, v.ReadInv)) := by
  intro vs
  induction vs with
  | nil =>
    intro log fuel hv _ hf
    left
    cases fuel with
    | zero => omega
    | succ fuel =>
      refine ⟨by simp [InputLog.unread, hv], log, ?_⟩
      simp only [InputLog.read_next_loop, hv]
  | cons front rest ih =>
    intro log fuel hv hinv hf
    cases fuel with
    | zero => omega
    | succ fuel =>
      simp only [InputLog.read_next_loop, hv]
      have hu : log.unread = front.unread ++ (rest.flatMap LZ4Volume.unread) := by
        simp [InputLog.unread, hv]
      rcases volume_read_next_spec NUM_TUPLES front buffer_size hbs (hinv front (by simp))
        with ⟨h1, h2⟩ | ⟨h1, n, v1, out, h2, h3, h4, h5, h6, _⟩
      · rw [h2]
        simp only [aku_Status.code, ne_eq, not_true_eq_false, if_false]
        have hrec := ih { log with volumes_ := rest } fuel rfl
          (fun v hv' => hinv v (List.mem_cons_of_mem _ hv')) (by simpa using hf)
        have hu2 : InputLog.unread { log with volumes_ := rest } = log.unread := by
          rw [hu, h1]; rfl
        rw [hu2] at hrec
        exact hrec
      · right
        rw [h2]
        have hn : n ≠ aku_Status.AKU_SUCCESS.code := by
          simp only [aku_Status.code]; omega
        simp only [ne_eq, hn, not_false_eq_true, if_true]
        refine ⟨?_, n, _, out, rfl, h3, h4, ?_, ?_⟩
        · rw [hu]; simp [h1]
        · rw [hu, ← h5]
          simp [InputLog.unread]
        · intro v hv'
          simp only [List.mem_cons] at hv'
          rcases hv' with q | q
          · rw [q]; exact h6
          · exact hinv v (List.mem_cons_of_mem _ q)

/-- The reader returns every unread record of the log, in order, within
`(number of unread records) + 1` calls of `read_next`. -/
theorem read_all_spec (NUM_TUPLES : Nat) (buffer_size : Nat) (hbs : 0 < buffer_size) :
    ∀ (fuel : Nat) (log : InputLog), (∀ v ∈ log.volumes_, v.ReadInv) →
      log.unread.length < fuel →
      InputLog.read_all NUM_TUPLES buffer_size fuel log = some (.ok log.unread) := by
  intro fuel
  induction fuel with
  | zero => intro log _ h; omega
  | succ fuel ih =>
    intro log hinv hf
    simp only [InputLog.read_all, InputLog.read_next]
    rcases log_read_next_loop_spec NUM_TUPLES buffer_size hbs log.volumes_ log
        (log.volumes_.length + 1) rfl hinv (by omega)
      with ⟨h1, log1, h2⟩ | ⟨h1, n, log1, out, h2, h3, h4, h5, h6⟩
    · rw [h2, h1]
      simp
    · rw [h2]
      have hn : ¬ (True ∧ n = 0) := by omega
      simp only [true_and] at hn ⊢
      rw [if_neg hn]
      have hlen : log1.unread.length < fuel := by
        have := congrArg List.length h5
        simp only [List.length_append] at this
        have : 0 < out.length := List.length_pos.2 h4
        omega
      rw [ih log1 h6 hlen]
      simp only [h5]

/-- C5, as stated, fails: with 170 tuples per frame, one sample appended to a new log stays
in the frame in memory; no frame reaches the file, and reading the volume back returns no
record. -/
theorem round_trip_loses_partial_frame :
    ∃ log0 wlog rlog,
      InputLog.create 170 "log".toList 3 4096 [] = .ok log0 ∧
      InputLog.write_all 170 log0 [((1, 2, 3), ⟨10, true⟩)] = .ok wlog ∧
      InputLog.open 170 "log".toList (wlog.volumes_.map (fun v => (v.path_, v.file_))) =
        .ok rlog ∧
      InputLog.read_all 170 1024 2 rlog = some (.ok []) :=
  ⟨_, _, _, rfl, rfl, rfl, rfl⟩

/-! ## The writer -/

theorem record_set_ne (l : List Nat) (s i x : Nat) (h : i ≠ s) :
    (l.set s x).getD i 0 = l.getD i 0 := by
  simp only [List.getD_eq_getElem?_getD]
  rw [List.getElem?_set_ne (fun e => h e.symm)]

theorem frame_records_stored {NUM_TUPLES : Nat} {v : LZ4Volume}
    (inv : v.FrameInv NUM_TUPLES) (id timestamp value : Nat) :
    frame_records (v.stored_frame id timestamp value) =
      frame_records (v.frames_ v.pos_) ++ [(id, timestamp, value)] := by
  have hrec := stored_frame_record inv id timestamp value
  have hsz : (v.stored_frame id timestamp value).size = (v.frames_ v.pos_).size + 1 := rfl
  unfold frame_records
  rw [hsz, List.range'_concat, List.map_append]
  simp only [Nat.one_mul, Nat.zero_add, List.map_cons, List.map_nil]
  rw [hsz] at hrec
  simp only [Nat.add_sub_cancel] at hrec
  rw [hrec]
  congr 1
  apply List.map_congr_left
  intro i hi
  have hlt : i < (v.frames_ v.pos_).size := by
    simp only [List.mem_range'_1] at hi
    omega
  simp only [Frame.record, LZ4Volume.stored_frame]
  rw [record_set_ne _ _ _ _ (by omega), record_set_ne _ _ _ _ (by omega),
    record_set_ne _ _ _ _ (by omega)]

theorem file_records_append (a b : List StoredFrame) :
    file_records (a ++ b) = file_records a ++ file_records b := by
  simp [file_records]

theorem flushed_fields (NUM_TUPLES : Nat) (v : LZ4Volume) (out_bytes : Int) :
    (v.flushed NUM_TUPLES out_bytes).path_ = v.path_ ∧
    (v.flushed NUM_TUPLES out_bytes).is_read_only_ = v.is_read_only_ ∧
    (v.flushed NUM_TUPLES out_bytes).file_size_ = v.file_size_ + (4 + out_bytes.toNat) ∧
    (v.flushed NUM_TUPLES out_bytes).max_file_size_ = v.max_file_size_ := by
  unfold LZ4Volume.flushed LZ4Volume.clear
  rw [set_frame_path, set_frame_read_only, set_frame_file_size, set_frame_max_file_size]
  exact ⟨rfl, rfl, rfl, rfl⟩

theorem stored_fields (v : LZ4Volume) (id timestamp value : Nat) :
    (v.stored id timestamp value).path_ = v.path_ ∧
    (v.stored id timestamp value).file_ = v.file_ ∧
    (v.stored id timestamp value).file_size_ = v.file_size_ ∧
    (v.stored id timestamp value).max_file_size_ = v.max_file_size_ := by
  unfold LZ4Volume.stored
  rw [set_frame_path, set_frame_file, set_frame_file_size, set_frame_max_file_size]
  exact ⟨rfl, rfl, rfl, rfl⟩

/-- The effect of a returning `append` on a writable volume: the sample is the last of the
records the volume holds, in its file or in its frame. -/
theorem appended_spec {NUM_TUPLES : Nat} (hNT : 0 < NUM_TUPLES) {v : LZ4Volume}
    (inv : v.WriteInv NUM_TUPLES) (id timestamp value : Nat) (env : WriteEnv) :
    (v.appended NUM_TUPLES id timestamp value env).WriteInv NUM_TUPLES ∧
    (v.appended NUM_TUPLES id timestamp value env).path_ = v.path_ ∧
    (v.appended NUM_TUPLES id timestamp value env).max_file_size_ = v.max_file_size_ ∧
    file_records (v.appended NUM_TUPLES id timestamp value env).file_ ++
        (v.appended NUM_TUPLES id timestamp value env).pending =
      file_records v.file_ ++ v.pending ++ [(id, timestamp, value)] ∧
    (v.file_size_ < (v.appended NUM_TUPLES id timestamp value env).file_size_ →
      (v.appended NUM_TUPLES id timestamp value env).pending = []) ∧
    v.file_size_ ≤ (v.appended NUM_TUPLES id timestamp value env).file_size_ := by
  obtain ⟨h1, h2, h3⟩ := inv
  have hinv2 := frame_inv_appended hNT h2 id timestamp value env
  have hrec := frame_records_stored h2 id timestamp value
  unfold LZ4Volume.appended at hinv2 ⊢
  by_cases hfull : (v.frames_ v.pos_).size + 1 = NUM_TUPLES
  · rw [if_pos hfull] at hinv2 ⊢
    obtain ⟨f1, f2, f3, f4⟩ := flushed_fields NUM_TUPLES (v.stored id timestamp value)
      env.out_bytes
    obtain ⟨s1, s2, s3, s4⟩ := stored_fields v id timestamp value
    have hpend : ((v.stored id timestamp value).flushed NUM_TUPLES env.out_bytes).pending =
        [] := by
      unfold LZ4Volume.pending
      rw [flushed_frame]
      simp [frame_records, Frame.zero]
    refine ⟨⟨?_, hinv2, ?_⟩, ?_, ?_, ?_, fun _ => hpend, ?_⟩
    · rw [f2, stored_read_only]; exact h1
    · rw [flushed_file, s2, stored_pos, stored_frames]
      intro fr hfr
      rcases List.mem_append.1 hfr with q | q
      · exact h3 fr q
      · simp only [List.mem_singleton] at q
        rw [q]
        exact ⟨rfl, _, rfl, by simp [LZ4Volume.stored_frame]⟩
    · rw [f1, s1]
    · rw [f4, s4]
    · rw [hpend, flushed_file, s2, stored_pos, stored_frames, file_records_append]
      have hone : ∀ (n : Nat) (f : Frame),
          file_records [StoredFrame.mk n (some f) true] = frame_records f := by
        intro n f; simp [file_records]
      rw [hone, hrec]
      unfold LZ4Volume.pending
      simp
    · rw [f3, s3]; omega
  · rw [if_neg hfull] at hinv2 ⊢
    obtain ⟨s1, s2, s3, s4⟩ := stored_fields v id timestamp value
    refine ⟨⟨?_, hinv2, ?_⟩, s1, s4, ?_, ?_, ?_⟩
    · rw [stored_read_only]; exact h1
    · rw [s2]; exact h3
    · rw [s2]
      unfold LZ4Volume.pending
      rw [stored_pos, stored_frames, hrec]
      simp
    · intro hlt; rw [s3] at hlt; omega
    · rw [s3]

theorem log_append_returns {NUM_TUPLES : Nat} {log : InputLog} {front front1 : LZ4Volume}
    {rest : List LZ4Volume} {id timestamp value : Nat} {env : WriteEnv} {status : aku_Status}
    (hv : log.volumes_ = front :: rest)
    (h : front.append NUM_TUPLES id timestamp value env = .ok (status, front1)) :
    ∃ stale, InputLog.append NUM_TUPLES log id timestamp value [] env =
      .ok (status, { log with volumes_ := front1 :: rest }, stale) := by
  unfold InputLog.append
  rw [hv]
  simp only [h]
  split
  · exact ⟨_, rfl⟩
  · exact ⟨_, rfl⟩

theorem rotate_returns (NUM_TUPLES : Nat) (log : InputLog)
    (h1 : log.volumes_.length < log.max_volumes_)
    (h2 : volume_name log.volume_counter_ ∉ log.files_) :
    InputLog.rotate NUM_TUPLES log = .ok
      { log with
        volumes_ := LZ4Volume.create NUM_TUPLES (volume_name log.volume_counter_)
          log.volume_size_ :: log.volumes_,
        volume_counter_ := log.volume_counter_ + 1,
        files_ := volume_name log.volume_counter_ :: log.files_ } := by
  unfold InputLog.rotate
  rw [if_neg (by omega)]
  simp only [get_volume_name_eq, InputLog.add_volume]
  rw [if_neg (by simpa using h2)]

theorem create_write_inv (NUM_TUPLES : Nat) (hNT : 0 < NUM_TUPLES) (name : Path) (svol : Nat) :
    (LZ4Volume.create NUM_TUPLES name svol).WriteInv NUM_TUPLES ∧
    (LZ4Volume.create NUM_TUPLES name svol).pending = [] ∧
    file_records (LZ4Volume.create NUM_TUPLES name svol).file_ = [] := by
  refine ⟨⟨rfl, frame_inv_create NUM_TUPLES hNT name svol, ?_⟩, ?_, ?_⟩
  · intro fr hfr; simp [LZ4Volume.create] at hfr
  · simp [LZ4Volume.pending, LZ4Volume.create, LZ4Volume.frames_, frame_records, Frame.zero]
  · simp [LZ4Volume.create, file_records]

theorem rotate_deficit {NUM_TUPLES : Nat} {log log1 : InputLog}
    (h : InputLog.rotate NUM_TUPLES log = .ok log1) :
    log.volume_counter_ + log1.volumes_.length ≤ log1.volume_counter_ + log.volumes_.length ∧
    (log.max_volumes_ ≤ log.volumes_.length →
      log.volume_counter_ + log1.volumes_.length <
        log1.volume_counter_ + log.volumes_.length) := by
  unfold InputLog.rotate at h
  by_cases hc : log.volumes_.length ≥ log.max_volumes_
  · rw [if_pos hc] at h
    cases hr : log.remove_last_volume with
    | error e => rw [hr] at h; cases h
    | ok log2 =>
      rw [hr] at h
      simp only at h
      obtain ⟨volume, hv, h2⟩ := remove_last_volume_ok hr
      obtain ⟨h3, _⟩ := add_volume_ok h
      have hpos : 1 ≤ log.volumes_.length := by
        cases hl : log.volumes_ with
        | nil => rw [hl] at hv; simp at hv
        | cons a t => simp
      subst h3
      subst h2
      simp only [List.length_cons, List.length_dropLast]
      constructor
      · omega
      · intro _; omega
  · rw [if_neg hc] at h
    simp only at h
    obtain ⟨h3, _⟩ := add_volume_ok h
    subst h3
    simp only [List.length_cons]
    constructor
    · omega
    · intro hge; omega

theorem log_append_fields {NUM_TUPLES : Nat} {log log1 : InputLog} {id timestamp value : Nat}
    {stale_ids stale1 : List Nat} {env : WriteEnv} {status : aku_Status}
    (h : InputLog.append NUM_TUPLES log id timestamp value stale_ids env =
      .ok (status, log1, stale1)) :
    log1.volumes_.length = log.volumes_.length ∧
    log1.volume_counter_ = log.volume_counter_ ∧ log1.max_volumes_ = log.max_volumes_ := by
  obtain ⟨front, rest, front1, hv, _, h1⟩ := log_append_ok h
  subst h1
  rw [hv]
  exact ⟨rfl, rfl, rfl⟩

/-- Through the writer the number of volumes created grows at least as much as the number
of volumes in the log: the difference is the number of volumes deleted. -/
theorem write_all_deficit (NUM_TUPLES : Nat) : ∀ (writes : List (Sample × WriteEnv))
    (log wlog : InputLog), InputLog.write_all NUM_TUPLES log writes = .ok wlog →
    log.volume_counter_ + wlog.volumes_.length ≤
      wlog.volume_counter_ + log.volumes_.length := by
  intro writes
  induction writes with
  | nil =>
    intro log wlog h
    simp only [InputLog.write_all, Except.ok.injEq] at h
    subst h
    exact Nat.le_refl _
  | cons w rest ih =>
    intro log wlog h
    obtain ⟨s, env⟩ := w
    simp only [InputLog.write_all] at h
    cases ha : InputLog.append NUM_TUPLES log s.1 s.2.1 s.2.2 [] env with
    | error e => rw [ha] at h; cases h
    | ok p =>
      obtain ⟨status, log1, stale⟩ := p
      rw [ha] at h
      simp only at h
      obtain ⟨a1, a2, _⟩ := log_append_fields ha
      by_cases hst : status = aku_Status.AKU_EOVERFLOW
      · rw [if_pos hst] at h
        cases hr : InputLog.rotate NUM_TUPLES log1 with
        | error e => rw [hr] at h; cases h
        | ok log2 =>
          rw [hr] at h
          have d1 := (rotate_deficit hr).1
          have d2 := ih log2 wlog h
          omega
      · rw [if_neg hst] at h
        have d2 := ih log1 wlog h
        omega

/-- One step of the writer keeps the invariant, as long as the step deletes no volume. -/
theorem write_step {NUM_TUPLES nvol svol : Nat} (hNT : 0 < NUM_TUPLES) {log : InputLog}
    {S : List Sample} (inv : log.WriteInv NUM_TUPLES nvol svol S) (s : Sample) (env : WriteEnv)
    (henv : 0 < env.out_bytes ∧ env.apr_success = true)
    (hroom : ∀ log1 stale, InputLog.append NUM_TUPLES log s.1 s.2.1 s.2.2 [] env =
      .ok (aku_Status.AKU_EOVERFLOW, log1, stale) → log.volumes_.length < nvol) :
    ∃ status log1 stale,
      InputLog.append NUM_TUPLES log s.1 s.2.1 s.2.2 [] env = .ok (status, log1, stale) ∧
      ∃ log2, (if status = aku_Status.AKU_EOVERFLOW then InputLog.rotate NUM_TUPLES log1
          else .ok log1) = .ok log2 ∧
        log2.WriteInv NUM_TUPLES nvol svol (S ++ [s]) := by
  obtain ⟨i1, i2, i3, i4, i5, i6, i7, i8, front, rest, hv, i9⟩ := inv
  have hfront := i6 front (by rw [hv]; simp)
  obtain ⟨a1, a2, a3, a4, a5, a6⟩ := appended_spec hNT hfront.1 s.1 s.2.1 s.2.2 env
  have happ := append_returns NUM_TUPLES front s.1 s.2.1 s.2.2 env
    (fun _ => ⟨hfront.1.1, henv.1, henv.2⟩)
  obtain ⟨stale, hlog⟩ := log_append_returns hv happ
  generalize hf1 : front.appended NUM_TUPLES s.1 s.2.1 s.2.2 env = front1 at *
  refine ⟨_, _, stale, hlog, ?_⟩
  have hpaths : (front1 :: rest).reverse.map LZ4Volume.path_ =
      (List.range log.volume_counter_).map volume_name := by
    rw [← i4, hv]
    simp only [List.reverse_cons, List.map_append, List.map_cons, List.map_nil, a2]
  have hS : S ++ [s] = (front1 :: rest).reverse.flatMap
      (fun v => file_records v.file_ ++ v.pending) := by
    rw [i7, hv]
    simp only [List.reverse_cons, List.flatMap_append, List.flatMap_cons, List.flatMap_nil,
      List.append_nil, a4, List.append_assoc]
  have hvols : ∀ v ∈ front1 :: rest, v.WriteInv NUM_TUPLES ∧ v.max_file_size_ = svol := by
    intro v hv'
    rcases List.mem_cons.1 hv' with q | q
    · rw [q]; exact ⟨a1, by rw [a3]; exact hfront.2⟩
    · exact i6 v (by rw [hv]; exact List.mem_cons_of_mem _ q)
  have hlen : (front1 :: rest).length = log.volume_counter_ := by
    rw [← i3, hv]; rfl
  by_cases hst : front1.overflow_status = aku_Status.AKU_EOVERFLOW
  · rw [if_pos hst]
    have hlt : log.volumes_.length < nvol := by
      rw [hst] at hlog
      exact hroom _ _ hlog
    have hnot : volume_name log.volume_counter_ ∉ log.files_ := by
      intro hmem
      obtain ⟨j, hj, e⟩ := i5 _ hmem
      have := volume_name_injective e
      omega
    have hrot := rotate_returns NUM_TUPLES { log with volumes_ := front1 :: rest }
      (by show (front1 :: rest).length < log.max_volumes_
          rw [hlen, i1, ← i3]; exact hlt) hnot
    refine ⟨_, hrot, ?_⟩
    obtain ⟨c1, c2, c3⟩ := create_write_inv NUM_TUPLES hNT
      (volume_name log.volume_counter_) log.volume_size_
    refine ⟨i1, i2, ?_, ?_, ?_, ?_, ?_, ?_, _, _, rfl, ?_⟩
    · show (_ :: front1 :: rest).length = log.volume_counter_ + 1
      rw [List.length_cons, hlen]
    · show (_ :: front1 :: rest).reverse.map LZ4Volume.path_ =
        (List.range (log.volume_counter_ + 1)).map volume_name
      rw [List.reverse_cons, List.map_append, hpaths, List.range_succ, List.map_append]
      rfl
    · intro p hp
      show ∃ j, j < log.volume_counter_ + 1 ∧ p = volume_name j
      rcases List.mem_cons.1 hp with q | q
      · exact ⟨log.volume_counter_, by omega, q⟩
      · obtain ⟨j, hj, e⟩ := i5 p q
        exact ⟨j, by omega, e⟩
    · intro v hv'
      rcases List.mem_cons.1 hv' with q | q
      · rw [q]; exact ⟨c1, i2⟩
      · exact hvols v q
    · show S ++ [s] = (_ :: front1 :: rest).reverse.flatMap _
      rw [List.reverse_cons, List.flatMap_append, ← hS]
      simp only [List.flatMap_cons, List.flatMap_nil, List.append_nil, c2, c3]
    · show (_ :: front1 :: rest).length ≤ (S ++ [s]).length + 1
      rw [List.length_cons, hlen, List.length_append, List.length_singleton]
      rw [← i3] at *
      omega
    · intro hsv
      refine ⟨by show 0 < log.volume_size_; rw [i2]; exact hsv, ?_⟩
      intro v hv'
      rcases List.mem_cons.1 hv' with q | q
      · rw [q]
        apply a5
        have := (i9 hsv).1
        unfold LZ4Volume.overflow_status at hst
        split at hst
        · rename_i hge
          rw [a3] at hge
          omega
        · cases hst
      · exact (i9 hsv).2 v q
  · rw [if_neg hst]
    refine ⟨_, rfl, i1, i2, hlen, hpaths, i5, hvols, hS, ?_, _, _, rfl, ?_⟩
    · show (front1 :: rest).length ≤ (S ++ [s]).length + 1
      rw [hlen, List.length_append, List.length_singleton]
      rw [← i3] at *
      omega
    · intro hsv
      refine ⟨?_, (i9 hsv).2⟩
      unfold LZ4Volume.overflow_status at hst
      split at hst
      · exact absurd rfl hst
      · rename_i hlt
        omega

/-- The writer keeps the invariant when it ends with every volume it has created, that is,
when `rotate` has deleted no volume. -/
theorem write_all_spec {NUM_TUPLES nvol svol : Nat} (hNT : 0 < NUM_TUPLES) :
    ∀ (writes : List (Sample × WriteEnv)) (log wlog : InputLog) (S : List Sample),
      log.WriteInv NUM_TUPLES nvol svol S →
      (∀ w ∈ writes, 0 < w.2.out_bytes ∧ w.2.apr_success = true) →
      InputLog.write_all NUM_TUPLES log writes = .ok wlog →
      wlog.volumes_.length = wlog.volume_counter_ →
      wlog.WriteInv NUM_TUPLES nvol svol (S ++ writes.map Prod.fst) := by
  intro writes
  induction writes with
  | nil =>
    intro log wlog S inv _ hw _
    simp only [InputLog.write_all, Except.ok.injEq] at hw
    subst hw
    simpa using inv
  | cons w rest ih =>
    intro log wlog S inv henv hw hkeep
    obtain ⟨s, env⟩ := w
    have hroom : ∀ log1 stale, InputLog.append NUM_TUPLES log s.1 s.2.1 s.2.2 [] env =
        .ok (aku_Status.AKU_EOVERFLOW, log1, stale) → log.volumes_.length < nvol := by
      intro log1 stale ha
      by_contra hc
      simp only [InputLog.write_all, ha, if_true] at hw
      cases hr : InputLog.rotate NUM_TUPLES log1 with
      | error e => rw [hr] at hw; cases hw
      | ok log2 =>
        rw [hr] at hw
        obtain ⟨a1, a2, a3⟩ := log_append_fields ha
        have d1 := (rotate_deficit hr).2 (by rw [a1, a3, inv.1]; omega)
        have d2 := write_all_deficit NUM_TUPLES rest log2 wlog hw
        have i3 := inv.2.2.1
        omega
    obtain ⟨status, log1, stale, h1, log2, h2, inv2⟩ :=
      write_step hNT inv s env (henv (s, env) (by simp)) hroom
    simp only [InputLog.write_all, h1] at hw
    have hw2 : InputLog.write_all NUM_TUPLES log2 rest = .ok wlog := by
      by_cases hst : status = aku_Status.AKU_EOVERFLOW
      · rw [if_pos hst] at h2 hw
        rw [h2] at hw
        exact hw
      · rw [if_neg hst] at h2 hw
        simp only [Except.ok.injEq] at h2
        rw [← h2]
        exact hw
    have := ih log2 wlog (S ++ [s]) inv2
      (fun w hw => henv w (List.mem_cons_of_mem _ hw)) hw2 hkeep
    simpa using this

theorem create_returns (NUM_TUPLES : Nat) (hNT : 0 < NUM_TUPLES) (rootdir : Path)
    (nvol svol : Nat) :
    ∃ log0, InputLog.create NUM_TUPLES rootdir nvol svol [] = .ok log0 ∧
      log0.WriteInv NUM_TUPLES nvol svol [] := by
  obtain ⟨c1, c2, c3⟩ := create_write_inv NUM_TUPLES hNT (volume_name 0) svol
  refine ⟨_, rfl, rfl, rfl, rfl, rfl, ?_, ?_, ?_, ?_, _, _, rfl, ?_⟩
  · intro p hp
    simp only [List.mem_singleton] at hp
    exact ⟨0, Nat.succ_pos 0, hp⟩
  · intro v hv
    simp only [List.mem_singleton] at hv
    rw [hv]
    exact ⟨c1, rfl⟩
  · show [] = [LZ4Volume.create NUM_TUPLES (volume_name 0) svol].reverse.flatMap _
    simp only [List.reverse_singleton, List.flatMap_cons, List.flatMap_nil, List.append_nil]
    rw [c2, c3]; rfl
  · simp
  · intro hsv
    exact ⟨hsv, by simp⟩

theorem appended_read_only (NUM_TUPLES : Nat) (v : LZ4Volume) (id timestamp value : Nat)
    (env : WriteEnv) :
    (v.appended NUM_TUPLES id timestamp value env).is_read_only_ = v.is_read_only_ := by
  unfold LZ4Volume.appended
  split
  · rw [(flushed_fields NUM_TUPLES _ env.out_bytes).2.1, stored_read_only]
  · rw [stored_read_only]

/-- `rotate` returns on a log the writer can use, whether it deletes a volume or not. -/
theorem rotate_total (NUM_TUPLES : Nat) (log : InputLog) (inv : log.Writable) :
    ∃ log1, InputLog.rotate NUM_TUPLES log = .ok log1 ∧ log1.Writable := by
  obtain ⟨hne, hro, hfiles⟩ := inv
  have hadd : ∀ lg : InputLog, lg.volume_counter_ = log.volume_counter_ →
      (∀ v ∈ lg.volumes_, v.is_read_only_ = false) →
      (∀ p ∈ lg.files_, p ∈ log.files_) →
      ∃ log1, InputLog.add_volume NUM_TUPLES lg lg.get_volume_name = .ok log1 ∧
        log1.Writable := by
    intro lg hc hv hf
    have hnot : volume_name lg.volume_counter_ ∉ lg.files_ := by
      intro hmem
      obtain ⟨j, hj, e⟩ := hfiles _ (hf _ hmem)
      have := volume_name_injective e
      omega
    refine ⟨_, by
      rw [get_volume_name_eq]
      unfold InputLog.add_volume
      rw [if_neg (by simpa using hnot)], ?_, ?_, ?_⟩
    · exact List.cons_ne_nil _ _
    · intro v hv'
      rcases List.mem_cons.1 hv' with q | q
      · rw [q]; rfl
      · exact hv v q
    · intro p hp
      show ∃ j, j < lg.volume_counter_ + 1 ∧ p = volume_name j
      rcases List.mem_cons.1 hp with q | q
      · exact ⟨lg.volume_counter_, by omega, q⟩
      · obtain ⟨j, hj, e⟩ := hfiles p (hf p q)
        exact ⟨j, by omega, e⟩
  unfold InputLog.rotate
  by_cases hc : log.volumes_.length ≥ log.max_volumes_
  · rw [if_pos hc]
    obtain ⟨volume, hlast⟩ : ∃ volume, log.volumes_.getLast? = some volume := by
      cases hl : log.volumes_.getLast? with
      | none => exact absurd (List.getLast?_eq_none_iff.1 hl) hne
      | some volume => exact ⟨volume, rfl⟩
    have hr : log.remove_last_volume = .ok
        { log with volumes_ := log.volumes_.dropLast,
                   files_ := log.files_.filter (fun p => p ≠ volume.path_) } := by
      unfold InputLog.remove_last_volume
      rw [hlast]
    rw [hr]
    exact hadd _ rfl (fun v hv => hro v (List.dropLast_subset _ hv))
      (fun p hp => (List.mem_filter.1 hp).1)
  · rw [if_neg hc]
    exact hadd log rfl hro (fun p hp => hp)

/-- The writer returns when every frame write succeeds, with or without deleted volumes. -/
theorem write_all_returns (NUM_TUPLES : Nat) : ∀ (writes : List (Sample × WriteEnv))
    (log : InputLog), log.Writable →
    (∀ w ∈ writes, 0 < w.2.out_bytes ∧ w.2.apr_success = true) →
    ∃ wlog, InputLog.write_all NUM_TUPLES log writes = .ok wlog := by
  intro writes
  induction writes with
  | nil => intro log _ _; exact ⟨log, rfl⟩
  | cons w rest ih =>
    intro log inv henv
    obtain ⟨s, env⟩ := w
    obtain ⟨hne, hro, hfiles⟩ := inv
    obtain ⟨front, tail, hv⟩ := List.exists_cons_of_ne_nil hne
    have he := henv (s, env) (by simp)
    have happ := append_returns NUM_TUPLES front s.1 s.2.1 s.2.2 env
      (fun _ => ⟨hro front (by rw [hv]; simp), he.1, he.2⟩)
    obtain ⟨stale, hlog⟩ := log_append_returns hv happ
    have inv1 : InputLog.Writable
        { log with volumes_ := front.appended NUM_TUPLES s.1 s.2.1 s.2.2 env :: tail } := by
      refine ⟨List.cons_ne_nil _ _, ?_, hfiles⟩
      intro v hv'
      rcases List.mem_cons.1 hv' with q | q
      · rw [q, appended_read_only]; exact hro front (by rw [hv]; simp)
      · exact hro v (by rw [hv]; exact List.mem_cons_of_mem _ q)
    have henv2 : ∀ w ∈ rest, 0 < w.2.out_bytes ∧ w.2.apr_success = true :=
      fun w hw => henv w (List.mem_cons_of_mem _ hw)
    simp only [InputLog.write_all, hlog]
    split
    · obtain ⟨log2, hr, inv2⟩ := rotate_total NUM_TUPLES _ inv1
      rw [hr]
      exact ih log2 inv2 henv2
    · exact ih _ inv1 henv2

theorem write_inv_writable {NUM_TUPLES nvol svol : Nat} {log : InputLog} {S : List Sample}
    (inv : log.WriteInv NUM_TUPLES nvol svol S) : log.Writable := by
  obtain ⟨_, _, _, _, i5, i6, _, _, front, rest, hv, _⟩ := inv
  exact ⟨by rw [hv]; exact List.cons_ne_nil _ _, fun v hv' => (i6 v hv').1.1, i5⟩

theorem rotate_fields {NUM_TUPLES : Nat} {log log1 : InputLog}
    (h : InputLog.rotate NUM_TUPLES log = .ok log1) :
    log1.volume_counter_ = log.volume_counter_ + 1 ∧ log1.max_volumes_ = log.max_volumes_ ∧
    (log.volumes_.length < log.max_volumes_ →
      log1.volumes_.length = log.volumes_.length + 1) := by
  unfold InputLog.rotate at h
  by_cases hc : log.volumes_.length ≥ log.max_volumes_
  · rw [if_pos hc] at h
    cases hr : log.remove_last_volume with
    | error e => rw [hr] at h; cases h
    | ok log2 =>
      rw [hr] at h
      simp only at h
      obtain ⟨volume, _, h2⟩ := remove_last_volume_ok hr
      obtain ⟨h3, _⟩ := add_volume_ok h
      subst h3
      subst h2
      exact ⟨rfl, rfl, fun hlt => absurd hc (by omega)⟩
  · rw [if_neg hc] at h
    simp only at h
    obtain ⟨h3, _⟩ := add_volume_ok h
    subst h3
    exact ⟨rfl, rfl, fun _ => by simp⟩

theorem write_all_counter (NUM_TUPLES : Nat) : ∀ (writes : List (Sample × WriteEnv))
    (log wlog : InputLog), InputLog.write_all NUM_TUPLES log writes = .ok wlog →
    log.volume_counter_ ≤ wlog.volume_counter_ ∧ wlog.max_volumes_ = log.max_volumes_ := by
  intro writes
  induction writes with
  | nil =>
    intro log wlog h
    simp only [InputLog.write_all, Except.ok.injEq] at h
    subst h
    exact ⟨Nat.le_refl _, rfl⟩
  | cons w rest ih =>
    intro log wlog h
    obtain ⟨s, env⟩ := w
    simp only [InputLog.write_all] at h
    cases ha : InputLog.append NUM_TUPLES log s.1 s.2.1 s.2.2 [] env with
    | error e => rw [ha] at h; cases h
    | ok p =>
      obtain ⟨status, log1, stale⟩ := p
      rw [ha] at h
      simp only at h
      obtain ⟨_, a2, a3⟩ := log_append_fields ha
      by_cases hst : status = aku_Status.AKU_EOVERFLOW
      · rw [if_pos hst] at h
        cases hr : InputLog.rotate NUM_TUPLES log1 with
        | error e => rw [hr] at h; cases h
        | ok log2 =>
          rw [hr] at h
          obtain ⟨r1, r2, _⟩ := rotate_fields hr
          obtain ⟨d1, d2⟩ := ih log2 wlog h
          exact ⟨by omega, by rw [d2, r2, a3]⟩
      · rw [if_neg hst] at h
        obtain ⟨d1, d2⟩ := ih log1 wlog h
        exact ⟨by omega, by rw [d2, a3]⟩

/-- A writer that starts with every volume created so far and ends with no more volumes
created than `max_volumes_` has deleted none. -/
theorem write_all_keeps (NUM_TUPLES : Nat) : ∀ (writes : List (Sample × WriteEnv))
    (log wlog : InputLog), InputLog.write_all NUM_TUPLES log writes = .ok wlog →
    log.volumes_.length = log.volume_counter_ →
    wlog.volume_counter_ ≤ log.max_volumes_ →
    wlog.volumes_.length = wlog.volume_counter_ := by
  intro writes
  induction writes with
  | nil =>
    intro log wlog h hl _
    simp only [InputLog.write_all, Except.ok.injEq] at h
    subst h
    exact hl
  | cons w rest ih =>
    intro log wlog h hl hmax
    obtain ⟨s, env⟩ := w
    simp only [InputLog.write_all] at h
    cases ha : InputLog.append NUM_TUPLES log s.1 s.2.1 s.2.2 [] env with
    | error e => rw [ha] at h; cases h
    | ok p =>
      obtain ⟨status, log1, stale⟩ := p
      rw [ha] at h
      simp only at h
      obtain ⟨a1, a2, a3⟩ := log_append_fields ha
      by_cases hst : status = aku_Status.AKU_EOVERFLOW
      · rw [if_pos hst] at h
        cases hr : InputLog.rotate NUM_TUPLES log1 with
        | error e => rw [hr] at h; cases h
        | ok log2 =>
          rw [hr] at h
          obtain ⟨r1, r2, r3⟩ := rotate_fields hr
          obtain ⟨d1, _⟩ := write_all_counter NUM_TUPLES rest log2 wlog h
          have hlt : log1.volumes_.length < log1.max_volumes_ := by omega
          exact ih log2 wlog h (by rw [r3 hlt, r1, a1, a2, hl]) (by rw [r2, a3]; exact hmax)
      · rw [if_neg hst] at h
        exact ih log1 wlog h (by rw [a1, a2, hl]) (by rw [a3]; exact hmax)

/-! ## Reading the written volumes back -/

/-- Two arrangements of the same elements, one in non-decreasing and one in increasing order
of a key, are the same list. -/
theorem sorted_perm_unique {α : Type} (key : α → Int) {l1 l2 : List α}
    (hp : List.Perm l1 l2) (h1 : l1.Pairwise (fun a b => key a ≤ key b))
    (h2 : l2.Pairwise (fun a b => key a < key b)) : l1 = l2 := by
  have hnd2 : (l2.map key).Nodup := by
    rw [List.Nodup, List.pairwise_map]
    exact h2.imp (fun h => by omega)
  have hnd1 : (l1.map key).Nodup := ((hp.map key).nodup_iff).2 hnd2
  rw [List.Nodup, List.pairwise_map] at hnd1
  have h1s : l1.Pairwise (fun a b => key a < key b) :=
    (h1.and hnd1).imp (fun h => by omega)
  haveI : IsAntisymm α (fun a b => key a < key b) :=
    ⟨fun a b q1 q2 => absurd q1 (by omega)⟩
  exact List.eq_of_perm_of_sorted hp h1s h2

theorem lookup_file_of_mem : ∀ (dir : List (Path × List StoredFrame)) (p : Path)
    (f : List StoredFrame), (dir.map Prod.fst).Nodup → (p, f) ∈ dir →
    lookup_file dir p = some f := by
  intro dir
  induction dir with
  | nil => intro p f _ h; simp at h
  | cons e rest ih =>
    intro p f hnd h
    obtain ⟨q, g⟩ := e
    simp only [List.map_cons, List.nodup_cons] at hnd
    simp only [lookup_file]
    rcases List.mem_cons.1 h with h | h
    · simp only [Prod.mk.injEq] at h
      rw [if_pos h.1.symm, h.2]
    · have hne : q ≠ p := by
        intro e
        apply hnd.1
        rw [e]
        exact List.mem_map_of_mem Prod.fst h
      rw [if_neg hne]
      exact ih p f hnd.2 h

theorem open_ro_spec (NUM_TUPLES : Nat) (p : Path) (file : List StoredFrame)
    (hg : ∀ fr ∈ file, fr.good) :
    (LZ4Volume.open_ro NUM_TUPLES p file).ReadInv ∧
    (LZ4Volume.open_ro NUM_TUPLES p file).unread = file_records file := by
  refine ⟨⟨rfl, Nat.zero_le _, rfl, ?_⟩, ?_⟩
  · intro fr hfr
    exact hg fr (by simpa [LZ4Volume.open_ro] using hfr)
  · simp [LZ4Volume.unread, LZ4Volume.open_ro]

theorem flatMap_length_le {α β : Type} (f g : α → List β) : ∀ l : List α,
    (l.flatMap f).length ≤ (l.flatMap (fun a => f a ++ g a)).length := by
  intro l
  induction l with
  | nil => simp
  | cons a t ih =>
    simp only [List.flatMap_cons, List.length_append]
    omega

theorem flatMap_congr_mem {α β : Type} (f g : α → List β) : ∀ l : List α,
    (∀ a ∈ l, f a = g a) → l.flatMap f = l.flatMap g := by
  intro l
  induction l with
  | nil => intro _; rfl
  | cons a t ih =>
    intro h
    simp only [List.flatMap_cons]
    rw [h a (by simp), ih (fun b hb => h b (List.mem_cons_of_mem _ hb))]

/-- The names of the volumes with counters below `k ≤ 2^63`, in counter order, are in
increasing order of what `extract` reads from them. -/
theorem volume_names_sorted (k : Nat) (hk : k ≤ 2 ^ 63) :
    ((List.range k).map volume_name).Pairwise (fun a b => extract a < extract b) := by
  rw [List.pairwise_map]
  refine List.Pairwise.imp_of_mem ?_ (List.pairwise_lt_range k)
  intro a b ha hb hab
  rw [List.mem_range] at ha hb
  rw [extract_volume_name a (by omega), extract_volume_name b (by omega)]
  exact_mod_cast hab

/-- Over a directory that holds exactly the volumes named by the counters below `k`, in
any order, `find_volumes` lists the names in counter order. -/
theorem find_volumes_of_perm (k : Nat) (hk : k ≤ 2 ^ 63) (listing : List Path)
    (hp : List.Perm listing ((List.range k).map volume_name)) :
    InputLog.find_volumes listing = (List.range k).map volume_name := by
  unfold InputLog.find_volumes
  simp only
  have hfilter : listing.filter (fun path =>
      if !starts_with path "inputlog".toList then false
      else if extension path ≠ ".ils".toList then false
      else true) = listing := by
    rw [List.filter_eq_self]
    intro name hname
    obtain ⟨j, _, rfl⟩ := List.mem_map.1 (hp.subset hname)
    obtain ⟨hs, he⟩ := (kept_iff (volume_name j)).2 ⟨decimal j, rfl⟩
    rw [hs]
    simp only [Bool.not_true, Bool.false_eq_true, if_false]
    rw [if_neg (not_not.2 he)]
  rw [hfilter]
  exact sorted_perm_unique extract ((std_sort_perm sort_fn listing).trans hp)
    (std_sort_sorted sort_fn extract (fun a b => rfl) listing) (volume_names_sorted k hk)

/-! ## Claim C5 -/

/-- C5, amended: samples are appended to a new write-mode log, `rotate` being called after
every overflow, with every frame write succeeding. The writer returns. No volume is deleted
when `max_volumes` is at least the number of volumes created. When no volume was
deleted, that is, when the log ends with all the volumes it has created
(`volumes_.size() = volume_counter_`), the volumes hold the samples in append order in
their files and frames, and opening the same files in read mode (in any directory order)
and calling `read_next` with a buffer of at least one record until it returns
`(AKU_SUCCESS, 0)` yields, in append order, exactly the samples of the frames that were
written to the files. The samples still in the frame a volume holds in memory are not in
any file and are not read back; with a positive volume size these are only the last fewer
than `NUM_TUPLES` samples, held by the newest volume. The number of samples is below `2^63`,
so that the volume counters fit a `long`. -/
theorem round_trip_written_frames (NUM_TUPLES : Nat) (hNT : 0 < NUM_TUPLES) (rootdir : Path)
    (nvol svol : Nat) (writes : List (Sample × WriteEnv)) (hn : writes.length < 2 ^ 63)
    (henv : ∀ w ∈ writes, 0 < w.2.out_bytes ∧ w.2.apr_success = true)
    (buffer_size : Nat) (hbs : 0 < buffer_size) :
    ∃ log0 wlog, InputLog.create NUM_TUPLES rootdir nvol svol [] = .ok log0 ∧
      InputLog.write_all NUM_TUPLES log0 writes = .ok wlog ∧
      (wlog.volume_counter_ ≤ nvol → wlog.volumes_.length = wlog.volume_counter_) ∧
      (wlog.volumes_.length = wlog.volume_counter_ →
        writes.map Prod.fst =
          wlog.volumes_.reverse.flatMap (fun v => file_records v.file_ ++ v.pending) ∧
        (0 < svol → ∃ front rest, wlog.volumes_ = front :: rest ∧
          writes.map Prod.fst =
            wlog.volumes_.reverse.flatMap (fun v => file_records v.file_) ++ front.pending ∧
          front.pending.length < NUM_TUPLES) ∧
        ∀ dir, List.Perm dir (wlog.volumes_.map (fun v => (v.path_, v.file_))) →
          ∀ fuel, writes.length < fuel →
            ∃ rlog, InputLog.open NUM_TUPLES rootdir dir = .ok rlog ∧
              InputLog.read_all NUM_TUPLES buffer_size fuel rlog =
                some (.ok
                  (wlog.volumes_.reverse.flatMap (fun v => file_records v.file_)))) := by
  obtain ⟨log0, hc, inv0⟩ := create_returns NUM_TUPLES hNT rootdir nvol svol
  obtain ⟨wlog, hw⟩ := write_all_returns NUM_TUPLES writes log0 (write_inv_writable inv0) henv
  refine ⟨log0, wlog, hc, hw, ?_, ?_⟩
  · intro hmax
    exact write_all_keeps NUM_TUPLES writes log0 wlog hw inv0.2.2.1
      (by rw [inv0.1]; exact hmax)
  intro hkeep
  have inv := write_all_spec hNT writes log0 wlog [] inv0 henv hw hkeep
  simp only [List.nil_append] at inv
  obtain ⟨i1, i2, i3, i4, i5, i6, i7, i8, front, rest, hv, i9⟩ := inv
  refine ⟨i7, ?_, ?_⟩
  · intro hsv
    refine ⟨front, rest, hv, ?_, ?_⟩
    · rw [i7, hv]
      simp only [List.reverse_cons, List.flatMap_append, List.flatMap_cons, List.flatMap_nil,
        List.append_nil, List.append_assoc]
      congr 1
      apply flatMap_congr_mem
      intro v hv'
      rw [(i9 hsv).2 v (List.mem_reverse.1 hv')]
      simp
    · have := (i6 front (by rw [hv]; simp)).1.2.1.1
      simpa [LZ4Volume.pending, frame_records] using this
  · intro dir hdir fuel hfuel
    have hk : wlog.volume_counter_ ≤ 2 ^ 63 := by
      have : (writes.map Prod.fst).length = writes.length := by simp
      rw [← i3]
      omega
    have hnames : List.Perm (dir.map Prod.fst)
        ((List.range wlog.volume_counter_).map volume_name) := by
      rw [← i4]
      refine (hdir.map Prod.fst).trans ?_
      rw [List.map_map]
      exact ((List.reverse_perm wlog.volumes_).map _).symm
    have hfind := find_volumes_of_perm wlog.volume_counter_ hk _ hnames
    have hnd : (dir.map Prod.fst).Nodup := by
      refine (hnames.nodup_iff).2 ?_
      exact (volume_names_sorted _ hk).imp (fun h e => by rw [e] at h; omega)
    have hopen := open_volumes_loop_ok NUM_TUPLES dir
      ((List.range wlog.volume_counter_).map volume_name)
      { root_dir_ := rootdir, volumes_ := [], available_volumes_ :=
          InputLog.find_volumes (dir.map Prod.fst), volume_counter_ := 0, max_volumes_ := 0,
        volume_size_ := 0, files_ := dir.map Prod.fst }
      (fun p hp => hnames.symm.subset hp)
    have hvols : ((List.range wlog.volume_counter_).map volume_name).map (fun p =>
        LZ4Volume.open_ro NUM_TUPLES p ((lookup_file dir p).getD [])) =
        wlog.volumes_.reverse.map (fun v => LZ4Volume.open_ro NUM_TUPLES v.path_ v.file_) := by
      rw [← i4, List.map_map]
      apply List.map_congr_left
      intro v hv'
      have hmem : (v.path_, v.file_) ∈ dir :=
        hdir.symm.subset (List.mem_map.2 ⟨v, List.mem_reverse.1 hv', rfl⟩)
      simp only [Function.comp, lookup_file_of_mem dir _ _ hnd hmem, Option.getD_some]
    rw [hfind] at hopen
    obtain ⟨rl, hrl1, hrl2⟩ : ∃ rl, open_volumes_loop NUM_TUPLES dir _ _ = .ok rl ∧
        rl.volumes_ = ((List.range wlog.volume_counter_).map volume_name).map (fun p =>
          LZ4Volume.open_ro NUM_TUPLES p ((lookup_file dir p).getD [])) :=
      ⟨_, hopen, by simp⟩
    rw [hvols] at hrl2
    have hopen2 : InputLog.open NUM_TUPLES rootdir dir = .ok rl := by
      unfold InputLog.open InputLog.open_volumes
      simp only
      rw [hfind]
      exact hrl1
    refine ⟨rl, hopen2, ?_⟩
    have hinv : ∀ v ∈ rl.volumes_, v.ReadInv := by
      rw [hrl2]
      intro v hv'
      obtain ⟨w, hw', rfl⟩ := List.mem_map.1 hv'
      exact (open_ro_spec NUM_TUPLES w.path_ w.file_
        (i6 w (List.mem_reverse.1 hw')).1.2.2).1
    have hunread : rl.unread =
        wlog.volumes_.reverse.flatMap (fun v => file_records v.file_) := by
      unfold InputLog.unread
      rw [hrl2, List.flatMap_map]
      apply flatMap_congr_mem
      intro w hw'
      exact (open_ro_spec NUM_TUPLES w.path_ w.file_
        (i6 w (List.mem_reverse.1 hw')).1.2.2).2
    have hlenu : rl.unread.length < fuel := by
      rw [hunread]
      have h1 := flatMap_length_le (fun v : LZ4Volume => file_records v.file_)
        (fun v => v.pending) wlog.volumes_.reverse
      rw [← i7] at h1
      simp only [List.length_map] at h1
      omega
    rw [read_all_spec NUM_TUPLES buffer_size hbs fuel rl hinv hlenu, hunread]

/-- Witness of `round_trip_written_frames`: two tuples per frame, a limit of two volumes of
20 bytes and six samples. A frame takes 14 bytes, so the first volume overflows with its
second frame and `rotate` adds a second volume without deleting one. Read back with a
buffer of one record, the six samples come in append order. -/
theorem round_trip_written_frames_witness :
    (0 < 2 ∧
      [((1, 10, 100), (⟨10, true⟩ : WriteEnv)), ((2, 20, 200), ⟨10, true⟩),
        ((3, 30, 300), ⟨10, true⟩), ((4, 40, 400), ⟨10, true⟩),
        ((5, 50, 500), ⟨10, true⟩), ((6, 60, 600), ⟨10, true⟩)].length < 2 ^ 63 ∧
      (∀ w ∈ [((1, 10, 100), (⟨10, true⟩ : WriteEnv)), ((2, 20, 200), ⟨10, true⟩),
        ((3, 30, 300), ⟨10, true⟩), ((4, 40, 400), ⟨10, true⟩),
        ((5, 50, 500), ⟨10, true⟩), ((6, 60, 600), ⟨10, true⟩)],
        0 < w.2.out_bytes ∧ w.2.apr_success = true) ∧
      0 < 1) ∧
    (∃ log0 wlog, InputLog.create 2 "log".toList 2 20 [] = .ok log0 ∧
      InputLog.write_all 2 log0
        [((1, 10, 100), (⟨10, true⟩ : WriteEnv)), ((2, 20, 200), ⟨10, true⟩),
          ((3, 30, 300), ⟨10, true⟩), ((4, 40, 400), ⟨10, true⟩),
          ((5, 50, 500), ⟨10, true⟩), ((6, 60, 600), ⟨10, true⟩)] = .ok wlog ∧
      (wlog.volume_counter_ ≤ 2 → wlog.volumes_.length = wlog.volume_counter_) ∧
      (wlog.volumes_.length = wlog.volume_counter_ →
        [((1, 10, 100), (⟨10, true⟩ : WriteEnv)), ((2, 20, 200), ⟨10, true⟩),
          ((3, 30, 300), ⟨10, true⟩), ((4, 40, 400), ⟨10, true⟩),
          ((5, 50, 500), ⟨10, true⟩), ((6, 60, 600), ⟨10, true⟩)].map Prod.fst =
          wlog.volumes_.reverse.flatMap (fun v => file_records v.file_ ++ v.pending) ∧
        (0 < 20 → ∃ front rest, wlog.volumes_ = front :: rest ∧
          [((1, 10, 100), (⟨10, true⟩ : WriteEnv)), ((2, 20, 200), ⟨10, true⟩),
            ((3, 30, 300), ⟨10, true⟩), ((4, 40, 400), ⟨10, true⟩),
            ((5, 50, 500), ⟨10, true⟩), ((6, 60, 600), ⟨10, true⟩)].map Prod.fst =
            wlog.volumes_.reverse.flatMap (fun v => file_records v.file_) ++ front.pending ∧
          front.pending.length < 2) ∧
        ∀ dir, List.Perm dir (wlog.volumes_.map (fun v => (v.path_, v.file_))) →
          ∀ fuel,
            [((1, 10, 100), (⟨10, true⟩ : WriteEnv)), ((2, 20, 200), ⟨10, true⟩),
              ((3, 30, 300), ⟨10, true⟩), ((4, 40, 400), ⟨10, true⟩),
              ((5, 50, 500), ⟨10, true⟩), ((6, 60, 600), ⟨10, true⟩)].length < fuel →
            ∃ rlog, InputLog.open 2 "log".toList dir = .ok rlog ∧
              InputLog.read_all 2 1 fuel rlog =
                some (.ok
                  (wlog.volumes_.reverse.flatMap (fun v => file_records v.file_))))) ∧
    (∃ log0 wlog rlog, InputLog.create 2 "log".toList 2 20 [] = .ok log0 ∧
      InputLog.write_all 2 log0
        [((1, 10, 100), (⟨10, true⟩ : WriteEnv)), ((2, 20, 200), ⟨10, true⟩),
          ((3, 30, 300), ⟨10, true⟩), ((4, 40, 400), ⟨10, true⟩),
          ((5, 50, 500), ⟨10, true⟩), ((6, 60, 600), ⟨10, true⟩)] = .ok wlog ∧
      wlog.volumes_.length = 2 ∧ wlog.volume_counter_ = 2 ∧
      wlog.volumes_.map LZ4Volume.path_ = ["inputlog1.ils".toList, "inputlog0.ils".toList] ∧
      InputLog.open 2 "log".toList (wlog.volumes_.map (fun v => (v.path_, v.file_))) =
        .ok rlog ∧
      InputLog.read_all 2 1 7 rlog =
        some (.ok [(1, 10, 100), (2, 20, 200), (3, 30, 300), (4, 40, 400), (5, 50, 500),
          (6, 60, 600)])) :=
  ⟨⟨by decide, by decide, by decide, by decide⟩,
    round_trip_written_frames 2 (by decide) "log".toList 2 20
      [((1, 10, 100), ⟨10, true⟩), ((2, 20, 200), ⟨10, true⟩), ((3, 30, 300), ⟨10, true⟩),
        ((4, 40, 400), ⟨10, true⟩), ((5, 50, 500), ⟨10, true⟩), ((6, 60, 600), ⟨10, true⟩)]
      (by decide) (by decide) 1 (by decide),
    ⟨_, _, _, rfl, rfl, rfl, rfl, by decide, rfl, rfl⟩⟩

/-! ## Claim C11 -/

theorem copy_records_length (frame : Frame) (frmsize : Nat) : ∀ (n e : Nat),
    (copy_records frame frmsize n e).1.length = n := by
  intro n
  induction n with
  | zero => intro e; rfl
  | succ n ih => intro e; simp [copy_records, ih]

theorem copy_out_count {v v1 : LZ4Volume} {buffer_size n : Nat} {st : aku_Status}
    {out : List Sample} (h : v.copy_out buffer_size = .ok ((st, n), v1, out)) :
    out.length = n ∧ st = aku_Status.AKU_SUCCESS := by
  unfold LZ4Volume.copy_out at h
  simp only [Except.ok.injEq, Prod.mk.injEq] at h
  obtain ⟨⟨h1, h2⟩, _, h4⟩ := h
  refine ⟨?_, h1.symm⟩
  rw [← h4, copy_records_length, h2]

/-- What `LZ4Volume::read_next` returns when it returns: the count is the number of records
written to the arrays, and a count that is not zero comes with `AKU_SUCCESS`. -/
theorem volume_read_next_count {NUM_TUPLES : Nat} {v v1 : LZ4Volume} {buffer_size n : Nat}
    {st : aku_Status} {out : List Sample}
    (h : v.read_next NUM_TUPLES buffer_size = .ok ((st, n), v1, out)) :
    out.length = n ∧ (n ≠ 0 → st = aku_Status.AKU_SUCCESS) := by
  rw [read_next_unfold] at h
  split_ifs at h with h1 h2
  · simp only [Except.ok.injEq, Prod.mk.injEq] at h
    obtain ⟨⟨_, h2⟩, _, h4⟩ := h
    subst h2 h4
    exact ⟨rfl, fun q => absurd rfl q⟩
  · split at h
    · exact absurd h (by simp)
    · split_ifs at h with h3
      · simp only [Except.ok.injEq, Prod.mk.injEq] at h
        obtain ⟨⟨_, h2⟩, _, h4⟩ := h
        subst h2 h4
        exact ⟨rfl, fun q => absurd rfl q⟩
      · exact ⟨(copy_out_count h).1, fun _ => (copy_out_count h).2⟩
  · exact ⟨(copy_out_count h).1, fun _ => (copy_out_count h).2⟩

/-- What the loop of `InputLog::read_next` returns when it returns: the status is
`AKU_SUCCESS` whatever the volumes have reported, the count is the number of records
written, and a zero count comes with an empty list of volumes. -/
theorem log_read_next_loop_count (NUM_TUPLES buffer_size : Nat) : ∀ (fuel : Nat)
    (log log1 : InputLog) (st : aku_Status) (n : Nat) (out : List Sample),
    InputLog.read_next_loop NUM_TUPLES buffer_size fuel log = some (.ok ((st, n), log1, out)) →
    st = aku_Status.AKU_SUCCESS ∧ out.length = n ∧ (n = 0 → log1.volumes_ = []) := by
  intro fuel
  induction fuel with
  | zero => intro log log1 st n out h; simp [InputLog.read_next_loop] at h
  | succ fuel ih =>
    intro log log1 st n out h
    unfold InputLog.read_next_loop at h
    split at h
    · rename_i hv
      simp only [Option.some.injEq, Except.ok.injEq, Prod.mk.injEq] at h
      obtain ⟨⟨h1, h2⟩, h3, h4⟩ := h
      subst h1 h2 h3 h4
      exact ⟨rfl, rfl, fun _ => hv⟩
    · split at h
      · exact absurd h (by simp)
      · rename_i front rest hv status result front1 out1 hr
        have hc := volume_read_next_count hr
        split_ifs at h with h5
        · simp only [Option.some.injEq, Except.ok.injEq, Prod.mk.injEq] at h
          obtain ⟨⟨h1, h2⟩, _, h4⟩ := h
          subst h1 h2 h4
          have hne : result ≠ 0 := h5
          exact ⟨hc.2 hne, hc.1, fun q => absurd q hne⟩
        · exact ih _ _ _ _ _ h

theorem lookup_file_mem : ∀ (dir : List (Path × List StoredFrame)) (p : Path)
    (f : List StoredFrame), lookup_file dir p = some f → (p, f) ∈ dir := by
  intro dir
  induction dir with
  | nil => intro p f h; simp [lookup_file] at h
  | cons e rest ih =>
    intro p f h
    obtain ⟨q, g⟩ := e
    simp only [lookup_file] at h
    split_ifs at h with hq
    · simp only [Option.some.injEq] at h
      rw [hq, h]
      exact List.mem_cons_self _ _
    · exact List.mem_cons_of_mem _ (ih p f h)

/-- Opening a directory whose volume files are made of good frames: the volumes are those
`find_volumes` lists, in that order, none of them read yet. -/
theorem open_spec (NUM_TUPLES : Nat) (rootdir : Path) (dir : List (Path × List StoredFrame))
    (hg : ∀ pf ∈ dir, ∀ fr ∈ pf.2, fr.good) :
    ∃ log, InputLog.open NUM_TUPLES rootdir dir = .ok log ∧
      log.volumes_.map LZ4Volume.path_ = InputLog.find_volumes (dir.map Prod.fst) ∧
      (∀ v ∈ log.volumes_, v.ReadInv) ∧
      log.unread = (InputLog.find_volumes (dir.map Prod.fst)).flatMap
        (fun p => file_records ((lookup_file dir p).getD [])) := by
  have hgood : ∀ p, ∀ fr ∈ (lookup_file dir p).getD [], fr.good := by
    intro p fr hfr
    cases hl : lookup_file dir p with
    | none => rw [hl] at hfr; simp at hfr
    | some f =>
      rw [hl] at hfr
      exact hg _ (lookup_file_mem dir p f hl) fr hfr
  refine ⟨_, open_volumes_loop_ok NUM_TUPLES dir _ _
    (fun p hp => mem_find_volumes _ p hp), ?_, ?_, ?_⟩
  · simp only [List.nil_append, List.map_map]
    conv_rhs => rw [← List.map_id (InputLog.find_volumes (dir.map Prod.fst))]
    exact List.map_congr_left (fun p _ => rfl)
  · intro v hv
    simp only [List.nil_append, List.mem_map] at hv
    obtain ⟨p, _, rfl⟩ := hv
    exact (open_ro_spec NUM_TUPLES p _ (hgood p)).1
  · simp only [InputLog.unread, List.nil_append, List.flatMap_map]
    exact flatMap_congr_mem _ _ _ (fun p _ => (open_ro_spec NUM_TUPLES p _ (hgood p)).2)

/-- C11 fails for volume files in general: the volume of `empty_frame_demo_dir` stores the
record `(3, 30, 300)` behind a frame without records. `read_next` with a buffer of two
records loads the first frame, finds nothing to copy and returns a zero count with 14 bytes
of the file still to read; `InputLog::read_next` takes the zero count for the end of the
file, removes the volume and returns `(AKU_SUCCESS, 0)`. The stored record is never
returned, and the zero count comes before the volume is exhausted. -/
theorem read_next_empty_frame_ends_volume :
    ∃ log front front1 log1,
      InputLog.open 2 "log".toList empty_frame_demo_dir = .ok log ∧
      log.volumes_ = [front] ∧
      file_records front.file_ = [(3, 30, 300)] ∧
      front.read_next 2 2 = .ok ((aku_Status.AKU_SUCCESS, 0), front1, []) ∧
      front1.bytes_to_read_ = 14 ∧
      InputLog.read_next 2 log 2 = some (.ok ((aku_Status.AKU_SUCCESS, 0), log1, [])) ∧
      log1.volumes_ = [] ∧
      InputLog.read_all 2 2 3 log = some (.ok []) :=
  ⟨_, _, _, _, rfl, rfl, by decide, rfl, rfl, rfl, rfl, rfl⟩

/-- C11, amended: take a buffer size above zero and volume files made of frames that can be
read and decompressed and hold a record (the frames `LZ4Volume::write` writes). A log opened
in read mode holds the volumes `find_volumes` lists, in that order, which is ascending in
the volume counter, and its unread records are the stored records of these files, file after
file, each in stored order. In every state of such a log a `read_next` call returns
`AKU_SUCCESS` with a count `n` and the next `n` unread records; the count is zero exactly
when no record is left, and then no volume is left. Calling `read_next` until it returns
`(AKU_SUCCESS, 0)` yields all the unread records in order. -/
theorem read_next_streams_records (NUM_TUPLES buffer_size : Nat) (hbs : 0 < buffer_size) :
    (∀ (rootdir : Path) (dir : List (Path × List StoredFrame)),
      (∀ pf ∈ dir, ∀ fr ∈ pf.2, fr.good) →
      ∃ log, InputLog.open NUM_TUPLES rootdir dir = .ok log ∧
        log.volumes_.map LZ4Volume.path_ = InputLog.find_volumes (dir.map Prod.fst) ∧
        (log.volumes_.map LZ4Volume.path_).Pairwise (fun a b => extract a ≤ extract b) ∧
        (∀ v ∈ log.volumes_, v.ReadInv) ∧
        log.unread = (log.volumes_.map LZ4Volume.path_).flatMap
          (fun p => file_records ((lookup_file dir p).getD []))) ∧
    (∀ log : InputLog, (∀ v ∈ log.volumes_, v.ReadInv) →
      (∃ n log1 out, InputLog.read_next NUM_TUPLES log buffer_size =
          some (.ok ((aku_Status.AKU_SUCCESS, n), log1, out)) ∧
        out.length = n ∧ out ++ log1.unread = log.unread ∧
        (∀ v ∈ log1.volumes_, v.ReadInv) ∧
        (n = 0 ↔ log.unread = []) ∧ (n = 0 → log1.volumes_ = [])) ∧
      (∀ fuel, log.unread.length < fuel →
        InputLog.read_all NUM_TUPLES buffer_size fuel log = some (.ok log.unread))) := by
  refine ⟨fun rootdir dir hg => ?_, fun log inv => ⟨?_, ?_⟩⟩
  · obtain ⟨log, h1, h2, h3, h4⟩ := open_spec NUM_TUPLES rootdir dir hg
    refine ⟨log, h1, h2, ?_, h3, by rw [h2]; exact h4⟩
    rw [h2]
    exact std_sort_sorted sort_fn extract (fun a b => rfl) _
  · rcases log_read_next_loop_spec NUM_TUPLES buffer_size hbs log.volumes_ log
      (log.volumes_.length + 1) rfl inv (Nat.lt_succ_self _) with
      ⟨h0, log1, h1⟩ | ⟨h0, n, log1, out, h1, h2, h3, h4, h5⟩
    · have hc := log_read_next_loop_count NUM_TUPLES buffer_size _ _ _ _ _ _ h1
      have hv : log1.volumes_ = [] := hc.2.2 rfl
      refine ⟨0, log1, [], h1, rfl, ?_, ?_, ⟨fun _ => h0, fun _ => rfl⟩, fun _ => hv⟩
      · rw [h0]
        simp [InputLog.unread, hv]
      · intro v hv1
        rw [hv] at hv1
        exact absurd hv1 (List.not_mem_nil _)
    · have hc := log_read_next_loop_count NUM_TUPLES buffer_size _ _ _ _ _ _ h1
      exact ⟨n, log1, out, h1, hc.2.1, h4, h5,
        ⟨fun q => absurd q (Nat.pos_iff_ne_zero.1 h2), fun q => absurd q h0⟩, hc.2.2⟩
  · intro fuel hf
    exact read_all_spec NUM_TUPLES buffer_size hbs fuel log inv hf

theorem eof_demo_inv : ∀ v ∈ eof_demo_log.volumes_, v.ReadInv := by
  intro v hv
  simp only [eof_demo_log, List.mem_cons, List.mem_singleton, List.not_mem_nil,
    or_false] at hv
  rcases hv with rfl | rfl
  · exact (open_ro_spec 2 _ [] (fun fr h => absurd h (List.not_mem_nil _))).1
  · refine (open_ro_spec 2 _ _ ?_).1
    intro fr hfr
    simp only [List.mem_singleton] at hfr
    subst hfr
    exact ⟨rfl, _, rfl, by decide⟩

theorem read_demo_dir_good : ∀ pf ∈ read_demo_dir, ∀ fr ∈ pf.2, fr.good := by
  intro pf hpf fr hfr
  simp only [read_demo_dir, List.mem_cons, List.mem_singleton, List.not_mem_nil,
    or_false] at hpf
  rcases hpf with rfl | rfl <;>
    (simp only [List.mem_singleton] at hfr; subst hfr
     exact ⟨rfl, _, rfl, by decide⟩)

/-- Witness of `read_next_streams_records`: the directory `read_demo_dir` read with a
buffer of two records; volume 2 is read before volume 10, and the third call is the first
to return a zero count. The second part is `read_next` on `eof_demo_log`. -/
theorem read_next_streams_records_witness :
    (0 < 2 ∧ ∀ pf ∈ read_demo_dir, ∀ fr ∈ pf.2, fr.good) ∧
    (∃ log, InputLog.open 2 "log".toList read_demo_dir = .ok log ∧
      log.volumes_.map LZ4Volume.path_ = InputLog.find_volumes (read_demo_dir.map Prod.fst) ∧
      (log.volumes_.map LZ4Volume.path_).Pairwise (fun a b => extract a ≤ extract b) ∧
      (∀ v ∈ log.volumes_, v.ReadInv) ∧
      log.unread = (log.volumes_.map LZ4Volume.path_).flatMap
        (fun p => file_records ((lookup_file read_demo_dir p).getD []))) ∧
    ((∀ v ∈ eof_demo_log.volumes_, v.ReadInv) ∧
      ∃ n log1 out, InputLog.read_next 2 eof_demo_log 2 =
          some (.ok ((aku_Status.AKU_SUCCESS, n), log1, out)) ∧
        out.length = n ∧ out ++ log1.unread = eof_demo_log.unread ∧
        (∀ v ∈ log1.volumes_, v.ReadInv) ∧
        (n = 0 ↔ eof_demo_log.unread = []) ∧ (n = 0 → log1.volumes_ = [])) ∧
    (∃ log log1 log2 log3, InputLog.open 2 "log".toList read_demo_dir = .ok log ∧
      log.volumes_.map LZ4Volume.path_ = ["inputlog2.ils".toList, "inputlog10.ils".toList] ∧
      InputLog.read_next 2 log 2 =
        some (.ok ((aku_Status.AKU_SUCCESS, 2), log1, [(1, 10, 100), (2, 20, 200)])) ∧
      InputLog.read_next 2 log1 2 =
        some (.ok ((aku_Status.AKU_SUCCESS, 1), log2, [(3, 30, 300)])) ∧
      InputLog.read_next 2 log2 2 = some (.ok ((aku_Status.AKU_SUCCESS, 0), log3, [])) ∧
      log3.volumes_ = [] ∧
      InputLog.read_all 2 2 4 log =
        some (.ok [(1, 10, 100), (2, 20, 200), (3, 30, 300)])) :=
  ⟨⟨by decide, read_demo_dir_good⟩,
    (read_next_streams_records 2 2 (by decide)).1 "log".toList read_demo_dir
      read_demo_dir_good,
    ⟨eof_demo_inv, ((read_next_streams_records 2 2 (by decide)).2 eof_demo_log eof_demo_inv).1⟩,
    ⟨_, _, _, _, rfl, rfl, rfl, rfl, rfl, rfl, rfl⟩⟩

/-! ## Claim C12 -/

/-- C12, the code at the failing input: the log opened over `swallow_demo_dir` has the
undecodable volume at its front, and `read_next` of that volume returns `(AKU_EIO, 0)`.
`InputLog::read_next` tests the count, not the status: it drops the volume and returns
`(AKU_SUCCESS, 1)` with the record of the next volume. Over the undecodable volume alone
it returns `(AKU_SUCCESS, 0)`, the answer of an exhausted log. -/
theorem read_next_swallows_error :
    (∃ log front rest front1 log1,
      InputLog.open 2 "log".toList swallow_demo_dir = .ok log ∧
      log.volumes_ = front :: rest ∧
      front.path_ = "inputlog0.ils".toList ∧
      front.read_next 2 2 = .ok ((aku_Status.AKU_EIO, 0), front1, []) ∧
      InputLog.read_next 2 log 2 =
        some (.ok ((aku_Status.AKU_SUCCESS, 1), log1, [(5, 50, 500)])) ∧
      log1.volumes_.map LZ4Volume.path_ = ["inputlog1.ils".toList]) ∧
    (∃ log front front1 log1,
      InputLog.open 2 "log".toList (swallow_demo_dir.take 1) = .ok log ∧
      log.volumes_ = [front] ∧
      front.read_next 2 2 = .ok ((aku_Status.AKU_EIO, 0), front1, []) ∧
      InputLog.read_next 2 log 2 = some (.ok ((aku_Status.AKU_SUCCESS, 0), log1, [])) ∧
      log1.volumes_ = []) :=
  ⟨⟨_, _, _, _, _, rfl, rfl, rfl, rfl, rfl, rfl⟩, ⟨_, _, _, _, rfl, rfl, rfl, rfl, rfl⟩⟩

/-! ## Claim C13 -/

/-- C13 fails for compression: a new volume with one tuple a frame gets its frame full
by the first `append`; the compressor reports 0 bytes, and `append` throws
`std::runtime_error("LZ4 error")`: it returns no status, `AKU_EIO` or other. -/
theorem append_lz4_failure_throws :
    (LZ4Volume.create 1 "inputlog0.ils".toList 100).append 1 7 70 700 ⟨0, true⟩ =
      .error "LZ4 error" ∧
    ∀ r, (LZ4Volume.create 1 "inputlog0.ils".toList 100).append 1 7 70 700 ⟨0, true⟩ ≠
      .ok r :=
  ⟨rfl, fun r h => by cases h⟩

theorem read_lz4_failure (v : LZ4Volume) (fr : StoredFrame) (i : Nat)
    (hro : v.is_read_only_ = true) (hfr : v.file_[v.file_pos_]? = some fr)
    (hr : fr.readable = true) (hp : fr.payload = none) :
    v.read i = .ok ((aku_Status.AKU_EIO, 0), { v with file_pos_ := v.file_pos_ + 1 }) := by
  unfold LZ4Volume.read _read_frame
  simp [hro, hfr, hr, hp]

/-- C13, amended: when LZ4 reports failure (a byte count that is not positive) on the
compression of a full frame, `append` on a writable volume throws the exception
`"LZ4 error"`; when LZ4 fails to decompress the next frame, `read_next` on a read-only
volume returns `(AKU_EIO, 0)` and no record, the file position being past the frame. -/
theorem lz4_failure_reported (NUM_TUPLES : Nat) (v : LZ4Volume) :
    (∀ (id timestamp value : Nat) (env : WriteEnv), v.is_read_only_ = false →
      (v.frames_ v.pos_).size + 1 = NUM_TUPLES → env.out_bytes ≤ 0 →
      v.append NUM_TUPLES id timestamp value env = .error "LZ4 error") ∧
    (∀ (buffer_size : Nat) (fr : StoredFrame), v.is_read_only_ = true →
      v.elements_to_read_ = 0 → 0 < v.bytes_to_read_ →
      v.file_[v.file_pos_]? = some fr → fr.readable = true → fr.payload = none →
      ∃ v1, v.read_next NUM_TUPLES buffer_size = .ok ((aku_Status.AKU_EIO, 0), v1, []) ∧
        v1.file_pos_ = v.file_pos_ + 1) := by
  constructor
  · intro id timestamp value env hro hfull henv
    rw [append_unfold, if_pos hfull]
    have hw : (v.stored id timestamp value).write v.pos_ env = .error "LZ4 error" := by
      unfold LZ4Volume.write
      rw [stored_read_only, hro]
      simp [henv]
    rw [hw]
  · intro buffer_size fr hro he hb hfr hr hp
    rw [read_next_unfold, if_pos he, if_neg (not_le.2 hb)]
    have hrd := read_lz4_failure (LZ4Volume.clear NUM_TUPLES
      { v with pos_ := (v.pos_ + 1) % 2 } ((v.pos_ + 1) % 2)) fr ((v.pos_ + 1) % 2)
      (by simp [LZ4Volume.clear, set_frame_read_only, hro])
      (by simpa [LZ4Volume.clear, set_frame_file, (set_frame_fields _ _ _).1] using hfr) hr hp
    rw [hrd]
    refine ⟨_, rfl, ?_⟩
    simp [LZ4Volume.clear, (set_frame_fields _ _ _).1]

/-- Witness of `lz4_failure_reported`: a compressor reporting -1 on the first frame of a
new volume, and a volume file whose only frame cannot be decompressed. -/
theorem lz4_failure_reported_witness :
    (LZ4Volume.create 1 "inputlog0.ils".toList 100).append 1 7 70 700 ⟨-1, true⟩ =
      .error "LZ4 error" ∧
    ∃ v1, (LZ4Volume.open_ro 2 "inputlog0.ils".toList [⟨10, none, true⟩]).read_next 2 2 =
        .ok ((aku_Status.AKU_EIO, 0), v1, []) ∧
      v1.file_pos_ = 0 + 1 :=
  ⟨(lz4_failure_reported 1 (LZ4Volume.create 1 "inputlog0.ils".toList 100)).1 7 70 700
      ⟨-1, true⟩ rfl rfl (by decide),
    (lz4_failure_reported 2 (LZ4Volume.open_ro 2 "inputlog0.ils".toList
      [⟨10, none, true⟩])).2 2 ⟨10, none, true⟩ rfl rfl (by decide) rfl rfl rfl⟩

/-! ## Claim C14 -/

theorem range_map_shift {α : Type} (f : Nat → α) (k m : Nat) :
    (List.range (m + 1)).map (fun i => f (k + 1 - i)) =
      f (k + 1) :: (List.range m).map (fun i => f (k - i)) := by
  rw [List.range_succ_eq_map]
  simp only [List.map_cons, List.map_map, Nat.sub_zero, List.cons.injEq, true_and]
  apply List.map_congr_left
  intro i _
  simp only [Function.comp, Nat.succ_eq_add_one, Nat.add_sub_add_right]

theorem appended_path (NUM_TUPLES : Nat) (v : LZ4Volume) (id timestamp value : Nat)
    (env : WriteEnv) : (v.appended NUM_TUPLES id timestamp value env).path_ = v.path_ := by
  unfold LZ4Volume.appended
  split
  · rw [(flushed_fields _ _ _).1, (stored_fields _ _ _ _).1]
  · exact (stored_fields _ _ _ _).1

theorem name_inv_create (NUM_TUPLES : Nat) (rootdir : Path) (n svol : Nat) (hn : 1 ≤ n)
    (files : List Path) (hfiles : ∀ j, volume_name j ∉ files) :
    ∃ log0, InputLog.create NUM_TUPLES rootdir n svol files = .ok log0 ∧
      log0.NameInv n svol files 0 := by
  have hc : files.contains (volume_name 0) = false := by
    simpa using hfiles 0
  refine ⟨{ root_dir_ := rootdir,
             volumes_ := [LZ4Volume.create NUM_TUPLES (volume_name 0) svol],
             available_volumes_ := [], volume_counter_ := 0 + 1, max_volumes_ := n,
             volume_size_ := svol, files_ := volume_name 0 :: files }, ?_, rfl, rfl, rfl, ?_, ?_⟩
  · unfold InputLog.create InputLog.add_volume
    simp only [get_volume_name_eq]
    rw [if_neg (by rw [hc]; simp)]
  · have : min (0 + 1) n = 1 := by omega
    rw [this]
    rfl
  · intro p hp
    simp only [get_volume_name_eq, List.mem_cons] at hp
    rcases hp with hp | hp
    · exact Or.inr ⟨0, le_refl _, hp⟩
    · exact Or.inl hp

theorem name_inv_append {NUM_TUPLES n svol : Nat} {files : List Path} {k : Nat}
    {log log1 : InputLog} {id timestamp value : Nat} {stale_ids stale1 : List Nat}
    {env : WriteEnv} {status : aku_Status} (inv : log.NameInv n svol files k)
    (h : InputLog.append NUM_TUPLES log id timestamp value stale_ids env =
      .ok (status, log1, stale1)) :
    log1.NameInv n svol files k := by
  obtain ⟨front, rest, front1, hv, ha, rfl⟩ := log_append_ok h
  obtain ⟨i1, i2, i3, i4, i5⟩ := inv
  refine ⟨i1, i2, i3, ?_, i5⟩
  rw [← i4, hv]
  simp only [List.map_cons, List.cons.injEq, and_true]
  rw [(append_ok ha).1, appended_path]

/-- Under the naming invariant `rotate` returns: the new front volume is named by the next
counter, and the back volume is removed exactly when the log holds `n` volumes. -/
theorem name_inv_rotate (NUM_TUPLES : Nat) {n svol : Nat} {files : List Path} {k : Nat}
    {log : InputLog} (hn : 1 ≤ n) (hfiles : ∀ j, volume_name j ∉ files)
    (inv : log.NameInv n svol files k) :
    ∃ log1, InputLog.rotate NUM_TUPLES log = .ok log1 ∧
      log1.volumes_ = LZ4Volume.create NUM_TUPLES (volume_name (k + 1)) svol ::
        (if log.volumes_.length = n then log.volumes_.dropLast else log.volumes_) ∧
      log1.NameInv n svol files (k + 1) := by
  obtain ⟨i1, i2, i3, i4, i5⟩ := inv
  have hlen : log.volumes_.length = min (k + 1) n := by
    have := congrArg List.length i4
    simpa using this
  have hfresh : ∀ fs : List Path, (∀ p ∈ fs, p ∈ log.files_) →
      fs.contains (volume_name (k + 1)) = false := by
    intro fs hfs
    rw [← Bool.not_eq_true]
    intro hc
    have hm : volume_name (k + 1) ∈ fs := by simpa using hc
    rcases i5 _ (hfs _ hm) with q | ⟨j, hj, q⟩
    · exact hfiles _ q
    · have := volume_name_injective q
      omega
  have hfiles1 : ∀ fs : List Path, (∀ p ∈ fs, p ∈ log.files_) →
      ∀ p ∈ volume_name (k + 1) :: fs, p ∈ files ∨ ∃ j, j ≤ k + 1 ∧ p = volume_name j := by
    intro fs hfs p hp
    rcases List.mem_cons.1 hp with hp | hp
    · exact Or.inr ⟨k + 1, le_refl _, hp⟩
    · rcases i5 _ (hfs _ hp) with q | ⟨j, hj, q⟩
      · exact Or.inl q
      · exact Or.inr ⟨j, by omega, q⟩
  by_cases hc : log.volumes_.length ≥ log.max_volumes_
  · have hfull : log.volumes_.length = n := by omega
    have hkn : n ≤ k + 1 := by omega
    have hne : log.volumes_ ≠ [] := by
      intro e
      rw [e] at hfull
      simp at hfull
      omega
    obtain ⟨back, hback⟩ : ∃ back, log.volumes_.getLast? = some back := by
      cases hl : log.volumes_.getLast? with
      | none => exact absurd (List.getLast?_eq_none_iff.1 hl) hne
      | some b => exact ⟨b, rfl⟩
    have hsub : ∀ p ∈ log.files_.filter (fun p => p ≠ back.path_), p ∈ log.files_ :=
      fun p hp => (List.mem_filter.1 hp).1
    refine ⟨{ log with
        volumes_ := LZ4Volume.create NUM_TUPLES (volume_name (k + 1)) svol ::
          log.volumes_.dropLast,
        volume_counter_ := k + 1 + 1,
        files_ := volume_name (k + 1) :: log.files_.filter (fun p => p ≠ back.path_) },
      ?_, ?_, i1, i2, rfl, ?_, hfiles1 _ hsub⟩
    · unfold InputLog.rotate
      rw [if_pos hc]
      unfold InputLog.remove_last_volume
      rw [hback]
      simp only
      unfold InputLog.add_volume
      simp only [get_volume_name_eq, i3]
      rw [if_neg (by rw [hfresh _ hsub]; simp), i2]
    · rw [if_pos hfull]
    · obtain ⟨m, rfl⟩ : ∃ m, n = m + 1 := ⟨n - 1, by omega⟩
      have h1 : min (k + 1 + 1) (m + 1) = m + 1 := by omega
      have h2 : min (k + 1) (m + 1) = m + 1 := by omega
      rw [h1, range_map_shift]
      simp only [List.map_cons, List.cons.injEq]
      refine ⟨rfl, ?_⟩
      rw [List.map_dropLast, i4, h2, List.range_succ, List.map_append, List.map_singleton,
        List.dropLast_concat]
  · have hlt : log.volumes_.length < n := by omega
    have hkn : k + 1 < n := by omega
    refine ⟨{ log with
        volumes_ := LZ4Volume.create NUM_TUPLES (volume_name (k + 1)) svol :: log.volumes_,
        volume_counter_ := k + 1 + 1,
        files_ := volume_name (k + 1) :: log.files_ },
      ?_, ?_, i1, i2, rfl, ?_, hfiles1 _ (fun p hp => hp)⟩
    · unfold InputLog.rotate
      rw [if_neg hc]
      unfold InputLog.add_volume
      simp only [get_volume_name_eq, i3]
      rw [if_neg (by rw [hfresh _ (fun p hp => hp)]; simp), i2]
    · rw [if_neg (by omega)]
    · have h1 : min (k + 1 + 1) n = k + 1 + 1 := by omega
      have h2 : min (k + 1) n = k + 1 := by omega
      rw [h1, range_map_shift]
      simp only [List.map_cons, List.cons.injEq]
      refine ⟨rfl, ?_⟩
      rw [i4, h2]

theorem name_inv_calls (NUM_TUPLES : Nat) {n svol : Nat} {files : List Path} (hn : 1 ≤ n)
    (hfiles : ∀ j, volume_name j ∉ files) : ∀ (ops : List LogCall) (k : Nat)
    (log log1 : InputLog), log.NameInv n svol files k →
    InputLog.calls NUM_TUPLES log ops = .ok log1 →
    log1.NameInv n svol files (k + rotations ops) := by
  intro ops
  induction ops with
  | nil =>
    intro k log log1 inv h
    simp only [InputLog.calls, Except.ok.injEq] at h
    subst h
    exact inv
  | cons c rest ih =>
    intro k log log1 inv h
    simp only [InputLog.calls] at h
    cases hc : InputLog.call NUM_TUPLES log c with
    | error e => rw [hc] at h; cases h
    | ok log2 =>
      rw [hc] at h
      simp only at h
      cases c with
      | append id timestamp value env =>
        simp only [InputLog.call] at hc
        cases ha : InputLog.append NUM_TUPLES log id timestamp value [] env with
        | error e => rw [ha] at hc; cases hc
        | ok r =>
          obtain ⟨status, log3, stale⟩ := r
          rw [ha] at hc
          simp only [Except.ok.injEq] at hc
          subst hc
          have := ih k _ _ (name_inv_append inv ha) h
          simpa [rotations] using this
      | rotate =>
        simp only [InputLog.call] at hc
        obtain ⟨log3, h3, _, inv3⟩ := name_inv_rotate NUM_TUPLES hn hfiles inv
        rw [h3] at hc
        simp only [Except.ok.injEq] at hc
        subst hc
        have := ih (k + 1) _ _ inv3 h
        have e : k + rotations (LogCall.rotate :: rest) = k + 1 + rotations rest := by
          simp [rotations]
          omega
        rw [e]
        exact this

theorem range_map_head_last {α : Type} (f : Nat → α) (k m : Nat) :
    ((List.range (m + 1)).map (fun i => f (k - i))).head? = some (f k) ∧
    ((List.range (m + 1)).map (fun i => f (k - i))).getLast? = some (f (k - m)) := by
  constructor
  · rw [List.range_succ_eq_map]
    rfl
  · rw [List.range_succ, List.map_append, List.map_singleton, List.getLast?_concat]

/-- C14: a write-mode log with limit `n ≥ 1` is created in a directory that holds no file
named like a volume. The constructor returns, and after any calls that return, `k` of them
calls of `rotate`: the live volumes from front to back are named `inputlog<k>.ils`,
`inputlog<k-1>.ils`, ..., down to `inputlog<max(0, k-n+1)>.ils`; the names are distinct and
the counter is `k + 1`; and one more `rotate` returns, puts the volume `inputlog<k+1>.ils`
at the front and removes the back volume exactly when the log holds `n` volumes. -/
theorem rotate_volume_names (NUM_TUPLES : Nat) (rootdir : Path) (n svol : Nat) (hn : 1 ≤ n)
    (files : List Path) (hfiles : ∀ j, volume_name j ∉ files) :
    ∃ log0, InputLog.create NUM_TUPLES rootdir n svol files = .ok log0 ∧
      ∀ (ops : List LogCall) (log : InputLog),
        InputLog.calls NUM_TUPLES log0 ops = .ok log →
        log.volumes_.map LZ4Volume.path_ =
          (List.range (min (rotations ops + 1) n)).map
            (fun i => volume_name (rotations ops - i)) ∧
        (log.volumes_.map LZ4Volume.path_).head? = some (volume_name (rotations ops)) ∧
        (log.volumes_.map LZ4Volume.path_).getLast? =
          some (volume_name (rotations ops + 1 - n)) ∧
        (log.volumes_.map LZ4Volume.path_).Nodup ∧
        log.volume_counter_ = rotations ops + 1 ∧
        ∃ log1, InputLog.rotate NUM_TUPLES log = .ok log1 ∧
          log1.volumes_ =
            LZ4Volume.create NUM_TUPLES (volume_name (rotations ops + 1)) svol ::
              (if log.volumes_.length = n then log.volumes_.dropLast else log.volumes_) := by
  obtain ⟨log0, h0, inv0⟩ := name_inv_create NUM_TUPLES rootdir n svol hn files hfiles
  refine ⟨log0, h0, ?_⟩
  intro ops log h
  have inv := name_inv_calls NUM_TUPLES hn hfiles ops 0 log0 log inv0 h
  rw [Nat.zero_add] at inv
  obtain ⟨log1, h1, h2, _⟩ := name_inv_rotate NUM_TUPLES hn hfiles inv
  obtain ⟨i1, i2, i3, i4, i5⟩ := inv
  obtain ⟨m, hm⟩ : ∃ m, min (rotations ops + 1) n = m + 1 :=
    ⟨min (rotations ops + 1) n - 1, by omega⟩
  have hl := range_map_head_last volume_name (rotations ops) m
  refine ⟨i4, ?_, ?_, ?_, i3, log1, h1, h2⟩
  · rw [i4, hm]
    exact hl.1
  · rw [i4, hm, hl.2]
    congr 2
    omega
  · rw [i4]
    refine List.Nodup.map_on ?_ (List.nodup_range _)
    intro a ha b hb hab
    rw [List.mem_range] at ha hb
    have := volume_name_injective hab
    omega

/-- Witness of `rotate_volume_names`: a log with limit 2 in an empty directory; after
three calls of `rotate` (and an `append`) it holds the volumes 3 and 2. -/
theorem rotate_volume_names_witness :
    (1 ≤ 2 ∧ ∀ j, volume_name j ∉ ([] : List Path)) ∧
    (∃ log0, InputLog.create 2 "log".toList 2 10 [] = .ok log0 ∧
      ∀ (ops : List LogCall) (log : InputLog),
        InputLog.calls 2 log0 ops = .ok log →
        log.volumes_.map LZ4Volume.path_ =
          (List.range (min (rotations ops + 1) 2)).map
            (fun i => volume_name (rotations ops - i)) ∧
        (log.volumes_.map LZ4Volume.path_).head? = some (volume_name (rotations ops)) ∧
        (log.volumes_.map LZ4Volume.path_).getLast? =
          some (volume_name (rotations ops + 1 - 2)) ∧
        (log.volumes_.map LZ4Volume.path_).Nodup ∧
        log.volume_counter_ = rotations ops + 1 ∧
        ∃ log1, InputLog.rotate 2 log = .ok log1 ∧
          log1.volumes_ =
            LZ4Volume.create 2 (volume_name (rotations ops + 1)) 10 ::
              (if log.volumes_.length = 2 then log.volumes_.dropLast else log.volumes_)) ∧
    (∃ log0 log, InputLog.create 2 "log".toList 2 10 [] = .ok log0 ∧
      InputLog.calls 2 log0
        [LogCall.rotate, LogCall.append 1 10 100 ⟨10, true⟩, LogCall.rotate, LogCall.rotate] =
          .ok log ∧
      log.volumes_.map LZ4Volume.path_ = ["inputlog3.ils".toList, "inputlog2.ils".toList] ∧
      log.files_ = ["inputlog3.ils".toList, "inputlog2.ils".toList]) :=
  ⟨⟨by decide, fun j => List.not_mem_nil _⟩,
    rotate_volume_names 2 "log".toList 2 10 (by decide) [] (fun j => List.not_mem_nil _),
    ⟨_, _, rfl, rfl, by decide, by decide⟩⟩

/-! ## The window of `Sequencer::add` -/

theorem value_lt_iff (a b : TimeSeriesValue) :
    TimeSeriesValue.lt a b = true ↔
      (a.key_.1 < b.key_.1 ∨ (a.key_.1 = b.key_.1 ∧ a.key_.2 < b.key_.2)) := by
  unfold TimeSeriesValue.lt
  exact tuple_lt_iff _ _

theorem value_lt_trans {a b c : TimeSeriesValue} (h1 : TimeSeriesValue.lt a b = true)
    (h2 : TimeSeriesValue.lt b c = true) : TimeSeriesValue.lt a c = true := by
  rw [value_lt_iff] at *
  omega

theorem value_lt_of_lt_of_le {a b c : TimeSeriesValue} (h1 : TimeSeriesValue.lt a b = true)
    (h2 : TimeSeriesValue.le b c) : TimeSeriesValue.lt a c = true := by
  unfold TimeSeriesValue.le at h2
  rw [value_lt_false_iff] at h2
  rw [value_lt_iff] at *
  omega

theorem value_lt_or_le (a b : TimeSeriesValue) :
    TimeSeriesValue.lt a b = true ∨ TimeSeriesValue.le b a := by
  unfold TimeSeriesValue.le
  cases TimeSeriesValue.lt a b
  · exact Or.inr rfl
  · exact Or.inl rfl

/-- On a range where `comp` holds for every element in front of one it holds for, the
halving search returns a position with `comp` holding for every element in front of it. -/
theorem lower_bound_loop_prefix {α β : Type} (comp : α → β → Bool) (xs : List α) (value : β)
    (B L : Nat) (hL : L ≤ xs.length)
    (mono : ∀ i j mi mj, B ≤ i → i ≤ j → j < L → xs[i]? = some mi → xs[j]? = some mj →
      comp mj value = true → comp mi value = true) :
    ∀ (fuel first len : Nat), len ≤ fuel → first + len ≤ L →
      (∀ i m, B ≤ i → i < first → xs[i]? = some m → comp m value = true) →
      ∀ i m, B ≤ i → i < lower_bound_loop comp xs value fuel first len →
        xs[i]? = some m → comp m value = true := by
  intro fuel
  induction fuel with
  | zero =>
    intro first len _ _ pre i m hB hi hx
    exact pre i m hB (by simpa [lower_bound_loop] using hi) hx
  | succ fuel ih =>
    intro first len h1 h2 pre i m hB hi hx
    by_cases hl : len > 0
    · have hd : len / 2 < len := Nat.div_lt_self hl (by decide)
      have hmid : first + len / 2 < xs.length := by omega
      have hget : xs[first + len / 2]? = some (xs[first + len / 2]) :=
        List.getElem?_eq_getElem hmid
      simp only [lower_bound_loop, hl, if_true, hget] at hi
      by_cases c : comp xs[first + len / 2] value = true
      · simp only [c, if_true] at hi
        refine ih (first + len / 2 + 1) (len - len / 2 - 1) (by omega) (by omega) ?_ i m hB hi hx
        intro i1 m1 hB1 hi1 hx1
        exact mono i1 (first + len / 2) m1 _ hB1 (by omega) (by omega) hx1 hget c
      · simp only [c, Bool.false_eq_true, if_false] at hi
        exact ih first (len / 2) (by omega) (by omega) pre i m hB hi hx
    · have : len = 0 := by omega
      subst this
      exact pre i m hB (by simpa [lower_bound_loop] using hi) hx

theorem back_concat (r : SortedRun) (v : TimeSeriesValue) : SortedRun.back (r ++ [v]) = v := by
  unfold SortedRun.back
  rw [List.getLastD_eq_getLast?, List.getLast?_concat]
  rfl

/-- In a window that satisfies its invariant, every run in front of the position `add`
appends at ends with a key above the value. -/
theorem add_position_first (s : Sequencer) (inv : WindowInv s) (value : TimeSeriesValue) :
    ∀ i r, s.window_begin ≤ i → i < s.insert_pos value → s.runs_[i]? = some r →
      TimeSeriesValue.lt value (SortedRun.back r) = true := by
  have hb : s.window_begin ≤ s.runs_.length := by
    unfold Sequencer.window_begin
    split <;> omega
  intro i r hB hi hx
  have key := lower_bound_loop_prefix top_element_more s.runs_ (s.key_.dropLast ++ [value])
    s.window_begin s.runs_.length (Nat.le_refl _) ?_ (s.runs_.length - s.window_begin)
    s.window_begin (s.runs_.length - s.window_begin) (Nat.le_refl _) (by omega)
    (fun i m h1 h2 _ => absurd h2 (by omega)) i r hB hi hx
  · unfold top_element_more top_element_less at key
    rw [back_concat] at key
    exact key
  · intro i j mi mj h1 h2 h3 h4 h5 h6
    unfold top_element_more top_element_less at *
    rw [back_concat] at *
    rcases Nat.eq_or_lt_of_le h2 with e | e
    · subst e
      rw [h4] at h5
      cases h5
      exact h6
    · exact value_lt_trans h6 (inv i j mi mj h1 e h4 h5)

theorem getElem?_push_back_at (v : TimeSeriesValue) : ∀ (runs : List SortedRun) (p i : Nat),
    (push_back_at runs p v)[i]? =
      if i = p then runs[i]?.map (fun r => r ++ [v]) else runs[i]? := by
  intro runs
  induction runs with
  | nil => intro p i; simp [push_back_at]
  | cons a rs ih =>
    intro p i
    cases p with
    | zero =>
      cases i with
      | zero => simp [push_back_at]
      | succ i => simp [push_back_at]
    | succ p =>
      cases i with
      | zero => simp [push_back_at]
      | succ i => simp [push_back_at, ih p i]

theorem push_back_at_length (v : TimeSeriesValue) : ∀ (runs : List SortedRun) (p : Nat),
    (push_back_at runs p v).length = runs.length := by
  intro runs
  induction runs with
  | nil => intro p; rfl
  | cons a rs ih =>
    intro p
    cases p with
    | zero => rfl
    | succ p => simp [push_back_at, ih p]

theorem push_back_at_eq_set (v : TimeSeriesValue) : ∀ (runs : List SortedRun) (p : Nat)
    (r : SortedRun), runs[p]? = some r → push_back_at runs p v = runs.set p (r ++ [v]) := by
  intro runs
  induction runs with
  | nil => intro p r h; simp at h
  | cons a rs ih =>
    intro p r h
    cases p with
    | zero =>
      simp only [List.getElem?_cons_zero, Option.some.injEq] at h
      subst h
      rfl
    | succ p =>
      simp only [List.getElem?_cons_succ] at h
      simp only [push_back_at, List.set_cons_succ, ih p r h]

theorem window_inv_add {s : Sequencer} (inv : WindowInv s) (value : TimeSeriesValue) :
    WindowInv (s.add value) := by
  obtain ⟨h1, h2, h3⟩ := add_position s value
  have hfirst := add_position_first s inv value
  rw [sequencer_add_eq]
  split
  · rename_i hp
    intro i j r1 r2 hB hij hi hj
    have hB0 : s.window_begin ≤ i := by
      refine le_trans ?_ hB
      unfold Sequencer.window_begin
      simp only [List.length_append, List.length_singleton]
      split <;> split <;> omega
    simp only at hi hj
    have hjl : j < s.runs_.length + 1 := by
      have := (List.getElem?_eq_some_iff.1 hj).1
      simpa using this
    have hil : i < s.runs_.length := by omega
    rw [List.getElem?_append_left hil] at hi
    rcases Nat.eq_or_lt_of_le (Nat.le_of_lt_succ hjl) with e | e
    · subst e
      rw [List.getElem?_append_right (Nat.le_refl _)] at hj
      simp only [Nat.sub_self, List.getElem?_cons_zero, Option.some.injEq] at hj
      subst hj
      exact hfirst i r1 hB0 (by omega) hi
    · rw [List.getElem?_append_left e] at hj
      exact inv i j r1 r2 hB0 hij hi hj
  · rename_i hp
    rcases h1 with e | ⟨rp, hrp, hle⟩
    · exact absurd e hp
    · intro i j r1 r2 hB hij hi hj
      have hB0 : s.window_begin ≤ i := by
        refine le_trans ?_ hB
        unfold Sequencer.window_begin
        simp only [push_back_at_length]
        exact Nat.le_refl _
      simp only [getElem?_push_back_at] at hi hj
      by_cases ei : i = s.insert_pos value
      · rw [if_pos ei, ei, hrp] at hi
        simp only [Option.map_some', Option.some.injEq] at hi
        subst hi
        rw [if_neg (by omega)] at hj
        rw [back_concat]
        exact value_lt_of_lt_of_le (inv _ j rp r2 h2 (by omega) hrp hj) hle
      · rw [if_neg ei] at hi
        by_cases ej : j = s.insert_pos value
        · rw [if_pos ej, ej, hrp] at hj
          simp only [Option.map_some', Option.some.injEq] at hj
          subst hj
          rw [back_concat]
          exact hfirst i r1 hB0 (by omega) hi
        · rw [if_neg ej] at hj
          exact inv i j r1 r2 hB0 hij hi hj

theorem foldl_add_window (values : List TimeSeriesValue) : ∀ (s : Sequencer), WindowInv s →
    WindowInv (values.foldl Sequencer.add s) ∧
    (values.foldl Sequencer.add s).window_size_ = s.window_size_ := by
  induction values with
  | nil => intro s h; exact ⟨h, rfl⟩
  | cons v vs ih =>
    intro s h
    have := ih _ (window_inv_add h v)
    refine ⟨this.1, this.2.trans ?_⟩
    rw [sequencer_add_eq]
    split <;> rfl

theorem addAll_window (W : Nat) (values : List TimeSeriesValue) :
    WindowInv (Sequencer.addAll W values) ∧ (Sequencer.addAll W values).window_size_ = W :=
  foldl_add_window values _ (by intro i j r1 r2 _ _ h; simp [Sequencer.mk0] at h)

theorem window_begin_eq (s : Sequencer) :
    s.window_begin = s.runs_.length - s.window_size_ := by
  unfold Sequencer.window_begin
  split <;> omega

/-! ## Claim C19 -/

/-- C19 fails: a Sequencer with window 2 holds the run `[5]`. The value 3 is not above the
last element of that run (5 ≥ 3), yet `add` does not append it there but opens the new run
`[3]`; the value 7 meets no run whose last element is greater or equal, yet `add` opens no
new run but appends it to `[5]`. -/
theorem add_not_first_greater_equal :
    (Sequencer.addAll 2 [⟨(5, 0), 0⟩]).runs_ = [[⟨(5, 0), 0⟩]] ∧
    TimeSeriesValue.lt (SortedRun.back [⟨(5, 0), 0⟩]) ⟨(3, 0), 0⟩ = false ∧
    ((Sequencer.addAll 2 [⟨(5, 0), 0⟩]).add ⟨(3, 0), 0⟩).runs_ =
      [[⟨(5, 0), 0⟩], [⟨(3, 0), 0⟩]] ∧
    TimeSeriesValue.lt (SortedRun.back [⟨(5, 0), 0⟩]) ⟨(7, 0), 0⟩ = true ∧
    ((Sequencer.addAll 2 [⟨(5, 0), 0⟩]).add ⟨(7, 0), 0⟩).runs_ =
      [[⟨(5, 0), 0⟩, ⟨(7, 0), 0⟩]] := by
  decide

/-- C19, amended: in a Sequencer state reached by `add` calls from a new Sequencer with
window `W`, `add(v)` appends `v` to the first run, among the last `W` runs, whose last
element is less than or equal to `v` (no run of the window in front of it has such a last
element), and if the window holds no such run it appends the new run `[v]` at the end of
the run list. -/
theorem add_first_fit (W : Nat) (values : List TimeSeriesValue) (v : TimeSeriesValue) :
    (∃ i r, (Sequencer.addAll W values).runs_.length - W ≤ i ∧
      (Sequencer.addAll W values).runs_[i]? = some r ∧
      TimeSeriesValue.le (SortedRun.back r) v ∧
      (∀ j r1, (Sequencer.addAll W values).runs_.length - W ≤ j → j < i →
        (Sequencer.addAll W values).runs_[j]? = some r1 →
        ¬ TimeSeriesValue.le (SortedRun.back r1) v) ∧
      ((Sequencer.addAll W values).add v).runs_ =
        push_back_at (Sequencer.addAll W values).runs_ i v ∧
      ((Sequencer.addAll W values).add v).runs_ =
        (Sequencer.addAll W values).runs_.set i (r ++ [v])) ∨
    ((∀ j r1, (Sequencer.addAll W values).runs_.length - W ≤ j →
        (Sequencer.addAll W values).runs_[j]? = some r1 →
        ¬ TimeSeriesValue.le (SortedRun.back r1) v) ∧
      ((Sequencer.addAll W values).add v).runs_ =
        (Sequencer.addAll W values).runs_ ++ [[v]]) := by
  obtain ⟨inv, hW⟩ := addAll_window W values
  generalize Sequencer.addAll W values = s at inv hW
  have hb := window_begin_eq s
  rw [hW] at hb
  rw [← hb]
  obtain ⟨h1, h2, h3⟩ := add_position s v
  have hfirst := add_position_first s inv v
  have hnot : ∀ j r1, s.window_begin ≤ j → j < s.insert_pos v → s.runs_[j]? = some r1 →
      ¬ TimeSeriesValue.le (SortedRun.back r1) v := by
    intro j r1 hj1 hj2 hj3 hle
    have := hfirst j r1 hj1 hj2 hj3
    unfold TimeSeriesValue.le at hle
    rw [hle] at this
    cases this
  by_cases hp : s.insert_pos v = s.runs_.length
  · right
    refine ⟨?_, by rw [sequencer_add_eq, if_pos hp]⟩
    intro j r1 hj1 hj3
    have hjl : j < s.runs_.length := (List.getElem?_eq_some_iff.1 hj3).1
    exact hnot j r1 hj1 (by omega) hj3
  · left
    rcases h1 with e | ⟨rp, hrp, hle⟩
    · exact absurd e hp
    · have hadd : (s.add v).runs_ = push_back_at s.runs_ (s.insert_pos v) v := by
        rw [sequencer_add_eq, if_neg hp]
      exact ⟨s.insert_pos v, rp, h2, hrp, hle, hnot, hadd,
        hadd.trans (push_back_at_eq_set v _ _ rp hrp)⟩

/-! ## Claim C20 -/

/-- C20: in every Sequencer state reached by `add` calls from a new Sequencer, whatever
the window, every run is non-empty and in non-decreasing key order: each element is not
above the next one, and not above any later one. -/
theorem runs_nonempty_sorted (W : Nat) (values : List TimeSeriesValue) (r : SortedRun)
    (hr : r ∈ (Sequencer.addAll W values).runs_) :
    r ≠ [] ∧ r.Chain' TimeSeriesValue.le ∧ r.Pairwise TimeSeriesValue.le ∧
    ∀ i a b, r[i]? = some a → r[i + 1]? = some b → TimeSeriesValue.lt b a = false := by
  obtain ⟨h1, h2⟩ := addAll_inv W values r hr
  refine ⟨h1, h2.chain', h2, ?_⟩
  intro i a b ha hb
  obtain ⟨hi, rfl⟩ := List.getElem?_eq_some_iff.1 ha
  obtain ⟨hj, rfl⟩ := List.getElem?_eq_some_iff.1 hb
  exact List.pairwise_iff_getElem.1 h2 i (i + 1) hi hj (Nat.lt_succ_self i)

/-- Witness of `runs_nonempty_sorted`: the values 2, 1, 3 end up in the runs `[2, 3]` and
`[1]`. -/
theorem runs_nonempty_sorted_witness :
    [⟨(2, 0), 0⟩, ⟨(3, 0), 0⟩] ∈
      (Sequencer.addAll 2 [⟨(2, 0), 0⟩, ⟨(1, 0), 0⟩, ⟨(3, 0), 0⟩]).runs_ ∧
    (([⟨(2, 0), 0⟩, ⟨(3, 0), 0⟩] : SortedRun) ≠ [] ∧
      ([⟨(2, 0), 0⟩, ⟨(3, 0), 0⟩] : SortedRun).Chain' TimeSeriesValue.le ∧
      ([⟨(2, 0), 0⟩, ⟨(3, 0), 0⟩] : SortedRun).Pairwise TimeSeriesValue.le ∧
      ∀ i a b, ([⟨(2, 0), 0⟩, ⟨(3, 0), 0⟩] : SortedRun)[i]? = some a →
        ([⟨(2, 0), 0⟩, ⟨(3, 0), 0⟩] : SortedRun)[i + 1]? = some b →
        TimeSeriesValue.lt b a = false) :=
  ⟨by decide,
    runs_nonempty_sorted 2 [⟨(2, 0), 0⟩, ⟨(1, 0), 0⟩, ⟨(3, 0), 0⟩]
      [⟨(2, 0), 0⟩, ⟨(3, 0), 0⟩] (by decide)⟩

/-! ## Claim C16 -/

theorem encode_base128_length : ∀ (fuel value : Nat),
    (encode_base128 fuel value).length ≤ fuel := by
  intro fuel
  induction fuel with
  | zero => intro value; simp [encode_base128]
  | succ fuel ih =>
    intro value
    unfold encode_base128
    split
    · simp
    · simp only [List.length_cons]
      exact Nat.succ_le_succ (ih _)

/-- The decoder undoes the encoder: a value below `128 ^ (fuel + 1)` is read back from its
code, whatever bytes follow. -/
theorem decode_encode_base128 : ∀ (fuel value : Nat), value < 128 ^ (fuel + 1) →
    ∀ (rest : List Nat) (shift acc : Nat),
      decode_base128 (encode_base128 (fuel + 1) value ++ rest) shift acc =
        some (acc + value * 2 ^ shift, rest) := by
  intro fuel
  induction fuel with
  | zero =>
    intro value hv rest shift acc
    have h : value < 128 := by simpa using hv
    simp [encode_base128, decode_base128, h, Nat.mod_eq_of_lt h]
  | succ fuel ih =>
    intro value hv rest shift acc
    by_cases h : value < 128
    · simp [encode_base128, decode_base128, h, Nat.mod_eq_of_lt h]
    · have hd : value / 128 < 128 ^ (fuel + 1) := by
        rw [Nat.div_lt_iff_lt_mul (by decide)]
        calc value < 128 ^ (fuel + 1 + 1) := hv
          _ = 128 ^ (fuel + 1) * 128 := by rw [pow_succ]
      have hb : ¬ 128 + value % 128 < 128 := by omega
      have hm : (128 + value % 128) % 128 = value % 128 := by omega
      rw [encode_base128, if_neg h, List.cons_append, decode_base128, if_neg hb, hm,
        ih _ hd]
      have e : value = value % 128 + 128 * (value / 128) := (Nat.mod_add_div value 128).symm
      have p : (2 : Nat) ^ (shift + 7) = 2 ^ shift * 128 := by rw [pow_add]; norm_num
      rw [p]
      congr 2
      conv_rhs => rw [e]
      ring

theorem test_stream_write_bytes : ∀ (xs : List Nat) (w w1 : Base128StreamWriter),
    test_stream_write w xs = some w1 →
    w1.bytes = w.bytes ++ xs.flatMap (fun x => encode_base128 10 (x % 2 ^ 64)) ∧
    w1.capacity = w.capacity ∧ (w.bytes.length ≤ w.capacity → w1.size ≤ w1.capacity) := by
  intro xs
  induction xs with
  | nil =>
    intro w w1 h
    simp only [test_stream_write, Option.some.injEq] at h
    subst h
    exact ⟨by simp [Base128StreamWriter.commit], rfl, fun q => q⟩
  | cons x xs ih =>
    intro w w1 h
    unfold test_stream_write at h
    split at h
    · exact absurd h (by simp)
    · rename_i writer1 hput
      unfold Base128StreamWriter.put at hput
      split_ifs at hput with c1 c2
      · simp at hput
      · simp at hput
      · simp only [Prod.mk.injEq, true_and] at hput
        subst hput
        obtain ⟨h1, h2, h3⟩ := ih _ _ h
        refine ⟨?_, h2, ?_⟩
        · rw [h1]
          simp
        · intro _
          apply h3
          have := encode_base128_length 10 (x % 2 ^ 64)
          simp only [List.length_append]
          omega

theorem test_stream_read_encoded : ∀ (xs : List Nat) (tail : List Nat),
    (∀ x ∈ xs, x < 2 ^ 64) →
    test_stream_read
      { data := xs.flatMap (fun x => encode_base128 10 (x % 2 ^ 64)) ++ tail } xs.length =
      some xs := by
  intro xs
  induction xs with
  | nil => intro tail _; rfl
  | cons x xs ih =>
    intro tail hx
    have hx64 : x < 2 ^ 64 := hx x (by simp)
    have hlt : x % 2 ^ 64 < 128 ^ (9 + 1) := by
      rw [Nat.mod_eq_of_lt hx64]
      exact lt_trans hx64 (by norm_num)
    simp only [List.flatMap_cons, List.append_assoc, List.length_cons, test_stream_read,
      Base128StreamReader.next]
    rw [decode_encode_base128 9 _ hlt]
    simp only [pow_zero, Nat.mul_one, Nat.zero_add, Nat.mod_mod]
    rw [ih tail (fun y hy => hx y (List.mem_cons_of_mem _ hy)), Nat.mod_eq_of_lt hx64]

/-- C16 (VByte and Base128, which share the modelled code): a sequence of unsigned 64-bit
integers is put into a writer over a window of `capacity` bytes, every `put` returning
true, and committed. Then reading as many values with `next<u64>` from a reader over the
window (the bytes written, followed by whatever the rest of the window holds) returns
exactly the sequence; the bytes used fit the window. -/
theorem base128_round_trip (capacity : Nat) (xs : List Nat) (hx : ∀ x ∈ xs, x < 2 ^ 64)
    (writer : Base128StreamWriter)
    (hw : test_stream_write (Base128StreamWriter.new capacity) xs = some writer)
    (tail : List Nat) :
    test_stream_read { data := writer.bytes ++ tail } xs.length = some xs ∧
    writer.size ≤ capacity := by
  obtain ⟨h1, h2, h3⟩ := test_stream_write_bytes xs _ _ hw
  refine ⟨?_, ?_⟩
  · rw [h1]
    exact test_stream_read_encoded xs tail hx
  · have := h3 (Nat.zero_le _)
    rw [h2] at this
    exact this

/-- Witness of `base128_round_trip`: the test `Test_vbyte` (and `Test_base128`), with the
array `EXPECTED` and a buffer of 1000 bytes; 24 bytes are used, which is between the
bounds the test sets (above 11, below 88). -/
theorem base128_round_trip_witness :
    (∀ x ∈ EXPECTED, x < 2 ^ 64) ∧
    (∃ writer, test_stream_write (Base128StreamWriter.new 1000) EXPECTED = some writer ∧
      writer.size = 24 ∧
      test_stream_read { data := writer.bytes ++ List.replicate (1000 - 24) 0 }
        EXPECTED.length = some EXPECTED ∧
      writer.size ≤ 1000) :=
  ⟨by decide, _, rfl, rfl,
    (base128_round_trip 1000 EXPECTED (by decide) _ rfl (List.replicate (1000 - 24) 0)).1,
    (base128_round_trip 1000 EXPECTED (by decide) _ rfl (List.replicate (1000 - 24) 0)).2⟩

/-! ## Claim C18 -/

theorem u64_delta_undo (x prev : Nat) (hx : x < 2 ^ 64) (hp : prev < 2 ^ 64) :
    (prev + (x + 2 ^ 64 - prev) % 2 ^ 64) % 2 ^ 64 = x := by
  have e : (2 : Nat) ^ 64 = 18446744073709551616 := by norm_num
  rw [e] at *
  omega

theorem undo_first_level : ∀ (values : List Nat) (prev : Nat), prev < 2 ^ 64 →
    (∀ x ∈ values, x < 2 ^ 64) →
    undo_deltas prev (first_level_deltas prev values) = values := by
  intro values
  induction values with
  | nil => intro prev _ _; rfl
  | cons x xs ih =>
    intro prev hp hx
    have hx0 : x < 2 ^ 64 := hx x (by simp)
    simp only [first_level_deltas, undo_deltas, u64_delta_undo x prev hx0 hp]
    rw [ih x hx0 (fun y hy => hx y (List.mem_cons_of_mem _ hy))]

theorem first_level_deltas_lt : ∀ (values : List Nat) (prev : Nat),
    ∀ d ∈ first_level_deltas prev values, d < 2 ^ 64 := by
  intro values
  induction values with
  | nil => intro prev d hd; simp [first_level_deltas] at hd
  | cons x xs ih =>
    intro prev d hd
    simp only [first_level_deltas, List.mem_cons] at hd
    rcases hd with hd | hd
    · rw [hd]
      exact Nat.mod_lt _ (by norm_num)
    · exact ih x d hd

theorem foldl_min_le : ∀ (ds : List Nat) (init : Nat),
    ds.foldl min init ≤ init ∧ ∀ d ∈ ds, ds.foldl min init ≤ d := by
  intro ds
  induction ds with
  | nil => intro init; exact ⟨Nat.le_refl _, fun d hd => absurd hd (List.not_mem_nil _)⟩
  | cons a t ih =>
    intro init
    obtain ⟨h1, h2⟩ := ih (min init a)
    simp only [List.foldl_cons]
    refine ⟨le_trans h1 (Nat.min_le_left _ _), ?_⟩
    intro d hd
    rcases List.mem_cons.1 hd with hd | hd
    · rw [hd]
      exact le_trans h1 (Nat.min_le_right _ _)
    · exact h2 d hd

theorem min_delta_le (ds : List Nat) : ∀ d ∈ ds, min_delta ds ≤ d :=
  (foldl_min_le ds _).2

theorem min_delta_lt (ds : List Nat) (h : ∀ d ∈ ds, d < 2 ^ 64) : min_delta ds < 2 ^ 64 := by
  cases ds with
  | nil => simp [min_delta]
  | cons a t => exact lt_of_le_of_lt (min_delta_le _ a (by simp)) (h a (by simp))

theorem group_code_lt (prev : Nat) (values : List Nat) :
    ∀ x ∈ group_code prev values, x < 2 ^ 64 := by
  intro x hx
  have hlt := first_level_deltas_lt values prev
  simp only [group_code, List.mem_cons, List.mem_map] at hx
  rcases hx with hx | ⟨d, hd, hx⟩
  · rw [hx]
    exact min_delta_lt _ hlt
  · rw [← hx]
    exact lt_of_le_of_lt (Nat.sub_le _ _) (hlt d hd)

/-- The decoder's arithmetic undoes the encoder's on a group. -/
theorem group_code_undo (prev : Nat) (values : List Nat) (hp : prev < 2 ^ 64)
    (hx : ∀ x ∈ values, x < 2 ^ 64) :
    undo_deltas prev (((first_level_deltas prev values).map
      (fun d => d - min_delta (first_level_deltas prev values))).map
      (fun e => (min_delta (first_level_deltas prev values) + e) % 2 ^ 64)) = values := by
  have hmap : ((first_level_deltas prev values).map
      (fun d => d - min_delta (first_level_deltas prev values))).map
      (fun e => (min_delta (first_level_deltas prev values) + e) % 2 ^ 64) =
      first_level_deltas prev values := by
    rw [List.map_map]
    conv_rhs => rw [← List.map_id (first_level_deltas prev values)]
    apply List.map_congr_left
    intro d hd
    have h1 := min_delta_le _ d hd
    have h2 := first_level_deltas_lt values prev d hd
    simp only [Function.comp, id]
    rw [Nat.add_sub_cancel' h1, Nat.mod_eq_of_lt h2]
  rw [hmap, undo_first_level values prev hp hx]

theorem put_all_bytes : ∀ (xs : List Nat) (s s1 : VByteStreamWriter),
    put_all s xs = (true, s1) →
    s1.bytes = s.bytes ++ xs.flatMap (fun x => encode_base128 10 (x % 2 ^ 64)) := by
  intro xs
  induction xs with
  | nil =>
    intro s s1 h
    simp only [put_all, Prod.mk.injEq, true_and] at h
    subst h
    simp
  | cons x xs ih =>
    intro s s1 h
    unfold put_all at h
    split at h
    · simp at h
    · rename_i stream1 hput
      unfold Base128StreamWriter.put at hput
      split_ifs at hput with c1 c2
      · simp at hput
      · simp at hput
      · simp only [Prod.mk.injEq, true_and] at hput
        subst hput
        rw [ih _ _ h]
        simp

theorem next_encoded (x : Nat) (hx : x < 2 ^ 64) (rest : List Nat) :
    Base128StreamReader.next { data := encode_base128 10 (x % 2 ^ 64) ++ rest } 64 =
      some (x, { data := rest }) := by
  have hlt : x % 2 ^ 64 < 128 ^ (9 + 1) := by
    rw [Nat.mod_eq_of_lt hx]
    exact lt_trans hx (by norm_num)
  simp only [Base128StreamReader.next]
  rw [decode_encode_base128 9 _ hlt]
  simp only [pow_zero, Nat.mul_one, Nat.zero_add, Nat.mod_mod, Nat.mod_eq_of_lt hx]

theorem read_values_encoded : ∀ (xs : List Nat) (tail : List Nat),
    (∀ x ∈ xs, x < 2 ^ 64) →
    read_values { data := xs.flatMap (fun x => encode_base128 10 (x % 2 ^ 64)) ++ tail }
      xs.length = some (xs, { data := tail }) := by
  intro xs
  induction xs with
  | nil => intro tail _; rfl
  | cons x xs ih =>
    intro tail hx
    simp only [List.flatMap_cons, List.append_assoc, List.length_cons, read_values]
    rw [next_encoded x (hx x (by simp))]
    simp only
    rw [ih tail (fun y hy => hx y (List.mem_cons_of_mem _ hy))]

theorem first_level_deltas_length : ∀ (values : List Nat) (prev : Nat),
    (first_level_deltas prev values).length = values.length := by
  intro values
  induction values with
  | nil => intro prev; rfl
  | cons x xs ih => intro prev; simp [first_level_deltas, ih]

/-- What a successful `tput` of a full group leaves behind. -/
theorem tput_full_group {G : Nat} {w w1 : DeltaDeltaStreamWriter} {values : List Nat}
    (hlen : values.length = G) (h : w.tput G values = (true, w1)) :
    w1.stream.bytes = w.stream.bytes ++
      (group_code w.prev values).flatMap (fun x => encode_base128 10 (x % 2 ^ 64)) ∧
    w1.prev = values.getLastD w.prev := by
  unfold DeltaDeltaStreamWriter.tput at h
  split_ifs at h with c
  · simp at h
  · have hpad : values ++ List.replicate (G - values.length) (values.getLastD w.prev) =
        values := by
      rw [hlen, Nat.sub_self]
      simp
    simp only [hpad] at h
    split at h
    · simp at h
    · rename_i stream1 hput
      simp only [Prod.mk.injEq, true_and] at h
      subst h
      exact ⟨put_all_bytes _ _ _ hput, rfl⟩

theorem chunked_write_bytes (G : Nat) : ∀ (nsteps : Nat) (input : List Nat)
    (w w1 : DeltaDeltaStreamWriter), input.length = G * nsteps →
    test_stream_chunked_write G w input nsteps = some w1 →
    w1.stream.bytes = w.stream.bytes ++
      (groups_code G nsteps w.prev input).flatMap
        (fun x => encode_base128 10 (x % 2 ^ 64)) := by
  intro nsteps
  induction nsteps with
  | zero =>
    intro input w w1 _ h
    simp only [test_stream_chunked_write, Option.some.injEq] at h
    subst h
    simp [groups_code]
  | succ nsteps ih =>
    intro input w w1 hlen h
    unfold test_stream_chunked_write at h
    split at h
    · exact absurd h (by simp)
    · rename_i writer1 hput
      have htake : (input.take G).length = G := by
        rw [List.length_take, hlen, Nat.mul_succ]
        omega
      have hdrop : (input.drop G).length = G * nsteps := by
        rw [List.length_drop, hlen, Nat.mul_succ]
        omega
      obtain ⟨h1, h2⟩ := tput_full_group htake hput
      rw [ih _ _ _ hdrop h, h1, h2]
      simp [groups_code]

theorem chunked_read_group (G : Nat) (stream : VByteStreamReader) (prev : Nat) :
    ∀ (group : List Nat) (k : Nat),
    test_stream_chunked_read G { stream := stream, prev := prev, group := group }
        (group.length + k) =
      (test_stream_chunked_read G { stream := stream, prev := prev, group := [] } k).map
        (fun results => group ++ results) := by
  intro group
  induction group with
  | nil =>
    intro k
    simp only [List.length_nil, Nat.zero_add, List.nil_append]
    cases test_stream_chunked_read G { stream := stream, prev := prev, group := [] } k <;> rfl
  | cons v rest ih =>
    intro k
    have e : (v :: rest).length + k = (rest.length + k) + 1 := by
      simp only [List.length_cons]
      omega
    rw [e]
    simp only [test_stream_chunked_read, DeltaDeltaStreamReader.next]
    rw [ih k]
    cases test_stream_chunked_read G { stream := stream, prev := prev, group := [] } k <;> rfl

/-- Reading the first value of a group written by `tput`: the reader decodes the group and
keeps the other values. -/
theorem next_full_group (G : Nat) (prev : Nat) (hp : prev < 2 ^ 64) (value : Nat)
    (rest : List Nat) (hlen : (value :: rest).length = G)
    (hx : ∀ x ∈ value :: rest, x < 2 ^ 64) (tail : List Nat) :
    DeltaDeltaStreamReader.next G
      (DeltaDeltaStreamReader.mk
        (Base128StreamReader.mk ((group_code prev (value :: rest)).flatMap
          (fun x => encode_base128 10 (x % 2 ^ 64)) ++ tail)) prev []) =
      some (value, { stream := { data := tail }, prev := (value :: rest).getLastD prev,
                     group := rest }) := by
  have hlt := group_code_lt prev (value :: rest)
  have hm := hlt _ (List.mem_cons_self _ _)
  have hrest : ∀ x ∈ (first_level_deltas prev (value :: rest)).map
      (fun d => d - min_delta (first_level_deltas prev (value :: rest))), x < 2 ^ 64 :=
    fun x hx1 => hlt x (List.mem_cons_of_mem _ hx1)
  have hl : ((first_level_deltas prev (value :: rest)).map
      (fun d => d - min_delta (first_level_deltas prev (value :: rest)))).length = G := by
    rw [List.length_map, first_level_deltas_length, hlen]
  unfold DeltaDeltaStreamReader.next
  simp only
  rw [group_code, List.flatMap_cons, List.append_assoc, next_encoded _ hm]
  simp only
  have hr := read_values_encoded _ tail hrest
  rw [hl] at hr
  rw [hr]
  simp only
  rw [group_code_undo prev (value :: rest) hp hx]

theorem chunked_read_encoded (G : Nat) (hG : 0 < G) : ∀ (nsteps : Nat) (input : List Nat)
    (prev : Nat) (tail : List Nat), input.length = G * nsteps → prev < 2 ^ 64 →
    (∀ x ∈ input, x < 2 ^ 64) →
    test_stream_chunked_read G
      (DeltaDeltaStreamReader.mk
        (Base128StreamReader.mk ((groups_code G nsteps prev input).flatMap
          (fun x => encode_base128 10 (x % 2 ^ 64)) ++ tail)) prev []) input.length =
      some input := by
  intro nsteps
  induction nsteps with
  | zero =>
    intro input prev tail hlen _ _
    have : input = [] := List.eq_nil_of_length_eq_zero (by simpa using hlen)
    subst this
    rfl
  | succ nsteps ih =>
    intro input prev tail hlen hp hx
    have htake : (input.take G).length = G := by
      rw [List.length_take, hlen, Nat.mul_succ]
      omega
    have hdrop : (input.drop G).length = G * nsteps := by
      rw [List.length_drop, hlen, Nat.mul_succ]
      omega
    have hxt : ∀ x ∈ input.take G, x < 2 ^ 64 := fun x h => hx x (List.mem_of_mem_take h)
    have hxd : ∀ x ∈ input.drop G, x < 2 ^ 64 := fun x h => hx x (List.mem_of_mem_drop h)
    obtain ⟨value, rest, hvr⟩ : ∃ value rest, input.take G = value :: rest := by
      cases ht : input.take G with
      | nil => rw [ht] at htake; simp at htake; omega
      | cons a t => exact ⟨a, t, rfl⟩
    have hprev : (input.take G).getLastD prev < 2 ^ 64 := by
      rw [hvr]
      have hmem : (value :: rest).getLastD prev ∈ value :: rest := by
        rw [List.getLastD_cons]
        cases rest with
        | nil => simp
        | cons b t =>
          rw [List.getLastD_cons]
          exact List.mem_cons_of_mem _ (by
            have := List.getLast_mem (List.cons_ne_nil b t)
            rwa [List.getLast_eq_getLastD] at this)
      exact hx _ (List.mem_of_mem_take (by rw [hvr]; exact hmem))
    have hsplit : input.length = rest.length + (input.drop G).length + 1 := by
      have := congrArg List.length (List.take_append_drop G input)
      rw [List.length_append, hvr, List.length_cons] at this
      omega
    rw [hsplit]
    simp only [test_stream_chunked_read, groups_code, List.flatMap_append, List.append_assoc]
    rw [hvr] at htake hxt ⊢
    rw [next_full_group G prev hp value rest htake hxt]
    simp only
    have hprev1 : (value :: rest).getLastD prev < 2 ^ 64 := by
      rw [← hvr]
      exact hprev
    rw [chunked_read_group, ih (input.drop G) _ tail hdrop hprev1 hxd]
    simp only [Option.map_some']
    rw [← List.cons_append, ← hvr, List.take_append_drop]

/-- C18: a sequence of `u64` values whose length is a multiple of 16 and that is
non-decreasing is written group by group with `tput` of `DeltaDeltaStreamWriter<16, u64>`
over a VByte stream, every call succeeding. Then reading as many values with `next` of
`DeltaDeltaStreamReader<16, u64>` over the same window (the bytes written, followed by
whatever the rest of the window holds) returns exactly the sequence. -/
theorem delta_delta_round_trip (capacity nsteps : Nat) (input : List Nat)
    (hlen : input.length = 16 * nsteps) (hx : ∀ x ∈ input, x < 2 ^ 64)
    (_hsorted : input.Pairwise (fun a b => a ≤ b)) (writer : DeltaDeltaStreamWriter)
    (hw : test_stream_chunked_write 16
      (DeltaDeltaStreamWriter.new (Base128StreamWriter.new capacity)) input nsteps =
        some writer)
    (tail : List Nat) :
    test_stream_chunked_read 16
      (DeltaDeltaStreamReader.new { data := writer.stream.bytes ++ tail }) input.length =
      some input := by
  have hb := chunked_write_bytes 16 nsteps input _ _ hlen hw
  rw [hb]
  exact chunked_read_encoded 16 (by decide) nsteps input 0 tail hlen (by norm_num) hx

/-- Witness of `delta_delta_round_trip`: the two groups of `delta_demo_input` written to a
window of 4096 bytes and read back. -/
theorem delta_delta_round_trip_witness :
    (delta_demo_input.length = 16 * 2 ∧ (∀ x ∈ delta_demo_input, x < 2 ^ 64) ∧
      delta_demo_input.Pairwise (fun a b => a ≤ b)) ∧
    ∃ writer, test_stream_chunked_write 16
        (DeltaDeltaStreamWriter.new (Base128StreamWriter.new 4096)) delta_demo_input 2 =
          some writer ∧
      test_stream_chunked_read 16
        (DeltaDeltaStreamReader.new { data := writer.stream.bytes ++ [0, 0, 0] })
        delta_demo_input.length = some delta_demo_input :=
  ⟨⟨by decide, by decide, by decide⟩, _, rfl,
    delta_delta_round_trip 4096 2 delta_demo_input (by decide) (by decide) (by decide) _ rfl
      [0, 0, 0]⟩

/-! ## Claim C17 -/

theorem big_endian_bytes_length : ∀ (n diff : Nat), (big_endian_bytes n diff).length = n := by
  intro n
  induction n with
  | zero => intro diff; rfl
  | succ n ih => intro diff; simp [big_endian_bytes, ih]

theorem foldl_big_endian : ∀ (n diff acc : Nat),
    (big_endian_bytes n diff).foldl (fun acc b => acc * 256 + b) acc =
      acc * 256 ^ n + diff % 256 ^ n := by
  intro n
  induction n with
  | zero => intro diff acc; simp [big_endian_bytes, Nat.mod_one]
  | succ n ih =>
    intro diff acc
    simp only [big_endian_bytes, List.foldl_cons]
    rw [ih, Nat.mod_pow_succ, pow_succ]
    ring

theorem from_big_endian_bytes (n diff : Nat) (h : diff < 256 ^ n) :
    from_big_endian (big_endian_bytes n diff) = diff := by
  unfold from_big_endian
  rw [foldl_big_endian, Nat.zero_mul, Nat.zero_add, Nat.mod_eq_of_lt h]

theorem significant_bytes_spec : ∀ (fuel diff : Nat), diff < 256 ^ fuel →
    diff < 256 ^ significant_bytes fuel diff := by
  intro fuel
  induction fuel with
  | zero => intro diff h; simpa [significant_bytes] using h
  | succ fuel ih =>
    intro diff h
    unfold significant_bytes
    split
    · rename_i h0
      rw [h0]
      simp
    · have hd : diff / 256 < 256 ^ fuel := by
        rw [Nat.div_lt_iff_lt_mul (by decide)]
        rw [pow_succ] at h
        exact h
      have := ih _ hd
      rw [pow_succ]
      rw [Nat.div_lt_iff_lt_mul (by decide)] at this
      exact this

/-- The code of a sample determines the sample: the payload has as many bytes as the
control byte says, and the residual it denotes, XORed to the prediction chosen, is the
sample. -/
theorem encode_sample_spec (p1 p2 value : Nat) (h1 : p1 < 2 ^ 64) (h2 : p2 < 2 ^ 64)
    (hv : value < 2 ^ 64) :
    (encode_sample p1 p2 value).2.length = (encode_sample p1 p2 value).1.significant_bytes ∧
    (if (encode_sample p1 p2 value).1.predictor_choice then p2 else p1) ^^^
      from_big_endian (encode_sample p1 p2 value).2 = value := by
  have e : (2 : Nat) ^ 64 = 256 ^ 8 := by norm_num
  have d1 : p1 ^^^ value < 256 ^ 8 := by rw [← e]; exact Nat.xor_lt_two_pow h1 hv
  have d2 : p2 ^^^ value < 256 ^ 8 := by rw [← e]; exact Nat.xor_lt_two_pow h2 hv
  unfold encode_sample
  simp only
  split
  · refine ⟨big_endian_bytes_length _ _, ?_⟩
    simp only [Bool.false_eq_true, if_false]
    rw [from_big_endian_bytes _ _ (significant_bytes_spec 8 _ d1), Nat.xor_cancel_left]
  · refine ⟨big_endian_bytes_length _ _, ?_⟩
    simp only [if_true]
    rw [from_big_endian_bytes _ _ (significant_bytes_spec 8 _ d2), Nat.xor_cancel_left]

theorem read_bytes_map : ∀ (bytes : List Nat) (rest : List FcmItem),
    read_bytes (bytes.map FcmItem.byte ++ rest) bytes.length = some (bytes, rest) := by
  intro bytes
  induction bytes with
  | nil => intro rest; simp [read_bytes]
  | cons b bs ih =>
    intro rest
    simp [read_bytes, ih]

/-- The reader decodes the code of a sample to the sample, whatever follows the payload. -/
theorem decode_encoded {σ1 σ2 : Type} (P1 : Predictor σ1) (P2 : Predictor σ2)
    (r : FcmStreamReader σ1 σ2) (value : Nat) (hv : value < 2 ^ 64)
    (rest : List FcmItem) (second : Option FcmFlag) :
    r.decode P1 P2
      (encode_sample (P1.predict_next r.fcm % 2 ^ 64) (P2.predict_next r.dfcm % 2 ^ 64)
        value).1
      ((encode_sample (P1.predict_next r.fcm % 2 ^ 64) (P2.predict_next r.dfcm % 2 ^ 64)
        value).2.map FcmItem.byte ++ rest) second =
      some (value, { data := rest, fcm := P1.update r.fcm value,
                     dfcm := P2.update r.dfcm value, second := second }) := by
  obtain ⟨h1, h2⟩ := encode_sample_spec (P1.predict_next r.fcm % 2 ^ 64)
    (P2.predict_next r.dfcm % 2 ^ 64) value (Nat.mod_lt _ (by norm_num))
    (Nat.mod_lt _ (by norm_num)) hv
  unfold FcmStreamReader.decode
  rw [← h1, read_bytes_map]
  simp only
  rw [h2]

theorem foldl_put_code {σ1 σ2 : Type} (P1 : Predictor σ1) (P2 : Predictor σ2) :
    ∀ (samples : List Nat) (w : FcmStreamWriter σ1 σ2), w.pending = none →
    (samples.foldl (FcmStreamWriter.put P1 P2) w).commit.out =
      w.out ++ pairs_code P1 P2 w.fcm w.dfcm samples
  | [], w, h => by
    simp [FcmStreamWriter.commit, h, pairs_code]
  | [v], w, h => by
    simp [FcmStreamWriter.commit, FcmStreamWriter.put, h, pairs_code]
  | v1 :: v2 :: rest, w, h => by
    have ih := foldl_put_code P1 P2 rest
      ((FcmStreamWriter.put P1 P2 (FcmStreamWriter.put P1 P2 w v1)) v2)
      (by simp [FcmStreamWriter.put, h])
    simp only [List.foldl_cons]
    rw [ih]
    simp [FcmStreamWriter.put, h, pairs_code]

theorem float_read_code {σ1 σ2 : Type} (P1 : Predictor σ1) (P2 : Predictor σ2) :
    ∀ (samples : List Nat) (s1 : σ1) (s2 : σ2) (tail : List FcmItem),
    (∀ x ∈ samples, x < 2 ^ 64) →
    test_float_read P1 P2
      (FcmStreamReader.mk (pairs_code P1 P2 s1 s2 samples ++ tail) s1 s2 none)
      samples.length = some samples
  | [], s1, s2, tail, _ => rfl
  | [v], s1, s2, tail, hx => by
    have hv : v < 2 ^ 64 := hx v (by simp)
    simp only [pairs_code, List.cons_append, List.length_singleton, test_float_read,
      FcmStreamReader.next]
    rw [decode_encoded P1 P2 (FcmStreamReader.mk _ s1 s2 none) v hv]
  | v1 :: v2 :: rest, s1, s2, tail, hx => by
    have hv1 : v1 < 2 ^ 64 := hx v1 (by simp)
    have hv2 : v2 < 2 ^ 64 := hx v2 (by simp)
    have ih := float_read_code P1 P2 rest (P1.update (P1.update s1 v1) v2)
      (P2.update (P2.update s2 v1) v2) tail
      (fun x h => hx x (List.mem_cons_of_mem _ (List.mem_cons_of_mem _ h)))
    simp only [pairs_code, List.cons_append, List.append_assoc, List.length_cons,
      test_float_read, FcmStreamReader.next]
    rw [decode_encoded P1 P2 (FcmStreamReader.mk _ s1 s2 none) v1 hv1]
    simp only
    rw [decode_encoded P1 P2 (FcmStreamReader.mk _ (P1.update s1 v1) (P2.update s2 v1)
      (some _)) v2 hv2]
    simp only
    rw [ih]

/-- C17: a finite sequence of doubles, given by their 64-bit patterns, is written with
`put` of `FcmStreamWriter`, followed by `commit`, into a window large enough. Then reading
as many values with `next` of `FcmStreamReader` over the same window (the stream written,
followed by whatever the rest of the window holds) returns each value bit for bit. This
holds for any two predictors, started in the same states on both sides. -/
theorem fcm_round_trip {σ1 σ2 : Type} (P1 : Predictor σ1) (P2 : Predictor σ2) (fcm : σ1)
    (dfcm : σ2) (samples : List Nat) (hx : ∀ x ∈ samples, x < 2 ^ 64)
    (tail : List FcmItem) :
    test_float_read P1 P2
      (FcmStreamReader.new ((test_float_write P1 P2 fcm dfcm samples).out ++ tail) fcm dfcm)
      samples.length = some samples := by
  unfold test_float_write
  rw [foldl_put_code P1 P2 samples _ rfl]
  exact float_read_code P1 P2 samples fcm dfcm tail hx

/-- Witness of `fcm_round_trip`: the run of a repeated value followed by two other values,
with the last-value and last-delta predictors; the stream takes 27 items, 5 control bytes
and 22 payload bytes for the first value and the last two. -/
theorem fcm_round_trip_witness :
    (∀ x ∈ float_demo_samples, x < 2 ^ 64) ∧
    (test_float_write FcmPredictor DfcmPredictor 0 (0, 0) float_demo_samples).out.length =
      27 ∧
    test_float_read FcmPredictor DfcmPredictor
      (FcmStreamReader.new
        ((test_float_write FcmPredictor DfcmPredictor 0 (0, 0) float_demo_samples).out ++
          [FcmItem.byte 0, FcmItem.byte 0]) 0 (0, 0))
      float_demo_samples.length = some float_demo_samples :=
  ⟨by decide, by decide,
    fcm_round_trip FcmPredictor DfcmPredictor 0 (0, 0) float_demo_samples (by decide)
      [FcmItem.byte 0, FcmItem.byte 0]⟩

/-! ## Claim C15 -/

theorem code_of_groups_concat : ∀ (gs : List (List Nat)) (prev : Nat) (g : List Nat),
    code_of_groups prev (gs ++ [g]) =
      code_of_groups prev gs ++ group_code (last_of_groups prev gs) g := by
  intro gs
  induction gs with
  | nil => intro prev g; simp [code_of_groups, last_of_groups]
  | cons g0 gs ih =>
    intro prev g
    show group_code prev g0 ++ code_of_groups (g0.getLastD prev) (gs ++ [g]) = _
    rw [ih]
    simp only [code_of_groups, List.append_assoc, last_of_groups, List.foldl_cons]

theorem last_of_groups_concat (gs : List (List Nat)) (prev : Nat) (g : List Nat) :
    last_of_groups prev (gs ++ [g]) = g.getLastD (last_of_groups prev gs) := by
  simp [last_of_groups, List.foldl_append]

theorem getLastD_lt (values : List Nat) (prev : Nat) (hp : prev < 2 ^ 64)
    (hx : ∀ x ∈ values, x < 2 ^ 64) : values.getLastD prev < 2 ^ 64 := by
  cases values with
  | nil => exact hp
  | cons a t =>
    rw [List.getLastD_cons, ← List.getLast_eq_getLastD a t (List.cons_ne_nil a t)]
    exact hx _ (List.getLast_mem _)

theorem last_of_groups_lt : ∀ (gs : List (List Nat)) (prev : Nat), prev < 2 ^ 64 →
    (∀ g ∈ gs, ∀ x ∈ g, x < 2 ^ 64) → last_of_groups prev gs < 2 ^ 64 := by
  intro gs
  induction gs with
  | nil => intro prev hp _; exact hp
  | cons g gs ih =>
    intro prev hp hx
    simp only [last_of_groups, List.foldl_cons]
    exact ih _ (getLastD_lt g prev hp (hx g (by simp)))
      (fun g1 hg1 => hx g1 (List.mem_cons_of_mem _ hg1))

theorem pad_group_length (G prev : Nat) (values : List Nat) (h : values.length ≤ G) :
    (pad_group G prev values).length = G := by
  simp only [pad_group, List.length_append, List.length_replicate]
  omega

theorem pad_group_lt (G prev : Nat) (values : List Nat) (hp : prev < 2 ^ 64)
    (hx : ∀ x ∈ values, x < 2 ^ 64) : ∀ x ∈ pad_group G prev values, x < 2 ^ 64 := by
  intro x h
  simp only [pad_group, List.mem_append, List.mem_replicate] at h
  rcases h with h | ⟨_, h⟩
  · exact hx x h
  · rw [h]
    exact getLastD_lt values prev hp hx

/-- What a successful `tput` leaves behind: the code of the group, padded to `G` values. -/
theorem tput_bytes {G : Nat} {w w1 : DeltaDeltaStreamWriter} {values : List Nat}
    (h : w.tput G values = (true, w1)) :
    values ≠ [] ∧ values.length ≤ G ∧
    w1.stream.bytes = w.stream.bytes ++
      (group_code w.prev (pad_group G w.prev values)).flatMap
        (fun x => encode_base128 10 (x % 2 ^ 64)) ∧
    w1.prev = (pad_group G w.prev values).getLastD w.prev := by
  unfold DeltaDeltaStreamWriter.tput at h
  split_ifs at h with c
  · simp at h
  · simp only at h
    split at h
    · simp at h
    · rename_i stream1 hput
      simp only [Prod.mk.injEq, true_and] at h
      subst h
      refine ⟨fun e => c (Or.inl e), by omega, put_all_bytes _ _ _ hput, rfl⟩

/-- Reading the values of a list of full groups written by `tput`. -/
theorem chunked_read_groups (G : Nat) (hG : 0 < G) : ∀ (gs : List (List Nat)) (prev : Nat)
    (tail : List Nat), (∀ g ∈ gs, g.length = G) → prev < 2 ^ 64 →
    (∀ g ∈ gs, ∀ x ∈ g, x < 2 ^ 64) →
    test_stream_chunked_read G
      (DeltaDeltaStreamReader.mk
        (Base128StreamReader.mk ((code_of_groups prev gs).flatMap
          (fun x => encode_base128 10 (x % 2 ^ 64)) ++ tail)) prev [])
      gs.flatten.length = some gs.flatten := by
  intro gs
  induction gs with
  | nil => intro prev tail _ _ _; rfl
  | cons g gs ih =>
    intro prev tail hlen hp hx
    have hg : g.length = G := hlen g (by simp)
    obtain ⟨value, rest, rfl⟩ : ∃ value rest, g = value :: rest := by
      cases g with
      | nil => simp at hg; omega
      | cons a t => exact ⟨a, t, rfl⟩
    have hxg : ∀ x ∈ value :: rest, x < 2 ^ 64 := hx _ (by simp)
    have e : ((value :: rest) :: gs).flatten.length = rest.length + gs.flatten.length + 1 := by
      simp only [List.flatten_cons, List.length_append, List.length_cons]
      omega
    rw [e]
    simp only [test_stream_chunked_read, code_of_groups, List.flatMap_append,
      List.append_assoc]
    rw [next_full_group G prev hp value rest hg hxg]
    simp only
    rw [chunked_read_group, ih _ tail (fun g1 h1 => hlen g1 (List.mem_cons_of_mem _ h1))
      (getLastD_lt _ prev hp hxg) (fun g1 h1 => hx g1 (List.mem_cons_of_mem _ h1))]
    simp

/-- Fewer calls of `next` return the front part of what more calls return. -/
theorem chunked_read_prefix (G : Nat) : ∀ (a b : Nat) (r : DeltaDeltaStreamReader)
    (xs : List Nat), test_stream_chunked_read G r (a + b) = some xs →
    test_stream_chunked_read G r a = some (xs.take a) := by
  intro a
  induction a with
  | zero => intro b r xs _; rfl
  | succ a ih =>
    intro b r xs h
    have e : a + 1 + b = (a + b) + 1 := by omega
    rw [e] at h
    simp only [test_stream_chunked_read] at h ⊢
    cases hn : r.next G with
    | none => rw [hn] at h; simp at h
    | some p =>
      obtain ⟨value, r1⟩ := p
      rw [hn] at h
      simp only at h ⊢
      cases hr : test_stream_chunked_read G r1 (a + b) with
      | none => rw [hr] at h; simp at h
      | some ys =>
        rw [hr] at h
        simp only [Option.some.injEq] at h
        subst h
        rw [ih b r1 ys hr]
        rfl

theorem block_inv_new {σ1 σ2 : Type} (P1 : Predictor σ1) (P2 : Predictor σ2)
    (series_id capacity : Nat) (fcm : σ1) (dfcm : σ2) :
    BlockInv P1 P2 series_id capacity fcm dfcm
      (DataBlockWriter.new series_id capacity fcm dfcm) [] :=
  ⟨rfl, rfl, rfl, rfl, Nat.zero_lt_succ 15, Or.inl ⟨rfl, rfl, rfl, rfl⟩⟩

/-- A sample that `store` takes extends the samples of the invariant. -/
theorem block_inv_store {σ1 σ2 : Type} {P1 : Predictor σ1} {P2 : Predictor σ2}
    {series_id capacity : Nat} {fcm : σ1} {dfcm : σ2} {w w1 : DataBlockWriter σ1 σ2}
    {S : List (Nat × Nat)} (inv : BlockInv P1 P2 series_id capacity fcm dfcm w S)
    (ts value : Nat) (h : w.store P1 P2 ts value = some w1) :
    BlockInv P1 P2 series_id capacity fcm dfcm w1 (S ++ [(ts, value)]) := by
  obtain ⟨i1, i2, i3, i4, i5, i6⟩ := inv
  have hval : w.val_stream.put P1 P2 value =
      ((S ++ [(ts, value)]).map Prod.snd).foldl (FcmStreamWriter.put P1 P2)
        (FcmStreamWriter.new fcm dfcm) := by
    rw [List.map_append, List.foldl_append, ← i4]
    rfl
  have hlen : w.n_elements + 1 = (S ++ [(ts, value)]).length := by
    rw [List.length_append, i3]
    rfl
  unfold DataBlockWriter.store at h
  rcases i6 with ⟨hS, ha, hg, hb⟩ | ⟨s, R, gs, hS, ha, hgs, hR, hb, hp⟩
  · rw [ha] at h
    simp only [Option.some.injEq] at h
    subst h
    refine ⟨i1, i2, hlen, hval, i5, Or.inr ⟨(ts, value), [], [], ?_, rfl, ?_, ?_, ?_, rfl⟩⟩
    · rw [hS]
      rfl
    · intro g hg1
      exact absurd hg1 (List.not_mem_nil _)
    · simp [hg]
    · simp [code_of_groups, hb]
  · rw [ha] at h
    simp only at h
    split_ifs at h with c
    · split at h
      · exact absurd h (by simp)
      · rename_i ts_stream hput
        simp only [Option.some.injEq] at h
        subst h
        have hfull : (w.group ++ [ts]).length = 16 := by
          rw [List.length_append]
          exact c
        obtain ⟨t1, t2⟩ := tput_full_group hfull hput
        refine ⟨i1, i2, hlen, hval, Nat.zero_lt_succ 15,
          Or.inr ⟨s, R ++ [(ts, value)], gs ++ [w.group ++ [ts]], ?_, rfl, ?_, ?_, ?_, ?_⟩⟩
        · rw [hS]
          rfl
        · intro g hg1
          rcases List.mem_append.1 hg1 with q | q
          · exact hgs g q
          · rw [List.mem_singleton] at q
            rw [q]
            exact hfull
        · simp [hR]
        · rw [t1, hb, hp, code_of_groups_concat, List.flatMap_append]
        · rw [t2, hp, last_of_groups_concat]
    · simp only [Option.some.injEq] at h
      subst h
      refine ⟨i1, i2, hlen, hval, ?_,
        Or.inr ⟨s, R ++ [(ts, value)], gs, ?_, rfl, hgs, ?_, hb, hp⟩⟩
      · simp only [List.length_append, List.length_singleton]
        omega
      · rw [hS]
        rfl
      · simp [hR]

/-- What `flush` returns for a writer that has taken the samples `S`: the value substream
is the FCM code of the values, and the timestamp substream is the code of full groups
that hold the timestamps behind the anchor, followed by padding. -/
theorem block_inv_flush {σ1 σ2 : Type} {P1 : Predictor σ1} {P2 : Predictor σ2}
    {series_id capacity : Nat} {fcm : σ1} {dfcm : σ2} {w : DataBlockWriter σ1 σ2}
    {S : List (Nat × Nat)} (inv : BlockInv P1 P2 series_id capacity fcm dfcm w S)
    (hx : ∀ s ∈ S, s.1 < 2 ^ 64)
    {timestamps : List Nat} {values : List FcmItem}
    (h : w.flush = some (timestamps, values)) :
    values = pairs_code P1 P2 fcm dfcm (S.map Prod.snd) ∧
    ∃ gs padding, (∀ g ∈ gs, g.length = 16) ∧ (∀ g ∈ gs, ∀ x ∈ g, x < 2 ^ 64) ∧
      (S.map Prod.fst).tail ++ padding = gs.flatten ∧
      timestamps = (code_of_groups ((S.map Prod.fst).headD 0) gs).flatMap
        (fun x => encode_base128 10 (x % 2 ^ 64)) := by
  obtain ⟨i1, i2, i3, i4, i5, i6⟩ := inv
  have hvals : w.val_stream.commit.out = pairs_code P1 P2 fcm dfcm (S.map Prod.snd) := by
    rw [i4, foldl_put_code P1 P2 _ _ rfl]
    rfl
  unfold DataBlockWriter.flush at h
  rcases i6 with ⟨hS, ha, hg, hb⟩ | ⟨s, R, gs, hS, ha, hgs, hR, hb, hp⟩
  · rw [if_pos hg] at h
    simp only [Option.some.injEq, Prod.mk.injEq] at h
    refine ⟨by rw [← h.2, hvals], [], [], ?_, ?_, ?_, ?_⟩
    · intro g hg1
      exact absurd hg1 (List.not_mem_nil _)
    · intro g hg1
      exact absurd hg1 (List.not_mem_nil _)
    · rw [hS]
      rfl
    · rw [← h.1, hb]
      rfl
  · have hxR : ∀ x ∈ gs.flatten ++ w.group, x < 2 ^ 64 := by
      intro x hx1
      rw [← hR] at hx1
      obtain ⟨p, hp1, rfl⟩ := List.mem_map.1 hx1
      exact hx p (by rw [hS]; exact List.mem_cons_of_mem _ hp1)
    have hxgs : ∀ g ∈ gs, ∀ x ∈ g, x < 2 ^ 64 := by
      intro g hg1 x hx1
      exact hxR x (List.mem_append_left _ (List.mem_flatten.2 ⟨g, hg1, hx1⟩))
    have hs : s.1 < 2 ^ 64 := hx s (by rw [hS]; exact List.mem_cons_self _ _)
    have hhead : (S.map Prod.fst).headD 0 = s.1 := by rw [hS]; rfl
    have htail : (S.map Prod.fst).tail = R.map Prod.fst := by rw [hS]; rfl
    rw [hhead, htail]
    by_cases hg : w.group = []
    · rw [if_pos hg] at h
      simp only [Option.some.injEq, Prod.mk.injEq] at h
      refine ⟨by rw [← h.2, hvals], gs, [], hgs, hxgs, ?_, ?_⟩
      · rw [hR, hg]
        simp
      · rw [← h.1, hb]
    · rw [if_neg hg] at h
      split at h
      · exact absurd h (by simp)
      · rename_i ts_stream hput
        simp only [Option.some.injEq, Prod.mk.injEq] at h
        obtain ⟨_, t2, t3, _⟩ := tput_bytes hput
        refine ⟨by rw [← h.2, hvals], gs ++ [pad_group 16 w.ts_stream.prev w.group],
          List.replicate (16 - w.group.length) (w.group.getLastD w.ts_stream.prev),
          ?_, ?_, ?_, ?_⟩
        · intro g hg1
          rcases List.mem_append.1 hg1 with q | q
          · exact hgs g q
          · rw [List.mem_singleton] at q
            rw [q]
            exact pad_group_length 16 _ _ t2
        · intro g hg1
          rcases List.mem_append.1 hg1 with q | q
          · exact hxgs g q
          · rw [List.mem_singleton] at q
            rw [q, hp]
            exact pad_group_lt 16 _ _ (last_of_groups_lt gs s.1 hs hxgs)
              (fun x hx1 => hxR x (List.mem_append_right _ hx1))
        · rw [hR]
          simp [pad_group]
        · rw [← h.1, t3, hb, code_of_groups_concat, List.flatMap_append, hp]

theorem block_inv_anchor {σ1 σ2 : Type} {P1 : Predictor σ1} {P2 : Predictor σ2}
    {series_id capacity : Nat} {fcm : σ1} {dfcm : σ2} {w : DataBlockWriter σ1 σ2}
    {S : List (Nat × Nat)} (inv : BlockInv P1 P2 series_id capacity fcm dfcm w S) :
    w.anchor = (S.map Prod.fst).head? := by
  obtain ⟨_, _, _, _, _, i6⟩ := inv
  rcases i6 with ⟨hS, ha, _, _⟩ | ⟨s, R, gs, hS, ha, _, _, _, _⟩
  · rw [hS, ha]
    rfl
  · rw [hS, ha]
    rfl

/-- The two outcomes of `put`: `AKU_EOVERFLOW` with the writer unchanged, or `AKU_SUCCESS`
with the sample stored and a block that fits the buffer. -/
theorem put_cases {σ1 σ2 : Type} (P1 : Predictor σ1) (P2 : Predictor σ2)
    (w : DataBlockWriter σ1 σ2) (ts value : Nat) :
    w.put P1 P2 ts value = (aku_Status.AKU_EOVERFLOW, w) ∨
    ∃ w1 timestamps values, w.put P1 P2 ts value = (aku_Status.AKU_SUCCESS, w1) ∧
      w.store P1 P2 ts value = some w1 ∧ w1.flush = some (timestamps, values) ∧
      block_size w1.anchor timestamps values ≤ w.capacity := by
  unfold DataBlockWriter.put
  cases hs : w.store P1 P2 ts value with
  | none => exact Or.inl rfl
  | some w1 =>
    simp only
    cases hf : w1.flush with
    | none => exact Or.inl rfl
    | some p =>
      obtain ⟨timestamps, values⟩ := p
      simp only
      by_cases c : block_size w1.anchor timestamps values ≤ w.capacity
      · rw [if_pos c]
        exact Or.inr ⟨w1, timestamps, values, rfl, rfl, hf, c⟩
      · rw [if_neg c]
        exact Or.inl rfl

theorem store_capacity {σ1 σ2 : Type} {P1 : Predictor σ1} {P2 : Predictor σ2}
    {w w1 : DataBlockWriter σ1 σ2} {ts value : Nat}
    (h : w.store P1 P2 ts value = some w1) : w1.capacity = w.capacity := by
  unfold DataBlockWriter.store at h
  split at h
  · simp only [Option.some.injEq] at h
    subst h
    rfl
  · split_ifs at h
    · split at h
      · exact absurd h (by simp)
      · simp only [Option.some.injEq] at h
        subst h
        rfl
    · simp only [Option.some.injEq] at h
      subst h
      rfl

/-- The compression loop of the test returns: it stops at the first sample for which `put`
returns `AKU_EOVERFLOW`, or at the end of the input, with a writer that has taken the
samples in front. -/
theorem block_write_spec {σ1 σ2 : Type} (P1 : Predictor σ1) (P2 : Predictor σ2)
    (series_id capacity : Nat) (fcm : σ1) (dfcm : σ2) :
    ∀ (samples : List (Nat × Nat)) (w : DataBlockWriter σ1 σ2) (S : List (Nat × Nat))
      (ix : Nat), BlockInv P1 P2 series_id capacity fcm dfcm w S →
      (∃ t v, w.flush = some (t, v) ∧ (S ≠ [] → block_size w.anchor t v ≤ capacity)) →
      ∃ w1 m, test_block_write P1 P2 w samples ix = some (w1, ix + m) ∧
        m ≤ samples.length ∧
        BlockInv P1 P2 series_id capacity fcm dfcm w1 (S ++ samples.take m) ∧
        (∃ t v, w1.flush = some (t, v) ∧
          (S ++ samples.take m ≠ [] → block_size w1.anchor t v ≤ capacity)) ∧
        (m < samples.length → ∃ s, samples[m]? = some s ∧
          (w1.put P1 P2 s.1 s.2).1 = aku_Status.AKU_EOVERFLOW) := by
  intro samples
  induction samples with
  | nil =>
    intro w S ix inv hf
    refine ⟨w, 0, rfl, Nat.le_refl _, by simpa using inv, by simpa using hf, ?_⟩
    intro h
    exact absurd h (Nat.lt_irrefl _)
  | cons sample rest ih =>
    intro w S ix inv hf
    rcases put_cases P1 P2 w sample.1 sample.2 with hput | ⟨w1, t, v, hput, hstore, hflush, hsize⟩
    · refine ⟨w, 0, ?_, Nat.zero_le _, by simpa using inv, by simpa using hf, ?_⟩
      · simp only [test_block_write, hput, Nat.add_zero]
      · intro _
        exact ⟨sample, by simp, by rw [hput]⟩
    · have inv1 := block_inv_store inv sample.1 sample.2 hstore
      have hcap : w.capacity = capacity := inv.2.1
      obtain ⟨w2, m, h1, h2, h3, h4, h5⟩ := ih w1 (S ++ [sample]) (ix + 1) inv1
        ⟨t, v, hflush, fun _ => by rw [← hcap]; exact hsize⟩
      have e : S ++ [sample] ++ List.take m rest = S ++ List.take (m + 1) (sample :: rest) := by
        simp
      rw [e] at h3 h4
      refine ⟨w2, m + 1, ?_, by simpa using h2, h3, h4, ?_⟩
      · simp only [test_block_write, hput]
        rw [h1]
        congr 2
        omega
      · intro hlt
        have hlt1 : m < rest.length := by simpa using hlt
        simpa using h5 hlt1

theorem chunked_read_succ {G : Nat} {r : DeltaDeltaStreamReader} {n : Nat} {T : List Nat}
    (h : test_stream_chunked_read G r (n + 1) = some T) :
    ∃ t T1 r1, T = t :: T1 ∧ r.next G = some (t, r1) ∧
      test_stream_chunked_read G r1 n = some T1 := by
  simp only [test_stream_chunked_read] at h
  cases hn : r.next G with
  | none => rw [hn] at h; simp at h
  | some p =>
    obtain ⟨t, r1⟩ := p
    rw [hn] at h
    simp only at h
    cases hr : test_stream_chunked_read G r1 n with
    | none => rw [hr] at h; simp at h
    | some T1 =>
      rw [hr] at h
      simp only [Option.some.injEq] at h
      exact ⟨t, T1, r1, h.symm, rfl, hr⟩

theorem float_read_succ {σ1 σ2 : Type} {P1 : Predictor σ1} {P2 : Predictor σ2}
    {r : FcmStreamReader σ1 σ2} {n : Nat} {V : List Nat}
    (h : test_float_read P1 P2 r (n + 1) = some V) :
    ∃ v V1 r1, V = v :: V1 ∧ r.next P1 P2 = some (v, r1) ∧
      test_float_read P1 P2 r1 n = some V1 := by
  simp only [test_float_read] at h
  cases hn : r.next P1 P2 with
  | none => rw [hn] at h; simp at h
  | some p =>
    obtain ⟨v, r1⟩ := p
    rw [hn] at h
    simp only at h
    cases hr : test_float_read P1 P2 r1 n with
    | none => rw [hr] at h; simp at h
    | some V1 =>
      rw [hr] at h
      simp only [Option.some.injEq] at h
      exact ⟨v, V1, r1, h.symm, rfl, hr⟩

/-- Behind the first sample the block reader pairs what the delta-delta reader and the FCM
reader return. -/
theorem block_read_rest {σ1 σ2 : Type} (P1 : Predictor σ1) (P2 : Predictor σ2) :
    ∀ (n : Nat) (r : DataBlockReader σ1 σ2) (T V : List Nat), r.read_index ≠ 0 →
      r.read_index + n ≤ r.header.n_elements →
      test_stream_chunked_read 16 r.ts_stream n = some T →
      test_float_read P1 P2 r.val_stream n = some V →
      ∃ r1, test_block_read P1 P2 r n = some (T.zip V, r1) ∧
        r1.read_index = r.read_index + n ∧ r1.header = r.header := by
  intro n
  induction n with
  | zero =>
    intro r T V _ _ hT hV
    simp only [test_stream_chunked_read, Option.some.injEq] at hT
    subst hT
    exact ⟨r, rfl, rfl, rfl⟩
  | succ n ih =>
    intro r T V h0 hle hT hV
    obtain ⟨t, T1, tsr, rfl, ht, hT1⟩ := chunked_read_succ hT
    obtain ⟨v, V1, valr, rfl, hv, hV1⟩ := float_read_succ hV
    have hnext : r.next P1 P2 = ((aku_Status.AKU_SUCCESS, t, v),
        { r with read_index := r.read_index + 1, ts_stream := tsr, val_stream := valr }) := by
      unfold DataBlockReader.next
      rw [if_neg (by omega)]
      simp only [if_neg h0, ht, hv]
    obtain ⟨r1, h1, h2, h3⟩ := ih
      { r with read_index := r.read_index + 1, ts_stream := tsr, val_stream := valr } T1 V1
      (Nat.succ_ne_zero _) (by simp only; omega) hT1 hV1
    refine ⟨r1, ?_, by rw [h2]; simp only; omega, h3⟩
    simp only [test_block_read, hnext, h1, List.zip_cons_cons]

theorem zip_fst_snd : ∀ (R : List (Nat × Nat)), (R.map Prod.fst).zip (R.map Prod.snd) = R := by
  intro R
  induction R with
  | nil => rfl
  | cons p R ih => simp [ih]

/-- Reading a committed block: the reader reports the series id and the number of samples
taken, returns the samples in order, and then `AKU_ENO_DATA`. -/
theorem block_read_committed {σ1 σ2 : Type} {P1 : Predictor σ1} {P2 : Predictor σ2}
    {series_id capacity : Nat} {fcm : σ1} {dfcm : σ2} {w : DataBlockWriter σ1 σ2}
    {S : List (Nat × Nat)} (inv : BlockInv P1 P2 series_id capacity fcm dfcm w S)
    (hx : ∀ s ∈ S, s.1 < 2 ^ 64 ∧ s.2 < 2 ^ 64)
    (crc : Option Nat → List Nat → List FcmItem → Nat) {size : Nat} {block : DataBlock}
    (hc : w.commit crc = some (size, block)) :
    (DataBlockReader.new block fcm dfcm).get_id = series_id ∧
    (DataBlockReader.new block fcm dfcm).nelements = S.length ∧
    ∃ r1, test_block_read P1 P2 (DataBlockReader.new block fcm dfcm) S.length = some (S, r1) ∧
      r1.next P1 P2 = ((aku_Status.AKU_ENO_DATA, 0, 0), r1) := by
  unfold DataBlockWriter.commit at hc
  cases hf : w.flush with
  | none => rw [hf] at hc; simp at hc
  | some p =>
    obtain ⟨t, v⟩ := p
    rw [hf] at hc
    simp only [Option.some.injEq, Prod.mk.injEq] at hc
    obtain ⟨_, hblock⟩ := hc
    obtain ⟨hv, gs, padding, hgs, hxgs, hpad, ht⟩ :=
      block_inv_flush inv (fun s hs => (hx s hs).1) hf
    have hanchor := block_inv_anchor inv
    have hn : w.n_elements = S.length := inv.2.2.1
    have hid : w.series_id = series_id := inv.1
    subst hblock
    refine ⟨hid, hn, ?_⟩
    cases S with
    | nil =>
      refine ⟨DataBlockReader.new _ fcm dfcm, rfl, ?_⟩
      unfold DataBlockReader.next
      rw [if_pos (by simp [DataBlockReader.new, hn])]
    | cons s R =>
      have hs1 : s.1 < 2 ^ 64 := (hx s (List.mem_cons_self _ _)).1
      have ha : w.anchor = some s.1 := hanchor
      have hvals := float_read_code P1 P2 ((s :: R).map Prod.snd) fcm dfcm []
        (fun x hx1 => by
          obtain ⟨p, hp, rfl⟩ := List.mem_map.1 hx1
          exact (hx p hp).2)
      rw [List.append_nil, ← hv] at hvals
      simp only [List.map_cons, List.length_cons, List.length_map] at hvals
      obtain ⟨v0, V1, valr, hV, hvnext, hV1⟩ := float_read_succ hvals
      simp only [List.cons.injEq] at hV
      obtain ⟨hv0, hV1eq⟩ := hV
      subst hv0 hV1eq
      have hts := chunked_read_groups 16 (by decide) gs s.1 [] hgs hs1 hxgs
      rw [List.append_nil] at hts
      simp only [List.map_cons, List.headD_cons, List.tail_cons] at hpad ht
      rw [← ht] at hts
      have hlen : gs.flatten.length = R.length + padding.length := by
        rw [← hpad, List.length_append, List.length_map]
      rw [hlen] at hts
      have hts1 := chunked_read_prefix 16 _ _ _ _ hts
      rw [← hpad, List.take_left' (List.length_map _ _)] at hts1
      have hfirst : (DataBlockReader.new
          { header := { series_id := w.series_id, n_elements := w.n_elements,
                        tail_offset := block_size w.anchor t v,
                        checksum := crc w.anchor t v },
            anchor := w.anchor, timestamps := t, values := v } fcm dfcm).next P1 P2 =
          ((aku_Status.AKU_SUCCESS, s.1, s.2),
            { header := { series_id := w.series_id, n_elements := w.n_elements,
                          tail_offset := block_size w.anchor t v,
                          checksum := crc w.anchor t v },
              anchor := w.anchor, read_index := 0 + 1,
              ts_stream := DeltaDeltaStreamReader.mk (Base128StreamReader.mk t) s.1 [],
              val_stream := valr }) := by
        unfold DataBlockReader.next
        rw [if_neg (by simp [DataBlockReader.new, hn])]
        simp only [DataBlockReader.new, if_true, ha, Option.map_some', Option.getD_some]
        have hvn : (FcmStreamReader.new v fcm dfcm).next P1 P2 = some (s.2, valr) := hvnext
        rw [hvn]
      obtain ⟨r1, h1, h2, h3⟩ := block_read_rest P1 P2 R.length
        { header := { series_id := w.series_id, n_elements := w.n_elements,
                      tail_offset := block_size w.anchor t v,
                      checksum := crc w.anchor t v },
          anchor := w.anchor, read_index := 0 + 1,
          ts_stream := DeltaDeltaStreamReader.mk (Base128StreamReader.mk t) s.1 [],
          val_stream := valr } (R.map Prod.fst) (R.map Prod.snd) (Nat.succ_ne_zero _)
        (by simp only [hn, List.length_cons]; omega) hts1 hV1
      refine ⟨r1, ?_, ?_⟩
      · simp only [List.length_cons, test_block_read, hfirst, h1, zip_fst_snd]
      · unfold DataBlockReader.next
        rw [if_pos (by rw [h2, h3]; simp only [hn, List.length_cons]; omega)]

/-- C15: for every series id, every buffer capacity (4096 bytes in the test) and every
sequence of (timestamp, value) pairs of 64-bit patterns, the compression loop of the test
returns: the pairs are put into a `DataBlockWriter` until `put` returns `AKU_EOVERFLOW` or
the input ends, `n` puts having returned `AKU_SUCCESS`. Then `commit` returns, with a block
that fits the buffer if it holds a sample, and a `DataBlockReader` over the block reports
the same series id and `nelements() = n`, returns exactly the first `n` pairs, in order,
from `n` calls of `next`, each with `AKU_SUCCESS`, and returns `AKU_ENO_DATA` on the
following call. This holds for any two predictors of the value substream and any checksum
algorithm. -/
theorem block_round_trip {σ1 σ2 : Type} (P1 : Predictor σ1) (P2 : Predictor σ2) (fcm : σ1)
    (dfcm : σ2) (crc : Option Nat → List Nat → List FcmItem → Nat)
    (series_id capacity : Nat) (samples : List (Nat × Nat))
    (hx : ∀ s ∈ samples, s.1 < 2 ^ 64 ∧ s.2 < 2 ^ 64) :
    ∃ writer n size block,
      test_block_write P1 P2 (DataBlockWriter.new series_id capacity fcm dfcm) samples 0 =
        some (writer, n) ∧
      n ≤ samples.length ∧
      (n < samples.length → ∃ s, samples[n]? = some s ∧
        (writer.put P1 P2 s.1 s.2).1 = aku_Status.AKU_EOVERFLOW) ∧
      writer.commit crc = some (size, block) ∧ (0 < n → size ≤ capacity) ∧
      (DataBlockReader.new block fcm dfcm).get_id = series_id ∧
      (DataBlockReader.new block fcm dfcm).nelements = n ∧
      ∃ reader1,
        test_block_read P1 P2 (DataBlockReader.new block fcm dfcm) n =
          some (samples.take n, reader1) ∧
        reader1.next P1 P2 = ((aku_Status.AKU_ENO_DATA, 0, 0), reader1) := by
  obtain ⟨w1, m, h1, h2, h3, ⟨t, v, hf, hsize⟩, h5⟩ :=
    block_write_spec P1 P2 series_id capacity fcm dfcm samples _ [] 0
      (block_inv_new P1 P2 series_id capacity fcm dfcm) ⟨[], [], rfl, fun h => absurd rfl h⟩
  rw [Nat.zero_add] at h1
  rw [List.nil_append] at h3 hsize
  have hc : w1.commit crc = some (block_size w1.anchor t v,
      { header := { series_id := w1.series_id, n_elements := w1.n_elements,
                    tail_offset := block_size w1.anchor t v,
                    checksum := crc w1.anchor t v },
        anchor := w1.anchor, timestamps := t, values := v }) := by
    unfold DataBlockWriter.commit
    rw [hf]
  have hlen : (samples.take m).length = m := by
    rw [List.length_take]
    omega
  obtain ⟨r1, r2, r3, r4, r5⟩ := block_read_committed h3
    (fun s hs => hx s (List.mem_of_mem_take hs)) crc hc
  rw [hlen] at r2 r4
  refine ⟨w1, m, _, _, h1, h2, h5, hc, ?_, r1, r2, r3, r4, r5⟩
  intro hm
  apply hsize
  intro e
  rw [e] at hlen
  simp at hlen
  omega

/-- Witness of `block_round_trip`: the samples `block_demo_samples` and a buffer of 60
bytes; the third `put` returns `AKU_EOVERFLOW`, the block takes 54 bytes, and the two
samples taken are read back. -/
theorem block_round_trip_witness :
    (∀ s ∈ block_demo_samples, s.1 < 2 ^ 64 ∧ s.2 < 2 ^ 64) ∧
    (∃ writer n size block,
      test_block_write FcmPredictor DfcmPredictor (DataBlockWriter.new 42 60 0 (0, 0))
        block_demo_samples 0 = some (writer, n) ∧
      n ≤ block_demo_samples.length ∧
      (n < block_demo_samples.length → ∃ s, block_demo_samples[n]? = some s ∧
        (writer.put FcmPredictor DfcmPredictor s.1 s.2).1 = aku_Status.AKU_EOVERFLOW) ∧
      writer.commit (fun _ _ _ => 0) = some (size, block) ∧ (0 < n → size ≤ 60) ∧
      (DataBlockReader.new block 0 (0, 0)).get_id = 42 ∧
      (DataBlockReader.new block 0 (0, 0)).nelements = n ∧
      ∃ reader1,
        test_block_read FcmPredictor DfcmPredictor (DataBlockReader.new block 0 (0, 0)) n =
          some (block_demo_samples.take n, reader1) ∧
        reader1.next FcmPredictor DfcmPredictor =
          ((aku_Status.AKU_ENO_DATA, 0, 0), reader1)) ∧
    (∃ writer block reader1,
      test_block_write FcmPredictor DfcmPredictor (DataBlockWriter.new 42 60 0 (0, 0))
        block_demo_samples 0 = some (writer, 2) ∧
      (writer.put FcmPredictor DfcmPredictor 1025 0x405bce353f7ced91).1 =
        aku_Status.AKU_EOVERFLOW ∧
      writer.commit (fun _ _ _ => 0) = some (54, block) ∧
      test_block_read FcmPredictor DfcmPredictor (DataBlockReader.new block 0 (0, 0)) 2 =
        some ([(1000, 0x400921f9f01b866e), (1010, 0x400921f9f01b866e)], reader1) ∧
      (reader1.next FcmPredictor DfcmPredictor).1 = (aku_Status.AKU_ENO_DATA, 0, 0)) :=
  ⟨by decide,
    block_round_trip FcmPredictor DfcmPredictor 0 (0, 0) (fun _ _ _ => 0) 42 60
      block_demo_samples (by decide),
    ⟨_, _, _, rfl, rfl, rfl, rfl, rfl⟩⟩

/-! ## Claim C29 -/

/-- The loop of `InputLog::read_next` comes to an end within `volumes_.size() + 1` turns:
with that fuel, and with any larger one, it gives the same result. -/
theorem read_next_loop_fuel (NUM_TUPLES buffer_size : Nat) : ∀ (vs : List LZ4Volume)
    (log : InputLog) (fuel : Nat), log.volumes_ = vs → vs.length < fuel →
    ∃ r, InputLog.read_next_loop NUM_TUPLES buffer_size (vs.length + 1) log = some r ∧
      InputLog.read_next_loop NUM_TUPLES buffer_size fuel log = some r := by
  intro vs
  induction vs with
  | nil =>
    intro log fuel hv hf
    obtain ⟨f, rfl⟩ : ∃ f, fuel = f + 1 := ⟨fuel - 1, by omega⟩
    simp only [List.length_nil, Nat.zero_add, InputLog.read_next_loop, hv]
    exact ⟨_, rfl, rfl⟩
  | cons front rest ih =>
    intro log fuel hv hf
    obtain ⟨f, rfl⟩ : ∃ f, fuel = f + 1 := ⟨fuel - 1, by omega⟩
    simp only [List.length_cons] at hf ⊢
    simp only [InputLog.read_next_loop, hv]
    cases hr : front.read_next NUM_TUPLES buffer_size with
    | error e => exact ⟨_, rfl, rfl⟩
    | ok p =>
      obtain ⟨⟨status, result⟩, front1, out⟩ := p
      simp only
      by_cases c : result ≠ aku_Status.AKU_SUCCESS.code
      · rw [if_pos c, if_pos c]
        exact ⟨_, rfl, rfl⟩
      · rw [if_neg c, if_neg c]
        exact ih { log with volumes_ := rest } f rfl (by omega)

/-- C29: `InputLog::read_next` terminates in every log state and for every buffer size:
every turn of its loop returns or removes one volume, so the loop makes at most
`volumes_.size() + 1` turns. With that many turns allowed the call gives a result (a
return or an exception), and allowing more turns does not change it. -/
theorem read_next_terminates (NUM_TUPLES : Nat) (log : InputLog) (buffer_size : Nat) :
    ∃ r, InputLog.read_next NUM_TUPLES log buffer_size = some r ∧
      InputLog.read_next_loop NUM_TUPLES buffer_size (log.volumes_.length + 1) log = some r ∧
      ∀ fuel, log.volumes_.length < fuel →
        InputLog.read_next_loop NUM_TUPLES buffer_size fuel log = some r := by
  obtain ⟨r, h1, _⟩ := read_next_loop_fuel NUM_TUPLES buffer_size log.volumes_ log
    (log.volumes_.length + 1) rfl (Nat.lt_succ_self _)
  refine ⟨r, h1, h1, ?_⟩
  intro fuel hf
  obtain ⟨r1, h2, h3⟩ := read_next_loop_fuel NUM_TUPLES buffer_size log.volumes_ log fuel
    rfl hf
  rw [h1] at h2
  rw [h3, ← h2]

/-! ## Claim C23 -/

theorem total_size_eq_length (runs : List SortedRun) :
    total_size runs = runs.flatten.length := by
  unfold total_size
  rw [List.length_flatten]

/-- C23: in every Sequencer state, with more than `W = window_size_` runs in particular,
`add(v)` leaves every run outside the last `W` runs as it is; it changes one thing only:
either it appends `v` to one of the last `W` runs, or it appends the new run `[v]` to the
run list; the total number of elements grows by one. -/
theorem add_sealed_runs (s : Sequencer) (v : TimeSeriesValue) :
    (∀ i, i < s.runs_.length - s.window_size_ → (s.add v).runs_[i]? = s.runs_[i]?) ∧
    ((∃ i r, s.runs_.length - s.window_size_ ≤ i ∧ s.runs_[i]? = some r ∧
        (s.add v).runs_ = s.runs_.set i (r ++ [v])) ∨
      (s.add v).runs_ = s.runs_ ++ [[v]]) ∧
    total_size (s.add v).runs_ = total_size s.runs_ + 1 ∧
    (s.add v).window_size_ = s.window_size_ := by
  obtain ⟨h1, h2, h3⟩ := add_position s v
  have hb := window_begin_eq s
  rw [hb] at h2
  have hsize : total_size (s.add v).runs_ = total_size s.runs_ + 1 := by
    rw [total_size_eq_length, total_size_eq_length, (add_perm s v).length_eq]
    rfl
  by_cases hp : s.insert_pos v = s.runs_.length
  · have hadd : (s.add v).runs_ = s.runs_ ++ [[v]] := by
      rw [sequencer_add_eq, if_pos hp]
    refine ⟨?_, Or.inr hadd, hsize, by rw [sequencer_add_eq, if_pos hp]⟩
    intro i hi
    rw [hadd, List.getElem?_append_left (by omega)]
  · rcases h1 with e | ⟨rp, hrp, _⟩
    · exact absurd e hp
    · have hadd : (s.add v).runs_ = push_back_at s.runs_ (s.insert_pos v) v := by
        rw [sequencer_add_eq, if_neg hp]
      refine ⟨?_, Or.inl ⟨s.insert_pos v, rp, h2, hrp,
        hadd.trans (push_back_at_eq_set v _ _ rp hrp)⟩, hsize,
        by rw [sequencer_add_eq, if_neg hp]⟩
      intro i hi
      rw [hadd, getElem?_push_back_at, if_neg (by omega)]

/-- Witness of `add_sealed_runs`: with window 1 and runs `[5]`, `[3]`, the value 4 goes to
the last run and the first run stays. -/
theorem add_sealed_runs_witness :
    (Sequencer.addAll 1 [⟨(5, 0), 0⟩, ⟨(3, 0), 0⟩]).runs_.length >
      (Sequencer.addAll 1 [⟨(5, 0), 0⟩, ⟨(3, 0), 0⟩]).window_size_ ∧
    ((Sequencer.addAll 1 [⟨(5, 0), 0⟩, ⟨(3, 0), 0⟩]).add ⟨(4, 0), 0⟩).runs_ =
      [[⟨(5, 0), 0⟩], [⟨(3, 0), 0⟩, ⟨(4, 0), 0⟩]] ∧
    total_size ((Sequencer.addAll 1 [⟨(5, 0), 0⟩, ⟨(3, 0), 0⟩]).add ⟨(4, 0), 0⟩).runs_ =
      total_size (Sequencer.addAll 1 [⟨(5, 0), 0⟩, ⟨(3, 0), 0⟩]).runs_ + 1 :=
  ⟨by decide, by decide,
    (add_sealed_runs (Sequencer.addAll 1 [⟨(5, 0), 0⟩, ⟨(3, 0), 0⟩]) ⟨(4, 0), 0⟩).2.2.1⟩

/-! ## Claim C25 -/

/-- A `read_next` call on a frame with `r > 0` unread records out of `s`. -/
theorem read_next_in_frame (NUM_TUPLES : Nat) (v : LZ4Volume) (buffer_size : Nat)
    (hr : 0 < v.elements_to_read_) (hs : v.elements_to_read_ ≤ (v.frames_ v.pos_).size) :
    v.read_next NUM_TUPLES buffer_size =
      .ok ((aku_Status.AKU_SUCCESS, min buffer_size v.elements_to_read_),
        { v with elements_to_read_ :=
            v.elements_to_read_ - min buffer_size v.elements_to_read_ },
        (List.range' ((v.frames_ v.pos_).size - v.elements_to_read_)
          (min buffer_size v.elements_to_read_)).map (v.frames_ v.pos_).record) := by
  rw [read_next_unfold, if_neg (by omega)]
  unfold LZ4Volume.copy_out
  rw [copy_records_spec _ _ _ _ (Nat.min_le_right _ _) hs]

theorem read_frame_all (NUM_TUPLES : Nat) : ∀ (sizes : List Nat) (v : LZ4Volume),
    (∀ b ∈ sizes, 0 < b) → v.elements_to_read_ ≤ sizes.length →
    v.elements_to_read_ ≤ (v.frames_ v.pos_).size →
    LZ4Volume.read_frame NUM_TUPLES sizes v =
      .ok ((List.range' ((v.frames_ v.pos_).size - v.elements_to_read_)
          v.elements_to_read_).map (v.frames_ v.pos_).record,
        { v with elements_to_read_ := 0 }) := by
  have hzero : ∀ v : LZ4Volume, v.elements_to_read_ = 0 →
      (Except.ok ([], v) : Except String (List Sample × LZ4Volume)) =
      .ok ((List.range' ((v.frames_ v.pos_).size - v.elements_to_read_)
          v.elements_to_read_).map (v.frames_ v.pos_).record,
        { v with elements_to_read_ := 0 }) := by
    intro v h0
    have hv : ({ v with elements_to_read_ := 0 } : LZ4Volume) = v := by
      cases v
      simp only at h0
      subst h0
      rfl
    rw [hv, h0]
    rfl
  intro sizes
  induction sizes with
  | nil =>
    intro v _ hlen _
    have h0 : v.elements_to_read_ = 0 := by simpa using hlen
    rw [LZ4Volume.read_frame]
    exact hzero v h0
  | cons b rest ih =>
    intro v hb hlen hs
    by_cases h0 : v.elements_to_read_ = 0
    · rw [LZ4Volume.read_frame, if_pos h0]
      exact hzero v h0
    · have hbpos : 0 < b := hb b (by simp)
      have hmin : 0 < min b v.elements_to_read_ := by
        rw [Nat.lt_min]
        exact ⟨hbpos, Nat.pos_of_ne_zero h0⟩
      have hle : min b v.elements_to_read_ ≤ v.elements_to_read_ := Nat.min_le_right _ _
      have hih := ih { v with elements_to_read_ :=
            v.elements_to_read_ - min b v.elements_to_read_ }
        (fun c hc => hb c (List.mem_cons_of_mem _ hc))
        (by simp only [List.length_cons] at hlen; simp only; omega)
        (by
          show v.elements_to_read_ - min b v.elements_to_read_ ≤ (v.frames_ v.pos_).size
          omega)
      rw [LZ4Volume.read_frame, if_neg h0,
        read_next_in_frame NUM_TUPLES v b (Nat.pos_of_ne_zero h0) hs]
      simp only
      rw [hih]
      simp only [Except.ok.injEq, Prod.mk.injEq, and_true]
      show List.map (v.frames_ v.pos_).record _ ++ List.map (v.frames_ v.pos_).record
        (List.range' ((v.frames_ v.pos_).size -
          (v.elements_to_read_ - min b v.elements_to_read_))
          (v.elements_to_read_ - min b v.elements_to_read_)) = _
      rw [← List.map_append, range_split _ _ _ hle hs]

/-- C25: on a volume whose current frame has `r > 0` unread records out of `s`,
`read_next(buffer_size, ...)` returns `(AKU_SUCCESS, min(buffer_size, r))`, writes the
records `s - r`, `s - r + 1`, ... of the frame, in order, to the output arrays and leaves
`r - min(buffer_size, r)` records unread. So a sequence of at least `r` calls with positive
buffer sizes, made as long as records are left, returns the records `s - r`, ..., `s - 1`,
each once and in stored order, and leaves none unread. -/
theorem read_next_frame_records (NUM_TUPLES : Nat) (v : LZ4Volume)
    (hr : 0 < v.elements_to_read_) (hs : v.elements_to_read_ ≤ (v.frames_ v.pos_).size) :
    (∀ buffer_size, v.read_next NUM_TUPLES buffer_size =
      .ok ((aku_Status.AKU_SUCCESS, min buffer_size v.elements_to_read_),
        { v with elements_to_read_ :=
            v.elements_to_read_ - min buffer_size v.elements_to_read_ },
        (List.range' ((v.frames_ v.pos_).size - v.elements_to_read_)
          (min buffer_size v.elements_to_read_)).map (v.frames_ v.pos_).record)) ∧
    (∀ sizes : List Nat, (∀ b ∈ sizes, 0 < b) → v.elements_to_read_ ≤ sizes.length →
      LZ4Volume.read_frame NUM_TUPLES sizes v =
        .ok ((List.range' ((v.frames_ v.pos_).size - v.elements_to_read_)
            v.elements_to_read_).map (v.frames_ v.pos_).record,
          { v with elements_to_read_ := 0 })) :=
  ⟨fun buffer_size => read_next_in_frame NUM_TUPLES v buffer_size hr hs,
    fun sizes hb hlen => read_frame_all NUM_TUPLES sizes v hb hlen hs⟩

/-- Witness of `read_next_frame_records`: the frame of `frame_demo_volume` read with a
buffer of two records, and then with buffers of 2, 5 and 1 records. -/
theorem read_next_frame_records_witness :
    (0 < frame_demo_volume.elements_to_read_ ∧
      frame_demo_volume.elements_to_read_ ≤
        (frame_demo_volume.frames_ frame_demo_volume.pos_).size) ∧
    frame_demo_volume.read_next 3 2 =
      .ok ((aku_Status.AKU_SUCCESS, 2), { frame_demo_volume with elements_to_read_ := 1 },
        [(1, 10, 100), (2, 20, 200)]) ∧
    LZ4Volume.read_frame 3 [2, 5, 1] frame_demo_volume =
      .ok ([(1, 10, 100), (2, 20, 200), (3, 30, 300)],
        { frame_demo_volume with elements_to_read_ := 0 }) :=
  ⟨⟨by decide, by decide⟩,
    (read_next_frame_records 3 frame_demo_volume (by decide) (by decide)).1 2,
    (read_next_frame_records 3 frame_demo_volume (by decide) (by decide)).2 [2, 5, 1]
      (by decide) (by decide)⟩

/-! ## Claims C21 and C27 -/

theorem value_lt_asymm {a b : TimeSeriesValue} (h : TimeSeriesValue.lt a b = true) :
    TimeSeriesValue.lt b a = false := by
  rw [value_lt_iff] at h
  rw [value_lt_false_iff]
  omega

theorem linear_search_eq {α β : Type} (comp : α → β → Bool) (xs : List α) (value : β) :
    ∀ (n first p : Nat), first ≤ p → p ≤ first + n → first + n ≤ xs.length →
      (∀ i m, first ≤ i → i < p → xs[i]? = some m → comp m value = true) →
      (p = first + n ∨ ∃ m, xs[p]? = some m ∧ comp m value = false) →
      linear_search comp xs value n first = p := by
  intro n
  induction n with
  | zero =>
    intro first p h1 h2 _ _ _
    simp only [linear_search]
    omega
  | succ n ih =>
    intro first p h1 h2 h3 hpre hp
    have hlt : first < xs.length := by omega
    have hget : xs[first]? = some xs[first] := List.getElem?_eq_getElem hlt
    simp only [linear_search, hget]
    rcases Nat.eq_or_lt_of_le h1 with e | e
    · subst e
      rcases hp with q | ⟨m, q1, q2⟩
      · omega
      · rw [hget] at q1
        simp only [Option.some.injEq] at q1
        rw [q1, q2]
        simp
    · rw [hpre first _ (Nat.le_refl _) e hget]
      simp only [if_true]
      exact ih (first + 1) p e (by omega) (by omega)
        (fun i m hi1 hi2 hx => hpre i m (by omega) hi2 hx)
        (by
          rcases hp with q | q
          · exact Or.inl (by omega)
          · exact Or.inr q)

/-- In a window that satisfies its invariant the binary search of `add` returns the
position a linear scan of the window returns. -/
theorem insert_pos_linear (s : Sequencer) (inv : WindowInv s) (value : TimeSeriesValue) :
    s.insert_pos value =
      linear_search top_element_more s.runs_ (s.key_.dropLast ++ [value])
        (s.runs_.length - s.window_begin) s.window_begin := by
  obtain ⟨h1, h2, h3⟩ := add_position s value
  have hfirst := add_position_first s inv value
  have hb : s.window_begin ≤ s.runs_.length := le_trans h2 h3
  symm
  refine linear_search_eq _ _ _ _ _ _ h2 (by omega) (by omega) ?_ ?_
  · intro i m hi1 hi2 hx
    unfold top_element_more top_element_less
    rw [back_concat]
    exact hfirst i m hi1 hi2 hx
  · rcases h1 with q | ⟨r, q1, q2⟩
    · exact Or.inl (by omega)
    · refine Or.inr ⟨r, q1, ?_⟩
      unfold top_element_more top_element_less
      rw [back_concat]
      exact q2

/-- C21 fails: with window 1 the values 5, 3, 6 leave the runs `[5]` and `[3, 6]`; the
last element of the first run is below that of the second one. -/
theorem runs_not_descending :
    (Sequencer.addAll 1 [⟨(5, 0), 0⟩, ⟨(3, 0), 0⟩, ⟨(6, 0), 0⟩]).runs_ =
      [[⟨(5, 0), 0⟩], [⟨(3, 0), 0⟩, ⟨(6, 0), 0⟩]] ∧
    TimeSeriesValue.lt (SortedRun.back [⟨(5, 0), 0⟩])
      (SortedRun.back [⟨(3, 0), 0⟩, ⟨(6, 0), 0⟩]) = true := by
  decide

/-- C21, amended: in every Sequencer state reached by `add` calls from a new Sequencer with
window `W`, two adjacent runs among the last `W` runs are ordered by last element
descending, `runs[i].back() >= runs[i+1].back()`, in fact strictly. -/
theorem window_runs_descending (W : Nat) (values : List TimeSeriesValue) (i : Nat)
    (r1 r2 : SortedRun) (hi : (Sequencer.addAll W values).runs_.length - W ≤ i)
    (h1 : (Sequencer.addAll W values).runs_[i]? = some r1)
    (h2 : (Sequencer.addAll W values).runs_[i + 1]? = some r2) :
    TimeSeriesValue.le (SortedRun.back r2) (SortedRun.back r1) ∧
    TimeSeriesValue.lt (SortedRun.back r2) (SortedRun.back r1) = true := by
  obtain ⟨inv, hW⟩ := addAll_window W values
  have hb := window_begin_eq (Sequencer.addAll W values)
  rw [hW] at hb
  have hlt := inv i (i + 1) r1 r2 (by rw [hb]; exact hi) (Nat.lt_succ_self i) h1 h2
  exact ⟨value_lt_asymm hlt, hlt⟩

/-- Witness of `window_runs_descending`: with window 2 the values 5, 3, 6 leave the runs
`[5, 6]` and `[3]`. -/
theorem window_runs_descending_witness :
    ((Sequencer.addAll 2 [⟨(5, 0), 0⟩, ⟨(3, 0), 0⟩, ⟨(6, 0), 0⟩]).runs_.length - 2 ≤ 0 ∧
      (Sequencer.addAll 2 [⟨(5, 0), 0⟩, ⟨(3, 0), 0⟩, ⟨(6, 0), 0⟩]).runs_[0]? =
        some [⟨(5, 0), 0⟩, ⟨(6, 0), 0⟩] ∧
      (Sequencer.addAll 2 [⟨(5, 0), 0⟩, ⟨(3, 0), 0⟩, ⟨(6, 0), 0⟩]).runs_[0 + 1]? =
        some [⟨(3, 0), 0⟩]) ∧
    TimeSeriesValue.le (SortedRun.back [⟨(3, 0), 0⟩])
      (SortedRun.back [⟨(5, 0), 0⟩, ⟨(6, 0), 0⟩]) ∧
    TimeSeriesValue.lt (SortedRun.back [⟨(3, 0), 0⟩])
      (SortedRun.back [⟨(5, 0), 0⟩, ⟨(6, 0), 0⟩]) = true :=
  ⟨⟨by decide, by decide, by decide⟩,
    window_runs_descending 2 [⟨(5, 0), 0⟩, ⟨(3, 0), 0⟩, ⟨(6, 0), 0⟩] 0
      [⟨(5, 0), 0⟩, ⟨(6, 0), 0⟩] [⟨(3, 0), 0⟩] (by decide) (by decide) (by decide)⟩

/-- C27: in every Sequencer state reached by `add` calls from a new Sequencer with window
`W`, the last elements of the runs in the search window (the last `min(W, size)` runs) are
strictly decreasing in key order. So, for every value, `comp` holds for every run of the
window in front of one it holds for (the range is partitioned), and the binary search of
`add` (`std::lower_bound` with `top_element_more`) returns the position that a linear scan
of the window for the first run with `comp` false returns. -/
theorem window_partitioned (W : Nat) (values : List TimeSeriesValue) :
    (Sequencer.addAll W values).window_begin =
      (Sequencer.addAll W values).runs_.length -
        min W (Sequencer.addAll W values).runs_.length ∧
    (∀ i j r1 r2, (Sequencer.addAll W values).window_begin ≤ i → i < j →
      (Sequencer.addAll W values).runs_[i]? = some r1 →
      (Sequencer.addAll W values).runs_[j]? = some r2 →
      TimeSeriesValue.lt (SortedRun.back r2) (SortedRun.back r1) = true) ∧
    (∀ (v : TimeSeriesValue) i j r1 r2, (Sequencer.addAll W values).window_begin ≤ i →
      i ≤ j → (Sequencer.addAll W values).runs_[i]? = some r1 →
      (Sequencer.addAll W values).runs_[j]? = some r2 →
      top_element_more r2 ((Sequencer.addAll W values).key_.dropLast ++ [v]) = true →
      top_element_more r1 ((Sequencer.addAll W values).key_.dropLast ++ [v]) = true) ∧
    (∀ v : TimeSeriesValue,
      lower_bound top_element_more (Sequencer.addAll W values).runs_
          ((Sequencer.addAll W values).key_.dropLast ++ [v])
          (Sequencer.addAll W values).window_begin
          (Sequencer.addAll W values).runs_.length =
        linear_search top_element_more (Sequencer.addAll W values).runs_
          ((Sequencer.addAll W values).key_.dropLast ++ [v])
          ((Sequencer.addAll W values).runs_.length -
            (Sequencer.addAll W values).window_begin)
          (Sequencer.addAll W values).window_begin) := by
  obtain ⟨inv, hW⟩ := addAll_window W values
  refine ⟨?_, inv, ?_, fun v => insert_pos_linear _ inv v⟩
  · rw [window_begin_eq, hW]
    omega
  · intro v i j r1 r2 hi hij h1 h2 hc
    unfold top_element_more top_element_less at *
    rw [back_concat] at *
    rcases Nat.eq_or_lt_of_le hij with e | e
    · subst e
      rw [h1] at h2
      cases h2
      exact hc
    · exact value_lt_trans hc (inv i j r1 r2 hi e h1 h2)

/-! ## Claim C22 -/

/-- What `merge` writes for a Sequencer filled by `add` calls, with the run index of every
value: the items are in non-decreasing order of (key, run index), the items of one run are
that run in order, and the values are the added values in some order. -/
theorem merge_tagged_spec (W : Nat) (values : List TimeSeriesValue) :
    ∃ out, (Sequencer.addAll W values).merge_tagged = some out ∧
      (Sequencer.addAll W values).merge = some (out.map Prod.fst) ∧
      out.Pairwise HeapItem.le ∧
      (∀ i, (out.filter (fun o => decide (o.2 = i))).map Prod.fst =
        run_at (Sequencer.addAll W values).runs_ i) ∧
      List.Perm (out.map Prod.fst) values := by
  obtain ⟨out, ho⟩ := merge_tagged_returns (Sequencer.addAll W values)
  have inv := merge_init_inv (Sequencer.addAll W values).runs_
    (fun r hr => (addAll_inv W values r hr).2)
  refine ⟨out, ho, by simp [Sequencer.merge, ho], merge_loop_sorted _ _ _ out inv ho, ?_,
    ((merge_loop_perm _ _ _ out inv ho).trans (merge_init_perm _ 0)).trans
      (addAll_perm W values)⟩
  intro i
  have h1 := merge_loop_run _ _ _ out inv ho i
  have h2 := merge_init_run (Sequencer.addAll W values).runs_ 0 i
  simp only [Nat.zero_add] at h2
  rw [h1]
  exact h2

/-- C22 fails: two values with the key (1, 0) are added; `merge` writes both, and the key
of the second one is not above the key of the first one. -/
theorem merge_not_strict :
    (Sequencer.addAll 2 [⟨(1, 0), 7⟩, ⟨(1, 0), 8⟩]).merge =
      some [⟨(1, 0), 7⟩, ⟨(1, 0), 8⟩] ∧
    tuple_lt (TimeSeriesValue.mk (1, 0) 7).key_ (TimeSeriesValue.mk (1, 0) 8).key_ = false := by
  decide

/-- C22, amended: the output of `Sequencer::merge` is sorted by `(timestamp, series_id)`,
not strictly: the key of every output element is greater than or equal to the key of the
element before it, and of every earlier element. It is strictly greater when the added
values have pairwise distinct keys. -/
theorem merge_sorted_weakly (W : Nat) (values : List TimeSeriesValue) :
    ∃ out, (Sequencer.addAll W values).merge = some out ∧
      out.Pairwise (fun a b => tuple_lt b.key_ a.key_ = false) ∧
      out.Chain' (fun a b => tuple_lt b.key_ a.key_ = false) ∧
      ((values.map TimeSeriesValue.key_).Nodup →
        out.Pairwise (fun a b => tuple_lt a.key_ b.key_ = true)) := by
  obtain ⟨out, _, hm, hs, _, hp⟩ := merge_tagged_spec W values
  have hle : (out.map Prod.fst).Pairwise (fun a b => tuple_lt b.key_ a.key_ = false) := by
    rw [List.pairwise_map]
    refine hs.imp ?_
    intro a b hab
    unfold HeapItem.le at hab
    rw [item_lt_false_iff] at hab
    rw [tuple_lt_false_iff]
    omega
  refine ⟨out.map Prod.fst, hm, hle, hle.chain', ?_⟩
  intro hnd
  have hnd1 : ((out.map Prod.fst).map TimeSeriesValue.key_).Nodup :=
    (hp.map TimeSeriesValue.key_).nodup_iff.2 hnd
  have hne : (out.map Prod.fst).Pairwise (fun a b => a.key_ ≠ b.key_) := by
    rw [List.Nodup, List.pairwise_map] at hnd1
    exact hnd1
  refine (hle.and hne).imp ?_
  intro a b hab
  obtain ⟨h1, h2⟩ := hab
  rw [tuple_lt_false_iff] at h1
  rw [tuple_lt_iff]
  have h3 : a.key_.1 ≠ b.key_.1 ∨ a.key_.2 ≠ b.key_.2 := by
    by_contra hc
    simp only [not_or, not_not] at hc
    exact h2 (Prod.ext hc.1 hc.2)
  omega

/-! ## Claim C28 -/

theorem window_begin_add_le (s : Sequencer) (value : TimeSeriesValue) :
    s.window_begin ≤ (s.add value).window_begin := by
  rw [sequencer_add_eq]
  split
  · unfold Sequencer.window_begin
    simp only [List.length_append, List.length_singleton]
    split <;> split <;> omega
  · unfold Sequencer.window_begin
    simp only [push_back_at_length]
    exact Nat.le_refl _

theorem later_inv_add {s : Sequencer} (winv : WindowInv s) (inv : LaterInv s)
    (value : TimeSeriesValue) : LaterInv (s.add value) := by
  obtain ⟨h1, h2, h3⟩ := add_position s value
  have hfirst := add_position_first s winv value
  have hwb := window_begin_add_le s value
  intro i j r1 r2 u hB hij hi hj hu
  have hB0 : s.window_begin ≤ i := le_trans hwb hB
  rw [sequencer_add_eq] at hi hj
  by_cases hp : s.insert_pos value = s.runs_.length
  · rw [if_pos hp] at hi hj
    simp only at hi hj
    have hjl : j < s.runs_.length + 1 := by
      have := (List.getElem?_eq_some_iff.1 hj).1
      simpa using this
    have hil : i < s.runs_.length := by omega
    rw [List.getElem?_append_left hil] at hi
    rcases Nat.eq_or_lt_of_le (Nat.le_of_lt_succ hjl) with e | e
    · subst e
      rw [List.getElem?_append_right (Nat.le_refl _)] at hj
      simp only [Nat.sub_self, List.getElem?_cons_zero, Option.some.injEq] at hj
      subst hj
      simp only [List.mem_singleton] at hu
      subst hu
      exact hfirst i r1 hB0 (by omega) hi
    · rw [List.getElem?_append_left e] at hj
      exact inv i j r1 r2 u hB0 hij hi hj hu
  · rw [if_neg hp] at hi hj
    simp only [getElem?_push_back_at] at hi hj
    rcases h1 with e | ⟨rp, hrp, hle⟩
    · exact absurd e hp
    · by_cases ei : i = s.insert_pos value
      · rw [if_pos ei, ei, hrp] at hi
        simp only [Option.map_some', Option.some.injEq] at hi
        subst hi
        rw [if_neg (by omega)] at hj
        rw [back_concat]
        exact value_lt_of_lt_of_le (inv _ j rp r2 u h2 (by omega) hrp hj hu) hle
      · rw [if_neg ei] at hi
        by_cases ej : j = s.insert_pos value
        · rw [if_pos ej, ej, hrp] at hj
          simp only [Option.map_some', Option.some.injEq] at hj
          subst hj
          rcases List.mem_append.1 hu with q | q
          · exact inv i _ r1 rp u hB0 (by omega) hi hrp q
          · simp only [List.mem_singleton] at q
            subst q
            exact hfirst i r1 hB0 (by omega) hi
        · rw [if_neg ej] at hj
          exact inv i j r1 r2 u hB0 hij hi hj hu

/-- Appending a value to run `p` and the values a predicate selects: if the predicate
selects nothing in the runs behind `p`, the selected values are the old ones, followed by
the new value if it is selected. -/
theorem filter_push_back_at (q : TimeSeriesValue → Bool) (v : TimeSeriesValue) :
    ∀ (runs : List SortedRun) (p : Nat), p < runs.length →
      (q v = true → ∀ j r u, p < j → runs[j]? = some r → u ∈ r → q u = false) →
      (push_back_at runs p v).flatten.filter q = runs.flatten.filter q ++ [v].filter q := by
  intro runs
  induction runs with
  | nil => intro p h; simp at h
  | cons r rs ih =>
    intro p hp hlater
    cases p with
    | zero =>
      simp only [push_back_at, List.flatten_cons, List.filter_append, List.append_assoc]
      by_cases hq : q v = true
      · have hrs : rs.flatten.filter q = [] := by
          rw [List.filter_eq_nil_iff]
          intro u hu
          obtain ⟨r1, hr1, hu1⟩ := List.mem_flatten.1 hu
          obtain ⟨j, hj, hget⟩ := List.getElem_of_mem hr1
          have := hlater hq (j + 1) r1 u (Nat.succ_pos j)
            (by rw [List.getElem?_cons_succ, List.getElem?_eq_getElem hj, hget]) hu1
          rw [this]
          simp
        rw [hrs]
        simp
      · have hv : [v].filter q = [] := by simp [hq]
        rw [hv]
        simp
    | succ p =>
      simp only [push_back_at, List.flatten_cons, List.filter_append]
      rw [ih p (by simpa using hp) (fun hq j r1 u hj hget hu =>
        hlater hq (j + 1) r1 u (by omega) (by rw [List.getElem?_cons_succ]; exact hget) hu)]
      rw [List.append_assoc]

/-- The values of a key in the runs are in the order of arrival: `add` puts a value behind
every value of its key. -/
theorem key_order_add {s : Sequencer} (inv : LaterInv s)
    (value : TimeSeriesValue) (k : Nat × Nat) :
    (s.add value).runs_.flatten.filter (fun u => decide (u.key_ = k)) =
      s.runs_.flatten.filter (fun u => decide (u.key_ = k)) ++
        [value].filter (fun u => decide (u.key_ = k)) := by
  obtain ⟨h1, h2, h3⟩ := add_position s value
  rw [sequencer_add_eq]
  by_cases hp : s.insert_pos value = s.runs_.length
  · rw [if_pos hp]
    simp
  · rw [if_neg hp]
    rcases h1 with e | ⟨rp, hrp, hle⟩
    · exact absurd e hp
    · refine filter_push_back_at _ value s.runs_ _ (by omega) ?_
      intro hq j r u hj hget hu
      have hlt := value_lt_of_lt_of_le (inv _ j rp r u h2 hj hrp hget hu) hle
      rw [value_lt_iff] at hlt
      simp only [decide_eq_true_eq] at hq
      simp only [decide_eq_false_iff_not]
      intro e
      rw [← hq] at e
      rw [e] at hlt
      omega

theorem foldl_add_key_order (k : Nat × Nat) (values : List TimeSeriesValue) :
    ∀ (s : Sequencer), WindowInv s → LaterInv s →
    (values.foldl Sequencer.add s).runs_.flatten.filter (fun u => decide (u.key_ = k)) =
      s.runs_.flatten.filter (fun u => decide (u.key_ = k)) ++
        values.filter (fun u => decide (u.key_ = k)) := by
  induction values with
  | nil => intro s _ _; simp
  | cons v vs ih =>
    intro s winv inv
    simp only [List.foldl_cons]
    rw [ih _ (window_inv_add winv v) (later_inv_add winv inv v), key_order_add inv v k]
    rw [List.append_assoc, ← List.filter_append]
    rfl

theorem addAll_key_order (W : Nat) (values : List TimeSeriesValue) (k : Nat × Nat) :
    (Sequencer.addAll W values).runs_.flatten.filter (fun u => decide (u.key_ = k)) =
      values.filter (fun u => decide (u.key_ = k)) := by
  have := foldl_add_key_order k values (Sequencer.mk0 W)
    (by intro i j r1 r2 _ _ h; simp [Sequencer.mk0] at h)
    (by intro i j r1 r2 u _ _ h; simp [Sequencer.mk0] at h)
  simpa [Sequencer.mk0] using this

theorem sorted_filter_split {α : Type} (n : Nat) : ∀ (L : List (α × Nat)),
    L.Pairwise (fun a b => a.2 ≤ b.2) →
    L = L.filter (fun o => decide (o.2 < n)) ++ L.filter (fun o => decide (n ≤ o.2)) := by
  intro L
  induction L with
  | nil => intro _; rfl
  | cons x t ih =>
    intro hs
    rw [List.pairwise_cons] at hs
    by_cases hx : x.2 < n
    · have h2 : ¬ n ≤ x.2 := by omega
      simp only [List.filter_cons, hx, h2, decide_True, decide_False, if_true,
        Bool.false_eq_true, if_false, List.cons_append]
      rw [← ih hs.2]
    · have h1 : t.filter (fun o => decide (o.2 < n)) = [] := by
        rw [List.filter_eq_nil_iff]
        intro o ho
        have := hs.1 o ho
        simp only [decide_eq_true_eq]
        omega
      have h2 : t.filter (fun o => decide (n ≤ o.2)) = t := by
        rw [List.filter_eq_self]
        intro o ho
        have := hs.1 o ho
        simp only [decide_eq_true_eq]
        omega
      have h4 : n ≤ x.2 := by omega
      simp only [List.filter_cons, hx, h4, decide_True, decide_False, if_true,
        Bool.false_eq_true, if_false, h1, h2, List.nil_append]

/-- A list sorted by its tags is the concatenation, in tag order, of its parts of equal
tag. -/
theorem sorted_by_tag {α : Type} : ∀ (n : Nat) (L : List (α × Nat)),
    L.Pairwise (fun a b => a.2 ≤ b.2) → (∀ o ∈ L, o.2 < n) →
    L = (List.range n).flatMap (fun i => L.filter (fun o => decide (o.2 = i))) := by
  intro n
  induction n with
  | zero =>
    intro L _ h
    cases L with
    | nil => rfl
    | cons x t => exact absurd (h x (List.mem_cons_self _ _)) (Nat.not_lt_zero _)
  | succ n ih =>
    intro L hs hlt
    have hsplit := sorted_filter_split n L hs
    have hA := ih (L.filter (fun o => decide (o.2 < n))) (hs.sublist (List.filter_sublist _))
      (fun o ho => by simpa using (List.mem_filter.1 ho).2)
    have hB : L.filter (fun o => decide (n ≤ o.2)) = L.filter (fun o => decide (o.2 = n)) := by
      apply List.filter_congr
      intro o ho
      have := hlt o ho
      by_cases e : o.2 = n
      · simp [e]
      · have h1 : decide (n ≤ o.2) = false := by simp only [decide_eq_false_iff_not]; omega
        have h2 : decide (o.2 = n) = false := by simpa using e
        rw [h1, h2]
    have hC : (List.range n).flatMap (fun i =>
        (L.filter (fun o => decide (o.2 < n))).filter (fun o => decide (o.2 = i))) =
        (List.range n).flatMap (fun i => L.filter (fun o => decide (o.2 = i))) := by
      apply flatMap_congr_mem
      intro i hi
      rw [List.mem_range] at hi
      rw [List.filter_filter]
      apply List.filter_congr
      intro o _
      by_cases e : o.2 = i
      · have : decide (o.2 < n) = true := by simp only [decide_eq_true_eq]; omega
        simp [e, this]
        omega
      · simp [e]
    rw [List.range_succ, List.flatMap_append]
    simp only [List.flatMap_singleton]
    rw [← hC, ← hA, ← hB]
    exact hsplit

theorem flatMap_run_at (f : SortedRun → List TimeSeriesValue) (hf : f [] = []) :
    ∀ (runs : List SortedRun) (n : Nat), runs.length ≤ n →
    (List.range n).flatMap (fun i => f (run_at runs i)) = runs.flatMap f := by
  intro runs
  induction runs with
  | nil =>
    intro n _
    simp only [List.flatMap_nil]
    rw [List.flatMap_eq_nil_iff]
    intro i _
    simp [run_at, hf]
  | cons r rs ih =>
    intro n hn
    obtain ⟨m, rfl⟩ : ∃ m, n = m + 1 := ⟨n - 1, by simp at hn; omega⟩
    rw [List.range_succ_eq_map, List.flatMap_cons, List.flatMap_map, List.flatMap_cons]
    simp only [run_at]
    rw [← ih m (by simpa using hn)]

theorem run_at_eq_nil : ∀ (runs : List SortedRun) (i : Nat), runs.length ≤ i →
    run_at runs i = [] := by
  intro runs
  induction runs with
  | nil => intro i _; rfl
  | cons r rs ih =>
    intro i hi
    cases i with
    | zero => simp at hi
    | succ i => exact ih i (by simpa using hi)

/-- The values of one key come out of `merge` run after run, each run in its order. -/
theorem merge_key_order (W : Nat) (values : List TimeSeriesValue) (k : Nat × Nat) :
    ∃ out, (Sequencer.addAll W values).merge = some out ∧
      out.filter (fun u => decide (u.key_ = k)) =
        (Sequencer.addAll W values).runs_.flatten.filter (fun u => decide (u.key_ = k)) := by
  obtain ⟨out, _, hm, hs, hrun, _⟩ := merge_tagged_spec W values
  refine ⟨out.map Prod.fst, hm, ?_⟩
  generalize (Sequencer.addAll W values).runs_ = runs at hrun ⊢
  have hL : (out.filter (fun o => decide (o.1.key_ = k))).Pairwise
      (fun a b => a.2 ≤ b.2) := by
    rw [List.pairwise_filter]
    refine hs.imp ?_
    intro a b hab ha hb
    unfold HeapItem.le at hab
    rw [item_lt_false_iff] at hab
    rw [ha, hb] at hab
    omega
  have htag : ∀ o ∈ out.filter (fun o => decide (o.1.key_ = k)), o.2 < runs.length := by
    intro o ho
    by_contra hc
    have hnil := run_at_eq_nil runs o.2 (by omega)
    have h1 := hrun o.2
    rw [hnil] at h1
    have h2 : out.filter (fun p => decide (p.2 = o.2)) = [] := by
      simpa using h1
    rw [List.filter_eq_nil_iff] at h2
    exact h2 o (List.mem_filter.1 ho).1 (by simp)
  have hcat := sorted_by_tag runs.length _ hL htag
  have hpart : ∀ i, ((out.filter (fun o => decide (o.1.key_ = k))).filter
      (fun o => decide (o.2 = i))).map Prod.fst =
      (run_at runs i).filter (fun u => decide (u.key_ = k)) := by
    intro i
    rw [← hrun i, List.filter_map, List.filter_filter, List.filter_filter]
    congr 1
    apply List.filter_congr
    intro o _
    show (decide (o.2 = i) && decide (o.1.key_ = k)) =
      (decide (o.1.key_ = k) && decide (o.2 = i))
    exact Bool.and_comm _ _
  have hmap : (out.map Prod.fst).filter (fun u => decide (u.key_ = k)) =
      (out.filter (fun o => decide (o.1.key_ = k))).map Prod.fst := by
    rw [List.filter_map]
    rfl
  rw [hmap, hcat, List.map_flatMap]
  rw [flatMap_congr_mem _ (fun i => (run_at runs i).filter (fun u => decide (u.key_ = k)))
    _ (fun i _ => hpart i)]
  rw [flatMap_run_at (fun r => r.filter (fun u => decide (u.key_ = k))) rfl runs runs.length
    (Nat.le_refl _)]
  rw [List.flatMap_def, List.filter_flatten]

/-- C28: add-then-merge is stable with respect to arrival order: for every window size
and every sequence of added values, `merge` returns, and for every key
`(timestamp, series_id)` the values with that key appear in the output in the order in
which they were added. -/
theorem merge_stable (W : Nat) (values : List TimeSeriesValue) :
    ∃ out, (Sequencer.addAll W values).merge = some out ∧
      ∀ k : Nat × Nat, out.filter (fun u => decide (u.key_ = k)) =
        values.filter (fun u => decide (u.key_ = k)) := by
  obtain ⟨out, ho, _⟩ := merge_key_order W values (0, 0)
  refine ⟨out, ho, ?_⟩
  intro k
  obtain ⟨out1, ho1, h1⟩ := merge_key_order W values k
  rw [ho] at ho1
  simp only [Option.some.injEq] at ho1
  rw [ho1, h1, addAll_key_order]

/-! ## Frames written by a run of appends -/

theorem frame_records_length (f : Frame) : (frame_records f).length = f.size := by
  simp [frame_records]

theorem count_inv_create (NUM_TUPLES : Nat) (h : 0 < NUM_TUPLES) (name : Path) (svol : Nat) :
    (LZ4Volume.create NUM_TUPLES name svol).CountInv NUM_TUPLES [] := by
  refine ⟨frame_inv_create NUM_TUPLES h name svol, ?_, ?_, ?_⟩
  · simp [LZ4Volume.create, LZ4Volume.frames_, Frame.zero]
  · simp [LZ4Volume.create, LZ4Volume.frames_, Frame.zero, frame_records]
  · intro j fr hj
    simp [LZ4Volume.create] at hj

theorem count_inv_appended {NUM_TUPLES : Nat} (hNT : 0 < NUM_TUPLES) {v : LZ4Volume}
    {S : List Sample} (inv : v.CountInv NUM_TUPLES S) (id timestamp value : Nat)
    (env : WriteEnv) :
    (v.appended NUM_TUPLES id timestamp value env).CountInv NUM_TUPLES
      (S ++ [(id, timestamp, value)]) := by
  obtain ⟨finv, hlen, hpend, hfile⟩ := inv
  have fi := frame_inv_appended hNT finv id timestamp value env
  have hold : ∀ j fr, v.file_[j]? = some fr →
      ∃ f, fr.payload = some f ∧ f.size = NUM_TUPLES ∧
        frame_records f =
          ((S ++ [(id, timestamp, value)]).drop (j * NUM_TUPLES)).take NUM_TUPLES := by
    intro j fr hj
    obtain ⟨f, hp, hs, hr⟩ := hfile j fr hj
    refine ⟨f, hp, hs, ?_⟩
    rw [hr]
    have hjl : j < v.file_.length := by
      by_contra hc
      rw [List.getElem?_eq_none (Nat.le_of_not_lt hc)] at hj
      cases hj
    have h1 : (j + 1) * NUM_TUPLES ≤ v.file_.length * NUM_TUPLES :=
      Nat.mul_le_mul_right _ hjl
    have h2 : (j + 1) * NUM_TUPLES = j * NUM_TUPLES + NUM_TUPLES := by ring
    rw [List.drop_append_of_le_length (by omega),
      List.take_append_of_le_length (by rw [List.length_drop]; omega)]
  have hst : frame_records (v.stored_frame id timestamp value) =
      (S ++ [(id, timestamp, value)]).drop (v.file_.length * NUM_TUPLES) := by
    rw [frame_records_stored finv, hpend, List.drop_append_of_le_length (by omega)]
  unfold LZ4Volume.appended at fi ⊢
  by_cases hfull : (v.frames_ v.pos_).size + 1 = NUM_TUPLES
  · rw [if_pos hfull] at fi ⊢
    have hfl : ((v.stored id timestamp value).flushed NUM_TUPLES env.out_bytes).file_.length =
        v.file_.length + 1 := by
      rw [flushed_file, (stored_fields v id timestamp value).2.1]
      simp
    have h3 : (v.file_.length + 1) * NUM_TUPLES = v.file_.length * NUM_TUPLES + NUM_TUPLES := by
      ring
    refine ⟨fi, ?_, ?_, ?_⟩
    · rw [flushed_frame, hfl, List.length_append]
      simp only [Frame.zero, List.length_singleton]
      omega
    · rw [flushed_frame, hfl, List.drop_of_length_le (by rw [List.length_append]; simp; omega)]
      simp [frame_records, Frame.zero]
    · intro j fr hj
      rw [flushed_file, (stored_fields v id timestamp value).2.1] at hj
      by_cases hjl : j < v.file_.length
      · rw [List.getElem?_append_left hjl] at hj
        exact hold j fr hj
      · by_cases hje : j = v.file_.length
        · subst hje
          rw [List.getElem?_append_right (Nat.le_refl _)] at hj
          simp only [Nat.sub_self, List.getElem?_cons_zero, Option.some.injEq] at hj
          subst hj
          rw [stored_pos, stored_frames]
          refine ⟨_, rfl, hfull, ?_⟩
          rw [hst, List.take_of_length_le]
          rw [← hst, frame_records_length]
          exact Nat.le_of_eq hfull
        · rw [List.getElem?_eq_none (by rw [List.length_append]; simp; omega)] at hj
          cases hj
  · rw [if_neg hfull] at fi ⊢
    have hf : (v.stored id timestamp value).file_ = v.file_ :=
      (stored_fields v id timestamp value).2.1
    refine ⟨fi, ?_, ?_, ?_⟩
    · rw [stored_pos, stored_frames, hf, List.length_append]
      simp only [LZ4Volume.stored_frame, List.length_singleton]
      omega
    · rw [stored_pos, stored_frames, hf]
      exact hst
    · intro j fr hj
      rw [hf] at hj
      exact hold j fr hj

theorem appends_count_inv {NUM_TUPLES : Nat} (hNT : 0 < NUM_TUPLES) :
    ∀ (xs : List (Sample × WriteEnv)) (v w : LZ4Volume) (S : List Sample),
      v.CountInv NUM_TUPLES S → LZ4Volume.appends NUM_TUPLES v xs = .ok w →
      w.CountInv NUM_TUPLES (S ++ xs.map Prod.fst) := by
  intro xs
  induction xs with
  | nil =>
    intro v w S inv h
    simp only [LZ4Volume.appends, Except.ok.injEq] at h
    subst h
    simpa using inv
  | cons x rest ih =>
    intro v w S inv h
    obtain ⟨s, env⟩ := x
    simp only [LZ4Volume.appends] at h
    cases ha : v.append NUM_TUPLES s.1 s.2.1 s.2.2 env with
    | error e => rw [ha] at h; cases h
    | ok p =>
      obtain ⟨status, v1⟩ := p
      rw [ha] at h
      have hv1 := (append_ok ha).1
      have inv1 := count_inv_appended hNT inv s.1 s.2.1 s.2.2 env
      rw [← hv1] at inv1
      have := ih v1 w _ inv1 h
      simpa using this

theorem count_inv_div {NUM_TUPLES : Nat} {v : LZ4Volume} {S : List Sample}
    (inv : v.CountInv NUM_TUPLES S) :
    v.file_.length = S.length / NUM_TUPLES ∧
      (v.frames_ v.pos_).size = S.length % NUM_TUPLES := by
  obtain ⟨finv, hlen, _, _⟩ := inv
  have hlt := finv.1
  have hpos : 0 < NUM_TUPLES := by omega
  rw [← hlen, Nat.add_comm]
  constructor
  · rw [Nat.add_mul_div_right _ _ hpos, Nat.div_eq_of_lt hlt, Nat.zero_add]
  · rw [Nat.add_mul_mod_self_right, Nat.mod_eq_of_lt hlt]

/-- C24: after `n` `append` calls that return on a newly created writable volume, with
`NUM_TUPLES > 0`, the file holds exactly `n / NUM_TUPLES` frames, frame `j` of the file has
size `NUM_TUPLES` and holds samples `j * NUM_TUPLES ..` of the appended ones in append order,
and the current frame holds the remaining `n % NUM_TUPLES` samples; no frame has a size above
`NUM_TUPLES`, and the size of the current frame, which is the slot the next `append` writes,
is below `NUM_TUPLES` and inside the arrays of the frame. -/
theorem appends_frame_count (NUM_TUPLES : Nat) (hNT : 0 < NUM_TUPLES) (name : Path)
    (svol : Nat) (xs : List (Sample × WriteEnv)) (w : LZ4Volume)
    (h : LZ4Volume.appends NUM_TUPLES (LZ4Volume.create NUM_TUPLES name svol) xs = .ok w) :
    w.file_.length = xs.length / NUM_TUPLES ∧
      (w.frames_ w.pos_).size = xs.length % NUM_TUPLES ∧
      (∀ j, j < xs.length / NUM_TUPLES → ∃ fr f, w.file_[j]? = some fr ∧
        fr.payload = some f ∧ f.size = NUM_TUPLES ∧
        frame_records f = ((xs.map Prod.fst).drop (j * NUM_TUPLES)).take NUM_TUPLES) ∧
      w.pending = (xs.map Prod.fst).drop (xs.length / NUM_TUPLES * NUM_TUPLES) ∧
      w.pending.length = xs.length % NUM_TUPLES ∧
      (∀ fr ∈ w.file_, ∀ f, fr.payload = some f → f.size ≤ NUM_TUPLES) ∧
      (w.frames_ w.pos_).size < NUM_TUPLES ∧
      (w.frames_ w.pos_).size < (w.frames_ w.pos_).ids.length ∧
      (w.frames_ w.pos_).size < (w.frames_ w.pos_).timestamps.length ∧
      (w.frames_ w.pos_).size < (w.frames_ w.pos_).values.length := by
  have inv := appends_count_inv hNT xs _ w []
    (count_inv_create NUM_TUPLES hNT name svol) h
  rw [List.nil_append] at inv
  obtain ⟨hd, hm⟩ := count_inv_div inv
  rw [List.length_map] at hd hm
  obtain ⟨finv, hlen, hpend, hfile⟩ := inv
  refine ⟨hd, hm, ?_, ?_, ?_, ?_, finv.1, ?_, ?_, ?_⟩
  · intro j hj
    rw [← hd] at hj
    obtain ⟨f, hp, hs, hr⟩ := hfile _ _ (List.getElem?_eq_getElem hj)
    exact ⟨_, f, List.getElem?_eq_getElem hj, hp, hs, hr⟩
  · unfold LZ4Volume.pending
    rw [hpend, hd]
  · unfold LZ4Volume.pending
    rw [frame_records_length, hm]
  · intro fr hfr f hp
    obtain ⟨j, hj⟩ := List.getElem?_of_mem hfr
    obtain ⟨f1, hp1, hs, _⟩ := hfile j fr hj
    rw [hp] at hp1
    cases hp1
    exact Nat.le_of_eq hs
  · rw [finv.2.1]; exact finv.1
  · rw [finv.2.2.1]; exact finv.1
  · rw [finv.2.2.2]; exact finv.1

/-- Witness of `appends_frame_count`: two tuples per frame and three appends leave one frame
in the file and one record in the current frame. -/
theorem appends_frame_count_witness :
    (0 < 2 ∧
      LZ4Volume.appends 2 (LZ4Volume.create 2 "inputlog0.ils".toList 100)
        [((1, 5, 6), ⟨7, true⟩), ((2, 6, 7), ⟨7, true⟩), ((3, 7, 8), ⟨7, true⟩)] =
        .ok count_demo_volume) ∧
    (count_demo_volume.file_.length = 1 ∧
      (count_demo_volume.frames_ count_demo_volume.pos_).size = 1 ∧
      count_demo_volume.pending = [(3, 7, 8)]) :=
  ⟨⟨by decide, rfl⟩,
    let r := appends_frame_count 2 (by decide) "inputlog0.ils".toList 100
      [((1, 5, 6), ⟨7, true⟩), ((2, 6, 7), ⟨7, true⟩), ((3, 7, 8), ⟨7, true⟩)]
      count_demo_volume rfl
    ⟨r.1, r.2.1, r.2.2.2.1⟩⟩

/-! ## The volumes `InputLog::read_next` removes -/

theorem unread_nil_eof {v : LZ4Volume} (inv : v.ReadInv) (h : v.unread = []) :
    v.elements_to_read_ = 0 ∧ v.bytes_to_read_ ≤ 0 := by
  obtain ⟨_, _, h3, h4⟩ := inv
  unfold LZ4Volume.unread at h
  obtain ⟨ha, hb⟩ := List.append_eq_nil.1 h
  have hd := file_records_eq_nil h4 hb
  constructor
  · have := congrArg List.length ha
    simpa using this
  · rw [h3, hd]
    simp [_get_file_size]

/-- The loop of `InputLog::read_next` on read-only volumes over good frames, with a buffer of
at least one record: the volumes it removes are a prefix of the list, each of them at the end
of its file with no unread record, and the call stops at the first volume that has a record
left, which stays in the list. -/
theorem log_read_next_loop_drops (NUM_TUPLES : Nat) (buffer_size : Nat)
    (hbs : 0 < buffer_size) :
    ∀ (vs : List LZ4Volume) (log : InputLog) (fuel : Nat), log.volumes_ = vs →
      (∀ v ∈ vs, v.ReadInv) → vs.length < fuel →
      ∃ n log1 out dropped kept,
        InputLog.read_next_loop NUM_TUPLES buffer_size fuel log =
          some (.ok ((aku_Status.AKU_SUCCESS, n), log1, out)) ∧
        vs = dropped ++ kept ∧
        (∀ v ∈ dropped, v.elements_to_read_ = 0 ∧ v.bytes_to_read_ ≤ 0 ∧ v.unread = []) ∧
        ((kept = [] ∧ log1.volumes_ = [] ∧ out = []) ∨
          (∃ front front1 rest, kept = front :: rest ∧ log1.volumes_ = front1 :: rest ∧
            front.unread ≠ [] ∧ out ≠ [] ∧ out ++ front1.unread = front.unread)) := by
  intro vs
  induction vs with
  | nil =>
    intro log fuel hv _ hf
    cases fuel with
    | zero => omega
    | succ fuel =>
      refine ⟨0, log, [], [], [], ?_, rfl, ?_, Or.inl ⟨rfl, hv, rfl⟩⟩
      · simp only [InputLog.read_next_loop, hv]
      · intro v hv'
        exact absurd hv' (List.not_mem_nil _)
  | cons front rest ih =>
    intro log fuel hv hinv hf
    cases fuel with
    | zero => omega
    | succ fuel =>
      simp only [InputLog.read_next_loop, hv]
      rcases volume_read_next_spec NUM_TUPLES front buffer_size hbs (hinv front (by simp))
        with ⟨h1, h2⟩ | ⟨h1, n, v1, out, h2, h3, h4, h5, _, _⟩
      · rw [h2]
        simp only [aku_Status.code, ne_eq, not_true_eq_false, if_false]
        obtain ⟨n, log1, out, dropped, kept, e1, e2, e3, e4⟩ :=
          ih { log with volumes_ := rest } fuel rfl
            (fun v hv' => hinv v (List.mem_cons_of_mem _ hv')) (by simpa using hf)
        refine ⟨n, log1, out, front :: dropped, kept, e1, by rw [e2]; rfl, ?_, e4⟩
        intro v hv'
        simp only [List.mem_cons] at hv'
        rcases hv' with q | q
        · rw [q]
          have := unread_nil_eof (hinv front (by simp)) h1
          exact ⟨this.1, this.2, h1⟩
        · exact e3 v q
      · rw [h2]
        have hn : n ≠ aku_Status.AKU_SUCCESS.code := by
          simp only [aku_Status.code]; omega
        simp only [ne_eq, hn, not_false_eq_true, if_true]
        refine ⟨n, _, out, [], front :: rest, rfl, rfl, ?_,
          Or.inr ⟨front, v1, rest, rfl, rfl, h1, h4, h5⟩⟩
        intro v hv'
        exact absurd hv' (List.not_mem_nil _)

/-- C26 fails for a buffer of size zero: the log opened over `read_demo_dir` holds three
unread records; `read_next` with `buffer_size = 0` gets a zero count from the front volume,
which has read its frame and is not at the end of its file, removes it, does the same with
the next volume and returns `(AKU_SUCCESS, 0)` on a log without volumes. No record was
returned, and none can be read any more. -/
theorem read_next_zero_buffer_discards :
    ∃ log front rest front1 log1,
      InputLog.open 2 "log".toList read_demo_dir = .ok log ∧
      log.volumes_ = front :: rest ∧
      log.unread = [(1, 10, 100), (2, 20, 200), (3, 30, 300)] ∧
      front.read_next 2 0 = .ok ((aku_Status.AKU_SUCCESS, 0), front1, []) ∧
      front1.elements_to_read_ = 2 ∧
      front1.unread = [(1, 10, 100), (2, 20, 200)] ∧
      InputLog.read_next 2 log 0 = some (.ok ((aku_Status.AKU_SUCCESS, 0), log1, [])) ∧
      log1.volumes_ = [] ∧ log1.unread = [] :=
  ⟨_, _, _, _, _, rfl, rfl, by decide, rfl, rfl, by decide, rfl, rfl, rfl⟩

/-- C26, amended: take a buffer size above zero and a read-mode log whose volumes are
read-only volumes over frames that can be read and decompressed and hold a record.
`InputLog::read_next` returns `AKU_SUCCESS`; the volumes it removes are the first volumes of
the list, and each of them is at the end of its file (`elements_to_read_ = 0` and
`bytes_to_read_ <= 0`) with no unread record. The call stops at the first volume with an
unread record, returns records of that volume and keeps it, with the volumes behind it
untouched; when no such volume exists the log ends without volumes. The records returned
followed by the unread records of the log after the call are the unread records before it. -/
theorem read_next_removes_at_eof (NUM_TUPLES : Nat) (log : InputLog) (buffer_size : Nat)
    (hbs : 0 < buffer_size) (inv : ∀ v ∈ log.volumes_, v.ReadInv) :
    ∃ n log1 out dropped kept,
      InputLog.read_next NUM_TUPLES log buffer_size =
        some (.ok ((aku_Status.AKU_SUCCESS, n), log1, out)) ∧
      log.volumes_ = dropped ++ kept ∧
      (∀ v ∈ dropped, v.elements_to_read_ = 0 ∧ v.bytes_to_read_ ≤ 0 ∧ v.unread = []) ∧
      ((kept = [] ∧ log1.volumes_ = [] ∧ out = []) ∨
        (∃ front front1 rest, kept = front :: rest ∧ log1.volumes_ = front1 :: rest ∧
          front.unread ≠ [] ∧ out ≠ [] ∧ out ++ front1.unread = front.unread)) ∧
      out ++ log1.unread = log.unread := by
  obtain ⟨n, log1, out, dropped, kept, e1, e2, e3, e4⟩ :=
    log_read_next_loop_drops NUM_TUPLES buffer_size hbs log.volumes_ log
      (log.volumes_.length + 1) rfl inv (Nat.lt_succ_self _)
  refine ⟨n, log1, out, dropped, kept, e1, e2, e3, e4, ?_⟩
  have hd : dropped.flatMap LZ4Volume.unread = [] := by
    rw [List.flatMap_eq_nil_iff]
    exact fun v hv => (e3 v hv).2.2
  unfold InputLog.unread
  rw [e2, List.flatMap_append, hd, List.nil_append]
  rcases e4 with ⟨k1, k2, k3⟩ | ⟨front, front1, rest, k1, k2, _, _, k5⟩
  · rw [k1, k2, k3]; rfl
  · rw [k1, k2, List.flatMap_cons, List.flatMap_cons, ← List.append_assoc, k5]

/-- Witness of `read_next_removes_at_eof`: on `eof_demo_log` a call with a buffer of two
records removes the volume with the empty file and returns the record of the second volume,
which stays in the log. -/
theorem read_next_removes_at_eof_witness :
    (0 < 2 ∧ ∀ v ∈ eof_demo_log.volumes_, v.ReadInv) ∧
    (∃ n log1 out dropped kept,
      InputLog.read_next 2 eof_demo_log 2 =
        some (.ok ((aku_Status.AKU_SUCCESS, n), log1, out)) ∧
      eof_demo_log.volumes_ = dropped ++ kept ∧
      (∀ v ∈ dropped, v.elements_to_read_ = 0 ∧ v.bytes_to_read_ ≤ 0 ∧ v.unread = []) ∧
      ((kept = [] ∧ log1.volumes_ = [] ∧ out = []) ∨
        (∃ front front1 rest, kept = front :: rest ∧ log1.volumes_ = front1 :: rest ∧
          front.unread ≠ [] ∧ out ≠ [] ∧ out ++ front1.unread = front.unread)) ∧
      out ++ log1.unread = eof_demo_log.unread) ∧
    (∃ log1, InputLog.read_next 2 eof_demo_log 2 =
        some (.ok ((aku_Status.AKU_SUCCESS, 1), log1, [(3, 30, 300)])) ∧
      log1.volumes_.map LZ4Volume.path_ = ["inputlog10.ils".toList]) :=
  ⟨⟨by decide, eof_demo_inv⟩,
    read_next_removes_at_eof 2 eof_demo_log 2 (by decide) eof_demo_inv,
    ⟨_, rfl, rfl⟩⟩

end Akumuli
